import Mathlib

set_option linter.all false

/-!
# Pintos projects: thread scheduler and synchronisation primitives

Shallow embedding of `Project 1 - Threads/src/threads/thread.c` and `synch.c`.

* A thread is addressed by a natural number (the model of its page address); the thread
  table maps addresses to `thread` records.  Locks, stand-alone semaphores and condition
  variables are addressed the same way.
* Intrusive lists are lists of addresses; the list functions of `lib/kernel/list.c`, which is
  not among the sources, are the corresponding operations on lists.
* Kernel code that can give up the CPU is cut at its suspension points: every piece between
  two suspension points is one `Instr`, executed atomically by `exec`.  The code a suspended
  thread still has to run inside the kernel is the field `cont` of its record (the model of
  its saved kernel stack); `run` keeps executing the running thread's pending code until
  the running thread is back at the level of its thread function.
* Timer interrupts are not part of the model: the CPU changes hands only in `schedule`.
  The idle loop is not modelled either: a state whose running thread is the idle thread
  with nothing pending is quiescent.
* A failed `ASSERT` is a kernel panic, the result `none`.  The sanity checks of
  `thread_current` and `is_thread` (stack overflow detection) and the `intr_context`
  checks are left out.
-/

namespace Threads

/-! ## List primitives -/

/-- Modelled from the spec: `list_insert_ordered` of `lib/kernel/list.c` is not among the
sources.  It walks the list from the front and inserts `elem` just before the first element
`e` with `less elem e`, or at the back when there is none. -/
def list_insert_ordered {α : Type} (less : α → α → Bool) (elem : α) : List α → List α
  | [] => [elem]
  | e :: es => if less elem e then elem :: e :: es else e :: list_insert_ordered less elem es

/-- Insertion step of `list_sort`: `x` goes in front of the first `y` that is not strictly
before `x`, so that `x` stays ahead of the elements it is tied with. -/
def sort_insert {α : Type} (less : α → α → Bool) (x : α) : List α → List α
  | [] => [x]
  | y :: ys => if less y x then y :: sort_insert less x ys else x :: y :: ys

/-- Modelled from the spec: `list_sort` of `lib/kernel/list.c` is not among the sources.  It
sorts the list by `less` and is stable (elements that `less` does not order keep their
relative order); the stable sort is written here as an insertion sort. -/
def list_sort {α : Type} (less : α → α → Bool) : List α → List α
  | [] => []
  | x :: xs => sort_insert less x (list_sort less xs)

/-- Pointwise update of a table. -/
def upd {β : Type} (f : Nat → β) (k : Nat) (v : β) : Nat → β :=
  fun i => if i = k then v else f i

/-! ## Data model (thread.h, synch.h) -/

/-- States in a thread's life cycle. -/
inductive thread_status where
  | THREAD_RUNNING
  | THREAD_READY
  | THREAD_BLOCKED
  | THREAD_DYING
  deriving DecidableEq

/-- Address of a semaphore: the one embedded in a lock, or a stand-alone one (among them the
per-waiter semaphores of `cond_wait`). -/
inductive sema_ref where
  | of_lock (l : Nat)
  | plain (i : Nat)
  deriving DecidableEq

/-- Pieces of kernel code between two suspension points. -/
inductive Instr where
  | sema_down (r : sema_ref)
  | sema_up (r : sema_ref)
  | lock_acquire (l : Nat)
  | lock_acquire_holder (l : Nat)
  | lock_release (l : Nat)
  | lock_release_donors (l : Nat)
  | thread_set_priority (new_priority : Int)
  | thread_yield
  | thread_create (priority : Int)
  | thread_create_tid (t : Nat)
  | thread_create_ready (t : Nat)
  | thread_exit
  | cond_wait (c l : Nat)
  | cond_signal (c l : Nat)
  | cond_broadcast (c l : Nat)
  deriving DecidableEq

/-- The fields of `struct thread` the scheduler and the synchronisation code use, and the
kernel code the thread has pending. -/
structure thread where
  tid : Int
  status : thread_status
  priority : Int
  base_priority : Int
  nice : Int
  recent_cpu : Int
  donators : List Nat
  locked_by : Option Nat
  cont : List Instr

/-- Modelled from the spec: `struct semaphore` is declared in synch.h, which is not among the
sources.  It is an unsigned counter (`sema_init` takes `unsigned value`) and the list of
waiting threads. -/
structure semaphore where
  value : Nat
  waiters : List Nat

/-- Modelled from the spec: `struct lock` is declared in synch.h, which is not among the
sources.  It is a binary semaphore with the thread that holds the lock, if any. -/
structure lock where
  holder : Option Nat
  semaphore : semaphore

/-- The global state of thread.c and synch.c: the thread table with the number of thread
pages handed out, the globals of thread.c (`current` is what `running_thread ()` returns,
`load_avg` is the load average in 17.14 fixed point),
the table of locks (`tid_lock` is the address of the lock of that name), the table of
stand-alone semaphores with the number handed out, and the waiter list of every condition
variable (`struct condition` of synch.h, a list of `semaphore_elem`, each given by the
address of its semaphore). -/
structure kernel where
  threads : Nat → thread
  nthreads : Nat
  ready_list : List Nat
  all_threads : List Nat
  current : Nat
  idle_thread : Nat
  initial_thread : Nat
  next_tid : Int
  thread_mlfqs : Bool
  load_avg : Int
  tid_lock : Nat
  locks : Nat → lock
  semas : Nat → semaphore
  nsemas : Nat
  conds : Nat → List Nat

def PRI_MIN : Int := 0
def PRI_DEFAULT : Int := 31
def PRI_MAX : Int := 63
def MAX_DEPTH : Nat := 8

/-- Number of values of `unsigned` (32 bits on the 80x86 target). -/
def UINT_RANGE : Nat := 2 ^ 32

/-- A C `int`: the value of an arithmetic result after two's complement wrap-around. -/
def int32 (x : Int) : Int := (x + 2 ^ 31) % 2 ^ 32 - 2 ^ 31

/-- The macro `F` of thread.h, `(1<<14)`. -/
def F : Int := 2 ^ 14

/-- The macro `TOFIXED(n)`, `(n*F)`. -/
def TOFIXED (n : Int) : Int := int32 (n * F)

/-- The macro `TOINTNEAREST(x)`, `((x>=0)? ((x+F/2)/F): ((x-F/2)/F))`. -/
def TOINTNEAREST (x : Int) : Int :=
  if x ≥ 0 then (int32 (x + F.tdiv 2)).tdiv F else (int32 (x - F.tdiv 2)).tdiv F

/-- The macro `DIVXN(x,n)`, `(x/n)`. -/
def DIVXN (x n : Int) : Int := x.tdiv n

/-- The macro `MULTXN(x,n)`, `(x*n)`. -/
def MULTXN (x n : Int) : Int := int32 (x * n)

/-- The macro `ADDXN(x,n)`, `(x+n*F)`. -/
def ADDXN (x n : Int) : Int := int32 (x + int32 (n * F))

/-- The macro `MULTXY(x,y)`, `(((int64_t) x)*y/F)`: a 64-bit product, so nothing wraps for
32-bit operands; the conversion back to `int` is made where the result is stored. -/
def MULTXY (x y : Int) : Int := (x * y).tdiv F

/-- The macro `DIVXY(x,y)`, `(((int64_t) x)*F/y)`, with a 64-bit numerator. -/
def DIVXY (x y : Int) : Int := (x * F).tdiv y

/-- The priority formula of MLFQ mode with its clamp, as written in `init_thread`,
`thread_set_nice` and `thread_tick`. -/
def mlfqs_priority (recent_cpu nice : Int) : Int :=
  let p := TOINTNEAREST (int32 (int32 (TOFIXED PRI_MAX - DIVXN recent_cpu 4)
    - MULTXN (TOFIXED nice) 2))
  if p < PRI_MIN then PRI_MIN else if p > PRI_MAX then PRI_MAX else p

/-! ## Accessors -/

def set_thread (s : kernel) (t : Nat) (th : thread) : kernel :=
  { s with threads := upd s.threads t th }

def get_sema (s : kernel) : sema_ref → semaphore
  | .of_lock l => (s.locks l).semaphore
  | .plain i => s.semas i

def set_sema (s : kernel) (r : sema_ref) (sm : semaphore) : kernel :=
  match r with
  | .of_lock l => { s with locks := upd s.locks l { s.locks l with semaphore := sm } }
  | .plain i => { s with semas := upd s.semas i sm }

/-- Code the running thread has to execute next, before what it already has pending. -/
def push (s : kernel) (is : List Instr) : kernel :=
  set_thread s s.current { s.threads s.current with cont := is ++ (s.threads s.current).cont }

/-! ## thread.c -/

/-- Decreasing priority order: `T1->priority > T2->priority`. -/
def comparePriorities (ths : Nat → thread) (t1 t2 : Nat) : Bool :=
  decide ((ths t1).priority > (ths t2).priority)

/-- The thread `next_thread_to_run` returns and the state it leaves: the idle thread when
the ready list is empty, the popped front of the ready list otherwise. -/
def next_thread_to_run (s : kernel) : Nat × kernel :=
  match s.ready_list with
  | [] => (s.idle_thread, s)
  | t :: rest => (t, { s with ready_list := rest })

/-- The function `schedule` with `schedule_tail`: the next thread becomes the running
thread. -/
def schedule (s : kernel) : kernel :=
  let r := next_thread_to_run s
  { r.2 with
    current := r.1
    threads := upd r.2.threads r.1 { r.2.threads r.1 with status := .THREAD_RUNNING } }

def thread_block (s : kernel) : kernel :=
  schedule (set_thread s s.current { s.threads s.current with status := .THREAD_BLOCKED })

def thread_unblock (t : Nat) (s : kernel) : Option kernel :=
  if (s.threads t).status = .THREAD_BLOCKED then
    some { s with
      ready_list := list_insert_ordered (comparePriorities s.threads) t s.ready_list
      threads := upd s.threads t { s.threads t with status := .THREAD_READY } }
  else none

/-- The part of `thread_yield` before `schedule ()`. -/
def thread_yield_insert (s : kernel) : kernel :=
  let s1 :=
    if s.current ≠ s.idle_thread then
      { s with
        ready_list := list_insert_ordered (comparePriorities s.threads) s.current s.ready_list }
    else s
  set_thread s1 s1.current { s1.threads s1.current with status := .THREAD_READY }

def thread_yield (s : kernel) : kernel :=
  schedule (thread_yield_insert s)

/-- The assignments `thread_set_priority` makes to the record of the running thread. -/
def set_priority_record (new_priority : Int) (current : thread) : thread :=
  if current.donators.isEmpty then
    { current with priority := new_priority, base_priority := new_priority }
  else if new_priority > current.priority then
    { current with priority := new_priority, base_priority := new_priority }
  else
    { current with base_priority := new_priority }

def thread_set_priority (new_priority : Int) (s : kernel) : kernel :=
  let s1 := set_thread s s.current (set_priority_record new_priority (s.threads s.current))
  match s1.ready_list with
  | [] => s1
  | temp :: _ =>
    if (s1.threads temp).priority > (s1.threads s1.current).priority then thread_yield s1
    else s1

def thread_get_priority (s : kernel) : Int :=
  (s.threads s.current).priority

def thread_get_nice (s : kernel) : Int :=
  (s.threads s.current).nice

def thread_get_recent_cpu (s : kernel) : Int :=
  TOINTNEAREST (int32 (100 * (s.threads s.current).recent_cpu))

/-- The record `init_thread` writes for a thread other than the initial thread; `none`
when the priority is outside `PRI_MIN .. PRI_MAX`. -/
def init_thread (s : kernel) (priority : Int) : Option thread :=
  if PRI_MIN ≤ priority ∧ priority ≤ PRI_MAX then
    let recent_cpu := (TOFIXED (thread_get_recent_cpu s)).tdiv 100
    let nice := thread_get_nice s
    some
      { tid := 0
        status := .THREAD_BLOCKED
        priority := if s.thread_mlfqs then mlfqs_priority recent_cpu nice else priority
        base_priority := if s.thread_mlfqs then 0 else priority
        nice := if s.thread_mlfqs then nice else 0
        recent_cpu := if s.thread_mlfqs then recent_cpu else 0
        donators := []
        locked_by := none
        cont := [] }
  else none

/-- The function `thread_create` up to the call of `allocate_tid`: the page of the new
thread is the next unused address (allocation is taken to succeed). -/
def thread_create (priority : Int) (s : kernel) : Option kernel :=
  (init_thread s priority).map fun th =>
    let t := s.nthreads
    push { s with threads := upd s.threads t th, nthreads := s.nthreads + 1 }
      [Instr.lock_acquire s.tid_lock, Instr.thread_create_tid t,
       Instr.lock_release s.tid_lock, Instr.thread_create_ready t]

/-- The statement `tid = next_tid++` of `allocate_tid`, stored into the new thread. -/
def thread_create_tid (t : Nat) (s : kernel) : kernel :=
  { s with
    threads := upd s.threads t { s.threads t with tid := s.next_tid }
    next_tid := int32 (s.next_tid + 1) }

/-- The end of `thread_create`: the new thread joins `all_threads` and the ready list, and
the creator yields to it when it has the higher priority. -/
def thread_create_ready (t : Nat) (s : kernel) : Option kernel :=
  let s1 := if t ≠ s.idle_thread then { s with all_threads := s.all_threads ++ [t] } else s
  (thread_unblock t s1).map fun s2 =>
    if (s2.threads t).priority > (s2.threads s2.current).priority then thread_yield s2 else s2

def thread_exit (s : kernel) : kernel :=
  let s1 := { s with all_threads := s.all_threads.erase s.current }
  schedule (set_thread s1 s1.current { s1.threads s1.current with status := .THREAD_DYING })

/-! ## synch.c -/

def sema_init (r : sema_ref) (value : Nat) (s : kernel) : kernel :=
  set_sema s r { value := value % UINT_RANGE, waiters := [] }

/-- One pass of `sema_down` from the loop test on: with the value at 0 the thread queues
itself and blocks, with the loop test still ahead of it when it is resumed; otherwise the
value is decremented and `sema_down` returns. -/
def sema_down (r : sema_ref) (s : kernel) : kernel :=
  let sm := get_sema s r
  if sm.value = 0 then
    let s1 := set_sema s r
      { sm with
        waiters := list_insert_ordered (comparePriorities s.threads) s.current sm.waiters }
    thread_block (push s1 [Instr.sema_down r])
  else
    set_sema s r { sm with value := sm.value - 1 }

def sema_try_down (r : sema_ref) (s : kernel) : kernel × Bool :=
  let sm := get_sema s r
  if sm.value > 0 then (set_sema s r { sm with value := sm.value - 1 }, true)
  else (s, false)

def sema_up (r : sema_ref) (s : kernel) : Option kernel :=
  let sm := get_sema s r
  let s1 := set_sema s r { sm with value := (sm.value + 1) % UINT_RANGE }
  match list_sort (comparePriorities s1.threads) sm.waiters with
  | [] => some s1
  | t :: rest =>
    (thread_unblock t
        (set_sema s1 r { value := (sm.value + 1) % UINT_RANGE, waiters := rest })).map
      fun s2 =>
        if (s2.threads t).priority > (s2.threads s2.current).priority then thread_yield s2
        else s2

def lock_init (l : Nat) (s : kernel) : kernel :=
  { s with locks := upd s.locks l { holder := none, semaphore := { value := 1, waiters := [] } } }

def lock_held_by_current_thread (s : kernel) (l : Nat) : Bool :=
  decide ((s.locks l).holder = some s.current)

/-- The donation loop of `lock_acquire`, started with `remaining = MAX_DEPTH - depth` rounds
left and `temp` the thread whose priority is passed on; `none` when the assertion
`temp->locked_by->holder != NULL` fails. -/
def donate (locks : Nat → lock) : Nat → Nat → (Nat → thread) → Option (Nat → thread)
  | 0, _, ths => some ths
  | remaining + 1, temp, ths =>
    match (ths temp).locked_by with
    | none => some ths
    | some l =>
      match (locks l).holder with
      | none => none
      | some h =>
        if (ths temp).priority > (ths h).priority then
          donate locks remaining h (upd ths h { ths h with priority := (ths temp).priority })
        else some ths

/-- The function `lock_acquire` up to the call of `sema_down`. -/
def lock_acquire (l : Nat) (s : kernel) : Option kernel :=
  if lock_held_by_current_thread s l then none
  else
    let donated : Option kernel :=
      if s.thread_mlfqs then some s
      else
        match (s.locks l).holder with
        | some h =>
          let ths1 := upd s.threads s.current { s.threads s.current with locked_by := some l }
          let ths2 := upd ths1 h { ths1 h with donators := (ths1 h).donators ++ [s.current] }
          (donate s.locks MAX_DEPTH s.current ths2).map fun ths => { s with threads := ths }
        | none => some (set_thread s s.current { s.threads s.current with locked_by := none })
    donated.map fun s1 => push s1 [Instr.sema_down (.of_lock l), Instr.lock_acquire_holder l]

/-- The statement `lock->holder = current` that ends `lock_acquire`. -/
def lock_acquire_holder (l : Nat) (s : kernel) : kernel :=
  { s with locks := upd s.locks l { s.locks l with holder := some s.current } }

/-- The function `lock_release` up to the call of `sema_up`. -/
def lock_release (l : Nat) (s : kernel) : Option kernel :=
  if lock_held_by_current_thread s l then
    some (push { s with locks := upd s.locks l { s.locks l with holder := none } }
      [Instr.sema_up (.of_lock l), Instr.lock_release_donors l])
  else none

/-- The loop of `lock_release` over the donor list: the donors left in the list, the thread
table with `locked_by` cleared in the removed donors, and the running maximum `m`. -/
def release_loop (l : Nat) : List Nat → (Nat → thread) → Int → List Nat × (Nat → thread) × Int
  | [], ths, m => ([], ths, m)
  | temp :: rest, ths, m =>
    if (ths temp).locked_by = some l then
      release_loop l rest (upd ths temp { ths temp with locked_by := none }) m
    else
      let r := release_loop l rest ths (if (ths temp).priority > m then (ths temp).priority else m)
      (temp :: r.1, r.2.1, r.2.2)

/-- The state after the loop of `lock_release` (the donor list of the running thread is the
list the loop leaves) and the value of `m`. -/
def lock_release_loop (l : Nat) (s : kernel) : kernel × Int :=
  let r := release_loop l (s.threads s.current).donators s.threads (-1)
  ({ s with threads := upd r.2.1 s.current { r.2.1 s.current with donators := r.1 } }, r.2.2)

/-- The statement of `lock_release` under the comment "Donators from other locks set the
priority of current thread". -/
def lock_release_priority (m : Int) (s : kernel) : kernel :=
  if m > -1 then
    if (s.threads s.current).base_priority > m then
      thread_set_priority (s.threads s.current).base_priority s
    else
      thread_yield (set_thread s s.current { s.threads s.current with priority := m })
  else
    thread_set_priority (s.threads s.current).base_priority s

/-- The function `lock_release` after `sema_up` has returned. -/
def lock_release_donors (l : Nat) (s : kernel) : kernel :=
  if s.thread_mlfqs then s
  else if (s.threads s.current).donators.isEmpty then
    thread_set_priority (s.threads s.current).base_priority s
  else
    lock_release_priority (lock_release_loop l s).2 (lock_release_loop l s).1

/-- Priority of the thread at the front of a semaphore's waiter list, as `cond_wait` reads
it; `none` when the list is empty (`list_front` asserts that it is not). -/
def front_priority (s : kernel) (w : Nat) : Option Int :=
  match (s.semas w).waiters with
  | [] => none
  | t :: _ => some (s.threads t).priority

/-- The insertion loop of `cond_wait`: the new waiter `w` goes in front of the first
waiter whose front thread has a priority below `p`, or at the back. -/
def cond_insert (s : kernel) (p : Int) (w : Nat) : List Nat → Option (List Nat)
  | [] => some [w]
  | e :: es =>
    match front_priority s e with
    | none => none
    | some tp =>
      if tp < p then some (w :: e :: es) else (cond_insert s p w es).map fun r => e :: r

/-- The function `cond_wait` up to the call of `lock_release`; the waiter's semaphore is
the next unused stand-alone semaphore. -/
def cond_wait (c l : Nat) (s : kernel) : Option kernel :=
  if lock_held_by_current_thread s l then
    let w := s.nsemas
    let s1 := sema_init (.plain w) 0 { s with nsemas := s.nsemas + 1 }
    (cond_insert s1 (s1.threads s1.current).priority w (s1.conds c)).map fun ws =>
      push { s1 with conds := upd s1.conds c ws }
        [Instr.lock_release l, Instr.sema_down (.plain w), Instr.lock_acquire l]
  else none

def cond_signal (c l : Nat) (s : kernel) : Option kernel :=
  if lock_held_by_current_thread s l then
    match s.conds c with
    | [] => some s
    | w :: rest => sema_up (.plain w) { s with conds := upd s.conds c rest }
  else none

/-- One round of the loop of `cond_broadcast`. -/
def cond_broadcast (c l : Nat) (s : kernel) : kernel :=
  match s.conds c with
  | [] => s
  | _ :: _ => push s [Instr.cond_signal c l, Instr.cond_broadcast c l]

/-! ## Execution -/

/-- Executes one piece of kernel code in the running thread. -/
def exec (i : Instr) (s : kernel) : Option kernel :=
  match i with
  | .sema_down r => some (sema_down r s)
  | .sema_up r => sema_up r s
  | .lock_acquire l => lock_acquire l s
  | .lock_acquire_holder l => some (lock_acquire_holder l s)
  | .lock_release l => lock_release l s
  | .lock_release_donors l => some (lock_release_donors l s)
  | .thread_set_priority p => some (thread_set_priority p s)
  | .thread_yield => some (thread_yield s)
  | .thread_create p => thread_create p s
  | .thread_create_tid t => some (thread_create_tid t s)
  | .thread_create_ready t => thread_create_ready t s
  | .thread_exit => some (thread_exit s)
  | .cond_wait c l => cond_wait c l s
  | .cond_signal c l => cond_signal c l s
  | .cond_broadcast c l => some (cond_broadcast c l s)

/-- The running thread executes the first piece of its pending kernel code. -/
def step (s : kernel) : Option kernel :=
  match (s.threads s.current).cont with
  | [] => some s
  | i :: rest => exec i (set_thread s s.current { s.threads s.current with cont := rest })

/-- Runs the machine until the running thread has no kernel code pending; `none` on a
panic or when the fuel runs out first. -/
def run : Nat → kernel → Option kernel
  | 0, s => if (s.threads s.current).cont.isEmpty then some s else none
  | fuel + 1, s =>
    if (s.threads s.current).cont.isEmpty then some s else (step s).bind (run fuel)

/-- Thread `t`, which must be the running thread, makes the kernel call `i`; the machine
runs until some thread is back in its thread function. -/
def call (t : Nat) (i : Instr) (s : kernel) : Option kernel :=
  if s.current = t then run 64 (push s [i]) else none

/-- A sequence of kernel calls, each by the thread named with it. -/
def calls : List (Nat × Instr) → kernel → Option kernel
  | [], s => some s
  | (t, i) :: rest, s => (call t i s).bind (calls rest)

/-- The state `thread_init` and `thread_start` leave in priority mode: the initial thread
"main" (address 0, tid 1) is running at `PRI_DEFAULT`; the idle thread (address 1, tid 2)
has yielded inside `sema_up` and is outside the ready list; lock 0 is `tid_lock`; every lock
is initialised and free, every semaphore is 0. -/
def boot : kernel :=
  { threads := fun t =>
      { tid := if t = 0 then 1 else if t = 1 then 2 else 0
        status := if t = 0 then .THREAD_RUNNING else if t = 1 then .THREAD_READY
          else .THREAD_BLOCKED
        priority := if t = 0 then PRI_DEFAULT else PRI_MIN
        base_priority := if t = 0 then PRI_DEFAULT else PRI_MIN
        nice := 0
        recent_cpu := 0
        donators := []
        locked_by := none
        cont := [] }
    nthreads := 2
    ready_list := []
    all_threads := [0, 1]
    current := 0
    idle_thread := 1
    initial_thread := 0
    next_tid := 3
    thread_mlfqs := false
    load_avg := 0
    tid_lock := 0
    locks := fun _ => { holder := none, semaphore := { value := 1, waiters := [] } }
    semas := fun _ => { value := 0, waiters := [] }
    nsemas := 0
    conds := fun _ => [] }

/-! ## Predicates used in the statements -/

/-- Priority order of a list of threads: no thread is followed by one of higher priority. -/
def sorted_by_priority (ths : Nat → thread) (xs : List Nat) : Prop :=
  xs.Pairwise fun a b => (ths a).priority ≥ (ths b).priority

/-- Priority under which `cond_wait` orders waiter `e`: the priority of the front thread of
its semaphore, and `p` for the waiter `w` whose thread has not queued itself yet. -/
def waiter_priority (s : kernel) (w : Nat) (p : Int) (e : Nat) : Option Int :=
  if e = w then some p else front_priority s e

/-- Waiter `a` has a priority under `key`, waiter `b` has one too, and it is not higher. -/
def key_ge (key : Nat → Option Int) (a b : Nat) : Bool :=
  match key a, key b with
  | some pa, some pb => decide (pa ≥ pb)
  | _, _ => false

/-- A list of waiters in which every waiter has a priority under `key` and no waiter is
followed by one of higher priority. -/
def cond_sorted (key : Nat → Option Int) (ws : List Nat) : Prop :=
  (∀ e ∈ ws, (key e).isSome = true) ∧ ws.Pairwise fun a b => key_ge key a b = true

/-- Thread `t` is not recorded as waiting for a lock, or the lock it is recorded as waiting
for has a holder that is in `all_threads`. -/
def chain_ok (s : kernel) (t : Nat) : Bool :=
  match (s.threads t).locked_by with
  | none => true
  | some k =>
    match (s.locks k).holder with
    | none => false
    | some h => decide (h ∈ s.all_threads)

/-- Thread `t` waits for thread `c`: it is queued on the semaphore of a lock that `c` holds,
or of a lock held by a thread that waits for `c`. -/
inductive waits_for (s : kernel) : Nat → Nat → Prop where
  | direct (t c l : Nat) : t ∈ (s.locks l).semaphore.waiters → (s.locks l).holder = some c →
      waits_for s t c
  | step (t u c : Nat) : waits_for s t u → waits_for s u c → waits_for s t c

/-- The donation ceiling: every lock holder has at least the priority of every thread that
waits for it. -/
def donation_ceiling (s : kernel) : Prop :=
  ∀ t c, waits_for s t c → (s.threads c).priority ≥ (s.threads t).priority

/-- Operations on one semaphore: `sema_up`, `sema_try_down`, and one pass of `sema_down`
from its loop test on (a completed `sema_down` when the value is positive, otherwise the
caller queues itself and blocks without completing the call). -/
inductive sema_event where
  | up
  | try_down
  | down
  deriving DecidableEq

/-- Counters kept along a sequence of semaphore operations: calls of `sema_up`, successful
downs (`sema_try_down` returning true, `sema_down` completing), and calls of `sema_up` made
with the value at `UINT_RANGE - 1`. -/
structure sema_counts where
  ups : Nat
  downs : Nat
  wraps : Nat
  deriving DecidableEq

/-- Applies a sequence of operations to semaphore `r`, each by the thread running at that
point, and counts them; `none` when `sema_up` panics. -/
def sema_trace (r : sema_ref) : List sema_event → kernel → Option (kernel × sema_counts)
  | [], s => some (s, { ups := 0, downs := 0, wraps := 0 })
  | .up :: es, s =>
    (sema_up r s).bind fun s1 =>
      (sema_trace r es s1).map fun x =>
        (x.1, { x.2 with
          ups := x.2.ups + 1
          wraps := x.2.wraps + (if (get_sema s r).value + 1 = UINT_RANGE then 1 else 0) })
  | .try_down :: es, s =>
    (sema_trace r es (sema_try_down r s).1).map fun x =>
      (x.1, { x.2 with downs := x.2.downs + (if (sema_try_down r s).2 then 1 else 0) })
  | .down :: es, s =>
    (sema_trace r es (sema_down r s)).map fun x =>
      (x.1, { x.2 with downs := x.2.downs + (if (get_sema s r).value = 0 then 0 else 1) })

/-! ## Scenarios

Threads are numbered in the order of their creation: 0 is "main", 1 the idle thread, 2, 3, ...
the threads made by `thread_create`.  Lock 0 is `tid_lock`. -/

/-- Observation of a state: the running thread, the ready list, the status, effective and
base priority of some threads, and the holders of some locks. -/
structure observation where
  current : Nat
  ready_list : List Nat
  threads : List (thread_status × Int × Int)
  holders : List (Option Nat)
  deriving DecidableEq

/-- Observes the threads `ts` and the locks `ls`. -/
def observe (ts ls : List Nat) (s : kernel) : observation :=
  { current := s.current
    ready_list := s.ready_list
    threads := ts.map fun t =>
      ((s.threads t).status, (s.threads t).priority, (s.threads t).base_priority)
    holders := ls.map fun l => (s.locks l).holder }

/-- Thread L = 0 lowers itself to priority 0 and takes locks a = 1 and b = 2; it creates
M = 2 (priority 32), which blocks on b, then H = 3 (priority 63), which blocks on a. -/
def donate_nest_blocked : List (Nat × Instr) :=
  [(0, .thread_set_priority 0), (0, .lock_acquire 1), (0, .lock_acquire 2),
   (0, .thread_create 32), (2, .lock_acquire 2),
   (0, .thread_create 63), (3, .lock_acquire 1)]

/-- After `donate_nest_blocked`, L releases a. -/
def donate_nest_release_a : List (Nat × Instr) :=
  donate_nest_blocked ++ [(0, .lock_release 1)]

/-- After `donate_nest_release_a`, H releases a and exits, and L releases b. -/
def donate_nest_release_b : List (Nat × Instr) :=
  donate_nest_release_a ++ [(3, .lock_release 1), (3, .thread_exit), (0, .lock_release 2)]

/-- Thread L = 0 (priority 0) takes lock 1 and creates H = 2 (priority 63), which runs at
once and creates M = 3 (priority 32): H is running, M and L are ready. -/
def ready_donation : List (Nat × Instr) :=
  [(0, .thread_set_priority 0), (0, .lock_acquire 1), (0, .thread_create 63),
   (2, .thread_create 32)]

/-- After `donate_nest_blocked`, L raises its base priority to 40: L holds a and b, has base
priority 40 and effective priority 63, and its donors are M (32, waiting for b) and H (63,
waiting for a). -/
def release_with_higher_base : List (Nat × Instr) :=
  donate_nest_blocked ++ [(0, .thread_set_priority 40)]

/-- Thread L = 0 (priority 0) takes lock 1 and creates M = 2 (priority 32), which blocks on
the lock; L then sets its priority to 50: base and effective priority 50, one donor of
priority 32. -/
def base_above_donor : List (Nat × Instr) :=
  [(0, .thread_set_priority 0), (0, .lock_acquire 1), (0, .thread_create 32),
   (2, .lock_acquire 1), (0, .thread_set_priority 50)]

/-- Thread 0 creates thread `k + 1` with priority `k`; the new thread takes lock `k + 1`
and then blocks on lock `k`. -/
def chain_link (k : Nat) : List (Nat × Instr) :=
  [(0, .thread_create k), (k + 1, .lock_acquire (k + 1)), (k + 1, .lock_acquire k)]

/-- Thread 0 (priority 0) holds lock 1; threads 2 .. 9 (priorities 1 .. 8) each hold the
lock of their own number and block on the lock below; thread 10 (priority 9) then blocks on
lock 9: a blocked-on chain of nine locks from thread 10 to thread 0. -/
def donation_chain : List (Nat × Instr) :=
  [(0, .thread_set_priority 0), (0, .lock_acquire 1)] ++ chain_link 1 ++ chain_link 2 ++
    chain_link 3 ++ chain_link 4 ++ chain_link 5 ++ chain_link 6 ++ chain_link 7 ++
    chain_link 8 ++ [(0, .thread_create 9), (10, .lock_acquire 9)]

/-- Thread 0 (priority 31) creates threads 2 (priority 20) and 3 (priority 10), which stay
in the ready list, and thread 4 (priority 40), which runs at once and blocks on semaphore
0. -/
def ready_example : List (Nat × Instr) :=
  [(0, .thread_create 20), (0, .thread_create 10), (0, .thread_create 40),
   (4, .sema_down (.plain 0))]

/-- Thread 2 (priority 40) takes lock 1 and blocks on semaphore 0; thread 3 (priority 50)
blocks on semaphore 0 in front of it; thread 4 (priority 60) blocks on lock 1 and donates
to thread 2, which is now the waiter of highest priority though second in the list. -/
def sema_example : List (Nat × Instr) :=
  [(0, .thread_create 40), (2, .lock_acquire 1), (2, .sema_down (.plain 0)),
   (0, .thread_create 50), (3, .sema_down (.plain 0)),
   (0, .thread_create 60), (4, .lock_acquire 1)]

/-- Threads 2 (priority 40) and 3 (priority 35) wait on condition 0 under lock 1, and
thread 0 (priority 31) holds lock 1 again. -/
def cond_example : List (Nat × Instr) :=
  [(0, .thread_create 40), (2, .lock_acquire 1), (2, .cond_wait 0 1),
   (0, .thread_create 35), (3, .lock_acquire 1), (3, .cond_wait 0 1),
   (0, .lock_acquire 1)]

/-- The state a scenario leads to from `boot` (`boot` itself should it panic). -/
def reach (cs : List (Nat × Instr)) : kernel :=
  (calls cs boot).getD boot


/-! ## The multi-level feedback queue scheduler -/

/-- Modelled from the spec: `TIMER_FREQ` is defined in devices/timer.h, which is not among the
sources; the timer interrupts 100 times per second. -/
def TIMER_FREQ : Int := 100

/-- The operand of `TOFIXED` in the load average update of `thread_tick`,
`(t == idle_thread? 0:list_size(&ready_list)+1)`, a `size_t`. -/
def ready_threads (s : kernel) : Nat :=
  if s.current = s.idle_thread then 0 else (s.ready_list.length + 1) % UINT_RANGE

/-- The value `thread_tick` stores in `load_avg`:
`MULTXY(DIVXY(59,60), load_avg) + MULTXY(DIVXY(1,60), TOFIXED(...))`.  The operand of
`TOFIXED` is unsigned, so its product with `F` wraps at 2^32; the sum is a 64-bit value that
is converted to `int` by the assignment. -/
def next_load_avg (s : kernel) : Int :=
  int32 (MULTXY (DIVXY 59 60) s.load_avg
    + MULTXY (DIVXY 1 60) (((ready_threads s * 2 ^ 14 % UINT_RANGE : Nat) : Int)))

/-- One round of the loop of `thread_tick` over `all_threads`: the priority of `temp` is
recomputed when the tick count is a multiple of 4, then its `recent_cpu` is decayed with the
coefficient `a` when the tick count is a multiple of `TIMER_FREQ`. -/
def tick_update (ticks a : Int) (temp : thread) : thread :=
  let t1 := if ticks.tmod 4 = 0 then
      { temp with priority := mlfqs_priority temp.recent_cpu temp.nice }
    else temp
  if ticks.tmod TIMER_FREQ = 0 then
    { t1 with recent_cpu := int32 (MULTXY a t1.recent_cpu + int32 (t1.nice * F)) }
  else t1

/-- The first step of `thread_tick` in MLFQ mode: the running thread, unless it is the idle
thread, is charged one tick of `recent_cpu`. -/
def tick_charge (s : kernel) : kernel :=
  if s.current ≠ s.idle_thread then
    set_thread s s.current
      { s.threads s.current with recent_cpu := ADDXN (s.threads s.current).recent_cpu 1 }
  else s

/-- The second step of `thread_tick`: the load average is updated when the tick count is a
multiple of `TIMER_FREQ`. -/
def tick_load_avg (ticks : Int) (s : kernel) : kernel :=
  if ticks.tmod TIMER_FREQ = 0 then { s with load_avg := next_load_avg s } else s

/-- The loop of `thread_tick` over `all_threads`. -/
def tick_all (ticks a : Int) (s : kernel) : kernel :=
  { s with
    threads := s.all_threads.foldl
      (fun ths temp => upd ths temp (tick_update ticks a (ths temp))) s.threads }

/-- The function `thread_tick` without the tick statistics and the time slice counter;
`ticks` is what `timer_ticks ()` returns.  A zero divisor in the computation of the decay
coefficient `a` is a divide error, the result `none`. -/
def thread_tick (ticks : Int) (s : kernel) : Option kernel :=
  if s.thread_mlfqs then
    let s2 := tick_load_avg ticks (tick_charge s)
    if ticks.tmod TIMER_FREQ = 0 ∨ ticks.tmod 4 = 0 then
      if ADDXN (MULTXN s2.load_avg 2) 1 = 0 then none
      else
        some (tick_all ticks
          (int32 (DIVXY (MULTXN s2.load_avg 2) (ADDXN (MULTXN s2.load_avg 2) 1))) s2)
    else some s2
  else some s

/-- The assignments `thread_set_nice` makes to the record of the running thread. -/
def set_nice_record (nice : Int) (current : thread) : thread :=
  { current with nice := nice, priority := mlfqs_priority current.recent_cpu nice }

def thread_set_nice (nice : Int) (s : kernel) : kernel :=
  let s1 := set_thread s s.current (set_nice_record nice (s.threads s.current))
  match s1.ready_list with
  | [] => s1
  | temp :: _ =>
    if (s1.threads s1.current).priority < (s1.threads temp).priority then thread_yield s1
    else s1

def thread_get_load_avg (s : kernel) : Int :=
  TOINTNEAREST (int32 (100 * s.load_avg))

/-- The claims' rounding: `k` is the integer nearest to `x / 2^14`, a tie going to the
candidate further from zero. -/
def is_nearest (x k : Int) : Bool :=
  decide (2 * |x - k * F| ≤ F) && (decide (2 * |x - k * F| < F) || decide (|x| < |k * F|))

/-- The claims' clamp of a priority to `PRI_MIN .. PRI_MAX`. -/
def clamp_priority (k : Int) : Int := max PRI_MIN (min PRI_MAX k)

/-- The record of `t` when the loop of `thread_tick` reaches it: the running thread, unless
it is the idle thread, has been charged one tick. -/
def charged (s : kernel) (t : Nat) : thread :=
  (tick_charge s).threads t

/-- The state `thread_init` and `thread_start` leave when the kernel is booted with
`-mlfqs`: as `boot`, with the priorities `init_thread` computes from `recent_cpu` and `nice`
0 for both threads. -/
def boot_mlfqs : kernel :=
  { boot with
    thread_mlfqs := true
    threads := fun t => { boot.threads t with
      priority := if t = 0 ∨ t = 1 then PRI_MAX else PRI_MIN
      base_priority := 0 } }

/-- The claims' count of ready threads: the threads in the ready list, plus one if the
running thread is not the idle thread. -/
def ready_count (s : kernel) : Nat :=
  s.ready_list.length + (if s.current = s.idle_thread then 0 else 1)

/-- The claims' load average after a tick that is a multiple of `TIMER_FREQ`:
`(59/60)*load_avg + (1/60)*ready_count` in 17.14 fixed point. -/
def claimed_load_avg (s : kernel) : Int :=
  int32 (MULTXY (DIVXY 59 60) s.load_avg + MULTXY (DIVXY 1 60) (TOFIXED (ready_count s)))

/-- Scenario: "main" waits for semaphore 0 and the idle thread takes over; an interrupt
handler then calls `sema_up` while the idle thread is running.  In MLFQ mode both threads
have priority 63, so `sema_up` does not yield and "main" stays in the ready list. -/
def idle_with_ready : List (Nat × Instr) :=
  [(0, Instr.sema_down (.plain 0)), (1, Instr.sema_up (.plain 0))]

/-- Example for `thread_tick`: the state after booting in MLFQ mode, with "main" at
`recent_cpu` 3.0 and `nice` 5. -/
def tick_example : kernel :=
  { boot_mlfqs with
    threads := upd boot_mlfqs.threads 0
      { boot_mlfqs.threads 0 with recent_cpu := 49152, nice := 5 } }

/-- What the load average claim looks at: in the state before the tick, whether the idle
thread is running, the ready list, the load average, the claimed count of ready threads and
the claimed new load average, the count `thread_tick` uses; and the load average stored by
`thread_tick`. -/
structure tick_observation where
  idle_running : Bool
  ready_list : List Nat
  load_avg : Int
  ready_count : Nat
  claimed : Int
  counted : Nat
  stored : Int
deriving DecidableEq

def observe_tick (ticks : Int) (s : kernel) : Option tick_observation :=
  (thread_tick ticks s).map fun s1 =>
    { idle_running := decide (s.current = s.idle_thread)
      ready_list := s.ready_list
      load_avg := s.load_avg
      ready_count := ready_count s
      claimed := claimed_load_avg s
      counted := ready_threads s
      stored := s1.load_avg }

/-! ## `lock_try_acquire` and the blocked-on chain -/

/-- The donation loop of `lock_try_acquire`, started with `remaining = MAX_DEPTH - depth`:
as `donate`, but the depth bound is part of the assertion
`temp->locked_by->holder != NULL && depth++ < MAX_DEPTH`, so a round that starts with no
depth left is a panic, as is a lock without holder. -/
def donate_try (locks : Nat → lock) : Nat → Nat → (Nat → thread) → Option (Nat → thread)
  | 0, temp, ths =>
    match (ths temp).locked_by with
    | none => some ths
    | some _ => none
  | remaining + 1, temp, ths =>
    match (ths temp).locked_by with
    | none => some ths
    | some l =>
      match (locks l).holder with
      | none => none
      | some h =>
        if (ths temp).priority > (ths h).priority then
          donate_try locks remaining h (upd ths h { ths h with priority := (ths temp).priority })
        else some ths

/-- The function `lock_try_acquire`: the value returned and the state it leaves. -/
def lock_try_acquire (l : Nat) (s : kernel) : Option (Bool × kernel) :=
  if lock_held_by_current_thread s l then none
  else
    let r := sema_try_down (.of_lock l) s
    if r.2 then
      let s1 := set_thread r.1 r.1.current { r.1.threads r.1.current with locked_by := none }
      some (true,
        { s1 with locks := upd s1.locks l { s1.locks l with holder := some s1.current } })
    else
      match (r.1.locks l).holder with
      | none => none
      | some h =>
        let ths1 := upd r.1.threads r.1.current
          { r.1.threads r.1.current with locked_by := some l }
        let ths2 := upd ths1 h { ths1 h with donators := (ths1 h).donators ++ [r.1.current] }
        (donate_try r.1.locks MAX_DEPTH r.1.current ths2).map fun ths =>
          (false, { r.1 with threads := ths })

/-- The holder of the lock thread `t` is recorded as waiting for (`t->locked_by->holder`). -/
def blocked_on (locks : Nat → lock) (ths : Nat → thread) (t : Nat) : Option Nat :=
  (ths t).locked_by.bind fun l => (locks l).holder

/-- The thread `k` hops from `t` along the blocked-on chain. -/
def hop (locks : Nat → lock) (ths : Nat → thread) : Nat → Nat → Option Nat
  | 0, t => some t
  | k + 1, t => (blocked_on locks ths t).bind (hop locks ths k)

/-- Thread `t` is not recorded as waiting for a lock, or the lock it is recorded as waiting
for has a holder that is in `all_threads` and has at least the priority of `t`. -/
def chain_le (s : kernel) (t : Nat) : Bool :=
  match (s.threads t).locked_by with
  | none => true
  | some k =>
    match (s.locks k).holder with
    | none => false
    | some h => decide (h ∈ s.all_threads) && decide ((s.threads h).priority ≥ (s.threads t).priority)

/-- Thread 0 (priority 31) takes lock 2 and creates thread 2 (priority 40), which takes lock
1 and blocks on lock 2, donating to thread 0; thread 0 runs again.  When it now asks for
lock 1 the blocked-on chain is a cycle: 0 waits for 2, which waits for 0. -/
def donation_cycle : List (Nat × Instr) :=
  [(0, .lock_acquire 2), (0, .thread_create 40), (2, .lock_acquire 1), (2, .lock_acquire 2)]

/-- Thread 0 (priority 0) holds lock 1; thread 2 (priority 32) holds lock 2 and blocks on
lock 1; thread 3 (priority 63) is created and runs. -/
def donation_two_hops : List (Nat × Instr) :=
  [(0, .thread_set_priority 0), (0, .lock_acquire 1), (0, .thread_create 32),
   (2, .lock_acquire 2), (2, .lock_acquire 1), (0, .thread_create 63)]

/-- Thread 0 (priority 31) takes lock 1 and creates thread 2 (priority 40), which blocks on
lock 1; thread 0 then calls `cond_wait` on condition 0 with lock 1: it queues its waiter
(semaphore 0) and releases the lock, and the release hands the CPU to thread 2 before
thread 0 has reached `sema_down`. -/
def cond_race : List (Nat × Instr) :=
  [(0, .lock_acquire 1), (0, .thread_create 40), (2, .lock_acquire 1), (0, .cond_wait 0 1)]

/-- What the scenario `cond_race` leaves: the running thread, the ready list, the holder of
lock 1, the waiters of condition 0, the threads queued on the semaphore of the first of
them, and the number of pieces of kernel code thread 0 has pending. -/
structure race_observation where
  current : Nat
  ready_list : List Nat
  holder : Option Nat
  cond_waiters : List Nat
  sema_waiters : List Nat
  pending : List Instr
  deriving DecidableEq

def observe_race (s : kernel) : race_observation :=
  { current := s.current
    ready_list := s.ready_list
    holder := (s.locks 1).holder
    cond_waiters := s.conds 0
    sema_waiters := (s.semas 0).waiters
    pending := (s.threads 0).cont }

/-- What the claim on `lock_try_acquire` looks at, for a lock `l`, the thread `h` that holds
it and the caller `c`: the running thread, the ready list, the holder and the value of the
lock, the lock `c` is recorded as waiting for, the donor list of `h`, and the priorities of
`h` and `c`. -/
structure try_observation where
  current : Nat
  ready_list : List Nat
  holder : Option Nat
  value : Nat
  locked_by : Option Nat
  donators : List Nat
  holder_priority : Int
  caller_priority : Int
  deriving DecidableEq

def observe_try (l h c : Nat) (s : kernel) : try_observation :=
  { current := s.current
    ready_list := s.ready_list
    holder := (s.locks l).holder
    value := (s.locks l).semaphore.value
    locked_by := (s.threads c).locked_by
    donators := (s.threads h).donators
    holder_priority := (s.threads h).priority
    caller_priority := (s.threads c).priority }

end Threads

/-!
# Virtual memory: swap, frame table and supplemental page table

Shallow embedding of `Project 3 - Virtual memory/src/vm/{swap,frame,page}.c` and of `mmap`
in `userprog/syscall.c`.

* A kernel page (frame) is addressed by its index in the user pool, a supplemental page
  table entry by the address `malloc` gave it, a thread by a number.  `malloc` is taken to
  succeed, and what it returns is not initialised: a new entry keeps what the table held at
  its address.
* The hash table of a thread is the list of the entries inserted, the frame table the list
  of its entries in list order; `victim_frame` returns the position of an entry.
* The locks (`swap_lock`, `frame_table_lock`, the file system lock) are left out: every
  function runs to its end without interleaving.
* A kernel panic (a failed `ASSERT`, `PANIC`, a null pointer dereference, an access past
  the end of a disk) is the result `none`.
-/

namespace VM

open Threads (upd)

/-! ## Constants and address arithmetic -/

/-- Modelled from the spec: `PGSIZE` is defined in threads/vaddr.h, which is not among the
sources; a page has 4096 bytes. -/
def PGSIZE : Nat := 4096

/-- Modelled from the spec: `DISK_SECTOR_SIZE` is defined in devices/disk.h, which is not
among the sources; a sector has 512 bytes. -/
def DISK_SECTOR_SIZE : Nat := 512

/-- The macro `SECTORS_PER_PAGE` of swap.h. -/
def SECTORS_PER_PAGE : Nat := PGSIZE / DISK_SECTOR_SIZE

/-- Modelled from the spec: `PHYS_BASE` of threads/vaddr.h, the start of kernel virtual
memory at 3 GB. -/
def PHYS_BASE : Nat := 0xC0000000

/-- Number of addresses of the 32-bit address space. -/
def ADDR_RANGE : Nat := 2 ^ 32

/-- Modelled from the spec: `pg_ofs` of threads/vaddr.h, the offset inside the page. -/
def pg_ofs (va : Nat) : Nat := va % PGSIZE

/-- Modelled from the spec: `pg_round_down` of threads/vaddr.h. -/
def pg_round_down (va : Nat) : Nat := va - va % PGSIZE

/-- Modelled from the spec: `is_user_vaddr` of threads/vaddr.h. -/
def is_user_vaddr (va : Nat) : Bool := decide (va < PHYS_BASE)

/-! ## Bitmaps (lib/kernel/bitmap.c) -/

/-- Modelled from the spec: `struct bitmap` of lib/kernel/bitmap.c, which is not among the
sources: `bit_cnt` bits; a bit that is set marks a unit in use. -/
structure bitmap where
  bit_cnt : Nat
  bits : Nat → Bool

/-- Modelled from the spec: `bitmap_contains`, whether some bit among the `cnt` bits from
`start` has the given value. -/
def bitmap_contains (b : bitmap) (start cnt : Nat) (value : Bool) : Bool :=
  (List.range cnt).any fun i => b.bits (start + i) == value

/-- Modelled from the spec: `bitmap_scan`, the first index at or after `start` of a run of
`cnt` consecutive bits with the given value that lies inside the bitmap; `none` stands for
`BITMAP_ERROR`. -/
def bitmap_scan (b : bitmap) (start cnt : Nat) (value : Bool) : Option Nat :=
  if cnt ≤ b.bit_cnt then
    (List.range (b.bit_cnt - cnt + 1)).find? fun i =>
      decide (start ≤ i) && !bitmap_contains b i cnt (!value)
  else none

/-- Modelled from the spec: `bitmap_set_multiple`. -/
def bitmap_set_multiple (b : bitmap) (start cnt : Nat) (value : Bool) : bitmap :=
  { b with bits := fun i => if start ≤ i ∧ i < start + cnt then value else b.bits i }

/-- Modelled from the spec: `bitmap_scan_and_flip`, which finds the run as `bitmap_scan` does
and flips its bits. -/
def bitmap_scan_and_flip (b : bitmap) (start cnt : Nat) (value : Bool) :
    Option (Nat × bitmap) :=
  (bitmap_scan b start cnt value).map fun idx => (idx, bitmap_set_multiple b idx cnt (!value))

/-- Modelled from the spec: `bitmap_flip`. -/
def bitmap_flip (b : bitmap) (bit_idx : Nat) : bitmap :=
  { b with bits := upd b.bits bit_idx (!b.bits bit_idx) }

/-! ## Data model (page.h, frame.h) -/

inductive page_type where
  | FILE
  | STACK
  | SWAPPED
  | MMAP
deriving DecidableEq

/-- The fields of `struct sup_page_table_entry` that the code reads (`access_time`, `dirty`
and `accessed` are never used); `file` is `none` for a null pointer. -/
structure sup_page_table_entry where
  user_vaddr : Nat
  type : page_type
  read_only : Bool
  loaded : Bool
  file : Option Nat
  offset : Nat
  read_bytes : Nat
  zero_bytes : Nat
  index : Nat
  map_id : Int
deriving DecidableEq

structure frame_table_entry where
  frame : Nat
  owner : Nat
  spte : Nat
deriving DecidableEq

/-- Modelled from the spec: a present page table entry of userprog/pagedir.c, which is not
among the sources: the frame, the writable bit and the accessed and dirty bits. -/
structure page_table_entry where
  kpage : Nat
  writable : Bool
  accessed : Bool
  dirty : Bool
deriving DecidableEq

/-- Modelled from the spec: an open file (`struct file` of filesys/file.c, not among the
sources): the inode it reads and its position. -/
structure file where
  inode : Nat
  pos : Nat
deriving DecidableEq

/-- The state of the virtual memory subsystem: the running thread; the supplemental page
table entries by address and the next address `malloc` returns for one; per thread its
hash table `spt`, its page directory, its table of open files and its `map_id` counter; the
frame table; the pool of user pages with the contents of every page; the swap bitmap and
the sectors of the swap disk, which has as many sectors as the bitmap has bits
(`swap_init`); the open files and the contents of the inodes; and whether
`pagedir_set_page` can get the page table it may have to allocate. -/
structure vm where
  current : Nat
  sptes : Nat → sup_page_table_entry
  nsptes : Nat
  spt : Nat → List Nat
  pagedir : Nat → Nat → Option page_table_entry
  open_files : Nat → Nat → Option Nat
  map_id : Nat → Int
  frame_table : List frame_table_entry
  user_pool : bitmap
  memory : Nat → Nat → Nat
  swap_table : bitmap
  swap_device : Nat → Nat → Nat
  files : Nat → file
  nfiles : Nat
  inode_data : Nat → List Nat
  pagedir_can_grow : Bool

/-! ## Devices and the page allocator -/

/-- Modelled from the spec: `disk_write` of devices/disk.c, which is not among the sources:
sector `sec` takes the `DISK_SECTOR_SIZE` bytes of the buffer. -/
def disk_write (d : Nat → Nat → Nat) (sec : Nat) (buffer : Nat → Nat) : Nat → Nat → Nat :=
  upd d sec fun j => if j < DISK_SECTOR_SIZE then buffer j else d sec j

/-- A copy of `len` bytes of a buffer into page `page` at offset `ofs` (`memcpy`, or the
transfer of `disk_read` and `file_read_at` into their buffer). -/
def page_write (m : Nat → Nat → Nat) (page ofs len : Nat) (buffer : Nat → Nat) :
    Nat → Nat → Nat :=
  upd m page fun k => if ofs ≤ k ∧ k < ofs + len then buffer (k - ofs) else m page k

/-- Modelled from the spec: `palloc_get_page (PAL_USER)` of threads/palloc.c, which is not
among the sources: the first free page of the user pool, zeroed on request; `none` is the
null pointer returned when the pool is exhausted. -/
def palloc_get_page (zero : Bool) (s : vm) : Option (Nat × vm) :=
  (bitmap_scan_and_flip s.user_pool 0 1 false).map fun r =>
    (r.1, { s with
      user_pool := r.2
      memory := if zero then upd s.memory r.1 (fun _ => 0) else s.memory })

/-- Modelled from the spec: `palloc_free_page`, which returns a page to the pool and asserts
that it was allocated. -/
def palloc_free_page (page : Nat) (s : vm) : Option vm :=
  if page < s.user_pool.bit_cnt ∧ s.user_pool.bits page = true then
    some { s with user_pool := bitmap_set_multiple s.user_pool page 1 false }
  else none

/-! ## Page directories (userprog/pagedir.c) -/

/-- Modelled from the spec: `pagedir_get_page`, the frame mapped at a user address, if any. -/
def pagedir_get_page (s : vm) (t uaddr : Nat) : Option Nat :=
  (s.pagedir t (pg_round_down uaddr)).map fun p => p.kpage

/-- Modelled from the spec: `pagedir_set_page`, which maps `upage` to `kpage` and fails when
it cannot allocate a page table. -/
def pagedir_set_page (t upage kpage : Nat) (writable : Bool) (s : vm) : Bool × vm :=
  if s.pagedir_can_grow then
    (true, { s with
      pagedir := upd s.pagedir t (upd (s.pagedir t) upage
        (some { kpage := kpage, writable := writable, accessed := false, dirty := false })) })
  else (false, s)

/-- Modelled from the spec: `pagedir_clear_page`, which marks the page not present. -/
def pagedir_clear_page (t upage : Nat) (s : vm) : vm :=
  { s with pagedir := upd s.pagedir t (upd (s.pagedir t) upage none) }

/-- Modelled from the spec: `pagedir_is_accessed`. -/
def pagedir_is_accessed (s : vm) (t vpage : Nat) : Bool :=
  match s.pagedir t vpage with
  | some p => p.accessed
  | none => false

/-- Modelled from the spec: `pagedir_is_dirty`. -/
def pagedir_is_dirty (s : vm) (t vpage : Nat) : Bool :=
  match s.pagedir t vpage with
  | some p => p.dirty
  | none => false

/-! ## Files (filesys/file.c) -/

/-- Modelled from the spec: `file_length`. -/
def file_length (s : vm) (f : Nat) : Nat :=
  (s.inode_data (s.files f).inode).length

/-- Modelled from the spec: `file_reopen`, a new handle for the same inode. -/
def file_reopen (f : Nat) (s : vm) : Nat × vm :=
  (s.nfiles, { s with
    files := upd s.files s.nfiles { inode := (s.files f).inode, pos := 0 }
    nfiles := s.nfiles + 1 })

/-- Modelled from the spec: the bytes `file_read_at` transfers: at most `size` bytes from
offset `ofs`, fewer when the file ends before. -/
def file_read_at (s : vm) (f size ofs : Nat) : List Nat :=
  ((s.inode_data (s.files f).inode).drop ofs).take size

/-- Modelled from the spec: `file_write_at`, which overwrites the bytes of the file from
offset `ofs` and does not grow the file. -/
def file_write_at (f : Nat) (buffer : Nat → Nat) (size ofs : Nat) (s : vm) : vm :=
  let i := (s.files f).inode
  { s with
    inode_data := upd s.inode_data i
      ((List.range (s.inode_data i).length).map fun k =>
        if ofs ≤ k ∧ k < ofs + size then buffer (k - ofs) else (s.inode_data i).getD k 0) }

/-! ## Swap (swap.c) -/

def swap_in (index frame : Nat) (s : vm) : Option vm :=
  (List.range SECTORS_PER_PAGE).foldl (fun r i => r.bind fun s1 =>
    if index + i < s1.swap_table.bit_cnt then
      some { s1 with
        swap_table := bitmap_flip s1.swap_table (index + i)
        memory := page_write s1.memory frame (i * DISK_SECTOR_SIZE) DISK_SECTOR_SIZE
          (s1.swap_device (index + i)) }
    else none) (some s)

def swap_out (frame : Nat) (s : vm) : Option (Nat × vm) :=
  (bitmap_scan_and_flip s.swap_table 0 SECTORS_PER_PAGE false).map fun r =>
    (r.1, { s with
      swap_table := r.2
      swap_device := (List.range SECTORS_PER_PAGE).foldl (fun d i =>
        disk_write d (r.1 + i) fun j => s.memory frame (i * DISK_SECTOR_SIZE + j))
        s.swap_device })

/-! ## Frame table (frame.c) -/

def insert_frame (frame spte : Nat) (s : vm) : vm :=
  { s with
    frame_table := s.frame_table ++ [{ frame := frame, owner := s.current, spte := spte }] }

def free_frame (frame : Nat) (s : vm) : Option vm :=
  if s.frame_table.any (fun e => decide (e.frame = frame)) then
    palloc_free_page frame
      { s with frame_table := s.frame_table.eraseP fun e => decide (e.frame = frame) }
  else some s

/-- The four candidates of `victim_frame`, each the position of a frame table entry. -/
structure candidates where
  fte0 : Option Nat
  fte1 : Option Nat
  fte2 : Option Nat
  fte3 : Option Nat
deriving DecidableEq

/-- One round of the loop of `victim_frame` for the entry `fte` at position `i`; the
accessed and dirty bits are looked up in the page directory of the running thread. -/
def victim_step (s : vm) (c : candidates) (i : Nat) (fte : frame_table_entry) : candidates :=
  let a := pagedir_is_accessed s s.current (s.sptes fte.spte).user_vaddr
  let d := pagedir_is_dirty s s.current (s.sptes fte.spte).user_vaddr
  if a && d && c.fte3.isNone then { c with fte3 := some i }
  else if a && !d && c.fte2.isNone then { c with fte2 := some i }
  else if !a && d && c.fte1.isNone then { c with fte1 := some i }
  else if c.fte0.isNone then { c with fte0 := some i }
  else c

def victim_scan (s : vm) : List frame_table_entry → Nat → candidates → candidates
  | [], _, c => c
  | fte :: rest, i, c => victim_scan s rest (i + 1) (victim_step s c i fte)

/-- The function `victim_frame`: the position of the chosen entry, `none` for `NULL`. -/
def victim_frame (s : vm) : Option Nat :=
  let c := victim_scan s s.frame_table 0
    { fte0 := none, fte1 := none, fte2 := none, fte3 := none }
  if c.fte0.isSome then c.fte0
  else if c.fte1.isSome then c.fte1
  else if c.fte2.isSome then c.fte2
  else c.fte3

/-- The eviction branch of `allocate_frame` once the victim is known. -/
def evict (i : Nat) (victim : frame_table_entry) (spte : Nat) (pal_zero : Bool) (s : vm) :
    Option (Nat × vm) :=
  (swap_out victim.frame s).map fun r =>
    let s1 := r.2
    let s2 := { s1 with
      sptes := upd s1.sptes victim.spte
        { s1.sptes victim.spte with loaded := false, type := .SWAPPED, index := r.1 } }
    let s3 := pagedir_clear_page victim.owner (s2.sptes victim.spte).user_vaddr s2
    let s4 := { s3 with
      frame_table := s3.frame_table.set i { victim with owner := s3.current, spte := spte } }
    (victim.frame,
      if pal_zero then { s4 with memory := upd s4.memory victim.frame (fun _ => 0) } else s4)

def allocate_frame (spte : Nat) (pal_zero : Bool) (s : vm) : Option (Nat × vm) :=
  match palloc_get_page pal_zero s with
  | some (frame, s1) => some (frame, insert_frame frame spte s1)
  | none =>
    match victim_frame s with
    | none => none
    | some i =>
      match s.frame_table.get? i with
      | none => none
      | some victim => evict i victim spte pal_zero s

/-! ## Supplemental page table (page.c) -/

def allocate_page_file (addr f : Nat) (read_only : Bool) (ofs read_bytes zero_bytes : Nat)
    (s : vm) : Option (Nat × vm) :=
  if pg_ofs addr = 0 then
    some (s.nsptes, { s with
      sptes := upd s.sptes s.nsptes
        { s.sptes s.nsptes with
          user_vaddr := addr, type := .FILE, map_id := -1, read_only := read_only
          loaded := false, file := some f, offset := ofs, read_bytes := read_bytes
          zero_bytes := zero_bytes }
      nsptes := s.nsptes + 1 })
  else none

def allocate_page_mmap (addr f : Nat) (map_id : Int) (ofs read_bytes zero_bytes : Nat)
    (s : vm) : Option (Nat × vm) :=
  if pg_ofs addr = 0 then
    some (s.nsptes, { s with
      sptes := upd s.sptes s.nsptes
        { s.sptes s.nsptes with
          user_vaddr := addr, type := .MMAP, map_id := map_id, read_only := false
          loaded := false, file := some f, offset := ofs, read_bytes := read_bytes
          zero_bytes := zero_bytes }
      nsptes := s.nsptes + 1 })
  else none

def allocate_page_stack (addr : Nat) (s : vm) : Nat × vm :=
  (s.nsptes, { s with
    sptes := upd s.sptes s.nsptes
      { s.sptes s.nsptes with
        user_vaddr := pg_round_down addr, type := .STACK, read_only := false
        loaded := false }
    nsptes := s.nsptes + 1 })

/-- Modelled from the spec: `hash_find` of lib/kernel/hash.c on the table of thread `t`,
whose elements are equal when their `user_vaddr` are. -/
def hash_find (s : vm) (t vaddr : Nat) : Option Nat :=
  (s.spt t).find? fun a => decide ((s.sptes a).user_vaddr = vaddr)

/-- Modelled from the spec: `hash_insert`, which inserts the entry unless an equal one is in
the table; the flag tells whether it returned `NULL`, that is, whether it inserted. -/
def hash_insert (t a : Nat) (s : vm) : Bool × vm :=
  match hash_find s t (s.sptes a).user_vaddr with
  | some _ => (false, s)
  | none => (true, { s with spt := upd s.spt t (s.spt t ++ [a]) })

def get_page (s : vm) (user_vaddr : Nat) : Option Nat :=
  hash_find s s.current (pg_round_down user_vaddr)

/-- The block `if (spte->read_bytes > 0) ...` of `load_page_file` and `load_page_mmap`: the
flag tells whether `file_read_at` read as much as expected. -/
def read_page (a frame : Nat) (s : vm) : Option (Bool × vm) :=
  let spte := s.sptes a
  if spte.read_bytes > 0 then
    match spte.file with
    | none => none
    | some f =>
      let data := file_read_at s f spte.read_bytes spte.offset
      some (decide (data.length = spte.read_bytes),
        { s with memory := page_write s.memory frame 0 data.length fun k => data.getD k 0 })
  else some (true, s)

/-- The test `pagedir_get_page (...) == NULL && pagedir_set_page (...)` of the four
loaders. -/
def map_page (a frame : Nat) (writable : Bool) (s : vm) : Bool × vm :=
  match pagedir_get_page s s.current (s.sptes a).user_vaddr with
  | some _ => (false, s)
  | none => pagedir_set_page s.current (s.sptes a).user_vaddr frame writable s

/-- The failure exit of the loaders: `free_frame (frame); return false`. -/
def load_failed (frame : Nat) (s : vm) : Option (Bool × vm) :=
  (free_frame frame s).map fun s1 => (false, s1)

def set_loaded (a : Nat) (s : vm) : vm :=
  { s with sptes := upd s.sptes a { s.sptes a with loaded := true } }

def load_page_file (a : Nat) (s : vm) : Option (Bool × vm) :=
  if (s.sptes a).loaded then some (true, s)
  else
    (allocate_frame a (decide ((s.sptes a).zero_bytes = PGSIZE)) s).bind fun r =>
      (read_page a r.1 r.2).bind fun rd =>
        if rd.1 then
          let m := map_page a r.1 (!(rd.2.sptes a).read_only) rd.2
          if m.1 then some (true, set_loaded a m.2) else load_failed r.1 m.2
        else load_failed r.1 rd.2

def load_page_mmap (a : Nat) (s : vm) : Option (Bool × vm) :=
  if (s.sptes a).loaded then some (true, s)
  else
    (allocate_frame a (decide ((s.sptes a).zero_bytes = PGSIZE)) s).bind fun r =>
      (read_page a r.1 r.2).bind fun rd =>
        if rd.1 then
          let m := map_page a r.1 (!(rd.2.sptes a).read_only) rd.2
          if m.1 then some (true, set_loaded a m.2) else load_failed r.1 m.2
        else load_failed r.1 rd.2

def load_page_stack (a : Nat) (s : vm) : Option (Bool × vm) :=
  if (s.sptes a).loaded then some (true, s)
  else
    (allocate_frame a true s).bind fun r =>
      let h := hash_insert r.2.current a r.2
      if h.1 then
        let m := map_page a r.1 true h.2
        if m.1 then some (true, set_loaded a m.2) else load_failed r.1 m.2
      else load_failed r.1 h.2

/-- The reclassification at the end of `load_page_swap`. -/
def original_type (spte : sup_page_table_entry) : page_type :=
  if spte.file.isSome ∧ spte.map_id = -1 then .FILE
  else if spte.file.isSome then .MMAP
  else .STACK

def load_page_swap (a : Nat) (s : vm) : Option (Bool × vm) :=
  if (s.sptes a).type = .SWAPPED ∧ (s.sptes a).loaded = false then
    (allocate_frame a true s).bind fun r =>
      (swap_in (r.2.sptes a).index r.1 r.2).bind fun s1 =>
        let m := map_page a r.1 true s1
        if m.1 then
          some (true, { m.2 with
            sptes := upd m.2.sptes a
              { m.2.sptes a with type := original_type (m.2.sptes a), loaded := true } })
        else load_failed r.1 m.2
  else none

def load_page (a : Nat) (s : vm) : Option (Bool × vm) :=
  if (s.sptes a).loaded then some (true, s)
  else
    match (s.sptes a).type with
    | .FILE => load_page_file a s
    | .STACK => load_page_stack a s
    | .SWAPPED => load_page_swap a s
    | .MMAP => load_page_mmap a s

/-! ## Memory-mapped files (userprog/syscall.c) -/

/-- Modelled from the spec: what `unmap` of userprog/process.c, which is not among the
sources, does to one page of the mapping: a loaded page that is dirty is written back to the
file at the recorded offset, its frame is freed and its page table entry cleared; the entry
leaves the table of the thread. -/
def unmap_page (a : Nat) (s : vm) : Option vm :=
  let spte := s.sptes a
  let cleared : Option vm :=
    if spte.loaded then
      match s.pagedir s.current spte.user_vaddr, spte.file with
      | some p, some f =>
        let s1 := if p.dirty then
            file_write_at f (s.memory p.kpage) spte.read_bytes spte.offset s
          else s
        (free_frame p.kpage s1).map fun s2 => pagedir_clear_page s2.current spte.user_vaddr s2
      | _, _ => none
    else some s
  cleared.map fun s3 =>
    { s3 with spt := upd s3.spt s3.current ((s3.spt s3.current).filter fun b => b != a) }

/-- Modelled from the spec: `unmap`, which removes every page of the running thread that
carries the map id. -/
def unmap (map_id : Int) (s : vm) : Option vm :=
  ((s.spt s.current).filter fun a => decide ((s.sptes a).map_id = map_id)).foldl
    (fun r a => r.bind (unmap_page a)) (some s)

def munmap (map_id : Int) (s : vm) : Option vm :=
  unmap map_id s

/-- The loop of `mmap`; `fuel` bounds the number of rounds, and every round maps at least
one of the remaining `read_bytes` bytes.  The flag tells whether every page was laid out;
when it is false the caller returns -1 after `munmap`. -/
def mmap_loop (f : Nat) (map_id : Int) :
    Nat → Nat → Nat → Nat → vm → Option (Bool × vm)
  | 0, _, _, _, s => some (true, s)
  | fuel + 1, vaddr, ofs, read_bytes, s =>
    if read_bytes > 0 then
      let page_read_bytes := if read_bytes < PGSIZE then read_bytes else PGSIZE
      let page_zero_bytes := PGSIZE - page_read_bytes
      (allocate_page_mmap vaddr f map_id ofs page_read_bytes page_zero_bytes s).bind fun r =>
        let h := hash_insert r.2.current r.1 r.2
        if h.1 then
          mmap_loop f map_id fuel ((vaddr + PGSIZE) % ADDR_RANGE) (ofs + page_read_bytes)
            (read_bytes - page_read_bytes) h.2
        else (munmap map_id h.2).map fun s1 => (false, s1)
    else some (true, s)

/-- The system call `mmap`; the table `open_files` of a thread has 128 slots, and an index
outside is an access outside the thread structure, the result `none`. -/
def mmap (fd : Int) (vaddr : Nat) (s : vm) : Option (Int × vm) :=
  if 0 ≤ fd ∧ fd < 128 then
    match s.open_files s.current fd.toNat with
    | none => some (-1, s)
    | some oldf =>
      if !is_user_vaddr vaddr || decide (pg_ofs vaddr ≠ 0) || decide (vaddr = 0) then
        some (-1, s)
      else
        let r := file_reopen oldf s
        if file_length r.2 r.1 = 0 then some (-1, r.2)
        else
          let id := Threads.int32 (r.2.map_id r.2.current + 1)
          let s1 := { r.2 with map_id := upd r.2.map_id r.2.current id }
          (mmap_loop r.1 id (file_length s1 r.1) vaddr 0 (file_length s1 r.1) s1).map
            fun l => (if l.1 then id else -1, l.2)
  else none

/-! ## Predicates and examples used in the statements -/

/-- The claims' invariant of the frame table: an entry exists for a supplemental page table
entry exactly when that entry is loaded; no supplemental page table entry has two frame
table entries; no frame appears in two entries. -/
def frame_inv (s : vm) : Prop :=
  (∀ a, a < s.nsptes → ((s.sptes a).loaded = true ↔ ∃ e ∈ s.frame_table, e.spte = a)) ∧
  (s.frame_table.map fun e => e.spte).Nodup ∧
  (s.frame_table.map fun e => e.frame).Nodup

/-- Every frame table entry points to an allocated supplemental page table entry and to a
page of the user pool that is marked in use. -/
def pool_inv (s : vm) : Prop :=
  ∀ e ∈ s.frame_table,
    e.spte < s.nsptes ∧ e.frame < s.user_pool.bit_cnt ∧ s.user_pool.bits e.frame = true

instance (s : vm) : Decidable (frame_inv s) := by
  unfold frame_inv; infer_instance

instance (s : vm) : Decidable (pool_inv s) := by
  unfold pool_inv; infer_instance

/-- The state between `allocate_frame` and the end of a loader: as `frame_inv` and
`pool_inv`, except that entry `a`, not yet marked loaded, already has its frame table entry,
with the frame `frame`. -/
def pending (a frame : Nat) (s : vm) : Prop :=
  a < s.nsptes ∧ (s.sptes a).loaded = false ∧
  (∃ e ∈ s.frame_table, e.spte = a ∧ e.frame = frame) ∧
  (∀ b, b < s.nsptes → b ≠ a →
    ((s.sptes b).loaded = true ↔ ∃ e ∈ s.frame_table, e.spte = b)) ∧
  (s.frame_table.map fun e => e.spte).Nodup ∧
  (s.frame_table.map fun e => e.frame).Nodup ∧
  pool_inv s

/-- Two states with the same supplemental page table entries, frame table and user pool. -/
def same_tables (s s1 : vm) : Prop :=
  s1.sptes = s.sptes ∧ s1.frame_table = s.frame_table ∧ s1.user_pool = s.user_pool ∧
  s1.nsptes = s.nsptes

/-- The claims' number of pages of a mapping of `n` bytes, `ceil (n / PGSIZE)`. -/
def pages_of (n : Nat) : Nat := (n + PGSIZE - 1) / PGSIZE

/-- The claims' `i`-th entry of a mapping of the `n` bytes of file `f` at address `v` with
map id `id`; `old` is what the memory of the entry held before. -/
def mmap_entry (old : sup_page_table_entry) (v f : Nat) (id : Int) (n i : Nat) :
    sup_page_table_entry :=
  { old with
    user_vaddr := v + i * PGSIZE, type := .MMAP, map_id := id, read_only := false
    loaded := false, file := some f, offset := i * PGSIZE
    read_bytes := min PGSIZE (n - i * PGSIZE)
    zero_bytes := PGSIZE - min PGSIZE (n - i * PGSIZE) }

/-- A supplemental page table entry with every field zero. -/
def spte_zero : sup_page_table_entry :=
  { user_vaddr := 0, type := .FILE, read_only := false, loaded := false, file := none
    offset := 0, read_bytes := 0, zero_bytes := 0, index := 0, map_id := 0 }

/-- Example: thread 0 runs with a user pool of a single page and a swap disk of 24 free
sectors; file handle 0, open as descriptor 2, reads inode 0, which holds 5000 bytes 0xAA;
entry 0 is a read-only FILE page at 0x8048000 with 100 bytes to read, entry 1 a STACK page
at 0xBFFFF000; neither is loaded. -/
def vm_example : vm :=
  { current := 0
    sptes := fun a =>
      if a = 0 then
        { spte_zero with
          user_vaddr := 0x8048000, read_only := true, file := some 0, read_bytes := 100
          zero_bytes := 3996, map_id := -1 }
      else if a = 1 then { spte_zero with user_vaddr := 0xBFFFF000, type := .STACK }
      else spte_zero
    nsptes := 2
    spt := fun t => if t = 0 then [0] else []
    pagedir := fun _ _ => none
    open_files := fun t fd => if t = 0 ∧ fd = 2 then some 0 else none
    map_id := fun _ => 0
    frame_table := []
    user_pool := { bit_cnt := 1, bits := fun _ => false }
    memory := fun _ _ => 0xCC
    swap_table := { bit_cnt := 24, bits := fun _ => false }
    swap_device := fun _ _ => 0
    files := fun _ => { inode := 0, pos := 0 }
    nfiles := 1
    inode_data := fun i => if i = 0 then List.replicate 5000 0xAA else []
    pagedir_can_grow := true }

/-- The state of `vm_example` after the page fault handler has loaded entry 0. -/
def vm_example_loaded : vm :=
  ((load_page 0 vm_example).getD (false, vm_example)).2

/-! ## Victim choice, reloading and swap histories: what the statements use -/

/-- The accessed and dirty bit of a frame table entry's own page table entry: the entry of
the owner thread at the user address of the page. -/
def own_bits (s : vm) (e : frame_table_entry) : Bool × Bool :=
  (pagedir_is_accessed s e.owner (s.sptes e.spte).user_vaddr,
    pagedir_is_dirty s e.owner (s.sptes e.spte).user_vaddr)

/-- The claims' choice of a victim: the position of the first entry, in list order, of the
first non-empty class in the order (not A, not D), (not A, D), (A, not D), (A, D), where
`bits` gives the accessed and dirty bit of an entry. -/
def claimed_victim (bits : frame_table_entry → Bool × Bool) (table : List frame_table_entry) :
    Option Nat :=
  [(false, false), (false, true), (true, false), (true, true)].findSome? fun c =>
    table.findIdx? fun e => bits e == c

/-- Example: thread `owner` has the pages `0x8048000 + i * PGSIZE` loaded, page `i` in frame
`i` with the accessed and dirty bits `bits[i]` in its page table entry; the frame table
holds the entries in this order, the user pool is exhausted, and thread 0 is running. -/
def victim_example (owner : Nat) (bits : List (Bool × Bool)) : vm :=
  { vm_example with
    sptes := fun a =>
      { spte_zero with
        user_vaddr := 0x8048000 + a * PGSIZE, type := .STACK
        loaded := decide (a < bits.length) }
    nsptes := bits.length
    spt := fun t => if t = owner then List.range bits.length else []
    pagedir := fun t va =>
      if t = owner ∧ 0x8048000 ≤ va ∧ va % PGSIZE = 0 then
        (bits.get? ((va - 0x8048000) / PGSIZE)).map fun b =>
          { kpage := (va - 0x8048000) / PGSIZE, writable := true, accessed := b.1
            dirty := b.2 }
      else none
    frame_table := (List.range bits.length).map fun i =>
      { frame := i, owner := owner, spte := i }
    user_pool := { bit_cnt := bits.length, bits := fun i => decide (i < bits.length) } }

/-- What `malloc` can return for a supplemental page table entry: memory that `free` has
filled with 0xCC, so that the pointer `file` is not null and `map_id` is not -1. -/
def spte_garbage : sup_page_table_entry :=
  { user_vaddr := 0xCCCCCCCC, type := .FILE, read_only := true, loaded := true
    file := some 0xCCCCCCCC, offset := 0xCCCCCCCC, read_bytes := 0xCCCCCCCC
    zero_bytes := 0xCCCCCCCC, index := 0xCCCCCCCC, map_id := -858993460 }

/-- The state `vm_example` with the memory `malloc` hands out next holding `spte_garbage`. -/
def vm_garbage : vm :=
  { vm_example with sptes := fun a => if a < 2 then vm_example.sptes a else spte_garbage }

/-- What the claims on reloading look at in entry `a`: its type, whether it is loaded and
read-only, its swap slot, and the writable bit of the page table entry of the running
thread at its address (`none` when the page is not mapped). -/
structure page_observation where
  type : page_type
  loaded : Bool
  read_only : Bool
  index : Nat
  writable : Option Bool
  deriving DecidableEq

def observe_page (a : Nat) (s : vm) : page_observation :=
  { type := (s.sptes a).type
    loaded := (s.sptes a).loaded
    read_only := (s.sptes a).read_only
    index := (s.sptes a).index
    writable := (s.pagedir s.current (s.sptes a).user_vaddr).map fun p => p.writable }

/-- Loads the entries `as` one after the other, as the page fault handler does, and
observes entry `a` after the last; `none` on a panic or when a load fails. -/
def load_all (a : Nat) : List Nat → vm → Option page_observation
  | [], s => some (observe_page a s)
  | b :: rest, s => (load_page b s).bind fun r => if r.1 then load_all a rest r.2 else none

/-- A call of `swap_out` for a frame, or of `swap_in` for a slot and a frame. -/
inductive swap_call where
  | swap_out (frame : Nat)
  | swap_in (index frame : Nat)
  deriving DecidableEq

/-- Runs a sequence of swap calls.  `live` are the slots returned by `swap_out` and not yet
swapped in, `returned` all the slots returned so far.  The result is `none` when `swap_out`
panics (the swap device is full) and when `swap_in` is called for a slot that is not
live. -/
def swap_calls : List swap_call → vm → List Nat → List Nat → Option (vm × List Nat × List Nat)
  | [], s, live, returned => some (s, live, returned)
  | .swap_out frame :: rest, s, live, returned =>
    (swap_out frame s).bind fun r => swap_calls rest r.2 (r.1 :: live) (returned ++ [r.1])
  | .swap_in index frame :: rest, s, live, returned =>
    if index ∈ live then
      (swap_in index frame s).bind fun s1 => swap_calls rest s1 (live.erase index) returned
    else none

/-- The invariant of the swap table along a sequence of swap calls: the live slots are
distinct multiples of `SECTORS_PER_PAGE` that lie inside the bitmap, and the bits set are
exactly those of the sectors of the live slots. -/
def swap_inv (s : vm) (live : List Nat) : Prop :=
  live.Nodup ∧
  (∀ i ∈ live, i % SECTORS_PER_PAGE = 0 ∧ i + SECTORS_PER_PAGE ≤ s.swap_table.bit_cnt) ∧
  (∀ x, s.swap_table.bits x = true ↔ ∃ i ∈ live, i ≤ x ∧ x < i + SECTORS_PER_PAGE)

end VM

/-!
# File system: block cache and indexed inodes

Shallow embedding of `Project 4 - File system/src/filesys/cache.c` and `inode.c`.

* A sector of the file system disk is the function from byte offset to byte; an index block
  is read from it and written to it as 128 little-endian 32-bit words (80x86).  The disk has
  as many sectors as the free map has bits; an access past its end is a kernel panic.
* The block cache is the list of its entries in list order; a `struct cache_entry *` is the
  position of the entry in the list.  In-memory inodes are addressed by the number `malloc`
  gave them; `malloc` is taken to succeed.
* File lengths, offsets and sizes are natural numbers: the `off_t` values of the code are
  taken to be non-negative and below 2^31.
* Uninitialised memory (a local array before it is filled, the padding of a structure) holds
  the values `junk`.
* The locks are left out: every function runs to its end without interleaving.
* A kernel panic is the result `none`.
-/

namespace FS

open Threads (upd UINT_RANGE)
open VM (bitmap bitmap_scan bitmap_scan_and_flip bitmap_set_multiple)

/-! ## Constants -/

/-- Modelled from the spec: `DISK_SECTOR_SIZE` is defined in devices/disk.h, which is not
among the sources; a sector has 512 bytes. -/
def DISK_SECTOR_SIZE : Nat := 512

def DIRECT_BLOCKS : Nat := 12
def NUM_DIRECT_PTRS : Nat := 128
def INODE_MAGIC : Nat := 0x494e4f44

/-- Modelled from the spec: `ROOT_DIR_SECTOR` is defined in filesys/filesys.h, which is not
among the sources; sector 1 holds the root directory. -/
def ROOT_DIR_SECTOR : Nat := 1

/-- The value -1 as a `disk_sector_t`, which `byte_to_sector` returns for "no sector". -/
def NO_SECTOR : Nat := UINT_RANGE - 1

/-! ## Data model (cache.h, inode.c) -/

structure cache_entry where
  accessed : Bool
  dirty : Bool
  access_time : Int
  sector_num : Nat
  payload : Nat → Nat

/-- The in-memory inode `struct inode`, without its list element. -/
structure inode where
  sector : Nat
  open_cnt : Int
  removed : Bool
  deny_write_cnt : Int
  length : Nat
  direct : Nat
  indirect : Nat
  double_indirect : Nat
  isFile : Bool
  parent_sector : Nat
  blocks : Nat → Nat

/-- The state of the file system: the sectors of `filesys_disk`; the free map (a set bit
marks a sector in use); the globals of cache.h; what `timer_ticks ()` returns; the in-memory
inodes by address, the next address `malloc` returns for one, and the list `open_inodes`;
and the content of uninitialised memory. -/
structure fs where
  disk : Nat → Nat → Nat
  free_map : bitmap
  buffer_cache : List cache_entry
  buffer_cache_size : Nat
  ticks : Int
  inodes : Nat → inode
  ninodes : Nat
  open_inodes : List Nat
  junk : Nat → Nat

/-! ## Disk and free map -/

/-- The static buffer `zeros` of `inode_expand`. -/
def zeros : Nat → Nat := fun _ => 0

/-- Modelled from the spec: `disk_write` of devices/disk.c, which is not among the sources:
the sector takes the `DISK_SECTOR_SIZE` bytes of the buffer. -/
def disk_write (sec : Nat) (buffer : Nat → Nat) (s : fs) : Option fs :=
  if sec < s.free_map.bit_cnt then
    some { s with
      disk := upd s.disk sec fun j => if j < DISK_SECTOR_SIZE then buffer j else s.disk sec j }
  else none

/-- Modelled from the spec: `disk_read`, the bytes of the sector. -/
def disk_read (sec : Nat) (s : fs) : Option (Nat → Nat) :=
  if sec < s.free_map.bit_cnt then some (s.disk sec) else none

/-- The 128 words of an index block as they are read from the bytes of a sector. -/
def words_of (sec : Nat → Nat) : Nat → Nat := fun i =>
  sec (4 * i) % 256 + 256 * (sec (4 * i + 1) % 256) + 65536 * (sec (4 * i + 2) % 256)
    + 16777216 * (sec (4 * i + 3) % 256)

/-- The bytes of a sector that holds an array of 32-bit words. -/
def bytes_of (w : Nat → Nat) : Nat → Nat := fun j =>
  w (j / 4) / 256 ^ (j % 4) % 256

/-- Modelled from the spec: `free_map_allocate` of filesys/free-map.c, which is not among the
sources: the first run of `cnt` free sectors is marked in use and its start is stored
through the pointer; `none` is the result `false`.  Writing the free map to its file is
left out. -/
def free_map_allocate (cnt : Nat) (s : fs) : Option (Nat × fs) :=
  (bitmap_scan_and_flip s.free_map 0 cnt false).map fun r => (r.1, { s with free_map := r.2 })

/-- Modelled from the spec: `free_map_release`, which marks the sectors free. -/
def free_map_release (sector cnt : Nat) (s : fs) : fs :=
  { s with free_map := bitmap_set_multiple s.free_map sector cnt false }

/-! ## Block cache (cache.c) -/

/-- The position of the first entry of the cache that holds the sector. -/
def cache_find (sector_num : Nat) : List cache_entry → Option Nat
  | [] => none
  | e :: rest =>
    if e.sector_num = sector_num then some 0
    else (cache_find sector_num rest).map fun i => i + 1

/-- The function `cache_get_sector`: the position of the entry, `none` for `NULL`. -/
def cache_get_sector (sector_num : Nat) (set_dirty : Bool) (s : fs) : Option Nat × fs :=
  match cache_find sector_num s.buffer_cache with
  | none => (none, s)
  | some i =>
    (some i, { s with
      buffer_cache := s.buffer_cache.modify
        (fun ans => { ans with
          accessed := true, access_time := s.ticks, dirty := ans.dirty || set_dirty }) i })

/-- The loop of `victim_sector` over the rest of the list from position `i`, with `ans` the
position of the best entry so far and `min_time` its time. -/
def victim_scan : List cache_entry → Nat → Option Nat → Int → Option Nat
  | [], _, ans, _ => ans
  | temp :: rest, i, ans, min_time =>
    if !temp.accessed then some i
    else if temp.access_time < min_time then victim_scan rest (i + 1) (some i) temp.access_time
    else victim_scan rest (i + 1) ans min_time

/-- The function `victim_sector`; `none` when `ans` is never assigned. -/
def victim_sector (s : fs) : Option Nat :=
  victim_scan s.buffer_cache 0 none 9223372036854775807

/-- The common end of `cache_fetch_sector`: the entry at position `i` is set up for the
sector and filled from the disk. -/
def cache_load (i sector_num : Nat) (set_dirty : Bool) (s : fs) : Option (Nat × fs) :=
  (disk_read sector_num s).map fun data =>
    (i, { s with
      buffer_cache := s.buffer_cache.modify
        (fun entry => { entry with
          accessed := true, dirty := set_dirty, access_time := s.ticks
          sector_num := sector_num, payload := data }) i })

def cache_fetch_sector (sector_num : Nat) (set_dirty : Bool) (s : fs) : Option (Nat × fs) :=
  if s.buffer_cache_size < 64 then
    cache_load s.buffer_cache.length sector_num set_dirty
      { s with
        buffer_cache := s.buffer_cache ++
          [{ accessed := false, dirty := false, access_time := 0, sector_num := 0
             payload := s.junk }]
        buffer_cache_size := s.buffer_cache_size + 1 }
  else
    match victim_sector s with
    | none => none
    | some i =>
      match s.buffer_cache.get? i with
      | none => none
      | some entry =>
        if entry.dirty then
          (disk_write entry.sector_num entry.payload s).bind (cache_load i sector_num set_dirty)
        else cache_load i sector_num set_dirty s

/-- One round of the loop of `free_cache`. -/
def free_entry (r : Option fs) (temp : cache_entry) : Option fs :=
  r.bind fun s => if temp.dirty then disk_write temp.sector_num temp.payload s else some s

def free_cache (s : fs) : Option fs :=
  s.buffer_cache.foldl free_entry (some { s with buffer_cache := [] })

/-- The cache look-up of `inode_read_at` and `inode_write_at`: `cache_get_sector`, then
`cache_fetch_sector` if the sector is not cached. -/
def cache_entry_for (sector_num : Nat) (set_dirty : Bool) (s : fs) : Option (Nat × fs) :=
  match cache_get_sector sector_num set_dirty s with
  | (some i, s1) => some (i, s1)
  | (none, s1) => cache_fetch_sector sector_num set_dirty s1

/-! ## Inodes (inode.c) -/

/-- The function `bytes_to_sectors`, `DIV_ROUND_UP (size, DISK_SECTOR_SIZE)`. -/
def bytes_to_sectors (size : Nat) : Nat :=
  (size + DISK_SECTOR_SIZE - 1) / DISK_SECTOR_SIZE

/-- The function `byte_to_sector`; `NO_SECTOR` is its result -1. -/
def byte_to_sector (ino : inode) (pos : Nat) (s : fs) : Option Nat :=
  if pos < ino.length then
    let idx := pos / DISK_SECTOR_SIZE
    if idx < 12 then some (ino.blocks idx)
    else
      let idx1 := idx - DIRECT_BLOCKS
      if idx1 < 128 then
        (disk_read (ino.blocks 12) s).map fun block => words_of block idx1
      else
        let idx2 := idx1 - NUM_DIRECT_PTRS
        if idx2 < 128 * 128 then
          (disk_read (ino.blocks 13) s).bind fun block_ptrs =>
            (disk_read (words_of block_ptrs (idx2 / 128)) s).map fun block =>
              words_of block (idx2 % 128)
        else some NO_SECTOR
  else some NO_SECTOR

/-- The variables of `inode_expand` while it runs: the file system, the inode it works on
and `extra_sectors`. -/
structure expansion where
  s : fs
  ino : inode
  extra_sectors : Nat

/-- The first loop of `inode_expand`, `while (inode->direct < 12)`, which runs at most 12
rounds.  The result is `some b` when the function returns `b` inside the loop and `none`
when the loop is left. -/
def expand_direct : Nat → expansion → Option (Option Bool × expansion)
  | 0, e => some (none, e)
  | fuel + 1, e =>
    if e.ino.direct < 12 then
      match free_map_allocate 1 e.s with
      | none => some (some false, e)
      | some (sec, s1) =>
        (disk_write sec zeros s1).bind fun s2 =>
          let e1 : expansion :=
            { s := s2
              ino := { e.ino with
                blocks := upd e.ino.blocks e.ino.direct sec, direct := e.ino.direct + 1 }
              extra_sectors := e.extra_sectors - 1 }
          if e1.extra_sectors = 0 then some (some true, e1) else expand_direct fuel e1
    else some (none, e)

/-- The loops `while (inode->indirect < 128)` and `while (index < 128)` of `inode_expand`,
which allocate the data sectors recorded in one index block from entry `index` on and run
at most 128 rounds; they differ in the cursor that `bump` advances (in the first loop
`index` is `inode->indirect`).  The flag is false when the function returns false inside
the loop. -/
def expand_block (bump : inode → inode) :
    Nat → Nat → (Nat → Nat) → expansion → Option (Bool × (Nat → Nat) × expansion)
  | 0, _, block, e => some (true, block, e)
  | fuel + 1, index, block, e =>
    if index < 128 then
      match free_map_allocate 1 e.s with
      | none => some (false, block, e)
      | some (sec, s1) =>
        (disk_write sec zeros s1).bind fun s2 =>
          let e1 : expansion :=
            { s := s2, ino := bump e.ino, extra_sectors := e.extra_sectors - 1 }
          if e1.extra_sectors = 0 then some (true, upd block index sec, e1)
          else expand_block bump fuel (index + 1) (upd block index sec) e1
    else some (true, block, e)

def bump_indirect (ino : inode) : inode :=
  { ino with indirect := ino.indirect + 1 }

def bump_double_indirect (ino : inode) : inode :=
  { ino with double_indirect := ino.double_indirect + 1 }

/-- The block `if (inode->indirect < 128) ...` of `inode_expand`; the result is `some b`
when the function returns `b` in the block. -/
def expand_indirect (e : expansion) : Option (Option Bool × expansion) :=
  if e.ino.indirect < 128 then
    let start : Option (Option ((Nat → Nat) × expansion)) :=
      if e.ino.indirect > 0 then
        (disk_read (e.ino.blocks 12) e.s).map fun sec => some (words_of sec, e)
      else
        match free_map_allocate 1 e.s with
        | none => some none
        | some (sec, s1) =>
          some (some (e.s.junk,
            { e with s := s1, ino := { e.ino with blocks := upd e.ino.blocks 12 sec } }))
    start.bind fun st =>
      match st with
      | none => some (some false, e)
      | some (block, e1) =>
        (expand_block bump_indirect 128 e1.ino.indirect block e1).bind fun r =>
          if r.1 then
            (disk_write (r.2.2.ino.blocks 12) (bytes_of r.2.1) r.2.2.s).map fun s2 =>
              (if r.2.2.extra_sectors = 0 then some true else none, { r.2.2 with s := s2 })
          else some (some false, r.2.2)
  else some (none, e)

/-- The loop `while (inode->double_indirect < 128*128)` of `inode_expand`, which runs at most
128 rounds, one for each second-level index block.  The flag is false when the function
returns false inside the loop. -/
def expand_double_loop :
    Nat → (Nat → Nat) → expansion → Option (Bool × (Nat → Nat) × expansion)
  | 0, block_ptrs, e => some (true, block_ptrs, e)
  | fuel + 1, block_ptrs, e =>
    if e.ino.double_indirect < 128 * 128 then
      let block_index := e.ino.double_indirect / 128
      let start : Option (Option ((Nat → Nat) × (Nat → Nat) × expansion)) :=
        if e.ino.double_indirect % 128 = 0 then
          match free_map_allocate 1 e.s with
          | none => some none
          | some (sec, s1) => some (some (upd block_ptrs block_index sec, e.s.junk,
              { e with s := s1 }))
        else
          (disk_read (block_ptrs block_index) e.s).map fun sec =>
            some (block_ptrs, words_of sec, e)
      start.bind fun st =>
        match st with
        | none => some (false, block_ptrs, e)
        | some (ptrs, block, e1) =>
          (expand_block bump_double_indirect 128 (e1.ino.double_indirect % 128) block e1).bind
            fun r =>
              if r.1 then
                (disk_write (ptrs block_index) (bytes_of r.2.1) r.2.2.s).bind fun s2 =>
                  if r.2.2.extra_sectors = 0 then some (true, ptrs, { r.2.2 with s := s2 })
                  else expand_double_loop fuel ptrs { r.2.2 with s := s2 }
              else some (false, ptrs, r.2.2)
    else some (true, block_ptrs, e)

/-- The block `if (inode->double_indirect < 128*128) ...` of `inode_expand`. -/
def expand_double (e : expansion) : Option (Option Bool × expansion) :=
  if e.ino.double_indirect < 128 * 128 then
    let start : Option (Option ((Nat → Nat) × expansion)) :=
      if e.ino.double_indirect > 0 then
        (disk_read (e.ino.blocks 13) e.s).map fun sec => some (words_of sec, e)
      else
        match free_map_allocate 1 e.s with
        | none => some none
        | some (sec, s1) =>
          some (some (e.s.junk,
            { e with s := s1, ino := { e.ino with blocks := upd e.ino.blocks 13 sec } }))
    start.bind fun st =>
      match st with
      | none => some (some false, e)
      | some (block_ptrs, e1) =>
        (expand_double_loop 128 block_ptrs e1).bind fun r =>
          if r.1 then
            (disk_write (r.2.2.ino.blocks 13) (bytes_of r.2.1) r.2.2.s).map fun s2 =>
              (if r.2.2.extra_sectors = 0 then some true else none, { r.2.2 with s := s2 })
          else some (some false, r.2.2)
  else some (none, e)

/-- The function `inode_expand` on the inode `ino`; the result is the value returned, the
inode as the function leaves it and the file system. -/
def inode_expand (ino : inode) (new_length : Nat) (s : fs) : Option (Bool × inode × fs) :=
  let extra_sectors :=
    (bytes_to_sectors new_length + UINT_RANGE - bytes_to_sectors ino.length) % UINT_RANGE
  if extra_sectors = 0 then some (true, ino, s)
  else
    (expand_direct 12 { s := s, ino := ino, extra_sectors := extra_sectors }).bind fun r1 =>
      match r1.1 with
      | some b => some (b, r1.2.ino, r1.2.s)
      | none =>
        (expand_indirect r1.2).bind fun r2 =>
          match r2.1 with
          | some b => some (b, r2.2.ino, r2.2.s)
          | none =>
            (expand_double r2.2).map fun r3 =>
              match r3.1 with
              | some b => (b, r3.2.ino, r3.2.s)
              | none => (false, r3.2.ino, r3.2.s)

/-- The words of a `struct inode_disk`: `length`, `magic`, `blocks[14]`, the three cursors,
`isFile` with its three bytes of padding, `parent_sector`, and `unused[107]`; `rest` gives
the padding and the unused words. -/
def inode_disk_words (ino : inode) (rest : Nat → Nat) : Nat → Nat := fun i =>
  if i = 0 then ino.length
  else if i = 1 then INODE_MAGIC
  else if i < 16 then ino.blocks (i - 2)
  else if i = 16 then ino.direct
  else if i = 17 then ino.indirect
  else if i = 18 then ino.double_indirect
  else if i = 19 then (if ino.isFile then 1 else 0) + 256 * (rest 19 % 16777216)
  else if i = 20 then ino.parent_sector
  else rest i

/-- The local variable `struct inode inode` of `inode_create` after its four assignments; the
other fields are not initialised. -/
def fresh_inode (s : fs) : inode :=
  { sector := s.junk 0, open_cnt := 0, removed := false, deny_write_cnt := 0
    length := 0, direct := 0, indirect := 0, double_indirect := 0
    isFile := false, parent_sector := s.junk 1, blocks := s.junk }

def inode_create (sector length : Nat) (isFile : Bool) (s : fs) : Option (Bool × fs) :=
  (inode_expand (fresh_inode s) length s).bind fun r =>
    if r.1 then
      (disk_write sector
        (bytes_of (inode_disk_words
          { r.2.1 with length := length, isFile := isFile, parent_sector := ROOT_DIR_SECTOR }
          zeros)) r.2.2).map fun s1 => (true, s1)
    else some (false, r.2.2)

def inode_reopen (i : Nat) (s : fs) : fs :=
  { s with inodes := upd s.inodes i { s.inodes i with open_cnt := (s.inodes i).open_cnt + 1 } }

/-- The function `inode_open`: the address of the in-memory inode. -/
def inode_open (sector : Nat) (s : fs) : Option (Nat × fs) :=
  match s.open_inodes.find? fun i => decide ((s.inodes i).sector = sector) with
  | some i => some (i, inode_reopen i s)
  | none =>
    (disk_read sector s).map fun data =>
      let w := words_of data
      (s.ninodes, { s with
        inodes := upd s.inodes s.ninodes
          { sector := sector, open_cnt := 1, deny_write_cnt := 0, removed := false
            length := w 0, direct := w 16, indirect := w 17, double_indirect := w 18
            isFile := decide (w 19 % 256 ≠ 0), parent_sector := w 20
            blocks := fun k => w (k + 2) }
        ninodes := s.ninodes + 1
        open_inodes := s.ninodes :: s.open_inodes })

def inode_remove (i : Nat) (s : fs) : fs :=
  { s with inodes := upd s.inodes i { s.inodes i with removed := true } }

def inode_length (s : fs) (i : Nat) : Nat :=
  (s.inodes i).length

/-- The release of `n` sectors listed in `block` from entry 0 on (the loops of
`inode_free_resources` call `free_map_release (block[i], 1)` for `i = 0, 1, ...`). -/
def release_entries (block : Nat → Nat) (n : Nat) (s : fs) : fs :=
  (List.range n).foldl (fun s1 i => free_map_release (block i) 1 s1) s

/-- The last loop of `inode_free_resources`, over the second-level index blocks, with the
number of sectors still to release. -/
def release_double (block_ptrs : Nat → Nat) : Nat → Nat → Nat → fs → Option fs
  | 0, _, _, s => some s
  | fuel + 1, block_index, sectors, s =>
    if block_index < 128 ∧ sectors > 0 then
      (disk_read (block_ptrs block_index) s).bind fun data =>
        release_double block_ptrs fuel (block_index + 1) (sectors - min 128 sectors)
          (release_entries (words_of data) (min 128 sectors) s)
    else some s

def inode_free_resources (ino : inode) (s : fs) : Option fs :=
  let sectors := bytes_to_sectors ino.length
  let s1 := release_entries ino.blocks (min DIRECT_BLOCKS sectors) s
  let sectors1 := sectors - min DIRECT_BLOCKS sectors
  if sectors1 > 0 then
    (disk_read (ino.blocks 12) s1).bind fun data =>
      let s2 := release_entries (words_of data) (min 128 sectors1) s1
      let sectors2 := sectors1 - min 128 sectors1
      if sectors2 > 0 then
        (disk_read (ino.blocks 13) s2).bind fun ptrs =>
          release_double (words_of ptrs) 128 0 sectors2 s2
      else some s2
  else some s1

def inode_close (i : Nat) (s : fs) : Option fs :=
  let ino := s.inodes i
  let s1 := { s with inodes := upd s.inodes i { ino with open_cnt := ino.open_cnt - 1 } }
  if ino.open_cnt - 1 = 0 then
    let s2 := { s1 with open_inodes := s1.open_inodes.erase i }
    if ino.removed then
      (inode_free_resources ino s2).map fun s3 => free_map_release ino.sector 1 s3
    else disk_write ino.sector (bytes_of (inode_disk_words ino s.junk)) s2
  else some s1

/-- The number of bytes `inode_read_at` and `inode_write_at` handle in one round,
`chunk_size`, for `size` bytes left at `offset`. -/
def chunk_size (ino : inode) (size offset : Nat) : Int :=
  let sector_ofs : Int := (offset % DISK_SECTOR_SIZE : Nat)
  let inode_left : Int := (ino.length : Int) - offset
  let sector_left : Int := DISK_SECTOR_SIZE - sector_ofs
  let min_left := if inode_left < sector_left then inode_left else sector_left
  if (size : Int) < min_left then size else min_left

/-- The loop of `inode_read_at`; every round reads at least one byte, so it runs at most
`size` rounds.  The result is `bytes_read`, the buffer and the file system. -/
def read_loop (ino : inode) :
    Nat → (Nat → Nat) → Nat → Nat → Nat → fs → Option (Nat × (Nat → Nat) × fs)
  | 0, buffer, _, _, bytes_read, s => some (bytes_read, buffer, s)
  | fuel + 1, buffer, size, offset, bytes_read, s =>
    if size > 0 then
      (byte_to_sector ino offset s).bind fun sector_idx =>
        if sector_idx = NO_SECTOR then some (bytes_read, buffer, s)
        else if chunk_size ino size offset ≤ 0 then some (bytes_read, buffer, s)
        else
          let chunk := (chunk_size ino size offset).toNat
          let sector_ofs := offset % DISK_SECTOR_SIZE
          (cache_entry_for sector_idx false s).bind fun r =>
            (r.2.buffer_cache.get? r.1).bind fun entry =>
              read_loop ino fuel
                (fun k => if bytes_read ≤ k ∧ k < bytes_read + chunk then
                  entry.payload (sector_ofs + (k - bytes_read)) else buffer k)
                (size - chunk) (offset + chunk) (bytes_read + chunk) r.2
    else some (bytes_read, buffer, s)

def inode_read_at (i : Nat) (buffer : Nat → Nat) (size offset : Nat) (s : fs) :
    Option (Nat × (Nat → Nat) × fs) :=
  read_loop (s.inodes i) size buffer size offset 0 s

/-- The loop of `inode_write_at`. -/
def write_loop (ino : inode) (buffer : Nat → Nat) :
    Nat → Nat → Nat → Nat → fs → Option (Nat × fs)
  | 0, _, _, bytes_written, s => some (bytes_written, s)
  | fuel + 1, size, offset, bytes_written, s =>
    if size > 0 then
      (byte_to_sector ino offset s).bind fun sector_idx =>
        if chunk_size ino size offset ≤ 0 then some (bytes_written, s)
        else
          let chunk := (chunk_size ino size offset).toNat
          let sector_ofs := offset % DISK_SECTOR_SIZE
          (cache_entry_for sector_idx true s).bind fun r =>
            write_loop ino buffer fuel (size - chunk) (offset + chunk) (bytes_written + chunk)
              { r.2 with
                buffer_cache := r.2.buffer_cache.modify
                  (fun entry => { entry with
                    payload := fun j => if sector_ofs ≤ j ∧ j < sector_ofs + chunk then
                      buffer (bytes_written + (j - sector_ofs)) else entry.payload j }) r.1 }
    else some (bytes_written, s)

def inode_write_at (i : Nat) (buffer : Nat → Nat) (size offset : Nat) (s : fs) :
    Option (Nat × fs) :=
  if (s.inodes i).deny_write_cnt ≠ 0 then some (0, s)
  else
    let grown : Option fs :=
      if offset + size > inode_length s i then
        (inode_expand (s.inodes i) (offset + size) s).map fun r =>
          { r.2.2 with
            inodes := upd r.2.2.inodes i
              (if r.1 then { r.2.1 with length := offset + size } else r.2.1) }
      else some s
    grown.bind fun s1 => write_loop (s1.inodes i) buffer size size offset 0 s1

/-! ## Examples used in the statements -/

/-- An in-memory inode with every field zero. -/
def inode_zero : inode :=
  { sector := 0, open_cnt := 0, removed := false, deny_write_cnt := 0, length := 0
    direct := 0, indirect := 0, double_indirect := 0, isFile := false, parent_sector := 0
    blocks := fun _ => 0 }

/-- A freshly formatted file system on a disk of `n` sectors: sectors 0 and 1 (free map and
root directory) are in use, the disk holds zeros, the cache is empty, no inode is open,
and uninitialised memory holds 0xCC. -/
def fs_example (n : Nat) : fs :=
  { disk := fun _ _ => 0
    free_map := { bit_cnt := n, bits := fun i => decide (i < 2) }
    buffer_cache := []
    buffer_cache_size := 0
    ticks := 0
    inodes := fun _ => inode_zero
    ninodes := 0
    open_inodes := []
    junk := fun _ => 0xCC }

/-- The sectors marked in use in the free map. -/
def used (s : fs) : List Nat :=
  (List.range s.free_map.bit_cnt).filter fun i => s.free_map.bits i

/-- The steps of `filesys_create` that allocate: `free_map_allocate (1, &inode_sector)`
followed by `inode_create (inode_sector, length, true)`; the result is the inode sector. -/
def create_file (length : Nat) (s : fs) : Option (Nat × fs) :=
  (free_map_allocate 1 s).bind fun r =>
    (inode_create r.1 length true r.2).bind fun c =>
      if c.1 then some (r.1, c.2) else none

/-- The bytes `0 .. n - 1` of a buffer or sector. -/
def bytes (buffer : Nat → Nat) (n : Nat) : List Nat :=
  (List.range n).map buffer

/-- What the scenario `stale_cache` observes: the data sector of the first file, the sectors
in use after its removal, the data sector of the second file, the bytes of that sector on
the disk after `inode_create`, the number of bytes read and the bytes read. -/
structure stale_observation where
  first_sector : Nat
  used_after_remove : List Nat
  second_sector : Nat
  on_disk : List Nat
  bytes_read : Nat
  data : List Nat
deriving DecidableEq

/-- Scenario: on a fresh file system a file is created empty, 512 bytes 0xAA are written to
it, and it is removed and closed; then a file of `length` bytes is created, opened, `size`
bytes `fill` are written at `offset` when `size > 0`, and 512 bytes are read from offset
0. -/
def stale_cache (length size offset fill : Nat) : Option stale_observation :=
  (create_file 0 (fs_example 64)).bind fun r1 =>
  (inode_open r1.1 r1.2).bind fun o1 =>
  (inode_write_at o1.1 (fun _ => 0xAA) 512 0 o1.2).bind fun w1 =>
  (inode_close o1.1 (inode_remove o1.1 w1.2)).bind fun s3 =>
  (create_file length s3).bind fun r2 =>
  (inode_open r2.1 r2.2).bind fun o2 =>
  (inode_write_at o2.1 (fun _ => fill) size offset o2.2).bind fun w2 =>
  (inode_read_at o2.1 (fun _ => 7) 512 0 w2.2).map fun rd =>
    { first_sector := (w1.2.inodes o1.1).blocks 0
      used_after_remove := used s3
      second_sector := (w2.2.inodes o2.1).blocks 0
      on_disk := bytes (w2.2.disk ((w2.2.inodes o2.1).blocks 0)) 512
      bytes_read := rd.1
      data := bytes rd.2.1 512 }

/-- What the scenario `create_remove` observes: the sectors in use before the file is
created, after it is created, and after it is removed and closed. -/
structure release_observation where
  used_before : List Nat
  used_created : List Nat
  used_after : List Nat
deriving DecidableEq

/-- Scenario: on a fresh file system of `n` sectors a file of `length` bytes is created,
opened, removed and closed. -/
def create_remove (n length : Nat) : Option release_observation :=
  (create_file length (fs_example n)).bind fun r1 =>
  (inode_open r1.1 r1.2).bind fun o1 =>
  (inode_close o1.1 (inode_remove o1.1 o1.2)).map fun s3 =>
    { used_before := used (fs_example n), used_created := used r1.2, used_after := used s3 }

/-- What the scenario `failed_growth` observes after the write: the value returned, the
length and the cursors of the inode, the sectors in use before and after the write, and
entry 0 of the index block at `blocks[12]` on the disk. -/
structure growth_observation where
  written : Nat
  length : Nat
  direct : Nat
  indirect : Nat
  used_before : List Nat
  used_after : List Nat
  index_entry : Nat
deriving DecidableEq

/-- Scenario: on a fresh file system of `n` sectors an empty file is created and opened, and
`size` bytes are written at offset 0. -/
def failed_growth (n size : Nat) : Option growth_observation :=
  (create_file 0 (fs_example n)).bind fun r1 =>
  (inode_open r1.1 r1.2).bind fun o1 =>
  (inode_write_at o1.1 (fun _ => 0xAA) size 0 o1.2).map fun w =>
    { written := w.1
      length := (w.2.inodes o1.1).length
      direct := (w.2.inodes o1.1).direct
      indirect := (w.2.inodes o1.1).indirect
      used_before := used o1.2
      used_after := used w.2
      index_entry := words_of (w.2.disk ((w.2.inodes o1.1).blocks 12)) 0 }

/-- What the scenario `grow_file` observes: the value the write returns, the length after
it, the value the read returns and the bytes read. -/
structure round_trip_observation where
  written : Nat
  length : Nat
  bytes_read : Nat
  data : List Nat
deriving DecidableEq

/-- Scenario: on a fresh file system an empty file is created and opened, 6000 bytes
(byte `k` is `k % 251`) are written at offset 0, and 500 bytes are read at offset 5500. -/
def grow_file : Option round_trip_observation :=
  (create_file 0 (fs_example 64)).bind fun r1 =>
  (inode_open r1.1 r1.2).bind fun o1 =>
  (inode_write_at o1.1 (fun k => k % 251) 6000 0 o1.2).bind fun w =>
  (inode_read_at o1.1 (fun _ => 0) 500 5500 w.2).map fun rd =>
    { written := w.1, length := inode_length w.2 o1.1, bytes_read := rd.1
      data := bytes rd.2.1 500 }

/-- A buffer of 32-bit words that all have the value 5. -/
def words_five : Nat → Nat := fun k => if k % 4 = 0 then 5 else 0

/-- A buffer whose byte `k` is the number of the 512-byte block it lies in. -/
def block_numbers : Nat → Nat := fun k => k / 512

/-- What the scenario `evicted_index` observes: the sectors in use, the size of the cache
and the sector and dirty flag of its first entry after the first file is removed; then for
the second file `blocks[12]`, the value its write returns, its length, entries 0 and 1 of
the index block on the disk, the sector `byte_to_sector` gives for the first byte of each of
the 14 blocks, the value the read returns, and the first byte read of each block. -/
structure eviction_observation where
  used_after_remove : List Nat
  cache_size : Nat
  first_entry_sector : Option Nat
  first_entry_dirty : Option Bool
  index_sector : Nat
  written : Nat
  length : Nat
  index_entries : List Nat
  sectors : List (Option Nat)
  bytes_read : Nat
  data : List Nat
deriving DecidableEq

/-- Scenario: on a fresh file system of 100 sectors a file of 76 sectors is created and
opened, its sectors 12 to 75 are written with `words_five` (64 sectors, which fill the
cache), and it is removed and closed.  Then an empty file is created and opened, 14 sectors
`block_numbers` are written to it at offset 0 and read back from offset 0. -/
def evicted_index : Option eviction_observation :=
  (create_file (76 * 512) (fs_example 100)).bind fun r1 =>
  (inode_open r1.1 r1.2).bind fun o1 =>
  (inode_write_at o1.1 words_five (64 * 512) (12 * 512) o1.2).bind fun w1 =>
  (inode_close o1.1 (inode_remove o1.1 w1.2)).bind fun s3 =>
  (create_file 0 s3).bind fun r2 =>
  (inode_open r2.1 r2.2).bind fun o2 =>
  (inode_write_at o2.1 block_numbers (14 * 512) 0 o2.2).bind fun w2 =>
  (inode_read_at o2.1 (fun _ => 0) (14 * 512) 0 w2.2).map fun rd =>
    { used_after_remove := used s3
      cache_size := s3.buffer_cache_size
      first_entry_sector := s3.buffer_cache.head?.map fun e => e.sector_num
      first_entry_dirty := s3.buffer_cache.head?.map fun e => e.dirty
      index_sector := (w2.2.inodes o2.1).blocks 12
      written := w2.1
      length := inode_length w2.2 o2.1
      index_entries := (List.range 2).map (words_of (w2.2.disk ((w2.2.inodes o2.1).blocks 12)))
      sectors := (List.range 14).map fun i => byte_to_sector (w2.2.inodes o2.1) (512 * i) w2.2
      bytes_read := rd.1
      data := (List.range 14).map fun i => rd.2.1 (512 * i) }

/-! ## Inode accessors (inode.c) -/

def inode_get_inumber (s : fs) (i : Nat) : Nat :=
  (s.inodes i).sector

def inode_is_file (s : fs) (i : Nat) : Bool :=
  (s.inodes i).isFile

def inode_open_cnt (s : fs) (i : Nat) : Int :=
  (s.inodes i).open_cnt

def inode_parent_sector (s : fs) (i : Nat) : Nat :=
  (s.inodes i).parent_sector

/-- The function `inode_make_parent`; `malloc` succeeds, so the result is true. -/
def inode_make_parent (parent_sector child_sector : Nat) (s : fs) : Option (Bool × fs) :=
  (inode_open child_sector s).bind fun r =>
    (inode_close r.1
      { r.2 with
        inodes := upd r.2.inodes r.1 { r.2.inodes r.1 with parent_sector := parent_sector } }).map
      fun s1 => (true, s1)

/-! ## Directories (directory.h, directory.c)

A C string is the list of its characters, without the terminating NUL.  A
`struct dir_entry` is its 20 bytes: `inode_sector` in bytes 0 to 3, `name` in bytes 4 to 18
and `in_use` in byte 19.  A `struct dir *` is the record itself. -/

def NAME_MAX : Nat := 14

/-- The value of `sizeof (struct dir_entry)`, written `sizeof e` in the code. -/
def sizeof_dir_entry : Nat := 20

structure dir where
  inode : Nat
  pos : Nat
deriving DecidableEq

/-- The field `inode_sector` of a directory entry. -/
def entry_inode_sector (e : Nat → Nat) : Nat :=
  words_of e 0

/-- The field `in_use` of a directory entry. -/
def entry_in_use (e : Nat → Nat) : Bool :=
  decide (e 19 % 256 ≠ 0)

/-- The memory that starts at `e.name`: the 15 bytes of the name, then `in_use`, then
whatever follows the local variable `e`. -/
def entry_name_memory (e : Nat → Nat) (junk : Nat → Nat) : Nat → Nat := fun k =>
  if k < 16 then e (4 + k) else junk (k - 16)

/-- Modelled from the spec: `strcmp (a, b) == 0` of lib/string.c, which is not among the
sources: the characters of `a` and its terminating NUL are found at `b`. -/
def strcmp_eq (a : List Nat) (b : Nat → Nat) : Bool :=
  (List.range (a.length + 1)).all fun k => a.getD k 0 == b k % 256

/-- Modelled from the spec: `strlcpy (dst, src, size)` of lib/string.c, which is not among
the sources: at most `size - 1` characters of `src` are copied and a NUL is put after
them; `dst` starts at byte `first` of the structure. -/
def strlcpy (e : Nat → Nat) (first : Nat) (src : List Nat) (size : Nat) : Nat → Nat := fun k =>
  if size = 0 then e k
  else if first ≤ k ∧ k < first + min src.length (size - 1) then src.getD (k - first) 0
  else if k = first + min src.length (size - 1) then 0
  else e k

/-- The assignment `e.inode_sector = inode_sector`. -/
def set_inode_sector (e : Nat → Nat) (inode_sector : Nat) : Nat → Nat := fun k =>
  if k < 4 then inode_sector / 256 ^ k % 256 else e k

/-- The assignment `e.in_use = b`. -/
def set_in_use (e : Nat → Nat) (b : Bool) : Nat → Nat := fun k =>
  if k = 19 then (if b then 1 else 0) else e k

/-- The string that `strlcpy (name, e.name, NAME_MAX + 1)` stores in `name`. -/
def entry_name (e : Nat → Nat) : List Nat :=
  ((List.range NAME_MAX).map fun k => e (4 + k) % 256).takeWhile fun c => c != 0

def dir_create (sector entry_cnt : Nat) (s : fs) : Option (Bool × fs) :=
  inode_create sector (entry_cnt * sizeof_dir_entry) false s

/-- The function `dir_open` for an inode that is not `NULL`; `calloc` succeeds. -/
def dir_open (inode : Nat) : dir :=
  { inode := inode, pos := 0 }

def dir_open_root (s : fs) : Option (dir × fs) :=
  (inode_open ROOT_DIR_SECTOR s).map fun r => (dir_open r.1, r.2)

def dir_reopen (d : dir) (s : fs) : dir × fs :=
  (dir_open d.inode, inode_reopen d.inode s)

def dir_close (d : dir) (s : fs) : Option fs :=
  inode_close d.inode s

/-- The loop of `lookup`.  A round reads the entry at `ofs`; as the reads do not change the
length of the inode, the loop ends after at most `length / 20 + 1` rounds.  The result is
the entry found and its offset. -/
def lookup_loop (inode : Nat) (name : List Nat) :
    Nat → Nat → (Nat → Nat) → fs → Option (Option ((Nat → Nat) × Nat) × fs)
  | 0, _, _, _ => none
  | fuel + 1, ofs, e, s =>
    (inode_read_at inode e sizeof_dir_entry ofs s).bind fun r =>
      if r.1 = sizeof_dir_entry then
        if entry_in_use r.2.1 && strcmp_eq name (entry_name_memory r.2.1 r.2.2.junk) then
          some (some (r.2.1, ofs), r.2.2)
        else lookup_loop inode name fuel (ofs + sizeof_dir_entry) r.2.1 r.2.2
      else some (none, r.2.2)

def lookup (d : dir) (name : List Nat) (s : fs) : Option (Option ((Nat → Nat) × Nat) × fs) :=
  lookup_loop d.inode name (inode_length s d.inode / sizeof_dir_entry + 1) 0 s.junk s

/-- The function `dir_lookup`; the result is `*inode`, `none` for `NULL`. -/
def dir_lookup (d : dir) (name : List Nat) (s : fs) : Option (Option Nat × fs) :=
  (lookup d name s).bind fun r =>
    match r.1 with
    | some (e, _) => (inode_open (entry_inode_sector e) r.2).map fun o => (some o.1, o.2)
    | none => some (none, r.2)

/-- The loop of `dir_add` that looks for a free slot; the result is `e` and `ofs`. -/
def free_slot_loop (inode : Nat) :
    Nat → Nat → (Nat → Nat) → fs → Option ((Nat → Nat) × Nat × fs)
  | 0, _, _, _ => none
  | fuel + 1, ofs, e, s =>
    (inode_read_at inode e sizeof_dir_entry ofs s).bind fun r =>
      if r.1 = sizeof_dir_entry then
        if !entry_in_use r.2.1 then some (r.2.1, ofs, r.2.2)
        else free_slot_loop inode fuel (ofs + sizeof_dir_entry) r.2.1 r.2.2
      else some (r.2.1, ofs, r.2.2)

def dir_add (d : dir) (name : List Nat) (inode_sector : Nat) (s : fs) : Option (Bool × fs) :=
  if name = [] ∨ name.length > NAME_MAX then some (false, s)
  else
    (lookup d name s).bind fun l =>
      match l.1 with
      | some _ => some (false, l.2)
      | none =>
        (inode_make_parent (inode_get_inumber l.2 d.inode) inode_sector l.2).bind fun p =>
          if !p.1 then some (false, p.2)
          else
            (free_slot_loop d.inode (inode_length p.2 d.inode / sizeof_dir_entry + 1) 0
              p.2.junk p.2).bind fun f =>
              let e := set_inode_sector (strlcpy (set_in_use f.1 true) 4 name (NAME_MAX + 1))
                inode_sector
              (inode_write_at d.inode e sizeof_dir_entry f.2.1 f.2.2).map fun w =>
                (decide (w.1 = sizeof_dir_entry), w.2)

/-- The loop of `dir_is_empty`. -/
def is_empty_loop (inode : Nat) : Nat → Nat → (Nat → Nat) → fs → Option (Bool × fs)
  | 0, _, _, _ => none
  | fuel + 1, pos, e, s =>
    (inode_read_at inode e sizeof_dir_entry pos s).bind fun r =>
      if r.1 = sizeof_dir_entry then
        if entry_in_use r.2.1 then some (false, r.2.2)
        else is_empty_loop inode fuel (pos + sizeof_dir_entry) r.2.1 r.2.2
      else some (true, r.2.2)

def dir_is_empty (inode : Nat) (s : fs) : Option (Bool × fs) :=
  is_empty_loop inode (inode_length s inode / sizeof_dir_entry + 1) 0 s.junk s

/-- The part of `dir_remove` after the inode of the entry `e` at `ofs` is open: the result
is `success`, before the final `inode_close (inode)`. -/
def dir_remove_entry (d : dir) (e : Nat → Nat) (ofs inode : Nat) (s : fs) :
    Option (Bool × fs) :=
  (if !inode_is_file s inode then (dir_is_empty inode s).map fun r => (!r.1, r.2)
   else some (false, s)).bind fun r1 =>
    if r1.1 then some (false, r1.2)
    else if !inode_is_file r1.2 inode && decide (inode_open_cnt r1.2 inode > 1) then
      some (false, r1.2)
    else
      (inode_write_at d.inode (set_in_use e false) sizeof_dir_entry ofs r1.2).map fun w =>
        if w.1 ≠ sizeof_dir_entry then (false, w.2)
        else (true, inode_remove inode w.2)

def dir_remove (d : dir) (name : List Nat) (s : fs) : Option (Bool × fs) :=
  (lookup d name s).bind fun l =>
    match l.1 with
    | none => some (false, l.2)
    | some (e, ofs) =>
      (inode_open (entry_inode_sector e) l.2).bind fun o =>
        (dir_remove_entry d e ofs o.1 o.2).bind fun r =>
          (inode_close o.1 r.2).map fun s1 => (r.1, s1)

/-- The loop of `dir_readdir`; the result is the name stored, `none` when the function
returns false, and the directory with its new position. -/
def readdir_loop : Nat → dir → (Nat → Nat) → fs → Option (Option (List Nat) × dir × fs)
  | 0, _, _, _ => none
  | fuel + 1, d, e, s =>
    (inode_read_at d.inode e sizeof_dir_entry d.pos s).bind fun r =>
      if r.1 = sizeof_dir_entry then
        let d1 : dir := { d with pos := d.pos + sizeof_dir_entry }
        if entry_in_use r.2.1 then some (some (entry_name r.2.1), d1, r.2.2)
        else readdir_loop fuel d1 r.2.1 r.2.2
      else some (none, d, r.2.2)

def dir_readdir (d : dir) (s : fs) : Option (Option (List Nat) × dir × fs) :=
  readdir_loop (inode_length s d.inode / sizeof_dir_entry + 1) d s.junk s

def dir_is_root (d : Option dir) (s : fs) : Bool :=
  match d with
  | none => false
  | some d1 => decide (inode_get_inumber s d1.inode = ROOT_DIR_SECTOR)

/-- The function `dir_get_parent`; the result is `*inode`. -/
def dir_get_parent (d : dir) (s : fs) : Option (Option Nat × fs) :=
  (inode_open (inode_parent_sector s d.inode) s).map fun r => (some r.1, r.2)

/-- Modelled from the spec: the tokens that successive calls of `strtok_r (.., "/", ..)` of
lib/string.c return, which is not among the sources: the maximal runs of characters
other than the delimiter. -/
def strtok_r (delimiter : Nat) : List Nat → List Nat → List (List Nat)
  | [], token => if token = [] then [] else [token]
  | c :: rest, token =>
    if c = delimiter then
      if token = [] then strtok_r delimiter rest [] else token :: strtok_r delimiter rest []
    else strtok_r delimiter rest (token ++ [c])

/-- The characters of a string literal. -/
def chars (text : String) : List Nat :=
  text.toList.map Char.toNat

/-- The loop of `dir_from_path` over the tokens that have a successor.  The result is the
directory, `none` for `NULL`. -/
def path_loop : List (List Nat) → dir → fs → Option (Option dir × fs)
  | [], d, s => some (some d, s)
  | [_], d, s => some (some d, s)
  | token :: next :: rest, d, s =>
    if token ≠ chars "." then
      (if token = chars ".." then (dir_get_parent d s).map fun r => (r.1.isNone, r.2)
       else some (false, s)).bind fun g =>
        if g.1 then some (none, g.2)
        else
          (dir_lookup d token g.2).bind fun l =>
            match l.1 with
            | none => some (none, l.2)
            | some inode =>
              if !inode_is_file l.2 inode then
                (dir_close d l.2).bind fun s1 => path_loop (next :: rest) (dir_open inode) s1
              else
                (inode_close inode l.2).bind fun s1 => path_loop (next :: rest) d s1
    else path_loop (next :: rest) d s

/-- The function `dir_from_path`; `cur_dir` is `thread_current ()->cur_dir`. -/
def dir_from_path (path : List Nat) (cur_dir : Option dir) (s : fs) : Option (Option dir × fs) :=
  (match cur_dir with
   | some c => if path.head? = some 47 then dir_open_root s else some (dir_reopen c s)
   | none => dir_open_root s).bind fun r =>
    path_loop (strtok_r 47 path []) r.1 r.2

def dir_last_dir (path : List Nat) : List Nat :=
  (strtok_r 47 path []).getLastD []

/-! ## File-system operations (filesys.c) -/

/-- The call `dir_close (dir)` for a pointer that may be `NULL`. -/
def dir_close_opt (d : Option dir) (s : fs) : Option fs :=
  match d with
  | none => some s
  | some d1 => dir_close d1 s

/-- The function `filesys_create`. -/
def filesys_create (name : List Nat) (initial_size : Nat) (isFile : Bool) (cur_dir : Option dir)
    (s : fs) : Option (Bool × fs) :=
  (dir_from_path name cur_dir s).bind fun p =>
    let filename := dir_last_dir name
    (if filename ≠ chars "." ∧ filename ≠ chars ".." then
      match p.1 with
      | none => some (false, 0, p.2)
      | some d =>
        match free_map_allocate 1 p.2 with
        | none => some (false, 0, p.2)
        | some (inode_sector, s1) =>
          (inode_create inode_sector initial_size isFile s1).bind fun c =>
            if !c.1 then some (false, inode_sector, c.2)
            else (dir_add d filename inode_sector c.2).map fun a => (a.1, inode_sector, a.2)
     else some (false, 0, p.2)).bind fun r =>
      let s2 := if !r.1 ∧ r.2.1 ≠ 0 then free_map_release r.2.1 1 r.2.2 else r.2.2
      (dir_close_opt p.1 s2).map fun s3 => (r.1, s3)

def filesys_remove (name : List Nat) (cur_dir : Option dir) (s : fs) : Option (Bool × fs) :=
  (dir_from_path name cur_dir s).bind fun p =>
    (match p.1 with
     | none => some (false, p.2)
     | some d => dir_remove d (dir_last_dir name) p.2).bind fun r =>
      (dir_close_opt p.1 r.2).map fun s1 => (r.1, s1)

/-- The function `filesys_chdir`; the result is the value returned and the new
`thread_current ()->cur_dir`. -/
def filesys_chdir (path : List Nat) (cur_dir : Option dir) (s : fs) :
    Option (Bool × Option dir × fs) :=
  (dir_from_path path cur_dir s).bind fun p =>
    let filename := dir_last_dir path
    match p.1 with
    | none => some (false, cur_dir, p.2)
    | some d =>
      if filename = chars ".." then
        (dir_get_parent d p.2).bind fun g =>
          match g.1 with
          | none => some (false, cur_dir, g.2)
          | some inode =>
            (dir_close d g.2).bind fun s1 =>
              (dir_close_opt cur_dir s1).map fun s2 => (true, some (dir_open inode), s2)
      else if (dir_is_root (some d) p.2 && decide (filename.length = 0))
          || decide (filename = chars ".") then
        some (true, some d, p.2)
      else
        (dir_lookup d filename p.2).bind fun l =>
          (dir_close d l.2).bind fun s1 =>
            match l.1 with
            | none => some (false, cur_dir, s1)
            | some inode =>
              (dir_close_opt cur_dir s1).map fun s2 => (true, some (dir_open inode), s2)

/-- The function `do_format` after `free_map_create`. -/
def do_format (s : fs) : Option fs :=
  (dir_create ROOT_DIR_SECTOR 16 s).bind fun r => if r.1 then some r.2 else none

/-! ## System calls on open files (userprog/syscall.c of Project 4)

Only the register `eax` of the interrupt frame is followed, and only the cases
`SYS_FILESIZE`, `SYS_READ`, `SYS_WRITE` and `SYS_TELL` of the switch are embedded. -/

/-- The fields of `struct open_file` that the handler uses; the declaration, in
userprog/process.h of Project 4, is not among the sources. -/
structure open_file where
  isFile : Bool
  file : Nat
  dir : Nat

/-- The system calls embedded; the numbers `SYS_FILESIZE`, ... of syscall-nr.h are not
among the sources. -/
inductive call where
  | SYS_FILESIZE
  | SYS_READ
  | SYS_WRITE
  | SYS_TELL
deriving DecidableEq

/-- What the handler takes from code that is not among the sources: whether
`validate_addr` accepts an address (`is_user_vaddr` and `pagedir_get_page`), and the values
that `file_length`, `file_read`, `file_write` and `file_tell` of filesys/file.c return. -/
structure environment where
  valid : Int → Bool
  file_length : Nat → Int
  file_read : Nat → Int → Int → Int
  file_write : Nat → Int → Int → Int
  file_tell : Nat → Int

/-- The value an `int` takes when it is stored in the `uint32_t` register `eax`. -/
def to_eax (v : Int) : Nat :=
  (v % (UINT_RANGE : Int)).toNat

/-- The look-up `thread_current ()->open_files[fd]` for `2 <= fd && fd < 128`. -/
def in_range (fd : Int) : Bool :=
  decide (2 ≤ fd) && decide (fd < 128)

/-- The function `syscall_handler` for one of the four calls: `esp` is `f->esp`, `sys_stack`
gives the words at `esp`, and the result is the value stored in `f->eax`, or `none` when
`validate_addr` ends the process. -/
def syscall_handler (env : environment) (open_files : Nat → Option open_file) (esp : Int)
    (sys_stack : Nat → Int) (c : call) : Option Nat :=
  if !env.valid esp then none
  else
    match c with
    | call.SYS_FILESIZE =>
      if !env.valid (esp + 4) then none
      else if in_range (sys_stack 1) then
        match open_files (sys_stack 1).toNat with
        | none => some 0
        | some file =>
          if !file.isFile then some 0 else some (to_eax (env.file_length file.file))
      else some 0
    | call.SYS_READ =>
      if !env.valid (esp + 12) then none
      else if !env.valid (sys_stack 2) then none
      else if sys_stack 1 = 0 then some (to_eax (sys_stack 3))
      else if in_range (sys_stack 1) then
        match open_files (sys_stack 1).toNat with
        | none => some 0
        | some file =>
          if !file.isFile then some 0
          else some (to_eax (env.file_read file.file (sys_stack 2) (sys_stack 3)))
      else some 0
    | call.SYS_WRITE =>
      if !env.valid (esp + 12) then none
      else if !env.valid (sys_stack 2) then none
      else if sys_stack 1 = 1 then some (to_eax (sys_stack 3))
      else if in_range (sys_stack 1) then
        match open_files (sys_stack 1).toNat with
        | none => some 0
        | some file =>
          if !file.isFile then some (to_eax (-1))
          else some (to_eax (env.file_write file.file (sys_stack 2) (sys_stack 3)))
      else some 0
    | call.SYS_TELL =>
      if !env.valid (esp + 4) then none
      else if in_range (sys_stack 1) then
        match open_files (sys_stack 1).toNat with
        | none => some (to_eax (-1))
        | some file =>
          if !file.isFile then some (to_eax (-1)) else some (to_eax (env.file_tell file.file))
      else some (to_eax (-1))

/-- The descriptor has no open-file entry: it is outside `[2, 128)` or its slot is `NULL`. -/
def fd_missing (open_files : Nat → Option open_file) (fd : Int) : Prop :=
  in_range fd = false ∨ open_files fd.toNat = none

/-- The descriptor denotes a directory. -/
def fd_directory (open_files : Nat → Option open_file) (fd : Int) : Prop :=
  in_range fd = true ∧ ∃ file, open_files fd.toNat = some file ∧ file.isFile = false

/-- An environment that accepts every address and in which the file operations return 7. -/
def environment_example : environment :=
  { valid := fun _ => true, file_length := fun _ => 7, file_read := fun _ _ _ => 7
    file_write := fun _ _ _ => 7, file_tell := fun _ => 7 }

/-- A table of open files with a regular file at descriptor 2 and a directory at 3. -/
def open_files_example : Nat → Option open_file := fun fd =>
  if fd = 2 then some { isFile := true, file := 0, dir := 0 }
  else if fd = 3 then some { isFile := false, file := 1, dir := 1 }
  else none

/-- The words of a system call with descriptor `fd`, a buffer at address 4096 and size 10. -/
def stack_example (fd : Int) : Nat → Int := fun k =>
  if k = 1 then fd else if k = 2 then 4096 else if k = 3 then 10 else 0

/-! ## Examples with directories -/

/-- Scenario: a file system of 64 sectors is formatted; the directories `/a` and `/b` and
the file `/f` are created (inode sectors 3, 4 and 5; the root directory has its inode in
sector 1 and its entries in sector 2), and the current directory is changed to `/a`.  The
result is the current directory and the file system. -/
def tree_example : Option (Option dir × fs) :=
  (do_format (fs_example 64)).bind fun s0 =>
  (filesys_create (chars "/a") 0 false none s0).bind fun r1 =>
  (filesys_create (chars "/b") 0 false none r1.2).bind fun r2 =>
  (filesys_create (chars "/f") 0 true none r2.2).bind fun r3 =>
  (filesys_chdir (chars "/a") none r3.2).map fun r4 => r4.2

/-- The inode sector of the directory that `dir_from_path` returns for `path` in
`tree_example`; `some none` when it returns `NULL`. -/
def resolve (path : String) : Option (Option Nat) :=
  tree_example.bind fun t =>
    (dir_from_path (chars path) t.1 t.2).map fun r =>
      r.1.map fun d => inode_get_inumber r.2 d.inode

/-- The inode sector and the parent sector of the current directory of `tree_example`. -/
def current_example : Option (Option (Nat × Nat)) :=
  tree_example.map fun t =>
    t.1.map fun d => (inode_get_inumber t.2 d.inode, inode_parent_sector t.2 d.inode)

/-- A file system in which the inode of sector 2 is open once, at address 0: on a fresh
file system an empty file is created and opened. -/
def open_example : fs :=
  (((create_file 0 (fs_example 64)).bind fun r => inode_open r.1 r.2).map fun o => o.2).getD
    (fs_example 64)

/-- A file system whose cache is full: on a fresh file system of 100 sectors a file of 76
sectors is created and opened, and its sectors 12 to 75 are written (64 dirty entries, for
the disk sectors 16 to 79). -/
def full_cache_example : fs :=
  (((create_file (76 * 512) (fs_example 100)).bind fun r =>
    (inode_open r.1 r.2).bind fun o =>
      inode_write_at o.1 words_five (64 * 512) (12 * 512) o.2).map fun w => w.2).getD
    (fs_example 100)

/-- A file system with dirty cache entries: on a fresh file system an empty file is created
and opened, and 1000 bytes 0xAA are written at offset 0 (disk sectors 3 and 4), of
which the first 512 are read again. -/
def dirty_cache_example : fs :=
  (((create_file 0 (fs_example 64)).bind fun r =>
    (inode_open r.1 r.2).bind fun o =>
      (inode_write_at o.1 (fun _ => 0xAA) 1000 0 o.2).bind fun w =>
        inode_read_at o.1 (fun _ => 0) 512 0 w.2).map fun rd => rd.2.2).getD
    (fs_example 64)

/-- The root directory, opened, of a formatted file system of 64 sectors in which the
directories `a` and `b` and the file `c` have been created. -/
def root_example : Option (dir × fs) :=
  (do_format (fs_example 64)).bind fun s0 =>
  (filesys_create (chars "a") 0 false none s0).bind fun r1 =>
  (filesys_create (chars "b") 0 false none r1.2).bind fun r2 =>
  (filesys_create (chars "c") 0 true none r2.2).bind fun r3 =>
  dir_open_root r3.2

/-- The directory of `root_example`. -/
def root_dir : dir :=
  (root_example.map fun r => r.1).getD (dir_open 0)

/-- The file system of `root_example`. -/
def root_fs : fs :=
  (root_example.map fun r => r.2).getD (fs_example 64)

/-! ## Initialisation and invariants -/

def inode_init (s : fs) : fs :=
  { s with open_inodes := [] }

def buffer_cache_init (s : fs) : fs :=
  { s with buffer_cache := [], buffer_cache_size := 0 }

/-- The open-inode list holds inodes that `malloc` has handed out, no two of them for the
same sector. -/
def open_ok (s : fs) : Prop :=
  (∀ i ∈ s.open_inodes, i < s.ninodes) ∧
  (s.open_inodes.map fun i => (s.inodes i).sector).Nodup

instance (s : fs) : Decidable (open_ok s) := by
  unfold open_ok; infer_instance

/-- The largest `int64_t`, the starting value of `min_time` in `victim_sector`. -/
def INT64_MAX : Int := 9223372036854775807

/-- The cache as `cache_get_sector` and `cache_fetch_sector` keep it: the counter is the
number of entries, which is at most 64; every entry has been accessed, at a time below the
largest `int64_t`, and holds a sector of the disk. -/
def cache_inv (s : fs) : Prop :=
  s.buffer_cache_size = s.buffer_cache.length ∧ s.buffer_cache.length ≤ 64 ∧
  s.ticks < INT64_MAX ∧
  ∀ e ∈ s.buffer_cache,
    e.accessed = true ∧ e.access_time < INT64_MAX ∧ e.sector_num < s.free_map.bit_cnt

instance (s : fs) : Decidable (cache_inv s) := by
  unfold cache_inv; infer_instance

/-- No two entries of the cache hold the same sector. -/
def cache_distinct (s : fs) : Prop :=
  (s.buffer_cache.map fun e => e.sector_num).Nodup

instance (s : fs) : Decidable (cache_distinct s) := by
  unfold cache_distinct; infer_instance

/-! ## The sectors of an inode and the bytes of its file

The predicates of this section describe a file whose sectors are laid out as
`inode_expand` leaves them and for which the cache holds nothing stale; the statements
about directories are made for such files. -/

/-- The number of sectors, data and index, of an inode with `n` data sectors. -/
def owned_count (n : Nat) : Nat :=
  if n ≤ 12 then n else if n ≤ 140 then n + 1 else n + 2 + (n - 140 + 127) / 128

/-- The sectors of an inode in the order in which `inode_expand` allocates them: positions 0
to 11 are the direct data sectors, 12 is the index sector `blocks[12]`, 13 to 140 are its
128 data sectors, 141 is the index sector `blocks[13]`, and from 142 on come groups of 129:
a second-level index sector followed by its 128 data sectors. -/
def owned_sector (s : fs) (ino : inode) (p : Nat) : Nat :=
  if p < 12 then ino.blocks p
  else if p = 12 then ino.blocks 12
  else if p < 141 then words_of (s.disk (ino.blocks 12)) (p - 13)
  else if p = 141 then ino.blocks 13
  else if (p - 142) % 129 = 0 then words_of (s.disk (ino.blocks 13)) ((p - 142) / 129)
  else
    words_of (s.disk (words_of (s.disk (ino.blocks 13)) ((p - 142) / 129)))
      ((p - 142) % 129 - 1)

/-- The position of the data sector with index `idx` among the sectors of an inode. -/
def data_position (idx : Nat) : Nat :=
  if idx < 12 then idx else if idx < 140 then idx + 1 else idx + 3 + (idx - 140) / 128

/-- Whether position `p` holds an index sector. -/
def index_position (p : Nat) : Bool :=
  decide (p = 12) || decide (p = 141) || (decide (142 ≤ p) && decide ((p - 142) % 129 = 0))

/-- The bytes the file system holds for a sector: the payload of its cache entry, or the
sector on the disk when it has none. -/
def content (s : fs) (sector_num : Nat) : Nat → Nat :=
  match cache_find sector_num s.buffer_cache with
  | some i =>
    match s.buffer_cache.get? i with
    | some e => e.payload
    | none => s.disk sector_num
  | none => s.disk sector_num

/-- Byte `pos` of the file of an inode, as a read finds it. -/
def file_byte (s : fs) (ino : inode) (pos : Nat) : Nat :=
  content s (owned_sector s ino (data_position (pos / DISK_SECTOR_SIZE)))
    (pos % DISK_SECTOR_SIZE)

/-- Every cache entry for the sector holds the bytes that are on the disk. -/
def synced (s : fs) (x : Nat) : Prop :=
  ∀ e ∈ s.buffer_cache, e.sector_num = x →
    ∀ j, j < DISK_SECTOR_SIZE → e.payload j = s.disk x j

instance (s : fs) (x : Nat) : Decidable (synced s x) := by
  unfold synced; infer_instance

/-- Every clean cache entry for the sector holds the bytes that are on the disk. -/
def coherent (s : fs) (x : Nat) : Prop :=
  ∀ e ∈ s.buffer_cache, e.sector_num = x → e.dirty = false →
    ∀ j, j < DISK_SECTOR_SIZE → e.payload j = s.disk x j

instance (s : fs) (x : Nat) : Decidable (coherent s x) := by
  unfold coherent; infer_instance

/-- The file of the inode can be read and written in place: it has at most 16524 sectors;
the disk has fewer than `2^32 - 1` sectors and holds the sectors of the inode, which are
pairwise different; and the cache agrees with the disk on its index sectors and, in its
clean entries, on its data sectors. -/
def file_ok (s : fs) (ino : inode) : Prop :=
  bytes_to_sectors ino.length ≤ 16524 ∧
  s.free_map.bit_cnt < UINT_RANGE - 1 ∧
  (∀ p, p < owned_count (bytes_to_sectors ino.length) →
    owned_sector s ino p < s.free_map.bit_cnt) ∧
  (∀ p, p < owned_count (bytes_to_sectors ino.length) →
    ∀ q, q < owned_count (bytes_to_sectors ino.length) →
      owned_sector s ino p = owned_sector s ino q → p = q) ∧
  (∀ p, p < owned_count (bytes_to_sectors ino.length) →
    if index_position p = true then synced s (owned_sector s ino p)
    else coherent s (owned_sector s ino p))

instance (s : fs) (ino : inode) : Decidable (file_ok s ino) := by
  unfold file_ok; infer_instance

/-- The file of the inode can grow: the cursors agree with the length, the sectors of the
inode are marked in use in the free map, and the cache holds entries only for sectors in
use and none for an index sector of the inode. -/
def growable (s : fs) (ino : inode) : Prop :=
  ino.direct = min (bytes_to_sectors ino.length) 12 ∧
  ino.indirect = min (bytes_to_sectors ino.length - 12) 128 ∧
  ino.double_indirect = bytes_to_sectors ino.length - 140 ∧
  (∀ p, p < owned_count (bytes_to_sectors ino.length) →
    s.free_map.bits (owned_sector s ino p) = true) ∧
  (∀ e ∈ s.buffer_cache, s.free_map.bits e.sector_num = true ∧
    ∀ p, p < owned_count (bytes_to_sectors ino.length) → index_position p = true →
      owned_sector s ino p ≠ e.sector_num)

instance (s : fs) (ino : inode) : Decidable (growable s ino) := by
  unfold growable; infer_instance

/-- The state `s1` comes from `s` by cache look-ups that load only sectors in `loaded`: the
free map and the inodes are the same, the cache invariants hold, a sector on which the
cache agreed with the disk is unchanged on the disk and still agreed on, and a sector whose
clean entries agreed with the disk holds the same bytes. -/
def reads (loaded : Nat → Prop) (s s1 : fs) : Prop :=
  s1.free_map = s.free_map ∧ s1.inodes = s.inodes ∧ s1.ninodes = s.ninodes ∧
  s1.open_inodes = s.open_inodes ∧ s1.junk = s.junk ∧ s1.ticks = s.ticks ∧
  cache_inv s1 ∧ cache_distinct s1 ∧
  (∀ x, synced s x →
    synced s1 x ∧ ∀ j, j < DISK_SECTOR_SIZE → s1.disk x j = s.disk x j) ∧
  (∀ x, coherent s x →
    coherent s1 x ∧ ∀ j, j < DISK_SECTOR_SIZE → content s1 x j = content s x j) ∧
  (∀ e ∈ s1.buffer_cache,
    (∃ e0 ∈ s.buffer_cache, e0.sector_num = e.sector_num) ∨ loaded e.sector_num)

/-- What a successful `inode_expand` of a well laid out file to `new_length` gives: with
the new length the file is well laid out again and holds its old bytes, and nothing but
the disk, the free map and the block pointers and cursors of the inode has changed. -/
def expand_post (s : fs) (ino : inode) (new_length : Nat) (s1 : fs) (ino1 : inode) : Prop :=
  file_ok s1 { ino1 with length := new_length } ∧
  (∀ pos, pos < ino.length →
    file_byte s1 { ino1 with length := new_length } pos = file_byte s ino pos) ∧
  s1.buffer_cache = s.buffer_cache ∧ s1.buffer_cache_size = s.buffer_cache_size ∧
  s1.ticks = s.ticks ∧ s1.inodes = s.inodes ∧ s1.ninodes = s.ninodes ∧
  s1.open_inodes = s.open_inodes ∧ s1.junk = s.junk ∧
  s1.free_map.bit_cnt = s.free_map.bit_cnt ∧
  ino1.sector = ino.sector ∧ ino1.open_cnt = ino.open_cnt ∧ ino1.removed = ino.removed ∧
  ino1.deny_write_cnt = ino.deny_write_cnt ∧ ino1.length = ino.length ∧
  ino1.isFile = ino.isFile ∧ ino1.parent_sector = ino.parent_sector

/-! ## The entries of a directory -/

/-- The number of whole entries in the file of a directory inode. -/
def slot_count (ino : inode) : Nat :=
  ino.length / sizeof_dir_entry

/-- The bytes of entry `k` of a directory. -/
def entry_at (s : fs) (ino : inode) (k : Nat) : Nat → Nat := fun j =>
  file_byte s ino (sizeof_dir_entry * k + j)

/-- The first number from `k` on and below `n` for which `p` holds. -/
def find_slot (p : Nat → Bool) (k n : Nat) : Option Nat :=
  (List.range' k (n - k)).find? p

/-- The names of the entries in use from entry `k` on, in the order of the entries. -/
def dir_names (s : fs) (ino : inode) (k : Nat) : List (List Nat) :=
  ((List.range' k (slot_count ino - k)).filter fun q => entry_in_use (entry_at s ino q)).map
    fun q => entry_name (entry_at s ino q)

/-- The results of `m` calls of `dir_readdir` in a row: for each call the name stored,
`none` when the call returns false. -/
def enumerate : Nat → dir → fs → Option (List (Option (List Nat)) × dir × fs)
  | 0, d, s => some ([], d, s)
  | m + 1, d, s =>
    (dir_readdir d s).bind fun r =>
      (enumerate m r.2.1 r.2.2).map fun t => (r.1 :: t.1, t.2)

/-- Entry `q` of the directory is in use and has the name `name`, as `lookup` tests it. -/
def entry_matches (s : fs) (ino : inode) (name : List Nat) (q : Nat) : Bool :=
  entry_in_use (entry_at s ino q) &&
    strcmp_eq name (entry_name_memory (entry_at s ino q) s.junk)

/-! ## Directories and inodes next to the cache

The predicates and scenarios of this section serve the statements about `dir_add`,
`dir_lookup` and `dir_remove`. -/

/-- The step from `s` to `s1` keeps the sectors in `kept`: the disk has as many sectors as
before, and a kept sector on which cache and disk agreed is still one, with the same
bytes. -/
def keeps (kept : Nat → Prop) (s s1 : fs) : Prop :=
  s1.free_map.bit_cnt = s.free_map.bit_cnt ∧
  (∀ x, kept x → synced s x →
    synced s1 x ∧ ∀ j, j < DISK_SECTOR_SIZE → s1.disk x j = s.disk x j) ∧
  (∀ x, kept x → coherent s x →
    coherent s1 x ∧ ∀ j, j < DISK_SECTOR_SIZE → content s1 x j = content s x j)

/-- Every inode on the open list has a positive open count. -/
def open_counted (s : fs) : Prop :=
  ∀ i ∈ s.open_inodes, 0 < (s.inodes i).open_cnt

instance (s : fs) : Decidable (open_counted s) := by
  unfold open_counted; infer_instance

/-- The characters of a C string: bytes other than NUL. -/
def c_string (l : List Nat) : Prop :=
  ∀ c ∈ l, 0 < c ∧ c < 256

instance (l : List Nat) : Decidable (c_string l) := by
  unfold c_string; infer_instance

/-- The outcome of `dir_lookup`: the sector of the inode it yields, `none` for a call that
returns false; the whole is `none` when the call does not return. -/
def lookup_result (d : dir) (name : List Nat) (s : fs) : Option (Option Nat) :=
  (dir_lookup d name s).map fun r => r.1.map fun i => inode_get_inumber r.2 i

/-- Whether `inode_open` finds the sector on the open list or on the disk. -/
def can_open (s : fs) (sector : Nat) : Prop :=
  (∃ j ∈ s.open_inodes, (s.inodes j).sector = sector) ∨ sector < s.free_map.bit_cnt

instance (s : fs) (sector : Nat) : Decidable (can_open s sector) := by
  unfold can_open; infer_instance

/-- The inodes `a` and `b` stand for the same file with the same state: they agree in all
fields, of `blocks` in the 14 entries that the structure has. -/
def same_inode (a b : inode) : Prop :=
  a.length = b.length ∧ a.isFile = b.isFile ∧ a.open_cnt = b.open_cnt ∧
  a.removed = b.removed ∧ a.sector = b.sector ∧ a.deny_write_cnt = b.deny_write_cnt ∧
  a.parent_sector = b.parent_sector ∧ ∀ k, k < 14 → a.blocks k = b.blocks k

/-- The inode of sector `sector` as `inode_open` yields it: the one in memory, opened once
more, or the one read from the disk. -/
def opened_inode (s : fs) (sector : Nat) : inode :=
  match inode_open sector s with
  | some r => r.2.inodes r.1
  | none => inode_zero

/-- The function `inode_deny_write`; `none` when its assertion fails. -/
def inode_deny_write (i : Nat) (s : fs) : Option fs :=
  if (s.inodes i).deny_write_cnt + 1 ≤ (s.inodes i).open_cnt then
    some { s with
      inodes := upd s.inodes i
        { s.inodes i with deny_write_cnt := (s.inodes i).deny_write_cnt + 1 } }
  else none

/-- The root directory, opened, of a freshly formatted file system of 64 sectors. -/
def fresh_root_example : Option (dir × fs) :=
  (do_format (fs_example 64)).bind dir_open_root

/-- The directory of `fresh_root_example`. -/
def fresh_dir : dir :=
  (fresh_root_example.map fun r => r.1).getD (dir_open 0)

/-- The file system of `fresh_root_example`. -/
def fresh_fs : fs :=
  (fresh_root_example.map fun r => r.2).getD (fs_example 64)

/-- Scenario: on a formatted file system of 64 sectors the directory `/a` and the file
`/a/f` are created; the results of removing `/a`, then `/a/f`, then `/a` again. -/
def remove_example : Option (Bool × Bool × Bool) :=
  (do_format (fs_example 64)).bind fun s0 =>
  (filesys_create (chars "/a") 0 false none s0).bind fun r1 =>
  (filesys_create (chars "/a/f") 0 true none r1.2).bind fun r2 =>
  (filesys_remove (chars "/a") none r2.2).bind fun r3 =>
  (filesys_remove (chars "/a/f") none r3.2).bind fun r4 =>
  (filesys_remove (chars "/a") none r4.2).map fun r5 => (r3.1, r4.1, r5.1)

/-- The root directory, opened, of a formatted file system of 64 sectors in which the
directory `/a` and the file `/a/f` have been created. -/
def subdir_example : Option (dir × fs) :=
  (do_format (fs_example 64)).bind fun s0 =>
  (filesys_create (chars "/a") 0 false none s0).bind fun r1 =>
  (filesys_create (chars "/a/f") 0 true none r1.2).bind fun r2 =>
  dir_open_root r2.2

/-- The directory of `subdir_example`. -/
def subdir_dir : dir :=
  (subdir_example.map fun r => r.1).getD (dir_open 0)

/-- The file system of `subdir_example`. -/
def subdir_fs : fs :=
  (subdir_example.map fun r => r.2).getD (fs_example 64)

/-- The root directory, opened and with writes to its inode denied by `inode_deny_write`
(as `file_deny_write` does for a directory that a process opens), of a formatted file
system of 64 sectors in which the directory `/a` has been created. -/
def denied_example : Option (dir × fs) :=
  (do_format (fs_example 64)).bind fun s0 =>
  (filesys_create (chars "/a") 0 false none s0).bind fun r1 =>
  (dir_open_root r1.2).bind fun r2 =>
  (inode_deny_write r2.1.inode r2.2).map fun s3 => (r2.1, s3)

/-- The directory of `denied_example`. -/
def denied_dir : dir :=
  (denied_example.map fun r => r.1).getD (dir_open 0)

/-- The file system of `denied_example`. -/
def denied_fs : fs :=
  (denied_example.map fun r => r.2).getD (fs_example 64)

/-! ## The sector look-up and failed creation: what the statements use -/

/-- The index blocks that `byte_to_sector` reads for offset `pos` lie on the disk: none for
an offset past the length or in the first 12 sectors, `blocks[12]` for the next 128 sectors,
`blocks[13]` and the second-level block it names for the 128 * 128 sectors after those. -/
def index_on_disk (ino : inode) (pos : Nat) (s : fs) : Prop :=
  pos < ino.length →
    (12 ≤ pos / 512 → pos / 512 < 140 → ino.blocks 12 < s.free_map.bit_cnt) ∧
    (140 ≤ pos / 512 → pos / 512 < 16524 →
      ino.blocks 13 < s.free_map.bit_cnt ∧
      words_of (s.disk (ino.blocks 13)) ((pos / 512 - 140) / 128) < s.free_map.bit_cnt)

instance (ino : inode) (pos : Nat) (s : fs) : Decidable (index_on_disk ino pos s) := by
  unfold index_on_disk; infer_instance

/-- The claims' sector of offset `pos`: with `idx = pos / 512`, `blocks[idx]` for
`idx < 12`; entry `idx - 12` of the index block stored at `blocks[12]` for
`12 <= idx < 140`; entry `(idx - 140) mod 128` of the index block whose sector is entry
`(idx - 140) / 128` of the block stored at `blocks[13]` for `140 <= idx < 16524`; and the
sentinel -1 for `idx >= 16524` and for `pos >= length`. -/
def claimed_sector (ino : inode) (pos : Nat) (s : fs) : Nat :=
  if pos < ino.length then
    if pos / 512 < 12 then ino.blocks (pos / 512)
    else if pos / 512 < 140 then words_of (s.disk (ino.blocks 12)) (pos / 512 - 12)
    else if pos / 512 < 16524 then
      words_of (s.disk (words_of (s.disk (ino.blocks 13)) ((pos / 512 - 140) / 128)))
        ((pos / 512 - 140) % 128)
    else NO_SECTOR
  else NO_SECTOR

/-- Scenario: a file system of 64 sectors is formatted and the file `a` is created with 1000
bytes (inode sector 3, data sectors 4 and 5; the root directory has sectors 1 and 2); then
`filesys_create` is called for `name` with `initial_size` bytes.  The result is what the
second call returns and the sectors in use before and after it. -/
def create_again (name : String) (initial_size : Nat) : Option (Bool × List Nat × List Nat) :=
  (do_format (fs_example 64)).bind fun s0 =>
  (filesys_create (chars "a") 1000 true none s0).bind fun r1 =>
  (filesys_create (chars name) initial_size true none r1.2).map fun r2 =>
    (r2.1, used r1.2, used r2.2)

end FS

namespace Threads

/-! ## Lemmas -/

theorem insert_ordered_split (ths : Nat → thread) (t : Nat) (xs : List Nat)
    (hs : sorted_by_priority ths xs) :
    ∃ pre post, xs = pre ++ post ∧
      list_insert_ordered (comparePriorities ths) t xs = pre ++ t :: post ∧
      (∀ x ∈ pre, (ths x).priority ≥ (ths t).priority) ∧
      (∀ x ∈ post, (ths x).priority < (ths t).priority) := by
  induction xs with
  | nil => exact ⟨[], [], rfl, rfl, by simp, by simp⟩
  | cons e es ih =>
    have hp := List.pairwise_cons.mp hs
    by_cases hlt : (ths t).priority > (ths e).priority
    · refine ⟨[], e :: es, rfl, ?_, by simp, ?_⟩
      · simp [list_insert_ordered, comparePriorities, hlt]
      · intro x hx
        rcases List.mem_cons.mp hx with rfl | hx
        · exact hlt
        · have := hp.1 x hx
          omega
    · obtain ⟨pre, post, h1, h2, h3, h4⟩ := ih hp.2
      refine ⟨e :: pre, post, by simp [h1], ?_, ?_, h4⟩
      · simp [list_insert_ordered, comparePriorities, hlt, h2]
      · intro x hx
        rcases List.mem_cons.mp hx with rfl | hx
        · omega
        · exact h3 x hx

theorem split_sorted (ths : Nat → thread) (t : Nat) (pre post : List Nat)
    (hs : sorted_by_priority ths (pre ++ post))
    (h3 : ∀ x ∈ pre, (ths x).priority ≥ (ths t).priority)
    (h4 : ∀ x ∈ post, (ths x).priority < (ths t).priority) :
    sorted_by_priority ths (pre ++ t :: post) := by
  unfold sorted_by_priority at *
  rw [List.pairwise_append] at hs ⊢
  refine ⟨hs.1, ?_, ?_⟩
  · rw [List.pairwise_cons]
    exact ⟨fun x hx => le_of_lt (h4 x hx), hs.2.1⟩
  · intro a ha b hb
    rcases List.mem_cons.mp hb with rfl | hb
    · exact h3 a ha
    · exact hs.2.2 a ha b hb

theorem sorted_congr (ths ths2 : Nat → thread) (xs : List Nat)
    (h : ∀ x, (ths2 x).priority = (ths x).priority) :
    sorted_by_priority ths2 xs ↔ sorted_by_priority ths xs := by
  unfold sorted_by_priority
  simp [h]

theorem upd_status_priority (ths : Nat → thread) (t : Nat) (st : thread_status) (x : Nat) :
    (upd ths t { ths t with status := st } x).priority = (ths x).priority := by
  by_cases h : x = t
  · subst h; simp [upd]
  · simp [upd, h]

theorem schedule_priority (s : kernel) (x : Nat) :
    ((schedule s).threads x).priority = (s.threads x).priority := by
  unfold schedule next_thread_to_run
  cases h : s.ready_list <;> simp [h, upd_status_priority]

theorem schedule_cons (s : kernel) (n : Nat) (rest : List Nat) (h : s.ready_list = n :: rest) :
    (schedule s).current = n ∧ (schedule s).ready_list = rest := by
  unfold schedule next_thread_to_run
  simp [h]

theorem thread_yield_insert_priority (s : kernel) (x : Nat) :
    ((thread_yield_insert s).threads x).priority = (s.threads x).priority := by
  unfold thread_yield_insert set_thread
  by_cases h : s.current = s.idle_thread <;> simp [h, upd_status_priority]

theorem thread_yield_insert_ready (s : kernel) (h : s.current ≠ s.idle_thread) :
    (thread_yield_insert s).ready_list =
      list_insert_ordered (comparePriorities s.threads) s.current s.ready_list := by
  unfold thread_yield_insert set_thread
  simp [h]

theorem thread_yield_priority (s : kernel) (x : Nat) :
    ((thread_yield s).threads x).priority = (s.threads x).priority := by
  unfold thread_yield
  rw [schedule_priority, thread_yield_insert_priority]

theorem insert_ordered_ne_nil {α : Type} (less : α → α → Bool) (a : α) (xs : List α) :
    list_insert_ordered less a xs ≠ [] := by
  cases xs with
  | nil => simp [list_insert_ordered]
  | cons e es =>
    unfold list_insert_ordered
    split <;> simp

theorem upd_status_base (ths : Nat → thread) (t : Nat) (st : thread_status) (x : Nat) :
    (upd ths t { ths t with status := st } x).base_priority = (ths x).base_priority := by
  by_cases h : x = t
  · subst h; simp [upd]
  · simp [upd, h]

theorem upd_status_donators (ths : Nat → thread) (t : Nat) (st : thread_status) (x : Nat) :
    (upd ths t { ths t with status := st } x).donators = (ths x).donators := by
  by_cases h : x = t
  · subst h; simp [upd]
  · simp [upd, h]

theorem schedule_base (s : kernel) (x : Nat) :
    ((schedule s).threads x).base_priority = (s.threads x).base_priority := by
  unfold schedule next_thread_to_run
  cases h : s.ready_list <;> simp [h, upd_status_base]

theorem schedule_donators (s : kernel) (x : Nat) :
    ((schedule s).threads x).donators = (s.threads x).donators := by
  unfold schedule next_thread_to_run
  cases h : s.ready_list <;> simp [h, upd_status_donators]

theorem thread_yield_insert_base (s : kernel) (x : Nat) :
    ((thread_yield_insert s).threads x).base_priority = (s.threads x).base_priority := by
  unfold thread_yield_insert set_thread
  by_cases h : s.current = s.idle_thread <;> simp [h, upd_status_base]

theorem thread_yield_insert_donators (s : kernel) (x : Nat) :
    ((thread_yield_insert s).threads x).donators = (s.threads x).donators := by
  unfold thread_yield_insert set_thread
  by_cases h : s.current = s.idle_thread <;> simp [h, upd_status_donators]

theorem thread_yield_base (s : kernel) (x : Nat) :
    ((thread_yield s).threads x).base_priority = (s.threads x).base_priority := by
  unfold thread_yield
  rw [schedule_base, thread_yield_insert_base]

theorem thread_yield_donators (s : kernel) (x : Nat) :
    ((thread_yield s).threads x).donators = (s.threads x).donators := by
  unfold thread_yield
  rw [schedule_donators, thread_yield_insert_donators]

theorem thread_set_priority_cases (p : Int) (s : kernel) :
    thread_set_priority p s
        = set_thread s s.current (set_priority_record p (s.threads s.current)) ∨
    thread_set_priority p s
        = thread_yield (set_thread s s.current (set_priority_record p (s.threads s.current))) := by
  unfold thread_set_priority
  dsimp only
  split
  · exact Or.inl rfl
  · split
    · exact Or.inr rfl
    · exact Or.inl rfl

/-- What `thread_set_priority` leaves in the record of the calling thread. -/
theorem thread_set_priority_current (p : Int) (s : kernel) :
    ((thread_set_priority p s).threads s.current).base_priority = p ∧
    ((thread_set_priority p s).threads s.current).priority =
      (if (s.threads s.current).donators.isEmpty ∨ p > (s.threads s.current).priority then p
       else (s.threads s.current).priority) ∧
    ((thread_set_priority p s).threads s.current).donators = (s.threads s.current).donators := by
  have hrec : (set_priority_record p (s.threads s.current)).base_priority = p ∧
      (set_priority_record p (s.threads s.current)).priority =
        (if (s.threads s.current).donators.isEmpty ∨ p > (s.threads s.current).priority then p
         else (s.threads s.current).priority) ∧
      (set_priority_record p (s.threads s.current)).donators
        = (s.threads s.current).donators := by
    unfold set_priority_record
    by_cases hd : (s.threads s.current).donators.isEmpty = true
    · simp [hd]
    · by_cases hp : p > (s.threads s.current).priority
      · simp [hd, hp]
      · simp [hd, hp]
  rcases thread_set_priority_cases p s with h | h
  · rw [h]
    simpa [set_thread, upd] using hrec
  · rw [h, thread_yield_base, thread_yield_priority, thread_yield_donators]
    simpa [set_thread, upd] using hrec

theorem release_loop_priority (l : Nat) (ds : List Nat) (ths : Nat → thread) (m : Int) (x : Nat) :
    ((release_loop l ds ths m).2.1 x).priority = (ths x).priority ∧
    ((release_loop l ds ths m).2.1 x).base_priority = (ths x).base_priority := by
  induction ds generalizing ths m with
  | nil => simp [release_loop]
  | cons d rest ih =>
    unfold release_loop
    split
    · rw [(ih _ _).1, (ih _ _).2]
      by_cases h : x = d
      · subst h; simp [upd]
      · simp [upd, h]
    · exact ih _ _

theorem release_loop_all (l : Nat) (ds : List Nat) (ths : Nat → thread) (m : Int)
    (hd : ds.Nodup) (hl : ∀ d ∈ ds, (ths d).locked_by = some l) :
    (release_loop l ds ths m).1 = [] ∧ (release_loop l ds ths m).2.2 = m := by
  induction ds generalizing ths with
  | nil => simp [release_loop]
  | cons d rest ih =>
    have hn := List.nodup_cons.mp hd
    unfold release_loop
    rw [if_pos (hl d (List.mem_cons_self d rest))]
    apply ih _ hn.2
    intro e he
    have hne : e ≠ d := fun h => hn.1 (h ▸ he)
    simpa [upd, hne] using hl e (List.mem_cons_of_mem d he)

theorem lock_release_loop_current (l : Nat) (s : kernel) :
    (lock_release_loop l s).1.current = s.current := rfl

theorem lock_release_loop_record (l : Nat) (s : kernel) :
    (((lock_release_loop l s).1.threads s.current).donators
      = (release_loop l (s.threads s.current).donators s.threads (-1)).1) ∧
    (((lock_release_loop l s).1.threads s.current).base_priority
      = (s.threads s.current).base_priority) ∧
    (((lock_release_loop l s).1.threads s.current).priority
      = (s.threads s.current).priority) := by
  have hp := release_loop_priority l (s.threads s.current).donators s.threads (-1) s.current
  simp [lock_release_loop, upd, hp.1, hp.2]

theorem sort_insert_perm {α : Type} (less : α → α → Bool) (x : α) (ys : List α) :
    (sort_insert less x ys).Perm (x :: ys) := by
  induction ys with
  | nil => exact List.Perm.refl _
  | cons y ys ih =>
    unfold sort_insert
    split
    · exact (List.Perm.cons y ih).trans (List.Perm.swap x y ys)
    · exact List.Perm.refl _

theorem list_sort_perm {α : Type} (less : α → α → Bool) (xs : List α) :
    (list_sort less xs).Perm xs := by
  induction xs with
  | nil => exact List.Perm.refl _
  | cons x xs ih =>
    unfold list_sort
    exact (sort_insert_perm less x _).trans (List.Perm.cons x ih)

theorem sort_insert_sorted (ths : Nat → thread) (x : Nat) (ys : List Nat)
    (hs : sorted_by_priority ths ys) :
    sorted_by_priority ths (sort_insert (comparePriorities ths) x ys) := by
  induction ys with
  | nil => simp [sort_insert, sorted_by_priority]
  | cons y ys ih =>
    have hp := List.pairwise_cons.mp hs
    unfold sort_insert
    by_cases hlt : (ths y).priority > (ths x).priority
    · simp only [comparePriorities, hlt, decide_True, if_true]
      unfold sorted_by_priority
      rw [List.pairwise_cons]
      refine ⟨?_, ih hp.2⟩
      intro z hz
      rcases List.mem_cons.mp ((sort_insert_perm _ x ys).subset hz) with rfl | hz
      · exact le_of_lt hlt
      · exact hp.1 z hz
    · simp only [comparePriorities, hlt, decide_False, Bool.false_eq_true, if_false]
      unfold sorted_by_priority
      rw [List.pairwise_cons]
      refine ⟨?_, hs⟩
      intro z hz
      rcases List.mem_cons.mp hz with rfl | hz
      · omega
      · have := hp.1 z hz
        omega

theorem list_sort_sorted (ths : Nat → thread) (xs : List Nat) :
    sorted_by_priority ths (list_sort (comparePriorities ths) xs) := by
  induction xs with
  | nil => simp [list_sort, sorted_by_priority]
  | cons x xs ih =>
    unfold list_sort
    exact sort_insert_sorted ths x _ ih

/-- The front of the sorted waiter list has the greatest priority of all waiters. -/
theorem list_sort_front (ths : Nat → thread) (xs : List Nat) (t : Nat) (rest : List Nat)
    (h : list_sort (comparePriorities ths) xs = t :: rest) :
    ∀ x ∈ xs, (ths x).priority ≤ (ths t).priority := by
  intro x hx
  have hs := list_sort_sorted ths xs
  rw [h] at hs
  have hmem : x ∈ t :: rest := by
    rw [← h]
    exact (list_sort_perm _ xs).symm.subset hx
  rcases List.mem_cons.mp hmem with rfl | hm
  · exact le_refl _
  · exact (List.pairwise_cons.mp hs).1 x hm

theorem mem_insert_ordered {α : Type} (less : α → α → Bool) (a x : α) (xs : List α) :
    x ∈ list_insert_ordered less a xs ↔ x = a ∨ x ∈ xs := by
  induction xs with
  | nil => simp [list_insert_ordered]
  | cons e es ih =>
    unfold list_insert_ordered
    split
    · simp
    · simp [ih]
      tauto

theorem get_set_sema (s : kernel) (r : sema_ref) (sm : semaphore) :
    get_sema (set_sema s r sm) r = sm := by
  cases r <;> simp [get_sema, set_sema, upd]

theorem set_sema_threads (s : kernel) (r : sema_ref) (sm : semaphore) :
    (set_sema s r sm).threads = s.threads ∧ (set_sema s r sm).ready_list = s.ready_list ∧
    (set_sema s r sm).current = s.current := by
  cases r <;> simp [set_sema]

theorem thread_yield_sema (s : kernel) (r : sema_ref) :
    get_sema (thread_yield s) r = get_sema s r := by
  have hl : (thread_yield s).locks = s.locks ∧ (thread_yield s).semas = s.semas := by
    unfold thread_yield schedule next_thread_to_run thread_yield_insert set_thread
    by_cases h : s.current = s.idle_thread
    · cases hr : s.ready_list <;> simp [h, hr]
    · cases hr : list_insert_ordered (comparePriorities s.threads) s.current s.ready_list <;>
        simp [h, hr]
  cases r <;> simp [get_sema, hl.1, hl.2]

/-- A thread of the ready list is, after `thread_yield`, the running thread or still in the
ready list. -/
theorem thread_yield_keeps_ready (s : kernel) (t : Nat) (ht : t ∈ s.ready_list) :
    t = (thread_yield s).current ∨ t ∈ (thread_yield s).ready_list := by
  have hin : t ∈ (thread_yield_insert s).ready_list := by
    unfold thread_yield_insert set_thread
    by_cases h : s.current = s.idle_thread
    · simpa [h] using ht
    · simp only [h, ne_eq, not_false_eq_true, if_true]
      exact (mem_insert_ordered _ _ _ _).mpr (Or.inr ht)
  cases hl : (thread_yield_insert s).ready_list with
  | nil => rw [hl] at hin; cases hin
  | cons n rest =>
    have := schedule_cons (thread_yield_insert s) n rest hl
    unfold thread_yield
    rw [this.1, this.2]
    rw [hl] at hin
    exact List.mem_cons.mp hin

theorem upd_status_cases (ths : Nat → thread) (t : Nat) (st : thread_status) (x : Nat) :
    (upd ths t { ths t with status := st } x).status = st ∨
    (upd ths t { ths t with status := st } x).status = (ths x).status := by
  by_cases h : x = t
  · subst h; left; simp [upd]
  · right; simp [upd, h]

/-- A ready thread is ready or running after `thread_yield`. -/
theorem thread_yield_status (s : kernel) (t : Nat)
    (ht : (s.threads t).status = .THREAD_READY) :
    ((thread_yield s).threads t).status = .THREAD_READY ∨
    ((thread_yield s).threads t).status = .THREAD_RUNNING := by
  have h1 : ((thread_yield_insert s).threads t).status = .THREAD_READY := by
    unfold thread_yield_insert set_thread
    by_cases h : s.current = s.idle_thread
    · simp only [h, ne_eq, not_true_eq_false, if_false]
      rcases upd_status_cases s.threads s.idle_thread .THREAD_READY t with h2 | h2
      · exact h2
      · rw [h2, ht]
    · simp only [h, ne_eq, not_false_eq_true, if_true]
      rcases upd_status_cases s.threads s.current .THREAD_READY t with h2 | h2
      · exact h2
      · rw [h2, ht]
  unfold thread_yield schedule
  rcases upd_status_cases (next_thread_to_run (thread_yield_insert s)).2.threads
    (next_thread_to_run (thread_yield_insert s)).1 .THREAD_RUNNING t with h2 | h2
  · exact Or.inr h2
  · left
    rw [h2]
    unfold next_thread_to_run
    cases (thread_yield_insert s).ready_list <;> exact h1

theorem thread_yield_conds (s : kernel) : (thread_yield s).conds = s.conds := by
  unfold thread_yield schedule next_thread_to_run thread_yield_insert set_thread
  by_cases h : s.current = s.idle_thread
  · cases hr : s.ready_list <;> simp [h, hr]
  · cases hr : list_insert_ordered (comparePriorities s.threads) s.current s.ready_list <;>
      simp [h, hr]

/-- What `sema_up` does on a semaphore with waiting threads, all of them blocked. -/
theorem sema_up_spec (s : kernel) (r : sema_ref)
    (hne : (get_sema s r).waiters ≠ [])
    (hb : ∀ t ∈ (get_sema s r).waiters, (s.threads t).status = .THREAD_BLOCKED) :
    ∃ s1 t rest, sema_up r s = some s1 ∧
      (t :: rest).Perm (get_sema s r).waiters ∧
      (∀ x ∈ (get_sema s r).waiters, (s.threads x).priority ≤ (s.threads t).priority) ∧
      (get_sema s1 r).waiters = rest ∧
      (t = s1.current ∨ t ∈ s1.ready_list) ∧
      ((s1.threads t).status = .THREAD_READY ∨ (s1.threads t).status = .THREAD_RUNNING) ∧
      s1.conds = s.conds := by
  cases hsort : list_sort (comparePriorities s.threads) (get_sema s r).waiters with
  | nil =>
    have hperm := list_sort_perm (comparePriorities s.threads) (get_sema s r).waiters
    rw [hsort] at hperm
    exact absurd (List.Perm.nil_eq hperm).symm hne
  | cons t rest =>
    have hperm := list_sort_perm (comparePriorities s.threads) (get_sema s r).waiters
    rw [hsort] at hperm
    have hmax := list_sort_front s.threads _ t rest hsort
    have htb : (s.threads t).status = .THREAD_BLOCKED :=
      hb t (hperm.subset (List.mem_cons_self t rest))
    -- the state in which the woken thread is unblocked
    let s0 := set_sema (set_sema s r { (get_sema s r) with
        value := ((get_sema s r).value + 1) % UINT_RANGE }) r
      { value := ((get_sema s r).value + 1) % UINT_RANGE, waiters := rest }
    have h0 : s0.threads = s.threads ∧ s0.ready_list = s.ready_list ∧ s0.current = s.current := by
      refine ⟨?_, ?_, ?_⟩
      · rw [(set_sema_threads _ _ _).1, (set_sema_threads _ _ _).1]
      · rw [(set_sema_threads _ _ _).2.1, (set_sema_threads _ _ _).2.1]
      · rw [(set_sema_threads _ _ _).2.2, (set_sema_threads _ _ _).2.2]
    let s2 : kernel := { s0 with
      ready_list := list_insert_ordered (comparePriorities s0.threads) t s0.ready_list
      threads := upd s0.threads t { s0.threads t with status := .THREAD_READY } }
    have hu : thread_unblock t s0 = some s2 := by
      have htb0 : (s0.threads t).status = .THREAD_BLOCKED := by rw [h0.1]; exact htb
      unfold thread_unblock
      rw [if_pos htb0]
    have hsema2 : (get_sema s2 r).waiters = rest := by
      have : get_sema s2 r = get_sema s0 r := by cases r <;> rfl
      rw [this, get_set_sema]
    have hready2 : t ∈ s2.ready_list := (mem_insert_ordered _ _ _ _).mpr (Or.inl rfl)
    have hstat2 : (s2.threads t).status = .THREAD_READY := by simp [s2, upd]
    have hup : sema_up r s = some
        (if (s2.threads t).priority > (s2.threads s2.current).priority then thread_yield s2
         else s2) := by
      unfold sema_up
      simp only [(set_sema_threads _ _ _).1, hsort]
      show Option.map _ (thread_unblock t s0) = _
      rw [hu]
      rfl
    have hconds2 : s2.conds = s.conds := by
      show s0.conds = s.conds
      cases r <;> rfl
    refine ⟨_, t, rest, hup, hperm, hmax, ?_, ?_, ?_, ?_⟩
    · split
      · rw [thread_yield_sema]; exact hsema2
      · exact hsema2
    · split
      · exact thread_yield_keeps_ready s2 t hready2
      · exact Or.inr hready2
    · split
      · exact thread_yield_status s2 t hstat2
      · exact Or.inl hstat2
    · split
      · rw [thread_yield_conds]; exact hconds2
      · exact hconds2

theorem key_ge_some (key : Nat → Option Int) (a b : Nat) (pa pb : Int)
    (ha : key a = some pa) (hb : key b = some pb) : key_ge key a b = true ↔ pa ≥ pb := by
  simp [key_ge, ha, hb]

theorem cond_insert_split (s : kernel) (p : Int) (w : Nat) (ws : List Nat)
    (hs : cond_sorted (front_priority s) ws) :
    ∃ pre post, ws = pre ++ post ∧ cond_insert s p w ws = some (pre ++ w :: post) ∧
      (∀ e ∈ pre, ∃ q, front_priority s e = some q ∧ q ≥ p) ∧
      (∀ e ∈ post, ∃ q, front_priority s e = some q ∧ q < p) := by
  induction ws with
  | nil => exact ⟨[], [], rfl, rfl, by simp, by simp⟩
  | cons e es ih =>
    obtain ⟨q, hq⟩ := Option.isSome_iff_exists.mp (hs.1 e (List.mem_cons_self e es))
    have hp := List.pairwise_cons.mp hs.2
    have hes : cond_sorted (front_priority s) es :=
      ⟨fun x hx => hs.1 x (List.mem_cons_of_mem e hx), hp.2⟩
    by_cases hlt : q < p
    · refine ⟨[], e :: es, rfl, ?_, by simp, ?_⟩
      · simp [cond_insert, hq, hlt]
      · intro x hx
        rcases List.mem_cons.mp hx with rfl | hx
        · exact ⟨q, hq, hlt⟩
        · obtain ⟨qx, hqx⟩ :=
            Option.isSome_iff_exists.mp (hs.1 x (List.mem_cons_of_mem e hx))
          have := (key_ge_some _ _ _ _ _ hq hqx).mp (hp.1 x hx)
          exact ⟨qx, hqx, by omega⟩
    · obtain ⟨pre, post, h1, h2, h3, h4⟩ := ih hes
      refine ⟨e :: pre, post, by simp [h1], ?_, ?_, h4⟩
      · simp [cond_insert, hq, hlt, h2]
      · intro x hx
        rcases List.mem_cons.mp hx with rfl | hx
        · exact ⟨q, hq, by omega⟩
        · exact h3 x hx

/-- Inserting a waiter of priority `p` between the waiters of priority at least `p` and
those below `p` keeps the waiter list sorted. -/
theorem cond_split_sorted (key key1 : Nat → Option Int) (w : Nat) (p : Int)
    (pre post : List Nat) (hs : cond_sorted key (pre ++ post))
    (hw : key1 w = some p) (hk : ∀ e ∈ pre ++ post, key1 e = key e)
    (h3 : ∀ e ∈ pre, ∃ q, key e = some q ∧ q ≥ p)
    (h4 : ∀ e ∈ post, ∃ q, key e = some q ∧ q < p) :
    cond_sorted key1 (pre ++ w :: post) := by
  have hge : ∀ a ∈ pre ++ post, ∀ b ∈ pre ++ post, key_ge key a b = true →
      key_ge key1 a b = true := by
    intro a ha b hb hab
    unfold key_ge at hab ⊢
    rw [hk a ha, hk b hb]
    exact hab
  constructor
  · intro e he
    rcases List.mem_append.mp he with h | h
    · rw [hk e (List.mem_append_left _ h)]
      exact hs.1 e (List.mem_append_left _ h)
    · rcases List.mem_cons.mp h with rfl | h
      · simp [hw]
      · rw [hk e (List.mem_append_right _ h)]
        exact hs.1 e (List.mem_append_right _ h)
  · have hpw := List.pairwise_append.mp hs.2
    rw [List.pairwise_append]
    refine ⟨?_, ?_, ?_⟩
    · exact hpw.1.imp_of_mem fun {a b} ha hb hab =>
        hge a (List.mem_append_left _ ha) b (List.mem_append_left _ hb) hab
    · rw [List.pairwise_cons]
      refine ⟨?_, ?_⟩
      · intro b hb
        obtain ⟨q, hq, hlt⟩ := h4 b hb
        have hb1 : key1 b = some q := by rw [hk b (List.mem_append_right _ hb)]; exact hq
        exact (key_ge_some _ _ _ _ _ hw hb1).mpr (by omega)
      · exact hpw.2.1.imp_of_mem fun {a b} ha hb hab =>
          hge a (List.mem_append_right _ ha) b (List.mem_append_right _ hb) hab
    · intro a ha b hb
      rcases List.mem_cons.mp hb with rfl | hb
      · obtain ⟨q, hq, hge1⟩ := h3 a ha
        have ha1 : key1 a = some q := by rw [hk a (List.mem_append_left _ ha)]; exact hq
        exact (key_ge_some _ _ _ _ _ ha1 hw).mpr hge1
      · exact hge a (List.mem_append_left _ ha) b (List.mem_append_right _ hb)
          (hpw.2.2 a ha b hb)

theorem upd_priority_fields (ths : Nat → thread) (h : Nat) (p : Int) (x : Nat) :
    (upd ths h { ths h with priority := p } x).locked_by = (ths x).locked_by ∧
    (upd ths h { ths h with priority := p } x).donators = (ths x).donators := by
  by_cases hx : x = h
  · subst hx; simp [upd]
  · simp [upd, hx]

/-- The donation loop does not fail when it starts in a set of threads `I` in which every
thread recorded as waiting for a lock waits for a lock whose holder is in `I`; it changes
priorities only, never lowers one, and leaves alone every thread whose priority is at least
the one being passed on. -/
theorem donate_spec (locks : Nat → lock) (I : Nat → Prop) (n temp : Nat) (ths : Nat → thread)
    (hI : I temp)
    (hok : ∀ t k, I t → (ths t).locked_by = some k → ∃ h, (locks k).holder = some h ∧ I h) :
    ∃ ths1, donate locks n temp ths = some ths1 ∧
      (∀ x, (ths1 x).locked_by = (ths x).locked_by ∧ (ths1 x).donators = (ths x).donators) ∧
      (∀ x, (ths x).priority ≤ (ths1 x).priority) ∧
      (∀ x, (ths temp).priority ≤ (ths x).priority → (ths1 x).priority = (ths x).priority) := by
  induction n generalizing temp ths with
  | zero => exact ⟨ths, rfl, fun _ => ⟨rfl, rfl⟩, fun _ => le_refl _, fun _ _ => rfl⟩
  | succ n ih =>
    unfold donate
    cases hl : (ths temp).locked_by with
    | none => exact ⟨ths, rfl, fun _ => ⟨rfl, rfl⟩, fun _ => le_refl _, fun _ _ => rfl⟩
    | some l =>
      dsimp only
      obtain ⟨h, hh, hIh⟩ := hok temp l hI hl
      rw [hh]
      dsimp only
      by_cases hp : (ths temp).priority > (ths h).priority
      · simp only [hp, if_true]
        have hok2 : ∀ t k, I t →
            (upd ths h { ths h with priority := (ths temp).priority } t).locked_by = some k →
            ∃ h, (locks k).holder = some h ∧ I h := by
          intro t k hIt htk
          rw [(upd_priority_fields ths h _ t).1] at htk
          exact hok t k hIt htk
        obtain ⟨ths1, h1, h2, h3, h4⟩ := ih h _ hIh hok2
        have hnew : ∀ x, (ths x).priority
            ≤ (upd ths h { ths h with priority := (ths temp).priority } x).priority := by
          intro x
          by_cases hx : x = h
          · subst hx; simp [upd]; omega
          · simp [upd, hx]
        refine ⟨ths1, h1, ?_, ?_, ?_⟩
        · intro x
          rw [(h2 x).1, (h2 x).2]
          exact upd_priority_fields ths h _ x
        · intro x
          exact le_trans (hnew x) (h3 x)
        · intro x hx
          have hxh : x ≠ h := by
            intro e
            subst e
            omega
          have := h4 x (by simp [upd, hxh]; exact hx)
          simpa [upd, hxh] using this
      · simp only [hp, if_false]
        exact ⟨ths, rfl, fun _ => ⟨rfl, rfl⟩, fun _ => le_refl _, fun _ _ => rfl⟩

/-- After at least one round of the donation loop the holder of the lock `temp` is waiting
for has at least the priority of `temp`. -/
theorem donate_holder (locks : Nat → lock) (I : Nat → Prop) (n temp l h : Nat)
    (ths ths1 : Nat → thread) (hI : I temp)
    (hok : ∀ t k, I t → (ths t).locked_by = some k → ∃ h, (locks k).holder = some h ∧ I h)
    (hl : (ths temp).locked_by = some l) (hh : (locks l).holder = some h)
    (hd : donate locks (n + 1) temp ths = some ths1) :
    (ths1 h).priority ≥ (ths temp).priority := by
  unfold donate at hd
  simp only [hl, hh] at hd
  obtain ⟨h0, hh0, hIh⟩ := hok temp l hI hl
  have he : h0 = h := by rw [hh] at hh0; exact (Option.some.inj hh0).symm
  subst he
  by_cases hp : (ths temp).priority > (ths h0).priority
  · simp only [hp, if_true] at hd
    have hok2 : ∀ t k, I t →
        (upd ths h0 { ths h0 with priority := (ths temp).priority } t).locked_by = some k →
        ∃ h, (locks k).holder = some h ∧ I h := by
      intro t k hIt htk
      rw [(upd_priority_fields ths h0 _ t).1] at htk
      exact hok t k hIt htk
    obtain ⟨ths2, h1, _, h3, _⟩ := donate_spec locks I n h0 _ hIh hok2
    rw [h1] at hd
    cases hd
    have := h3 h0
    simpa [upd] using this
  · simp only [hp, if_false] at hd
    cases hd
    omega

theorem push_fields (s : kernel) (is : List Instr) (x : Nat) :
    ((push s is).threads x).priority = (s.threads x).priority ∧
    ((push s is).threads x).donators = (s.threads x).donators ∧
    ((push s is).threads x).locked_by = (s.threads x).locked_by := by
  unfold push set_thread
  by_cases hx : x = s.current
  · subst hx; simp [upd]
  · simp [upd, hx]

theorem chain_ok_spec (s : kernel) (t k : Nat) (h : chain_ok s t = true)
    (hk : (s.threads t).locked_by = some k) :
    ∃ h, (s.locks k).holder = some h ∧ h ∈ s.all_threads := by
  unfold chain_ok at h
  rw [hk] at h
  dsimp only at h
  cases hh : (s.locks k).holder with
  | none => rw [hh] at h; cases h
  | some x =>
    rw [hh] at h
    exact ⟨x, rfl, of_decide_eq_true h⟩

theorem thread_unblock_sema (t : Nat) (s s1 : kernel) (r : sema_ref)
    (h : thread_unblock t s = some s1) : get_sema s1 r = get_sema s r := by
  unfold thread_unblock at h
  split at h
  · cases h
    cases r <;> rfl
  · cases h

theorem sema_up_value (r : sema_ref) (s s1 : kernel) (h : sema_up r s = some s1) :
    (get_sema s1 r).value = ((get_sema s r).value + 1) % UINT_RANGE := by
  unfold sema_up at h
  dsimp only at h
  split at h
  · cases h
    rw [get_set_sema]
  · rename_i t rest _
    cases hu : thread_unblock t (set_sema (set_sema s r
        { (get_sema s r) with value := ((get_sema s r).value + 1) % UINT_RANGE }) r
        { value := ((get_sema s r).value + 1) % UINT_RANGE, waiters := rest }) with
    | none => rw [hu] at h; cases h
    | some s2 =>
      rw [hu] at h
      have h2 := thread_unblock_sema t _ s2 r hu
      rw [get_set_sema] at h2
      simp only [Option.map_some', Option.some.injEq] at h
      subst h
      split
      · rw [thread_yield_sema, h2]
      · rw [h2]

theorem schedule_sema (s : kernel) (r : sema_ref) : get_sema (schedule s) r = get_sema s r := by
  have hl : (schedule s).locks = s.locks ∧ (schedule s).semas = s.semas := by
    unfold schedule next_thread_to_run
    cases hr : s.ready_list <;> simp [hr]
  cases r <;> simp [get_sema, hl.1, hl.2]

theorem sema_down_value (r : sema_ref) (s : kernel) :
    (get_sema (sema_down r s) r).value
      = if (get_sema s r).value = 0 then 0 else (get_sema s r).value - 1 := by
  unfold sema_down
  dsimp only
  by_cases hv : (get_sema s r).value = 0
  · rw [if_pos hv, if_pos hv]
    unfold thread_block
    rw [schedule_sema]
    have : ∀ (k : kernel) (th : thread), get_sema (set_thread k k.current th) r = get_sema k r := by
      intro k th
      cases r <;> rfl
    rw [this]
    have hp : ∀ (k : kernel) (is : List Instr), get_sema (push k is) r = get_sema k r := by
      intro k is
      cases r <;> rfl
    rw [hp, get_set_sema]
    exact hv
  · rw [if_neg hv, if_neg hv, get_set_sema]

theorem sema_try_down_spec (r : sema_ref) (s : kernel) :
    ((sema_try_down r s).2 = true ↔ (get_sema s r).value > 0) ∧
    ((sema_try_down r s).2 = true →
      (get_sema (sema_try_down r s).1 r).value + 1 = (get_sema s r).value ∧
      (get_sema (sema_try_down r s).1 r).waiters = (get_sema s r).waiters) ∧
    ((sema_try_down r s).2 = false → (sema_try_down r s).1 = s) := by
  unfold sema_try_down
  dsimp only
  by_cases hv : (get_sema s r).value > 0
  · simp only [hv, if_true, true_iff, forall_true_left, get_set_sema]
    refine ⟨trivial, ⟨by omega, trivial⟩, by simp⟩
  · simp [hv]

/-- The counter of a semaphore after a sequence of operations: what it was, plus the ups,
minus the successful downs, minus `UINT_RANGE` for every `sema_up` that wrapped. -/
theorem sema_trace_value (r : sema_ref) (es : List sema_event) (s s1 : kernel)
    (c : sema_counts) (hv : (get_sema s r).value < UINT_RANGE)
    (h : sema_trace r es s = some (s1, c)) :
    (get_sema s1 r).value + c.downs + c.wraps * UINT_RANGE = (get_sema s r).value + c.ups ∧
    (get_sema s1 r).value < UINT_RANGE := by
  induction es generalizing s c with
  | nil =>
    simp only [sema_trace, Option.some.injEq, Prod.mk.injEq] at h
    obtain ⟨h1, h2⟩ := h
    subst h1; subst h2
    exact ⟨by simp, hv⟩
  | cons e es ih =>
    cases e with
    | up =>
      simp only [sema_trace] at h
      cases hu : sema_up r s with
      | none => rw [hu] at h; cases h
      | some s2 =>
        rw [hu] at h
        simp only [Option.some_bind] at h
        cases ht : sema_trace r es s2 with
        | none => rw [ht] at h; cases h
        | some x =>
          rw [ht] at h
          simp only [Option.map_some', Option.some.injEq, Prod.mk.injEq] at h
          obtain ⟨h1, h2⟩ := h
          have hval := sema_up_value r s s2 hu
          have hlt : (get_sema s2 r).value < UINT_RANGE := by
            rw [hval]
            exact Nat.mod_lt _ (by unfold UINT_RANGE; norm_num)
          subst h1; subst h2
          have := ih s2 x.2 hlt (by rw [ht])
          refine ⟨?_, this.2⟩
          have h3 := this.1
          dsimp only
          by_cases hw : (get_sema s r).value + 1 = UINT_RANGE
          · rw [hw, Nat.mod_self] at hval
            rw [if_pos hw]
            rw [hval] at h3
            rw [Nat.add_mul]
            omega
          · rw [if_neg hw, Nat.add_zero]
            rw [Nat.mod_eq_of_lt (by omega)] at hval
            rw [hval] at h3
            omega
    | try_down =>
      simp only [sema_trace] at h
      cases ht : sema_trace r es (sema_try_down r s).1 with
      | none => rw [ht] at h; cases h
      | some x =>
        rw [ht] at h
        simp only [Option.map_some', Option.some.injEq, Prod.mk.injEq] at h
        obtain ⟨h1, h2⟩ := h
        have hspec := sema_try_down_spec r s
        have hlt : (get_sema (sema_try_down r s).1 r).value < UINT_RANGE := by
          cases hb : (sema_try_down r s).2 with
          | true => have := (hspec.2.1 hb).1; omega
          | false => rw [hspec.2.2 hb]; exact hv
        subst h1; subst h2
        have := ih (sema_try_down r s).1 x.2 hlt (by rw [ht])
        refine ⟨?_, this.2⟩
        have h3 := this.1
        dsimp only
        cases hb : (sema_try_down r s).2 with
        | true =>
          have := (hspec.2.1 hb).1
          simp only [if_true]
          omega
        | false =>
          rw [hspec.2.2 hb] at h3
          simp only [Bool.false_eq_true, if_false, Nat.add_zero]
          omega
    | down =>
      simp only [sema_trace] at h
      cases ht : sema_trace r es (sema_down r s) with
      | none => rw [ht] at h; cases h
      | some x =>
        rw [ht] at h
        simp only [Option.map_some', Option.some.injEq, Prod.mk.injEq] at h
        obtain ⟨h1, h2⟩ := h
        have hval := sema_down_value r s
        have hlt : (get_sema (sema_down r s) r).value < UINT_RANGE := by
          rw [hval]
          split <;> omega
        subst h1; subst h2
        have := ih (sema_down r s) x.2 hlt (by rw [ht])
        refine ⟨?_, this.2⟩
        have h3 := this.1
        dsimp only
        by_cases h0 : (get_sema s r).value = 0
        · rw [if_pos h0] at hval ⊢
          rw [hval] at h3
          rw [Nat.add_zero]
          omega
        · rw [if_neg h0] at hval ⊢
          rw [hval] at h3
          omega

/-! ### Fixed-point arithmetic and the MLFQ scheduler -/

theorem int32_of_range (x : Int) (h1 : -2 ^ 31 ≤ x) (h2 : x < 2 ^ 31) : int32 x = x := by
  unfold int32; omega

theorem tdiv_of_nonneg (a b : Int) (ha : 0 ≤ a) (hb : 0 ≤ b) : a.tdiv b = a / b :=
  Int.tdiv_eq_ediv ha hb

theorem tdiv_of_nonpos (a b : Int) (ha : a ≤ 0) (hb : 0 ≤ b) : a.tdiv b = -((-a) / b) := by
  have h : a = -(-a) := by omega
  rw [h, Int.neg_tdiv, Int.tdiv_eq_ediv (by omega) hb]; simp

theorem TOINTNEAREST_eq (x : Int) (h1 : -2 ^ 31 ≤ x - 2 ^ 13) (h2 : x + 2 ^ 13 < 2 ^ 31) :
    TOINTNEAREST x = if 0 ≤ x then (x + 8192) / 16384 else -((8192 - x) / 16384) := by
  unfold TOINTNEAREST F
  have hF : ((2 : Int) ^ 14).tdiv 2 = 8192 := by decide
  rw [hF]
  by_cases hx : 0 ≤ x
  · rw [if_pos hx, if_pos (by omega), int32_of_range _ (by omega) (by omega),
      tdiv_of_nonneg _ _ (by omega) (by norm_num)]
    norm_num
  · rw [if_neg hx, if_neg (by omega), int32_of_range _ (by omega) (by omega),
      tdiv_of_nonpos _ _ (by omega) (by norm_num)]
    norm_num

theorem is_nearest_iff (x k : Int) :
    is_nearest x k = true ↔ k = if 0 ≤ x then (x + 8192) / 16384 else -((8192 - x) / 16384) := by
  unfold is_nearest F
  simp only [Bool.and_eq_true, Bool.or_eq_true, decide_eq_true_eq]
  norm_num
  rcases abs_cases (x - k * 16384) with ⟨h1, h1'⟩ | ⟨h1, h1'⟩ <;>
  rcases abs_cases x with ⟨h2, h2'⟩ | ⟨h2, h2'⟩ <;>
  rcases abs_cases (k * 16384) with ⟨h3, h3'⟩ | ⟨h3, h3'⟩ <;>
  rw [h1, h2, h3] <;> split <;> omega

theorem is_nearest_TOINTNEAREST (x k : Int) (h1 : -2 ^ 31 ≤ x - 2 ^ 13)
    (h2 : x + 2 ^ 13 < 2 ^ 31) : is_nearest x k = true ↔ k = TOINTNEAREST x := by
  rw [is_nearest_iff, TOINTNEAREST_eq x h1 h2]

/-- The fixed-point value that `mlfqs_priority` rounds: nothing wraps for a 32-bit
`recent_cpu` and a `nice` between -20 and 20. -/
theorem mlfqs_priority_eq (recent_cpu nice : Int)
    (hr : -2 ^ 31 ≤ recent_cpu ∧ recent_cpu < 2 ^ 31) (hn : -20 ≤ nice ∧ nice ≤ 20) :
    mlfqs_priority recent_cpu nice
      = clamp_priority (TOINTNEAREST (PRI_MAX * F - recent_cpu.tdiv 4 - 2 * nice * F)) ∧
    -2 ^ 31 ≤ PRI_MAX * F - recent_cpu.tdiv 4 - 2 * nice * F - 2 ^ 13 ∧
    PRI_MAX * F - recent_cpu.tdiv 4 - 2 * nice * F + 2 ^ 13 < 2 ^ 31 := by
  obtain ⟨hr1, hr2⟩ := hr
  obtain ⟨hn1, hn2⟩ := hn
  have hq : -2 ^ 29 ≤ recent_cpu.tdiv 4 ∧ recent_cpu.tdiv 4 < 2 ^ 29 := by
    by_cases h0 : 0 ≤ recent_cpu
    · rw [tdiv_of_nonneg _ _ h0 (by norm_num)]; omega
    · rw [tdiv_of_nonpos _ _ (by omega) (by norm_num)]; omega
  unfold mlfqs_priority TOFIXED DIVXN MULTXN clamp_priority PRI_MAX PRI_MIN F
  generalize recent_cpu.tdiv 4 = q at hq ⊢
  have e1 : int32 (63 * 2 ^ 14) = 63 * 2 ^ 14 := int32_of_range _ (by norm_num) (by norm_num)
  have e2 : int32 (nice * 2 ^ 14) = nice * 2 ^ 14 := int32_of_range _ (by omega) (by omega)
  have e3 : int32 (nice * 2 ^ 14 * 2) = nice * 2 ^ 14 * 2 :=
    int32_of_range _ (by omega) (by omega)
  have e4 : int32 (63 * 2 ^ 14 - q) = 63 * 2 ^ 14 - q := int32_of_range _ (by omega) (by omega)
  have e5 : int32 (63 * 2 ^ 14 - q - nice * 2 ^ 14 * 2) = 63 * 2 ^ 14 - q - nice * 2 ^ 14 * 2 :=
    int32_of_range _ (by omega) (by omega)
  rw [e1, e2, e3, e4, e5]
  have e6 : (63 : Int) * 2 ^ 14 - q - nice * 2 ^ 14 * 2 = 63 * 2 ^ 14 - q - 2 * nice * 2 ^ 14 := by
    ring
  rw [e6]
  refine ⟨?_, by omega, by omega⟩
  dsimp only
  generalize TOINTNEAREST (63 * 2 ^ 14 - q - 2 * nice * 2 ^ 14) = p
  split
  · omega
  · split <;> omega


theorem foldl_upd_apply {β : Type} (f : β → β) (t : Nat) :
    ∀ (l : List Nat) (ths : Nat → β), l.Nodup →
      (l.foldl (fun ths x => upd ths x (f (ths x))) ths) t
        = if t ∈ l then f (ths t) else ths t := by
  intro l
  induction l with
  | nil => intro ths _; simp
  | cons a l ih =>
    intro ths hnd
    rw [List.nodup_cons] at hnd
    rw [List.foldl_cons, ih _ hnd.2]
    by_cases h : t = a
    · subst h; simp [hnd.1, upd]
    · simp [h, upd]

theorem tick_update_priority (ticks a : Int) (temp : thread) (h4 : ticks.tmod 4 = 0) :
    (tick_update ticks a temp).priority = mlfqs_priority temp.recent_cpu temp.nice := by
  unfold tick_update
  simp only [h4, if_true]
  split <;> rfl

/-- The load average `thread_tick` stores stays in a range in which the decay coefficient
has a non-zero divisor. -/
theorem next_load_avg_range (s : kernel) (h0 : 0 ≤ s.load_avg) (h1 : s.load_avg < 2 ^ 29) :
    0 ≤ next_load_avg s ∧ next_load_avg s < 2 ^ 29 + 2 ^ 27 := by
  unfold next_load_avg MULTXY DIVXY F UINT_RANGE
  have e1 : ((59 : Int) * 2 ^ 14).tdiv 60 = 16110 := by decide
  have e2 : ((1 : Int) * 2 ^ 14).tdiv 60 = 273 := by decide
  rw [e1, e2]
  have hn : ready_threads s * 2 ^ 14 % 2 ^ 32 < 2 ^ 32 := Nat.mod_lt _ (by norm_num)
  generalize ready_threads s * 2 ^ 14 % 2 ^ 32 = n at hn ⊢
  rw [tdiv_of_nonneg _ _ (by omega) (by norm_num), tdiv_of_nonneg _ _ (by omega) (by norm_num)]
  have e3 : int32 (16110 * s.load_avg / 2 ^ 14 + 273 * (n : Int) / 2 ^ 14)
      = 16110 * s.load_avg / 2 ^ 14 + 273 * (n : Int) / 2 ^ 14 :=
    int32_of_range _ (by omega) (by omega)
  rw [e3]
  omega

theorem tick_load_avg_range (ticks : Int) (s : kernel) (h0 : 0 ≤ s.load_avg)
    (h1 : s.load_avg < 2 ^ 29) :
    0 ≤ (tick_load_avg ticks s).load_avg ∧ (tick_load_avg ticks s).load_avg < 2 ^ 29 + 2 ^ 27 := by
  unfold tick_load_avg
  split
  · exact next_load_avg_range s h0 h1
  · omega

theorem tick_charge_load_avg (s : kernel) : (tick_charge s).load_avg = s.load_avg := by
  unfold tick_charge; split <;> rfl

theorem thread_tick_some (ticks : Int) (s : kernel) (h0 : 0 ≤ s.load_avg)
    (h1 : s.load_avg < 2 ^ 29) : ∃ s1, thread_tick ticks s = some s1 := by
  unfold thread_tick
  by_cases hm : s.thread_mlfqs = true
  swap
  · exact ⟨s, by simp [hm]⟩
  rw [if_pos hm]
  dsimp only
  have hr := tick_load_avg_range ticks (tick_charge s)
    (by rw [tick_charge_load_avg]; exact h0) (by rw [tick_charge_load_avg]; exact h1)
  generalize (tick_load_avg ticks (tick_charge s)) = s2 at hr ⊢
  have hla : ADDXN (MULTXN s2.load_avg 2) 1 ≠ 0 := by
    unfold ADDXN MULTXN F
    rw [int32_of_range (s2.load_avg * 2) (by omega) (by omega),
      int32_of_range (1 * 2 ^ 14) (by norm_num) (by norm_num),
      int32_of_range _ (by omega) (by omega)]
    omega
  rw [if_neg hla]
  split <;> exact ⟨_, rfl⟩

theorem thread_tick_priority (ticks : Int) (s s1 : kernel) (t : Nat)
    (hm : s.thread_mlfqs = true) (h4 : ticks.tmod 4 = 0) (hnd : s.all_threads.Nodup)
    (ht : t ∈ s.all_threads) (h : thread_tick ticks s = some s1) :
    (s1.threads t).priority = mlfqs_priority (charged s t).recent_cpu (charged s t).nice := by
  unfold thread_tick at h
  rw [if_pos hm] at h
  dsimp only at h
  rw [if_pos (Or.inr h4)] at h
  split at h
  · exact absurd h (by simp)
  · have h1 := (Option.some.inj h).symm
    subst h1
    have hall : (tick_load_avg ticks (tick_charge s)).all_threads = s.all_threads := by
      unfold tick_load_avg tick_charge
      split <;> split <;> rfl
    have hth : (tick_load_avg ticks (tick_charge s)).threads = (tick_charge s).threads := by
      unfold tick_load_avg
      split <;> rfl
    unfold tick_all charged
    dsimp only
    rw [hall, foldl_upd_apply _ _ _ _ hnd, if_pos ht, tick_update_priority _ _ _ h4, hth]

theorem set_nice_cases (nice : Int) (s : kernel) :
    thread_set_nice nice s
        = set_thread s s.current (set_nice_record nice (s.threads s.current)) ∨
    thread_set_nice nice s
        = thread_yield (set_thread s s.current (set_nice_record nice (s.threads s.current))) := by
  unfold thread_set_nice
  dsimp only
  split
  · exact Or.inl rfl
  · split
    · exact Or.inr rfl
    · exact Or.inl rfl

theorem thread_set_nice_current (nice : Int) (s : kernel) :
    ((thread_set_nice nice s).threads s.current).priority
        = mlfqs_priority (s.threads s.current).recent_cpu nice := by
  have hrec : ((set_thread s s.current (set_nice_record nice (s.threads s.current))).threads
      s.current) = set_nice_record nice (s.threads s.current) := by
    simp [set_thread, upd]
  rcases set_nice_cases nice s with h | h
  · rw [h, hrec]; rfl
  · rw [h, thread_yield_priority, hrec]; rfl

theorem init_thread_mlfqs (s : kernel) (p : Int) (th : thread) (hm : s.thread_mlfqs = true)
    (h : init_thread s p = some th) :
    th.priority = mlfqs_priority th.recent_cpu th.nice := by
  unfold init_thread at h
  split at h
  · have h1 := (Option.some.inj h).symm
    subst h1
    simp [hm]
  · exact absurd h (by simp)


theorem blocked_on_congr (locks : Nat → lock) (ths ths1 : Nat → thread)
    (h : ∀ x, (ths1 x).locked_by = (ths x).locked_by) (t : Nat) :
    blocked_on locks ths1 t = blocked_on locks ths t := by
  unfold blocked_on
  rw [h t]

theorem hop_congr (locks : Nat → lock) (ths ths1 : Nat → thread)
    (h : ∀ x, (ths1 x).locked_by = (ths x).locked_by) (k t : Nat) :
    hop locks ths1 k t = hop locks ths k t := by
  induction k generalizing t with
  | zero => rfl
  | succ k ih =>
    unfold hop
    rw [blocked_on_congr locks ths ths1 h t]
    cases blocked_on locks ths t with
    | none => rfl
    | some x => exact ih x

/-- Along a chain on which every thread's holder has at least the thread's priority, every
thread reached has at least the priority of the thread the chain starts from. -/
theorem hop_ordered (locks : Nat → lock) (I : Nat → Prop) (ths : Nat → thread)
    (hord : ∀ t x, I t → blocked_on locks ths t = some x →
      I x ∧ (ths x).priority ≥ (ths t).priority) (k t x : Nat) (hI : I t)
    (hk : hop locks ths k t = some x) : (ths x).priority ≥ (ths t).priority := by
  induction k generalizing t with
  | zero =>
    unfold hop at hk
    cases hk
    exact le_refl _
  | succ k ih =>
    unfold hop at hk
    cases hb : blocked_on locks ths t with
    | none => rw [hb] at hk; cases hk
    | some y =>
      rw [hb] at hk
      obtain ⟨hIy, hy⟩ := hord t y hI hb
      have := ih y hIy hk
      omega

/-- The donation loop, from a state in which every thread of `I` recorded as waiting for a
lock waits for a lock held by a thread of `I`, and every such thread other than `temp` has
at most the priority of that holder: the loop does not fail, changes priorities only, lowers
none, leaves `temp` as it is, brings every thread within `n` hops of `temp` to at least the
priority of `temp`, and changes at most `n` threads, the first of which is the holder `temp`
waits for. -/
theorem donate_hops (locks : Nat → lock) (I : Nat → Prop) (n temp : Nat) (ths : Nat → thread)
    (hI : I temp)
    (hwf : ∀ t k, I t → (ths t).locked_by = some k → ∃ h, (locks k).holder = some h ∧ I h)
    (hord : ∀ t x, I t → t ≠ temp → blocked_on locks ths t = some x →
      (ths x).priority ≥ (ths t).priority) :
    ∃ ths1 modified, donate locks n temp ths = some ths1 ∧
      (∀ x, (ths1 x).locked_by = (ths x).locked_by) ∧
      (∀ x, (ths x).priority ≤ (ths1 x).priority) ∧
      (∀ x, (ths temp).priority ≤ (ths x).priority → (ths1 x).priority = (ths x).priority) ∧
      (∀ k x, 1 ≤ k → k ≤ n → hop locks ths k temp = some x →
        (ths1 x).priority ≥ (ths temp).priority) ∧
      modified.length ≤ n ∧ (∀ x, x ∉ modified → ths1 x = ths x) ∧
      (modified = [] ∨ ∃ h rest, modified = h :: rest ∧ blocked_on locks ths temp = some h) := by
  induction n generalizing temp ths with
  | zero =>
    exact ⟨ths, [], rfl, fun _ => rfl, fun _ => le_refl _, fun _ _ => rfl,
      fun k x h1 h2 => by omega, le_refl _, fun _ _ => rfl, Or.inl rfl⟩
  | succ n ih =>
    unfold donate
    cases hl : (ths temp).locked_by with
    | none =>
      refine ⟨ths, [], rfl, fun _ => rfl, fun _ => le_refl _, fun _ _ => rfl, ?_,
        Nat.zero_le _, fun _ _ => rfl, Or.inl rfl⟩
      intro k x h1 _ hk
      obtain ⟨k1, rfl⟩ : ∃ k1, k = k1 + 1 := ⟨k - 1, by omega⟩
      unfold hop blocked_on at hk
      rw [hl] at hk
      cases hk
    | some l =>
      dsimp only
      obtain ⟨h, hh, hIh⟩ := hwf temp l hI hl
      rw [hh]
      dsimp only
      have hbt : blocked_on locks ths temp = some h := by
        unfold blocked_on
        rw [hl]
        exact hh
      by_cases hp : (ths temp).priority > (ths h).priority
      · rw [if_pos hp]
        have hth : temp ≠ h := by
          intro e
          rw [e] at hp
          omega
        have hlb : ∀ x, (upd ths h { ths h with priority := (ths temp).priority } x).locked_by
            = (ths x).locked_by := fun x => (upd_priority_fields ths h _ x).1
        have hpr : ∀ x, (upd ths h { ths h with priority := (ths temp).priority } x).priority
            = if x = h then (ths temp).priority else (ths x).priority := by
          intro x
          by_cases hx : x = h
          · subst hx; simp [upd]
          · simp [upd, hx]
        obtain ⟨ths1, md, h1, h2, h3, h4, h5, h6, h7, h8⟩ := ih h
          (upd ths h { ths h with priority := (ths temp).priority }) hIh
          (by
            intro t k hIt htk
            rw [hlb] at htk
            exact hwf t k hIt htk)
          (by
            intro t x hIt hne hb
            rw [blocked_on_congr locks ths _ hlb] at hb
            have e1 := hpr x
            have e2 := hpr t
            rw [if_neg hne] at e2
            rw [e1, e2]
            by_cases htt : t = temp
            · rw [htt] at hb ⊢
              rw [hbt] at hb
              have hx : h = x := Option.some.inj hb
              rw [if_pos hx.symm]
            · have := hord t x hIt htt hb
              by_cases hx : x = h
              · rw [if_pos hx]
                rw [hx] at this
                omega
              · rw [if_neg hx]
                exact this)
        have hph : (upd ths h { ths h with priority := (ths temp).priority } h).priority
            = (ths temp).priority := by rw [hpr, if_pos rfl]
        refine ⟨ths1, h :: md, h1, ?_, ?_, ?_, ?_, ?_, ?_, Or.inr ⟨h, md, rfl, hbt⟩⟩
        · intro x
          rw [h2, hlb]
        · intro x
          have := h3 x
          rw [hpr] at this
          split_ifs at this with hx
          · subst hx; omega
          · exact this
        · intro x hx
          have hxh : x ≠ h := by
            intro e
            subst e
            omega
          have := h4 x (by rw [hph, hpr, if_neg hxh]; exact hx)
          rw [this, hpr, if_neg hxh]
        · intro k x hk1 hk2 hk
          obtain ⟨k1, rfl⟩ : ∃ k1, k = k1 + 1 := ⟨k - 1, by omega⟩
          unfold hop at hk
          rw [hbt] at hk
          dsimp only [Option.bind] at hk
          by_cases hz : k1 = 0
          · rw [hz] at hk
            unfold hop at hk
            have hx : h = x := Option.some.inj hk
            have := h3 h
            rw [hph, hx] at this
            exact this
          · have := h5 k1 x (by omega) (by omega)
              (by rw [hop_congr locks ths _ hlb]; exact hk)
            rw [hph] at this
            exact this
        · simp only [List.length_cons]
          omega
        · intro x hx
          rw [List.mem_cons, not_or] at hx
          rw [h7 x hx.2]
          unfold upd
          rw [if_neg hx.1]
      · rw [if_neg hp]
        refine ⟨ths, [], rfl, fun _ => rfl, fun _ => le_refl _, fun _ _ => rfl, ?_,
          Nat.zero_le _, fun _ _ => rfl, Or.inl rfl⟩
        intro k x _ _ hk
        refine hop_ordered locks I ths ?_ k temp x hI hk
        intro t y hIt hb
        have hIy : I y := by
          unfold blocked_on at hb
          cases hlt : (ths t).locked_by with
          | none => rw [hlt] at hb; cases hb
          | some k2 =>
            rw [hlt] at hb
            obtain ⟨z, hz, hIz⟩ := hwf t k2 hIt hlt
            have hb2 : (locks k2).holder = some y := hb
            rw [hz] at hb2
            cases hb2
            exact hIz
        refine ⟨hIy, ?_⟩
        by_cases htt : t = temp
        · subst htt
          rw [hbt] at hb
          cases hb
          omega
        · exact hord t y hIt htt hb

theorem chain_le_spec (s : kernel) (t k : Nat) (h : chain_le s t = true)
    (hk : (s.threads t).locked_by = some k) :
    ∃ x, (s.locks k).holder = some x ∧ x ∈ s.all_threads ∧
      (s.threads x).priority ≥ (s.threads t).priority := by
  unfold chain_le at h
  rw [hk] at h
  dsimp only at h
  cases hh : (s.locks k).holder with
  | none => rw [hh] at h; cases h
  | some x =>
    rw [hh] at h
    simp only [Bool.and_eq_true, decide_eq_true_eq] at h
    exact ⟨x, rfl, h.1, h.2⟩


theorem upd_priority_record (ths : Nat → thread) (h : Nat) (p : Int) (x : Nat) :
    upd ths h { ths h with priority := p } x
      = { ths x with priority := (upd ths h { ths h with priority := p } x).priority } := by
  by_cases hx : x = h
  · subst hx; simp [upd]
  · simp [upd, hx]

/-- The donation loop of `lock_try_acquire`, when it does not panic, changes priorities
only, lowers none, leaves alone every thread that has at least the priority being passed
on, and leaves the holder `temp` waits for with at least the priority of `temp`. -/
theorem donate_try_spec (locks : Nat → lock) (n temp : Nat) (ths ths1 : Nat → thread)
    (hd : donate_try locks n temp ths = some ths1) :
    (∀ x, ths1 x = { ths x with priority := (ths1 x).priority }) ∧
    (∀ x, (ths x).priority ≤ (ths1 x).priority) ∧
    (∀ x, (ths temp).priority ≤ (ths x).priority → (ths1 x).priority = (ths x).priority) ∧
    (∀ l h, (ths temp).locked_by = some l → (locks l).holder = some h →
      (ths1 h).priority ≥ (ths temp).priority) := by
  induction n generalizing temp ths with
  | zero =>
    unfold donate_try at hd
    cases hl : (ths temp).locked_by with
    | none =>
      rw [hl] at hd
      cases hd
      exact ⟨fun _ => rfl, fun _ => le_refl _, fun _ _ => rfl, fun l h hl2 => by cases hl2⟩
    | some l => rw [hl] at hd; cases hd
  | succ n ih =>
    unfold donate_try at hd
    cases hl : (ths temp).locked_by with
    | none =>
      rw [hl] at hd
      cases hd
      exact ⟨fun _ => rfl, fun _ => le_refl _, fun _ _ => rfl, fun l h hl2 => by cases hl2⟩
    | some l =>
      rw [hl] at hd
      dsimp only at hd
      cases hh : (locks l).holder with
      | none => rw [hh] at hd; cases hd
      | some h =>
        rw [hh] at hd
        dsimp only at hd
        by_cases hp : (ths temp).priority > (ths h).priority
        · rw [if_pos hp] at hd
          obtain ⟨h1, h2, h3, _⟩ := ih h _ hd
          have hpr : ∀ x, (upd ths h { ths h with priority := (ths temp).priority } x).priority
              = if x = h then (ths temp).priority else (ths x).priority := by
            intro x
            by_cases hx : x = h
            · subst hx; simp [upd]
            · simp [upd, hx]
          refine ⟨?_, ?_, ?_, ?_⟩
          · intro x
            rw [h1 x, upd_priority_record]
          · intro x
            have := h2 x
            rw [hpr] at this
            by_cases hx : x = h
            · rw [if_pos hx] at this
              rw [hx] at this ⊢
              omega
            · rw [if_neg hx] at this
              exact this
          · intro x hx
            have hxh : x ≠ h := by
              intro e
              rw [e] at hx
              omega
            have := h3 x (by rw [hpr, hpr, if_pos rfl, if_neg hxh]; exact hx)
            rw [this, hpr, if_neg hxh]
          · intro l2 h0 hl2 hh2
            cases hl2
            rw [hh] at hh2
            cases hh2
            have := h2 h
            rw [hpr, if_pos rfl] at this
            exact this
        · rw [if_neg hp] at hd
          cases hd
          refine ⟨fun _ => rfl, fun _ => le_refl _, fun _ _ => rfl, ?_⟩
          intro l2 h0 hl2 hh2
          cases hl2
          rw [hh] at hh2
          cases hh2
          omega

/-! ## The claims: threads and synchronisation -/

/-- C1 (evaluation at the failing input). In `ready_donation` thread H = 2 (priority 63) is
running and the ready list is M = 3 (priority 32), L = 0 (priority 0), L holding lock 1.
When H calls `lock_acquire` on lock 1, the donation raises L to 63 where it sits, behind M;
`next_thread_to_run` on that ready list returns M, and after the call M is running while L
is ready with effective priority 63. -/
theorem ready_pop_ignores_donation :
    (calls ready_donation boot).map (observe [0, 2, 3] [1]) = some
      { current := 2, ready_list := [3, 0], holders := [some 0],
        threads := [(.THREAD_READY, 0, 0), (.THREAD_RUNNING, 63, 63), (.THREAD_READY, 32, 32)] } ∧
    ((calls ready_donation boot).bind fun s => step (push s [.lock_acquire 1])).map
      (fun s => (observe [0, 2, 3] [1] s, (next_thread_to_run s).1)) = some
      ({ current := 2, ready_list := [3, 0], holders := [some 0],
         threads := [(.THREAD_READY, 63, 0), (.THREAD_RUNNING, 63, 63), (.THREAD_READY, 32, 32)] },
        3) ∧
    (calls (ready_donation ++ [(2, .lock_acquire 1)]) boot).map (observe [0, 2, 3] [1]) = some
      { current := 3, ready_list := [0], holders := [some 0],
        threads := [(.THREAD_READY, 63, 0), (.THREAD_BLOCKED, 63, 63),
          (.THREAD_RUNNING, 32, 32)] } := by
  refine ⟨by decide!, by decide!, by decide!⟩

/-- C2. On a ready list sorted by non-increasing priority, `thread_unblock t` puts `t` after
every ready thread of priority at least its own and before every thread of lower priority,
and the list stays sorted; `thread_yield` of a thread other than the idle thread does the
same with the running thread, the front of the resulting list being the thread that
`schedule` then takes off it. -/
theorem ready_insert_keeps_order (s : kernel)
    (hs : sorted_by_priority s.threads s.ready_list) :
    (∀ t, (s.threads t).status = .THREAD_BLOCKED →
      ∃ s1 pre post, thread_unblock t s = some s1 ∧
        s.ready_list = pre ++ post ∧ s1.ready_list = pre ++ t :: post ∧
        (∀ x ∈ pre, (s1.threads x).priority ≥ (s1.threads t).priority) ∧
        (∀ x ∈ post, (s1.threads x).priority < (s1.threads t).priority) ∧
        sorted_by_priority s1.threads s1.ready_list) ∧
    (s.current ≠ s.idle_thread →
      ∃ pre post, s.ready_list = pre ++ post ∧
        (thread_yield s).current :: (thread_yield s).ready_list = pre ++ s.current :: post ∧
        (∀ x ∈ pre, ((thread_yield s).threads x).priority
            ≥ ((thread_yield s).threads s.current).priority) ∧
        (∀ x ∈ post, ((thread_yield s).threads x).priority
            < ((thread_yield s).threads s.current).priority) ∧
        sorted_by_priority (thread_yield s).threads
          ((thread_yield s).current :: (thread_yield s).ready_list)) := by
  constructor
  · intro t ht
    obtain ⟨pre, post, h1, h2, h3, h4⟩ := insert_ordered_split s.threads t s.ready_list hs
    have hu : thread_unblock t s = some { s with
        ready_list := list_insert_ordered (comparePriorities s.threads) t s.ready_list
        threads := upd s.threads t { s.threads t with status := .THREAD_READY } } := by
      simp [thread_unblock, ht]
    refine ⟨_, pre, post, hu, h1, h2, ?_, ?_, ?_⟩
    · intro x hx
      simpa [upd_status_priority] using h3 x hx
    · intro x hx
      simpa [upd_status_priority] using h4 x hx
    · rw [sorted_congr s.threads _ _ (fun x => upd_status_priority s.threads t _ x)]
      show sorted_by_priority s.threads
        (list_insert_ordered (comparePriorities s.threads) t s.ready_list)
      rw [h2]
      exact split_sorted s.threads t pre post (h1 ▸ hs) h3 h4
  · intro hc
    obtain ⟨pre, post, h1, h2, h3, h4⟩ :=
      insert_ordered_split s.threads s.current s.ready_list hs
    have hr := thread_yield_insert_ready s hc
    have hcons : (thread_yield s).current :: (thread_yield s).ready_list
        = pre ++ s.current :: post := by
      rw [← h2, ← hr]
      cases hl : (thread_yield_insert s).ready_list with
      | nil =>
        rw [hr] at hl
        exact absurd hl (insert_ordered_ne_nil _ _ _)
      | cons n rest =>
        have := schedule_cons (thread_yield_insert s) n rest hl
        simp [thread_yield, this.1, this.2]
    refine ⟨pre, post, h1, hcons, ?_, ?_, ?_⟩
    · intro x hx
      simpa [thread_yield_priority] using h3 x hx
    · intro x hx
      simpa [thread_yield_priority] using h4 x hx
    · rw [sorted_congr s.threads _ _ (fun x => thread_yield_priority s x), hcons]
      exact split_sorted s.threads s.current pre post (h1 ▸ hs) h3 h4

/-- C2 (witness). In the state of `ready_example` thread 0 (priority 31) is running, the
ready list is threads 2, 3 with priorities 20, 10, and thread 4 (priority 40) is blocked:
`thread_unblock 4` puts thread 4 at the front and the list stays sorted; `thread_yield` puts
thread 0 at the front, from where `schedule` takes it again. -/
theorem ready_insert_keeps_order_witness :
    sorted_by_priority (reach ready_example).threads (reach ready_example).ready_list ∧
    ((reach ready_example).threads 4).status = .THREAD_BLOCKED ∧
    (reach ready_example).current ≠ (reach ready_example).idle_thread ∧
    (∃ s1, thread_unblock 4 (reach ready_example) = some s1 ∧
      s1.ready_list = [4, 2, 3] ∧ sorted_by_priority s1.threads s1.ready_list) ∧
    (thread_yield (reach ready_example)).current :: (thread_yield (reach ready_example)).ready_list
      = [0, 2, 3] ∧
    sorted_by_priority (thread_yield (reach ready_example)).threads
      ((thread_yield (reach ready_example)).current ::
        (thread_yield (reach ready_example)).ready_list) := by
  have hs : sorted_by_priority (reach ready_example).threads (reach ready_example).ready_list := by
    unfold sorted_by_priority
    decide!
  have hb : ((reach ready_example).threads 4).status = .THREAD_BLOCKED := by decide!
  have hi : (reach ready_example).current ≠ (reach ready_example).idle_thread := by decide!
  obtain ⟨s1, pre, post, h1, _, _, _, _, h6⟩ :=
    (ready_insert_keeps_order (reach ready_example) hs).1 4 hb
  obtain ⟨_, _, _, _, _, _, h7⟩ := (ready_insert_keeps_order (reach ready_example) hs).2 hi
  refine ⟨hs, hb, hi, ⟨s1, h1, ?_, h6⟩, by decide!, h7⟩
  have : (thread_unblock 4 (reach ready_example)).map (fun s => s.ready_list)
      = some [4, 2, 3] := by decide!
  rw [h1] at this
  exact Option.some.inj this

/-- C4. In priority mode, when every donor of the releasing thread was waiting for the lock
being released (so that removing them empties the donor list), the part of `lock_release`
that follows `sema_up` leaves the thread with an empty donor list, an unchanged base
priority and an effective priority equal to the base priority. -/
theorem lock_release_reverts_to_base (s : kernel) (l : Nat) (hm : s.thread_mlfqs = false)
    (hd : (s.threads s.current).donators.Nodup)
    (hl : ∀ d ∈ (s.threads s.current).donators, (s.threads d).locked_by = some l) :
    ((lock_release_donors l s).threads s.current).donators = [] ∧
    ((lock_release_donors l s).threads s.current).base_priority
      = (s.threads s.current).base_priority ∧
    ((lock_release_donors l s).threads s.current).priority
      = ((lock_release_donors l s).threads s.current).base_priority := by
  unfold lock_release_donors
  rw [if_neg (by simp [hm])]
  by_cases he : (s.threads s.current).donators.isEmpty = true
  · rw [if_pos he]
    have h := thread_set_priority_current (s.threads s.current).base_priority s
    rw [h.1, h.2.1, h.2.2]
    simp [he, List.isEmpty_iff.mp he]
  · rw [if_neg he]
    have ha := release_loop_all l _ s.threads (-1) hd hl
    have hr := lock_release_loop_record l s
    have hm2 : (lock_release_loop l s).2 = -1 := ha.2
    have hc := lock_release_loop_current l s
    unfold lock_release_priority
    rw [hm2, if_neg (lt_irrefl _)]
    have h := thread_set_priority_current
      ((lock_release_loop l s).1.threads (lock_release_loop l s).1.current).base_priority
      (lock_release_loop l s).1
    rw [hc] at h ⊢
    rw [h.1, h.2.1, h.2.2, hr.1, hr.2.1, ha.1]
    simp

/-- C4 (witness). In the state of `donate_nest_release_b` without its last call, thread 0
(base 0, effective 32) holds lock 2 and its only donor, thread 2, waits for lock 2. -/
theorem lock_release_reverts_to_base_witness :
    ((reach donate_nest_release_b.dropLast).threads 0).priority = 32 ∧
    ((lock_release_donors 2 (reach donate_nest_release_b.dropLast)).threads 0).priority = 0 := by
  have hc : (reach donate_nest_release_b.dropLast).current = 0 := by decide!
  have hb : ((reach donate_nest_release_b.dropLast).threads 0).base_priority = 0 := by decide!
  obtain ⟨_, h2, h3⟩ := lock_release_reverts_to_base (reach donate_nest_release_b.dropLast) 2
    (by decide!) (by decide!) (by decide!)
  rw [hc] at h2 h3
  exact ⟨by decide!, by rw [h3, h2, hb]⟩

/-- C5 (evaluation at the failing input). In `release_with_higher_base` thread L = 0 has
base priority 40, effective priority 63 donated by H through lock 1, and the further donor
M (priority 32) on lock 2.  After L's `lock_release` of lock 1, H is off the donor list, M is
the only donor left, and L still has effective priority 63, not max (40, 32) = 40. -/
theorem release_keeps_donated_priority :
    (calls release_with_higher_base boot).map
      (fun s => (observe [0, 2, 3] [1, 2] s, (s.threads 0).donators)) = some
      ({ current := 0, ready_list := [], holders := [some 0, some 0],
         threads := [(.THREAD_RUNNING, 63, 40), (.THREAD_BLOCKED, 32, 32),
           (.THREAD_BLOCKED, 63, 63)] }, [2, 3]) ∧
    (calls (release_with_higher_base ++ [(0, .lock_release 1)]) boot).map
      (fun s => (observe [0, 2, 3] [1, 2] s, (s.threads 0).donators)) = some
      ({ current := 0, ready_list := [3], holders := [none, some 0],
         threads := [(.THREAD_RUNNING, 63, 40), (.THREAD_BLOCKED, 32, 32),
           (.THREAD_READY, 63, 63)] }, [2]) := by
  refine ⟨by decide!, by decide!⟩

/-- C6. Scenario priority-donate-nest: with L = 0 (base 0) holding locks a = 1 and b = 2,
once M = 2 (32) has called `lock_acquire` on b and H = 3 (63) on a, L runs with effective
priority 63; L's `lock_release` of a leaves L at 32 and wakes H, which runs holding a;
after H has released a and exited, L's `lock_release` of b leaves L at 0 and wakes M, which
runs holding b. -/
theorem priority_donate_nest :
    (calls donate_nest_blocked boot).map (observe [0, 2, 3] [1, 2]) = some
      { current := 0, ready_list := [], holders := [some 0, some 0],
        threads := [(.THREAD_RUNNING, 63, 0), (.THREAD_BLOCKED, 32, 32),
          (.THREAD_BLOCKED, 63, 63)] } ∧
    (calls donate_nest_release_a boot).map (observe [0, 2, 3] [1, 2]) = some
      { current := 3, ready_list := [0], holders := [some 3, some 0],
        threads := [(.THREAD_READY, 32, 0), (.THREAD_BLOCKED, 32, 32),
          (.THREAD_RUNNING, 63, 63)] } ∧
    (calls donate_nest_release_b boot).map (observe [0, 2, 3] [1, 2]) = some
      { current := 2, ready_list := [0], holders := [none, some 2],
        threads := [(.THREAD_READY, 0, 0), (.THREAD_RUNNING, 32, 32),
          (.THREAD_DYING, 63, 63)] } := by
  refine ⟨by decide!, by decide!, by decide!⟩

/-- C7 (counterexample). A semaphore initialised to 4294967295 holds 0 after one `sema_up`
and no down: the counter is not v + ups - downs. -/
theorem sema_counter_wraps :
    (sema_trace (.plain 0) [.up] (sema_init (.plain 0) 4294967295 boot)).map
      (fun x => ((get_sema x.1 (.plain 0)).value, x.2.ups, x.2.downs,
        decide ((get_sema x.1 (.plain 0)).value = 4294967295 + x.2.ups - x.2.downs)))
      = some (0, 1, 0, false) := by
  decide!

/-- C7 (amended). For a semaphore initialised to `v` (an `unsigned`) and every sequence of
`sema_up`, `sema_try_down` and `sema_down` passes that does not panic, the counter stays
below 2^32 and equals v + ups - successful downs - 2^32 * (number of `sema_up` calls made
at 2^32 - 1), hence v + ups - successful downs when no `sema_up` wrapped; the successful
downs never exceed v + ups.  `sema_try_down` returns true iff the counter was positive; it
then takes 1 off the counter and leaves the waiter list as it was, and otherwise leaves the
state unchanged. -/
theorem sema_counter_law (r : sema_ref) (v : Nat) (es : List sema_event) (s s1 : kernel)
    (c : sema_counts) (hv : v < UINT_RANGE)
    (h : sema_trace r es (sema_init r v s) = some (s1, c)) :
    (get_sema s1 r).value < UINT_RANGE ∧
    (get_sema s1 r).value + c.downs + c.wraps * UINT_RANGE = v + c.ups ∧
    (c.wraps = 0 → (get_sema s1 r).value + c.downs = v + c.ups) ∧
    c.downs ≤ v + c.ups ∧
    (∀ k : kernel,
      ((sema_try_down r k).2 = true ↔ (get_sema k r).value > 0) ∧
      ((sema_try_down r k).2 = true →
        (get_sema (sema_try_down r k).1 r).value + 1 = (get_sema k r).value ∧
        (get_sema (sema_try_down r k).1 r).waiters = (get_sema k r).waiters) ∧
      ((sema_try_down r k).2 = false → (sema_try_down r k).1 = k)) := by
  have hinit : (get_sema (sema_init r v s) r).value = v := by
    unfold sema_init
    rw [get_set_sema]
    exact Nat.mod_eq_of_lt hv
  have ht := sema_trace_value r es (sema_init r v s) s1 c (by rw [hinit]; exact hv) h
  rw [hinit] at ht
  refine ⟨ht.2, ht.1, ?_, ?_, fun k => sema_try_down_spec r k⟩
  · intro hw
    have := ht.1
    rw [hw] at this
    omega
  · have := ht.1
    omega

/-- C7 (witness). A semaphore initialised to 1 goes through up, down, try_down, try_down
(which fails), a `sema_down` pass that blocks the caller, up (made while the idle thread
runs; it wakes the caller) and try_down: 2 ups, 3 successful downs, counter 0. -/
theorem sema_counter_law_witness :
    (1 : Nat) < UINT_RANGE ∧
    ∃ s1 c, sema_trace (.plain 0) [.up, .down, .try_down, .try_down, .down, .up, .try_down]
        (sema_init (.plain 0) 1 boot) = some (s1, c) ∧
      c.ups = 2 ∧ c.downs = 3 ∧ (get_sema s1 (.plain 0)).value + c.downs = 1 + c.ups := by
  have hlt : (1 : Nat) < UINT_RANGE := by decide
  have hobs : (sema_trace (.plain 0) [.up, .down, .try_down, .try_down, .down, .up, .try_down]
      (sema_init (.plain 0) 1 boot)).map (fun x => x.2)
      = some { ups := 2, downs := 3, wraps := 0 } := by decide!
  obtain ⟨x, hx, hc⟩ := Option.map_eq_some'.mp hobs
  have hlaw := sema_counter_law (.plain 0) 1 _ boot x.1 x.2 hlt hx
  refine ⟨hlt, x.1, x.2, hx, by rw [hc], by rw [hc], hlaw.2.2.1 (by rw [hc])⟩

/-- C8. On a semaphore with waiting threads (all of them blocked), `sema_up` does not
panic; the thread it takes off the waiter list has, with the priorities at the moment of
the call, the greatest priority of all waiters; the waiter list it leaves is the old one
without that thread; and that thread is then ready or running. -/
theorem sema_up_wakes_highest (s : kernel) (r : sema_ref)
    (hne : (get_sema s r).waiters ≠ [])
    (hb : ∀ t ∈ (get_sema s r).waiters, (s.threads t).status = .THREAD_BLOCKED) :
    ∃ s1 t rest, sema_up r s = some s1 ∧
      (t :: rest).Perm (get_sema s r).waiters ∧
      (∀ x ∈ (get_sema s r).waiters, (s.threads x).priority ≤ (s.threads t).priority) ∧
      (get_sema s1 r).waiters = rest ∧
      (t = s1.current ∨ t ∈ s1.ready_list) ∧
      ((s1.threads t).status = .THREAD_READY ∨ (s1.threads t).status = .THREAD_RUNNING) := by
  obtain ⟨s1, t, rest, h1, h2, h3, h4, h5, h6, _⟩ := sema_up_spec s r hne hb
  exact ⟨s1, t, rest, h1, h2, h3, h4, h5, h6⟩

/-- C8 (witness). In the state of `sema_example` the waiter list of semaphore 0 is thread 3
(priority 50), thread 2 (priority 60 by donation, 40 when it queued): `sema_up` wakes
thread 2 and leaves thread 3 waiting. -/
theorem sema_up_wakes_highest_witness :
    (get_sema (reach sema_example) (.plain 0)).waiters = [3, 2] ∧
    ((reach sema_example).threads 3).priority = 50 ∧
    ((reach sema_example).threads 2).priority = 60 ∧
    ∃ s1 t, sema_up (.plain 0) (reach sema_example) = some s1 ∧
      (∀ x ∈ [3, 2], ((reach sema_example).threads x).priority
        ≤ ((reach sema_example).threads t).priority) ∧
      (t = s1.current ∨ t ∈ s1.ready_list) ∧
      s1.current = 2 ∧ (get_sema s1 (.plain 0)).waiters = [3] := by
  have hw : (get_sema (reach sema_example) (.plain 0)).waiters = [3, 2] := by decide!
  obtain ⟨s1, t, rest, h1, _, h3, _, h5, _⟩ :=
    sema_up_wakes_highest (reach sema_example) (.plain 0) (by decide!) (by decide!)
  have hobs : (sema_up (.plain 0) (reach sema_example)).map
      (fun s => (s.current, (get_sema s (.plain 0)).waiters)) = some (2, [3]) := by decide!
  rw [h1] at hobs
  have hobs2 := Option.some.inj hobs
  simp only [Prod.mk.injEq] at hobs2
  rw [hw] at h3
  exact ⟨hw, by decide!, by decide!, s1, t, h1, h3, h5, hobs2.1, hobs2.2⟩

/-- C9 (evaluation at the failing input). In `base_above_donor` thread L = 0 has base and
effective priority 50 and one donor of priority 32.  After `thread_set_priority 10` its base
priority is 10 and its effective priority is still 50, not max (10, 32) = 32. -/
theorem set_priority_keeps_old_base :
    (calls base_above_donor boot).map
      (fun s => (observe [0, 2] [1] s, (s.threads 0).donators)) = some
      ({ current := 0, ready_list := [], holders := [some 0],
         threads := [(.THREAD_RUNNING, 50, 50), (.THREAD_BLOCKED, 32, 32)] }, [2]) ∧
    (calls (base_above_donor ++ [(0, .thread_set_priority 10)]) boot).map
      (fun s => (observe [0, 2] [1] s, (s.threads 0).donators)) = some
      ({ current := 0, ready_list := [], holders := [some 0],
         threads := [(.THREAD_RUNNING, 50, 10), (.THREAD_BLOCKED, 32, 32)] }, [2]) := by
  refine ⟨by decide!, by decide!⟩

/-- C10. (a) On a condition variable whose waiters were allocated earlier and are ordered
by descending priority of their waiting threads, `cond_wait` by the holder of the lock does
not panic: it puts the new waiter after every waiter of priority at least the caller's and
before every waiter of lower priority, so the list stays in descending order with the new
waiter counted at the caller's priority, and the caller goes on to release the lock and to
down the waiter's semaphore.  (b) `cond_signal` by the holder of the lock takes the front
waiter off the list and ups its semaphore, which wakes the thread waiting on it. -/
theorem cond_wait_signal_order :
    (∀ (s : kernel) (c l : Nat), lock_held_by_current_thread s l = true →
      (∀ e ∈ s.conds c, e < s.nsemas) →
      cond_sorted (front_priority s) (s.conds c) →
      ∃ s1 pre post, cond_wait c l s = some s1 ∧
        s.conds c = pre ++ post ∧ s1.conds c = pre ++ s.nsemas :: post ∧
        (∀ e ∈ pre, ∃ q, front_priority s e = some q ∧ q ≥ (s.threads s.current).priority) ∧
        (∀ e ∈ post, ∃ q, front_priority s e = some q ∧ q < (s.threads s.current).priority) ∧
        cond_sorted (waiter_priority s1 s.nsemas (s.threads s.current).priority)
          (s1.conds c) ∧
        (s1.threads s.current).cont =
          [Instr.lock_release l, Instr.sema_down (.plain s.nsemas), Instr.lock_acquire l]
            ++ (s.threads s.current).cont) ∧
    (∀ (s : kernel) (c l w : Nat) (rest : List Nat),
      lock_held_by_current_thread s l = true → s.conds c = w :: rest →
      (s.semas w).waiters ≠ [] →
      (∀ t ∈ (s.semas w).waiters, (s.threads t).status = .THREAD_BLOCKED) →
      ∃ s1 t ts, cond_signal c l s = some s1 ∧ s1.conds c = rest ∧
        (t :: ts).Perm (s.semas w).waiters ∧
        (∀ x ∈ (s.semas w).waiters, (s.threads x).priority ≤ (s.threads t).priority) ∧
        (s1.semas w).waiters = ts ∧
        ((s1.threads t).status = .THREAD_READY ∨
          (s1.threads t).status = .THREAD_RUNNING)) := by
  constructor
  · intro s c l hheld hfresh hsorted
    -- the state in which the insertion loop runs
    let s0 := sema_init (.plain s.nsemas) 0 { s with nsemas := s.nsemas + 1 }
    have hfp : ∀ e ∈ s.conds c, front_priority s0 e = front_priority s e := by
      intro e he
      have hne : e ≠ s.nsemas := Nat.ne_of_lt (hfresh e he)
      simp [front_priority, s0, sema_init, set_sema, upd, hne]
    have hs0 : cond_sorted (front_priority s0) (s.conds c) := by
      constructor
      · intro e he
        rw [hfp e he]
        exact hsorted.1 e he
      · exact hsorted.2.imp_of_mem fun {a b} ha hb hab => by
          unfold key_ge at hab ⊢
          rw [hfp a ha, hfp b hb]
          exact hab
    obtain ⟨pre, post, h1, h2, h3, h4⟩ :=
      cond_insert_split s0 (s.threads s.current).priority s.nsemas (s.conds c) hs0
    have h3s : ∀ e ∈ pre, ∃ q, front_priority s e = some q ∧ q ≥ (s.threads s.current).priority := by
      intro e he
      rw [← hfp e (by rw [h1]; exact List.mem_append_left _ he)]
      exact h3 e he
    have h4s : ∀ e ∈ post, ∃ q, front_priority s e = some q ∧ q < (s.threads s.current).priority := by
      intro e he
      rw [← hfp e (by rw [h1]; exact List.mem_append_right _ he)]
      exact h4 e he
    let s1 := push { s0 with conds := upd s0.conds c (pre ++ s.nsemas :: post) }
      [Instr.lock_release l, Instr.sema_down (.plain s.nsemas), Instr.lock_acquire l]
    have hcw : cond_wait c l s = some s1 := by
      unfold cond_wait
      rw [if_pos hheld]
      show Option.map _ (cond_insert s0 (s.threads s.current).priority s.nsemas (s.conds c)) = _
      rw [h2]
      rfl
    have hconds : s1.conds c = pre ++ s.nsemas :: post := by
      simp [s1, push, set_thread, upd]
    have hfp1 : ∀ e, front_priority s1 e = front_priority s0 e := by
      intro e
      have hsem : s1.semas = s0.semas := rfl
      unfold front_priority
      rw [hsem]
      cases (s0.semas e).waiters with
      | nil => rfl
      | cons t ts =>
        show some (s1.threads t).priority = some (s0.threads t).priority
        rw [(push_fields _ _ t).1]
    refine ⟨s1, pre, post, hcw, h1, hconds, h3s, h4s, ?_, ?_⟩
    · rw [hconds]
      apply cond_split_sorted (front_priority s) _ s.nsemas (s.threads s.current).priority
        pre post (h1 ▸ hsorted)
      · simp [waiter_priority]
      · intro e he
        have hmem : e ∈ s.conds c := h1 ▸ he
        have hne : e ≠ s.nsemas := Nat.ne_of_lt (hfresh e hmem)
        simp only [waiter_priority, hne, if_false]
        rw [hfp1, hfp e hmem]
      · exact h3s
      · exact h4s
    · simp [s1, s0, push, set_thread, upd, sema_init, set_sema]
  · intro s c l w rest hheld hc hne hb
    let s0 : kernel := { s with conds := upd s.conds c rest }
    obtain ⟨s1, t, ts, h1, h2, h3, h4, _, h6, h7⟩ := sema_up_spec s0 (.plain w) hne hb
    refine ⟨s1, t, ts, ?_, ?_, h2, h3, h4, h6⟩
    · unfold cond_signal
      rw [if_pos hheld]
      simp only [hc]
      exact h1
    · rw [h7]
      simp [s0, upd]

/-- C10 (witness). In the state of `cond_example` the waiters of condition 0 belong to
threads 2 (priority 40) and 3 (priority 35) and thread 0 (priority 31) holds lock 1:
its `cond_wait` appends its waiter, and its `cond_signal` wakes thread 2. -/
theorem cond_wait_signal_order_witness :
    (reach cond_example).conds 0 = [0, 1] ∧
    (∃ s1, cond_wait 0 1 (reach cond_example) = some s1 ∧ s1.conds 0 = [0, 1, 2]) ∧
    (∃ s1 t, cond_signal 0 1 (reach cond_example) = some s1 ∧ s1.conds 0 = [1] ∧
      t ∈ ((reach cond_example).semas 0).waiters ∧
      ((s1.threads t).status = .THREAD_READY ∨ (s1.threads t).status = .THREAD_RUNNING)) := by
  have hc : (reach cond_example).conds 0 = [0, 1] := by decide!
  refine ⟨hc, ?_, ?_⟩
  · obtain ⟨s1, pre, post, h1, _, _, _, _, _, _⟩ :=
      cond_wait_signal_order.1 (reach cond_example) 0 1 (by decide!) (by decide!)
        (by unfold cond_sorted; decide!)
    have hobs : (cond_wait 0 1 (reach cond_example)).map (fun s => s.conds 0)
        = some [0, 1, 2] := by decide!
    rw [h1] at hobs
    exact ⟨s1, h1, Option.some.inj hobs⟩
  · obtain ⟨s1, t, ts, h1, h2, h3, _, _, h6⟩ :=
      cond_wait_signal_order.2 (reach cond_example) 0 1 0 [1] (by decide!) hc
        (by decide!) (by decide!)
    exact ⟨s1, t, h1, h2, h3.subset (List.mem_cons_self t ts), h6⟩

/-- C12: the load average update of `thread_tick` does not count the READY threads while
the idle thread is running.  With "main" in the ready list and the idle thread running
(scenario `idle_with_ready`), the tick 100 leaves `load_avg` at 0, the value for a ready
count of 0; the claimed count is 1 and the claimed load average 273. -/
theorem load_avg_ignores_ready_when_idle :
    ∃ s s1, calls idle_with_ready boot_mlfqs = some s ∧
      s.current = s.idle_thread ∧ s.ready_list = [0] ∧ s.load_avg = 0 ∧
      (100 : Int).tmod TIMER_FREQ = 0 ∧
      ready_count s = 1 ∧ claimed_load_avg s = 273 ∧
      thread_tick 100 s = some s1 ∧ ready_threads s = 0 ∧ s1.load_avg = 0 := by
  have h : (calls idle_with_ready boot_mlfqs).bind (observe_tick 100)
      = some { idle_running := true, ready_list := [0], load_avg := 0, ready_count := 1,
               claimed := 273, counted := 0, stored := 0 } := by decide!
  obtain ⟨s, hs, h1⟩ := Option.bind_eq_some.mp h
  obtain ⟨s1, hs1, h2⟩ := Option.map_eq_some'.mp h1
  simp only [tick_observation.mk.injEq, decide_eq_true_eq] at h2
  obtain ⟨a1, a2, a3, a4, a5, a6, a7⟩ := h2
  exact ⟨s, s1, hs, a1, a2, a3, by decide, a4, a5, hs1, a6, a7⟩

/-- C31: the donation walk of `lock_acquire`.  In priority mode, when the running thread C
calls `lock_acquire` on a lock held by another thread, in a state where every other live
thread recorded as waiting for a lock waits for a lock whose holder is live and has at least
its priority, the call does not panic whatever the shape of the blocked-on chain (a cycle
included), and when C goes on to `sema_down`: every thread within `MAX_DEPTH = 8` hops of C
along the blocked-on chain has at least the priority of C; C's priority is what it was; no
thread's priority has been lowered; and apart from C at most 8 threads, the holders the walk
passed, have changed at all. -/
theorem donation_walk_within_depth (s : kernel) (l h : Nat)
    (hm : s.thread_mlfqs = false) (hh : (s.locks l).holder = some h) (hne : h ≠ s.current)
    (hcur : s.current ∈ s.all_threads) (hhall : h ∈ s.all_threads)
    (hpre : ∀ t ∈ s.all_threads, t ≠ s.current → chain_le s t = true) :
    ∃ (s1 : kernel) (modified : List Nat), lock_acquire l s = some s1 ∧ s1.locks = s.locks ∧
      hop s1.locks s1.threads 1 s.current = some h ∧
      (∀ k x, 1 ≤ k → k ≤ MAX_DEPTH → hop s1.locks s1.threads k s.current = some x →
        (s1.threads x).priority ≥ (s1.threads s.current).priority) ∧
      (s1.threads s.current).priority = (s.threads s.current).priority ∧
      (∀ x, (s1.threads x).priority ≥ (s.threads x).priority) ∧
      modified.length ≤ MAX_DEPTH ∧
      (∀ x, x ∉ modified → x ≠ s.current → s1.threads x = s.threads x) := by
  have hheld : lock_held_by_current_thread s l = false := by
    simp [lock_held_by_current_thread, hh, hne]
  -- the thread table the donation loop starts from
  let ths1 := upd s.threads s.current { s.threads s.current with locked_by := some l }
  let ths2 := upd ths1 h { ths1 h with donators := (ths1 h).donators ++ [s.current] }
  have hlb : ∀ t, (ths2 t).locked_by
      = if t = s.current then some l else (s.threads t).locked_by := by
    intro t
    by_cases ht : t = s.current
    · subst ht; simp [ths2, ths1, upd, hne.symm]
    · by_cases hth : t = h
      · subst hth; simp [ths2, ths1, upd, ht]
      · simp [ths2, ths1, upd, ht, hth]
  have hpr : ∀ t, (ths2 t).priority = (s.threads t).priority := by
    intro t
    by_cases ht : t = s.current
    · subst ht; simp [ths2, ths1, upd, hne.symm]
    · by_cases hth : t = h
      · subst hth; simp [ths2, ths1, upd, ht]
      · simp [ths2, ths1, upd, ht, hth]
  have hother : ∀ t, t ≠ s.current → t ≠ h → ths2 t = s.threads t := by
    intro t ht hth
    simp [ths2, ths1, upd, ht, hth]
  have hwf : ∀ t k, t ∈ s.all_threads → (ths2 t).locked_by = some k →
      ∃ x, (s.locks k).holder = some x ∧ x ∈ s.all_threads := by
    intro t k hIt htk
    rw [hlb t] at htk
    by_cases ht : t = s.current
    · rw [if_pos ht] at htk
      cases htk
      exact ⟨h, hh, hhall⟩
    · rw [if_neg ht] at htk
      obtain ⟨x, h1, h2, _⟩ := chain_le_spec s t k (hpre t hIt ht) htk
      exact ⟨x, h1, h2⟩
  have hord : ∀ t x, t ∈ s.all_threads → t ≠ s.current →
      blocked_on s.locks ths2 t = some x → (ths2 x).priority ≥ (ths2 t).priority := by
    intro t x hIt ht hb
    unfold blocked_on at hb
    rw [hlb t, if_neg ht] at hb
    cases hlt : (s.threads t).locked_by with
    | none => rw [hlt] at hb; cases hb
    | some k =>
      rw [hlt] at hb
      obtain ⟨y, h1, _, h3⟩ := chain_le_spec s t k (hpre t hIt ht) hlt
      have hb2 : (s.locks k).holder = some x := hb
      rw [h1] at hb2
      cases hb2
      rw [hpr, hpr]
      exact h3
  obtain ⟨ths3, md, h1, h2, h3, h4, h5, h6, h7, h8⟩ :=
    donate_hops s.locks (fun t => t ∈ s.all_threads) MAX_DEPTH s.current ths2 hcur hwf hord
  have hbc : blocked_on s.locks ths2 s.current = some h := by
    unfold blocked_on
    rw [hlb, if_pos rfl]
    exact hh
  have hhop : ∀ k x, hop s.locks (fun y => ths3 y) k x = hop s.locks ths2 k x :=
    fun k x => hop_congr s.locks ths2 ths3 h2 k x
  have hpush : ∀ k x, hop s.locks (push { s with threads := ths3 }
      [Instr.sema_down (.of_lock l), Instr.lock_acquire_holder l]).threads k x
      = hop s.locks ths2 k x := by
    intro k x
    refine hop_congr s.locks ths2 _ ?_ k x
    intro y
    rw [(push_fields _ _ _).2.2]
    exact h2 y
  refine ⟨push { s with threads := ths3 }
      [Instr.sema_down (.of_lock l), Instr.lock_acquire_holder l],
    if md.isEmpty then [h] else md, ?_, rfl, ?_, ?_, ?_, ?_, ?_, ?_⟩
  · unfold lock_acquire
    simp only [hheld, hm, hh, Bool.false_eq_true, if_false]
    show Option.map _ (Option.map _ (donate s.locks MAX_DEPTH s.current ths2)) = _
    rw [h1]
    rfl
  · show hop s.locks _ 1 s.current = some h
    rw [hpush]
    unfold hop
    rw [hbc]
    rfl
  · intro k x hk1 hk2 hk
    have hk3 : hop s.locks ths2 k s.current = some x := by
      rw [← hpush]
      exact hk
    rw [(push_fields _ _ _).1, (push_fields _ _ _).1]
    show (ths3 x).priority ≥ (ths3 s.current).priority
    rw [h4 s.current (le_refl _)]
    exact h5 k x hk1 hk2 hk3
  · rw [(push_fields _ _ _).1]
    show (ths3 s.current).priority = _
    rw [h4 _ (le_refl _), hpr]
  · intro x
    rw [(push_fields _ _ _).1]
    show (ths3 x).priority ≥ _
    have := h3 x
    rw [hpr] at this
    exact this
  · cases md with
    | nil => exact Nat.succ_le_succ (Nat.zero_le _)
    | cons a rest => exact h6
  · intro x hx hxc
    have hxm : x ∉ md ∧ x ≠ h := by
      cases md with
      | nil =>
        refine ⟨List.not_mem_nil x, ?_⟩
        intro e
        exact hx (by rw [e]; simp)
      | cons a rest =>
        have hx2 : x ∉ a :: rest := hx
        refine ⟨hx2, ?_⟩
        rcases h8 with h8 | ⟨b, r, hbr, hb⟩
        · cases h8
        · rw [hbc] at hb
          cases hb
          cases hbr
          intro e
          exact hx2 (by rw [e]; simp)
    show (push { s with threads := ths3 } _).threads x = s.threads x
    unfold push set_thread
    show upd ths3 s.current _ x = s.threads x
    unfold upd
    rw [if_neg hxc, h7 x hxm.1]
    exact hother x hxc hxm.2

/-- C31 (witness). In the state of `donation_cycle` thread 0 holds lock 2 and calls
`lock_acquire` on lock 1, held by thread 2, which is waiting for lock 2: the blocked-on
chain from thread 0 is the cycle 0, 2, 0, 2, ... -/
theorem donation_walk_within_depth_witness :
    hop (reach donation_cycle).locks
      (upd (reach donation_cycle).threads 0
        { (reach donation_cycle).threads 0 with locked_by := some 1 }) 8 0 = some 0 ∧
    ∃ s1, lock_acquire 1 (reach donation_cycle) = some s1 ∧
      hop s1.locks s1.threads 1 0 = some 2 ∧
      (s1.threads 2).priority ≥ (s1.threads 0).priority := by
  have h : (reach donation_cycle).thread_mlfqs = false ∧
      ((reach donation_cycle).locks 1).holder = some 2 ∧
      2 ≠ (reach donation_cycle).current ∧
      (reach donation_cycle).current ∈ (reach donation_cycle).all_threads ∧
      2 ∈ (reach donation_cycle).all_threads ∧
      (∀ t ∈ (reach donation_cycle).all_threads, t ≠ (reach donation_cycle).current →
        chain_le (reach donation_cycle) t = true) ∧
      (reach donation_cycle).current = 0 ∧
      hop (reach donation_cycle).locks
        (upd (reach donation_cycle).threads 0
          { (reach donation_cycle).threads 0 with locked_by := some 1 }) 8 0 = some 0 := by
    decide!
  obtain ⟨s1, _, h1, _, h3, h4, _⟩ := donation_walk_within_depth (reach donation_cycle) 1 2
    h.1 h.2.1 h.2.2.1 h.2.2.2.1 h.2.2.2.2.1 h.2.2.2.2.2.1
  rw [h.2.2.2.2.2.2.1] at h3 h4
  exact ⟨h.2.2.2.2.2.2.2, s1, h1, h3, h4 1 2 (le_refl _) (by decide) h3⟩

/-- C37 (evaluation at the failing input). In `cond_race` thread 0 holds lock 1 with thread
2 (priority 40) blocked on it and calls `cond_wait`: it puts its waiter, semaphore 0, into
the list of condition 0 and releases the lock; the release ends the donation, thread 0
falls back to priority 31 and yields to thread 2 with `sema_down` on its waiter still
ahead of it.  Thread 2 now holds lock 1 while the only waiter of condition 0 has an empty
waiter list.  When thread 2 calls `cond_wait` on the same condition, the loop reads the
front of that empty list: the assertion of `list_front` fails and the kernel panics. -/
theorem cond_wait_reads_empty_waiter_list :
    (calls cond_race boot).map observe_race = some
      { current := 2, ready_list := [0], holder := some 2, cond_waiters := [0]
        sema_waiters := [], pending := [.sema_down (.plain 0), .lock_acquire 1] } ∧
    lock_held_by_current_thread (reach cond_race) 1 = true ∧
    front_priority (reach cond_race) 0 = none ∧
    (cond_wait 0 1 (reach cond_race)).isNone = true ∧
    (calls (cond_race ++ [(2, .cond_wait 0 1)]) boot).isNone = true := by
  decide!

end Threads

namespace VM

open Threads (upd)

/-! ## Lemmas: bitmaps and swap -/

theorem bitmap_contains_false (b : bitmap) (start cnt : Nat) (value : Bool) :
    bitmap_contains b start cnt value = false ↔ ∀ j, j < cnt → b.bits (start + j) = !value := by
  unfold bitmap_contains
  rw [List.any_eq_false]
  constructor
  · intro h j hj
    have := h j (List.mem_range.mpr hj)
    cases hv : value <;> cases hb : b.bits (start + j) <;> simp_all
  · intro h j hj
    have := h j (List.mem_range.mp hj)
    cases hv : value <;> cases hb : b.bits (start + j) <;> simp_all

theorem bitmap_scan_some (b : bitmap) (start cnt : Nat) (value : Bool) (idx : Nat)
    (h : bitmap_scan b start cnt value = some idx) :
    start ≤ idx ∧ idx + cnt ≤ b.bit_cnt ∧ ∀ j, j < cnt → b.bits (idx + j) = value := by
  unfold bitmap_scan at h
  split at h
  · have h1 := List.find?_some h
    have h2 := List.mem_of_find?_eq_some h
    rw [List.mem_range] at h2
    simp only [Bool.and_eq_true, decide_eq_true_eq, Bool.not_eq_true'] at h1
    refine ⟨h1.1, by omega, ?_⟩
    intro j hj
    have := (bitmap_contains_false b idx cnt (!value)).mp h1.2 j hj
    simpa using this
  · exact absurd h (by simp)

theorem bitmap_scan_exists (b : bitmap) (start cnt : Nat) (value : Bool) (i : Nat)
    (h1 : start ≤ i) (h2 : i + cnt ≤ b.bit_cnt) (h3 : ∀ j, j < cnt → b.bits (i + j) = value) :
    ∃ idx, bitmap_scan b start cnt value = some idx := by
  unfold bitmap_scan
  rw [if_pos (by omega)]
  cases hf : List.find? (fun i => decide (start ≤ i) && !bitmap_contains b i cnt (!value))
      (List.range (b.bit_cnt - cnt + 1)) with
  | some idx => exact ⟨idx, rfl⟩
  | none =>
    rw [List.find?_eq_none] at hf
    have := hf i (List.mem_range.mpr (by omega))
    have hc : bitmap_contains b i cnt (!value) = false := by
      rw [bitmap_contains_false]
      intro j hj
      simpa using h3 j hj
    simp [h1, hc] at this

theorem disk_write_apply (d : Nat → Nat → Nat) (sec : Nat) (buf : Nat → Nat) (x j : Nat) :
    disk_write d sec buf x j
      = if x = sec then (if j < DISK_SECTOR_SIZE then buf j else d sec j) else d x j := by
  unfold disk_write upd
  split <;> rfl

theorem page_write_apply (m : Nat → Nat → Nat) (page ofs len : Nat) (buf : Nat → Nat)
    (p k : Nat) :
    page_write m page ofs len buf p k
      = if p = page then (if ofs ≤ k ∧ k < ofs + len then buf (k - ofs) else m page k)
        else m p k := by
  unfold page_write upd
  split <;> rfl

theorem swap_out_device (idx : Nat) (buf : Nat → Nat) (sec j : Nat) :
    ∀ (n : Nat) (d : Nat → Nat → Nat),
      ((List.range n).foldl (fun d i =>
        disk_write d (idx + i) fun j => buf (i * DISK_SECTOR_SIZE + j)) d) sec j
      = if idx ≤ sec ∧ sec < idx + n ∧ j < DISK_SECTOR_SIZE then
          buf ((sec - idx) * DISK_SECTOR_SIZE + j)
        else d sec j := by
  intro n
  induction n with
  | zero =>
    intro d
    rw [if_neg (by omega)]
    rfl
  | succ n ih =>
    intro d
    rw [List.range_succ, List.foldl_append, List.foldl_cons, List.foldl_nil, disk_write_apply]
    by_cases hs : sec = idx + n
    · subst hs
      rw [if_pos rfl]
      by_cases hj : j < DISK_SECTOR_SIZE
      · rw [if_pos hj, if_pos ⟨by omega, by omega, hj⟩, Nat.add_sub_cancel_left]
      · rw [if_neg hj, ih, if_neg (by omega), if_neg (by omega)]
    · rw [if_neg hs, ih]
      by_cases h1 : idx ≤ sec ∧ sec < idx + n ∧ j < DISK_SECTOR_SIZE
      · rw [if_pos h1, if_pos ⟨h1.1, by omega, h1.2.2⟩]
      · rw [if_neg h1, if_neg (by omega)]

theorem swap_in_fold (index frame : Nat) :
    ∀ (n : Nat) (s : vm), index + n ≤ s.swap_table.bit_cnt →
      ∃ tb m, (List.range n).foldl (fun r i => r.bind fun s1 =>
          if index + i < s1.swap_table.bit_cnt then
            some { s1 with
              swap_table := bitmap_flip s1.swap_table (index + i)
              memory := page_write s1.memory frame (i * DISK_SECTOR_SIZE) DISK_SECTOR_SIZE
                (s1.swap_device (index + i)) }
          else none) (some s) = some { s with swap_table := tb, memory := m } ∧
        tb.bit_cnt = s.swap_table.bit_cnt ∧
        (∀ i, tb.bits i = if index ≤ i ∧ i < index + n then !s.swap_table.bits i
          else s.swap_table.bits i) ∧
        (∀ p k, m p k = if p = frame ∧ k < n * DISK_SECTOR_SIZE then
            s.swap_device (index + k / DISK_SECTOR_SIZE) (k % DISK_SECTOR_SIZE)
          else s.memory p k) := by
  intro n
  induction n with
  | zero =>
    intro s _
    refine ⟨s.swap_table, s.memory, rfl, rfl, ?_, ?_⟩
    · intro i
      rw [if_neg (by omega)]
    · intro p k
      rw [if_neg (by omega)]
  | succ n ih =>
    intro s hn
    obtain ⟨tb, m, hf, h1, h2, h3⟩ := ih s (by omega)
    rw [List.range_succ, List.foldl_append, hf]
    simp only [List.foldl_cons, List.foldl_nil, Option.some_bind]
    rw [if_pos (by show index + n < tb.bit_cnt; omega)]
    refine ⟨_, _, rfl, h1, ?_, ?_⟩
    · intro i
      unfold bitmap_flip upd
      dsimp only
      by_cases hi : i = index + n
      · subst hi
        rw [if_pos rfl, if_pos (by omega), h2, if_neg (by omega)]
      · rw [if_neg hi, h2]
        by_cases hr : index ≤ i ∧ i < index + n
        · rw [if_pos hr, if_pos (by omega)]
        · rw [if_neg hr, if_neg (by omega)]
    · intro p k
      rw [page_write_apply]
      have hD : DISK_SECTOR_SIZE = 512 := rfl
      by_cases hp : p = frame
      · subst hp
        rw [if_pos rfl]
        by_cases hk : n * DISK_SECTOR_SIZE ≤ k ∧ k < n * DISK_SECTOR_SIZE + DISK_SECTOR_SIZE
        · rw [if_pos hk, if_pos ⟨rfl, by rw [hD] at hk ⊢; omega⟩]
          have e1 : k / DISK_SECTOR_SIZE = n := by rw [hD] at hk ⊢; omega
          have e2 : k % DISK_SECTOR_SIZE = k - n * DISK_SECTOR_SIZE := by
            rw [hD] at hk ⊢; omega
          rw [e1, e2]
        · rw [if_neg hk, h3]
          by_cases hk2 : k < n * DISK_SECTOR_SIZE
          · rw [if_pos ⟨rfl, hk2⟩, if_pos ⟨rfl, by rw [hD] at hk2 ⊢; omega⟩]
          · rw [if_neg (by simp [hk2]), if_neg (by rw [hD] at hk hk2 ⊢; simp; omega)]
      · rw [if_neg hp, h3, if_neg (by simp [hp]), if_neg (by simp [hp])]

/-! ## Lemmas: frame table and supplemental page table -/

theorem get?_split {α : Type} : ∀ (l : List α) (i : Nat) (v : α), l.get? i = some v →
    ∃ pre post, l = pre ++ v :: post ∧ ∀ x, l.set i x = pre ++ x :: post := by
  intro l
  induction l with
  | nil => intro i v h; simp at h
  | cons y ys ih =>
    intro i v h
    cases i with
    | zero =>
      simp only [List.get?_cons_zero, Option.some.injEq] at h
      subst h
      exact ⟨[], ys, rfl, fun x => rfl⟩
    | succ i =>
      simp only [List.get?_cons_succ] at h
      obtain ⟨pre, post, h1, h2⟩ := ih i v h
      refine ⟨y :: pre, post, by rw [h1]; rfl, fun x => ?_⟩
      rw [List.set_cons_succ, h2 x]
      rfl

theorem replace_spec {α : Type} (f : α → Nat) (pre post : List α) (v x : α)
    (hn : ((pre ++ v :: post).map f).Nodup) (hx : ∀ e ∈ pre ++ v :: post, f e ≠ f x) :
    ((pre ++ x :: post).map f).Nodup ∧
    ∀ e, e ∈ pre ++ x :: post ↔ (e = x ∨ (e ∈ pre ++ v :: post ∧ f e ≠ f v)) := by
  simp only [List.map_append, List.map_cons, List.nodup_append, List.nodup_cons, List.mem_map,
    List.mem_append, List.mem_cons, List.disjoint_cons_right, List.disjoint_left] at hn hx ⊢
  obtain ⟨h1, ⟨h2, h3⟩, h4⟩ := hn
  refine ⟨⟨h1, ⟨?_, h3⟩, ?_⟩, ?_⟩
  · rintro ⟨e, he, hes⟩
    exact hx e (Or.inr (Or.inr he)) hes
  · intro b hb hc
    rcases hc with hbx | hc
    · obtain ⟨e, he, hes⟩ := hb
      exact hx e (Or.inl he) (by rw [hes, hbx])
    · exact h4 hb (Or.inr hc)
  · intro e
    constructor
    · rintro (he | he | he)
      · exact Or.inr ⟨Or.inl he, fun hc => h4 ⟨e, he, rfl⟩ (Or.inl hc)⟩
      · exact Or.inl he
      · exact Or.inr ⟨Or.inr (Or.inr he), fun hc => h2 ⟨e, he, hc⟩⟩
    · rintro (he | ⟨he | he | he, hne⟩)
      · exact Or.inr (Or.inl he)
      · exact Or.inl he
      · subst he; exact absurd rfl hne
      · exact Or.inr (Or.inr he)

theorem palloc_get_page_spec (z : Bool) (s s1 : vm) (frame : Nat)
    (h : palloc_get_page z s = some (frame, s1)) :
    frame < s.user_pool.bit_cnt ∧ s.user_pool.bits frame = false ∧
    s1.user_pool.bit_cnt = s.user_pool.bit_cnt ∧
    (∀ i, s1.user_pool.bits i = if i = frame then true else s.user_pool.bits i) ∧
    s1.sptes = s.sptes ∧ s1.frame_table = s.frame_table ∧ s1.nsptes = s.nsptes ∧
    s1.current = s.current := by
  unfold palloc_get_page bitmap_scan_and_flip at h
  cases hs : bitmap_scan s.user_pool 0 1 false with
  | none => rw [hs] at h; simp at h
  | some idx =>
    rw [hs] at h
    simp only [Option.map_some', Option.some.injEq, Prod.mk.injEq] at h
    obtain ⟨h1, h2⟩ := h
    subst h1 h2
    obtain ⟨_, hb1, hb2⟩ := bitmap_scan_some _ _ _ _ _ hs
    refine ⟨by omega, by simpa using hb2 0 (by omega), rfl, ?_, rfl, rfl, rfl, rfl⟩
    intro i
    show (if idx ≤ i ∧ i < idx + 1 then !false else s.user_pool.bits i) = _
    by_cases hi : i = idx
    · rw [if_pos hi, if_pos (by omega)]; rfl
    · rw [if_neg hi, if_neg (by omega)]

theorem swap_out_tables (frame idx : Nat) (s s1 : vm) (h : swap_out frame s = some (idx, s1)) :
    same_tables s s1 ∧ s1.current = s.current ∧ s1.pagedir = s.pagedir := by
  unfold swap_out at h
  cases hs : bitmap_scan_and_flip s.swap_table 0 SECTORS_PER_PAGE false with
  | none => rw [hs] at h; simp at h
  | some r =>
    rw [hs] at h
    simp only [Option.map_some', Option.some.injEq, Prod.mk.injEq] at h
    obtain ⟨_, h2⟩ := h
    subst h2
    exact ⟨⟨rfl, rfl, rfl, rfl⟩, rfl, rfl⟩

/-- What the eviction branch of `allocate_frame` changes in the tables. -/
theorem evict_tables (i : Nat) (victim : frame_table_entry) (a : Nat) (z : Bool)
    (s s1 : vm) (frame : Nat) (h : evict i victim a z s = some (frame, s1)) :
    ∃ idx, frame = victim.frame ∧
      s1.sptes = upd s.sptes victim.spte
        { s.sptes victim.spte with loaded := false, type := .SWAPPED, index := idx } ∧
      s1.frame_table = s.frame_table.set i { victim with owner := s.current, spte := a } ∧
      s1.user_pool = s.user_pool ∧ s1.nsptes = s.nsptes := by
  unfold evict at h
  cases hs : swap_out victim.frame s with
  | none => rw [hs] at h; simp at h
  | some r =>
    obtain ⟨idx, s2⟩ := r
    obtain ⟨⟨t1, t2, t3, t4⟩, t5, _⟩ := swap_out_tables _ _ _ _ hs
    rw [hs] at h
    simp only [Option.map_some', Option.some.injEq, Prod.mk.injEq] at h
    obtain ⟨h1, h2⟩ := h
    subst h2
    refine ⟨idx, h1.symm, ?_, ?_, ?_, ?_⟩
    · cases z <;> simp [pagedir_clear_page, t1]
    · cases z <;> simp [pagedir_clear_page, t2, t5]
    · cases z <;> simp [pagedir_clear_page, t3]
    · cases z <;> simp [pagedir_clear_page, t4]

theorem no_entry_of_unloaded (s : vm) (a : Nat) (hinv : frame_inv s) (ha : a < s.nsptes)
    (hl : (s.sptes a).loaded = false) : ∀ e ∈ s.frame_table, e.spte ≠ a := by
  intro e he hea
  have := (hinv.1 a ha).mpr ⟨e, he, hea⟩
  rw [hl] at this
  exact absurd this (by simp)

theorem evict_pending (i : Nat) (victim : frame_table_entry) (a : Nat) (z : Bool)
    (s s1 : vm) (frame : Nat) (hinv : frame_inv s) (hpool : pool_inv s) (ha : a < s.nsptes)
    (hl : (s.sptes a).loaded = false) (hg : s.frame_table.get? i = some victim)
    (h : evict i victim a z s = some (frame, s1)) : pending a frame s1 := by
  obtain ⟨idx, e1, e2, e3, e4, e5⟩ := evict_tables i victim a z s s1 frame h
  obtain ⟨pre, post, hsplit, hset⟩ := get?_split _ _ _ hg
  have hno := no_entry_of_unloaded s a hinv ha hl
  obtain ⟨hiff, hns, hnf⟩ := hinv
  have hvm : victim ∈ s.frame_table := by rw [hsplit]; simp
  have hva : victim.spte ≠ a := hno victim hvm
  unfold pool_inv at hpool
  rw [hsplit] at hns hnf hno hpool
  obtain ⟨r1, r2⟩ := replace_spec (fun e => e.spte) pre post victim
    { victim with owner := s.current, spte := a } hns hno
  unfold pending pool_inv
  rw [e2, e3, e4, e5, hset]
  refine ⟨ha, ?_, ?_, ?_, r1, ?_, ?_⟩
  · unfold upd; rw [if_neg (Ne.symm hva)]; exact hl
  · exact ⟨_, (r2 _).mpr (Or.inl rfl), rfl, e1.symm⟩
  · intro b hb hba
    unfold upd
    by_cases hbv : b = victim.spte
    · subst hbv
      simp only [if_true]
      constructor
      · intro hc; exact absurd hc (by simp)
      · rintro ⟨e, he, hes⟩
        exfalso
        rcases (r2 e).mp he with he | ⟨_, he⟩
        · subst he; exact hba hes.symm
        · exact he hes
    · rw [if_neg hbv, hiff b hb, hsplit]
      constructor
      · rintro ⟨e, he, hes⟩
        exact ⟨e, (r2 e).mpr (Or.inr ⟨he, by show e.spte ≠ victim.spte; rw [hes]; exact hbv⟩),
          hes⟩
      · rintro ⟨e, he, hes⟩
        rcases (r2 e).mp he with he | ⟨he, _⟩
        · subst he; exact absurd hes.symm hba
        · exact ⟨e, he, hes⟩
  · simpa using hnf
  · intro e he
    rcases (r2 e).mp he with he | ⟨he, _⟩
    · subst he
      exact ⟨ha, (hpool victim (by simp)).2⟩
    · exact hpool e he

theorem allocate_frame_pending (a : Nat) (z : Bool) (s s1 : vm) (frame : Nat)
    (hinv : frame_inv s) (hpool : pool_inv s) (ha : a < s.nsptes)
    (hl : (s.sptes a).loaded = false) (h : allocate_frame a z s = some (frame, s1)) :
    pending a frame s1 := by
  unfold allocate_frame at h
  cases hp : palloc_get_page z s with
  | some r =>
    obtain ⟨fr, s2⟩ := r
    rw [hp] at h
    simp only [Option.some.injEq, Prod.mk.injEq] at h
    obtain ⟨h1, h2⟩ := h
    subst h1 h2
    obtain ⟨p1, p2, p3, p4, p5, p6, p7, p8⟩ := palloc_get_page_spec z s s2 fr hp
    have hno := no_entry_of_unloaded s a hinv ha hl
    obtain ⟨hiff, hns, hnf⟩ := hinv
    unfold pending pool_inv insert_frame
    dsimp only
    rw [p5, p6, p7, p3]
    unfold pool_inv at hpool
    refine ⟨ha, hl, ⟨{ frame := fr, owner := s2.current, spte := a }, by simp, rfl, rfl⟩,
      ?_, ?_, ?_, ?_⟩
    · intro b hb hba
      rw [hiff b hb]
      constructor
      · rintro ⟨e, he, hes⟩
        exact ⟨e, by simp [he], hes⟩
      · rintro ⟨e, he, hes⟩
        simp only [List.mem_append, List.mem_singleton] at he
        rcases he with he | he
        · exact ⟨e, he, hes⟩
        · subst he; exact absurd hes.symm hba
    · rw [List.map_append, List.nodup_append]
      refine ⟨hns, by simp, ?_⟩
      simp only [List.map_cons, List.map_nil, List.disjoint_singleton, List.mem_map, not_exists,
        not_and]
      exact fun e he => hno e he
    · rw [List.map_append, List.nodup_append]
      refine ⟨hnf, by simp, ?_⟩
      simp only [List.map_cons, List.map_nil, List.disjoint_singleton, List.mem_map, not_exists,
        not_and]
      intro e he hef
      have := (hpool e he).2.2
      rw [hef, p2] at this
      exact absurd this (by simp)
    · intro e he
      simp only [List.mem_append, List.mem_singleton] at he
      rw [p4]
      rcases he with he | he
      · obtain ⟨q1, q2, q3⟩ := hpool e he
        refine ⟨q1, q2, ?_⟩
        split
        · rfl
        · exact q3
      · subst he
        exact ⟨ha, p1, by simp⟩
  | none =>
    rw [hp] at h
    dsimp only at h
    cases hv : victim_frame s with
    | none => rw [hv] at h; simp at h
    | some i =>
      rw [hv] at h
      dsimp only at h
      cases hg : s.frame_table.get? i with
      | none => rw [hg] at h; simp at h
      | some victim =>
        rw [hg] at h
        exact evict_pending i victim a z s s1 frame hinv hpool ha hl hg h

theorem eraseP_frame (f : Nat) : ∀ (l : List frame_table_entry),
    (l.map fun e => e.frame).Nodup →
    ∀ x, x ∈ l.eraseP (fun e => decide (e.frame = f)) ↔ (x ∈ l ∧ x.frame ≠ f) := by
  intro l
  induction l with
  | nil => intro _ x; simp
  | cons e rest ih =>
    intro hn x
    rw [List.map_cons, List.nodup_cons] at hn
    by_cases hef : e.frame = f
    · rw [List.eraseP_cons_of_pos (by simpa using hef)]
      constructor
      · intro hx
        refine ⟨List.mem_cons_of_mem _ hx, fun hxf => hn.1 ?_⟩
        rw [hef, ← hxf]
        exact List.mem_map_of_mem _ hx
      · rintro ⟨hx, hxf⟩
        rcases List.mem_cons.mp hx with hx | hx
        · subst hx; exact absurd hef hxf
        · exact hx
    · rw [List.eraseP_cons_of_neg (by simpa using hef), List.mem_cons, ih hn.2 x, List.mem_cons]
      constructor
      · rintro (hx | ⟨hx, hxf⟩)
        · subst hx; exact ⟨Or.inl rfl, hef⟩
        · exact ⟨Or.inr hx, hxf⟩
      · rintro ⟨hx | hx, hxf⟩
        · exact Or.inl hx
        · exact Or.inr ⟨hx, hxf⟩

theorem pending_congr (a frame : Nat) (s s1 : vm) (h : pending a frame s)
    (ht : same_tables s s1) : pending a frame s1 := by
  obtain ⟨t1, t2, t3, t4⟩ := ht
  unfold pending pool_inv at h ⊢
  rw [t1, t2, t3, t4]
  exact h

theorem same_tables_refl (s : vm) : same_tables s s := ⟨rfl, rfl, rfl, rfl⟩

theorem same_tables_trans (s s1 s2 : vm) (h1 : same_tables s s1) (h2 : same_tables s1 s2) :
    same_tables s s2 := by
  obtain ⟨a1, a2, a3, a4⟩ := h1
  obtain ⟨b1, b2, b3, b4⟩ := h2
  exact ⟨b1.trans a1, b2.trans a2, b3.trans a3, b4.trans a4⟩

theorem read_page_tables (a frame : Nat) (s : vm) (r : Bool × vm)
    (h : read_page a frame s = some r) : same_tables s r.2 := by
  unfold read_page at h
  dsimp only at h
  split at h
  · split at h
    · exact absurd h (by simp)
    · have := (Option.some.inj h).symm
      subst this
      exact ⟨rfl, rfl, rfl, rfl⟩
  · have := (Option.some.inj h).symm
    subst this
    exact same_tables_refl s

theorem map_page_tables (a frame : Nat) (w : Bool) (s : vm) :
    same_tables s (map_page a frame w s).2 := by
  unfold map_page pagedir_set_page
  split
  · exact same_tables_refl s
  · split
    · exact ⟨rfl, rfl, rfl, rfl⟩
    · exact same_tables_refl s

theorem hash_insert_tables (t a : Nat) (s : vm) : same_tables s (hash_insert t a s).2 := by
  unfold hash_insert
  split
  · exact same_tables_refl s
  · exact ⟨rfl, rfl, rfl, rfl⟩

theorem swap_in_tables (index frame : Nat) (s s1 : vm) (h : swap_in index frame s = some s1) :
    same_tables s s1 := by
  unfold swap_in at h
  have key : ∀ (n : Nat) (r : Option vm) (s1 : vm),
      (∀ s0, r = some s0 → same_tables s s0) →
      (List.range n).foldl (fun r i => r.bind fun s1 =>
        if index + i < s1.swap_table.bit_cnt then
          some { s1 with
            swap_table := bitmap_flip s1.swap_table (index + i)
            memory := page_write s1.memory frame (i * DISK_SECTOR_SIZE) DISK_SECTOR_SIZE
              (s1.swap_device (index + i)) }
        else none) r = some s1 → same_tables s s1 := by
    intro n
    induction n with
    | zero => intro r s1 hr h; exact hr s1 (by simpa using h)
    | succ n ih =>
      intro r s1 hr h
      rw [List.range_succ, List.foldl_append] at h
      simp only [List.foldl_cons, List.foldl_nil] at h
      obtain ⟨s2, h2, h3⟩ := Option.bind_eq_some.mp h
      have ht := ih r s2 hr h2
      split at h3
      · have := (Option.some.inj h3).symm
        subst this
        exact same_tables_trans _ _ _ ht ⟨rfl, rfl, rfl, rfl⟩
      · exact absurd h3 (by simp)
  exact key SECTORS_PER_PAGE (some s) s1
    (fun s0 h0 => by rw [← Option.some.inj h0]; exact same_tables_refl s) h

/-- Marking the pending entry as loaded restores the invariant. -/
theorem pending_loaded (a frame : Nat) (s : vm) (r : sup_page_table_entry)
    (h : pending a frame s) (hr : r.loaded = true) :
    frame_inv { s with sptes := upd s.sptes a r } ∧
    pool_inv { s with sptes := upd s.sptes a r } := by
  obtain ⟨ha, _, he, hiff, hns, hnf, hpool⟩ := h
  refine ⟨⟨?_, hns, hnf⟩, hpool⟩
  intro b hb
  show (upd s.sptes a r b).loaded = true ↔ ∃ e ∈ s.frame_table, e.spte = b
  unfold upd
  by_cases hba : b = a
  · subst hba
    rw [if_pos rfl]
    obtain ⟨e, he1, he2, _⟩ := he
    exact ⟨fun _ => ⟨e, he1, he2⟩, fun _ => hr⟩
  · rw [if_neg hba]
    exact hiff b hb hba

/-- The failure exit of a loader removes the pending entry and restores the invariant. -/
theorem pending_failed (a frame : Nat) (s : vm) (r : Bool × vm) (h : pending a frame s)
    (hf : load_failed frame s = some r) : frame_inv r.2 ∧ pool_inv r.2 := by
  obtain ⟨ha, hl, ⟨ea, hea1, hea2, hea3⟩, hiff, hns, hnf, hpool⟩ := h
  unfold load_failed free_frame at hf
  have hany : s.frame_table.any (fun e => decide (e.frame = frame)) = true := by
    rw [List.any_eq_true]
    exact ⟨ea, hea1, by simpa using hea3⟩
  rw [if_pos hany] at hf
  unfold palloc_free_page at hf
  dsimp only at hf
  obtain ⟨_, q2, q3⟩ := hpool ea hea1
  rw [hea3] at q2 q3
  rw [if_pos ⟨q2, q3⟩] at hf
  simp only [Option.map_some', Option.some.injEq] at hf
  subst hf
  have hmem := eraseP_frame frame s.frame_table hnf
  have hsub := List.eraseP_sublist (p := fun e : frame_table_entry => decide (e.frame = frame))
    s.frame_table
  unfold frame_inv pool_inv
  dsimp only
  refine ⟨⟨?_, (hsub.map _).nodup hns, (hsub.map _).nodup hnf⟩, ?_⟩
  · intro b hb
    by_cases hba : b = a
    · subst hba
      rw [hl]
      constructor
      · intro hc; exact absurd hc (by simp)
      · rintro ⟨e, he, hes⟩
        exfalso
        obtain ⟨he1, he2⟩ := (hmem e).mp he
        have := List.inj_on_of_nodup_map hns he1 hea1 (by rw [hes, hea2])
        subst this
        exact he2 hea3
    · rw [hiff b hb hba]
      constructor
      · rintro ⟨e, he, hes⟩
        refine ⟨e, (hmem e).mpr ⟨he, fun hef => ?_⟩, hes⟩
        have := List.inj_on_of_nodup_map hnf he hea1 (by rw [hef, hea3])
        subst this
        exact hba (hes.symm.trans hea2)
      · rintro ⟨e, he, hes⟩
        exact ⟨e, ((hmem e).mp he).1, hes⟩
  · intro e he
    obtain ⟨he1, he2⟩ := (hmem e).mp he
    obtain ⟨p1, p2, p3⟩ := hpool e he1
    refine ⟨p1, p2, ?_⟩
    show (if frame ≤ e.frame ∧ e.frame < frame + 1 then false else s.user_pool.bits e.frame)
      = true
    rw [if_neg (by omega)]
    exact p3

theorem load_page_file_inv (a : Nat) (s : vm) (r : Bool × vm) (hinv : frame_inv s)
    (hpool : pool_inv s) (ha : a < s.nsptes) (h : load_page_file a s = some r) :
    frame_inv r.2 ∧ pool_inv r.2 := by
  unfold load_page_file at h
  split at h
  · rw [← Option.some.inj h]; exact ⟨hinv, hpool⟩
  · rename_i hl
    obtain ⟨af, haf, h1⟩ := Option.bind_eq_some.mp h
    obtain ⟨rd, hrd, h2⟩ := Option.bind_eq_some.mp h1
    have hp1 := allocate_frame_pending a _ s af.2 af.1 hinv hpool ha (by simpa using hl) haf
    have hp2 := pending_congr _ _ _ _ hp1 (read_page_tables _ _ _ _ hrd)
    split at h2
    · have hp3 := pending_congr _ _ _ _ hp2 (map_page_tables a af.1 (!(rd.2.sptes a).read_only) rd.2)
      dsimp only at h2
      split at h2
      · rw [← Option.some.inj h2]
        exact pending_loaded a af.1 _ _ hp3 rfl
      · exact pending_failed a af.1 _ r hp3 h2
    · exact pending_failed a af.1 _ r hp2 h2

theorem load_page_mmap_inv (a : Nat) (s : vm) (r : Bool × vm) (hinv : frame_inv s)
    (hpool : pool_inv s) (ha : a < s.nsptes) (h : load_page_mmap a s = some r) :
    frame_inv r.2 ∧ pool_inv r.2 := by
  unfold load_page_mmap at h
  split at h
  · rw [← Option.some.inj h]; exact ⟨hinv, hpool⟩
  · rename_i hl
    obtain ⟨af, haf, h1⟩ := Option.bind_eq_some.mp h
    obtain ⟨rd, hrd, h2⟩ := Option.bind_eq_some.mp h1
    have hp1 := allocate_frame_pending a _ s af.2 af.1 hinv hpool ha (by simpa using hl) haf
    have hp2 := pending_congr _ _ _ _ hp1 (read_page_tables _ _ _ _ hrd)
    split at h2
    · have hp3 := pending_congr _ _ _ _ hp2 (map_page_tables a af.1 (!(rd.2.sptes a).read_only) rd.2)
      dsimp only at h2
      split at h2
      · rw [← Option.some.inj h2]
        exact pending_loaded a af.1 _ _ hp3 rfl
      · exact pending_failed a af.1 _ r hp3 h2
    · exact pending_failed a af.1 _ r hp2 h2

theorem load_page_stack_inv (a : Nat) (s : vm) (r : Bool × vm) (hinv : frame_inv s)
    (hpool : pool_inv s) (ha : a < s.nsptes) (h : load_page_stack a s = some r) :
    frame_inv r.2 ∧ pool_inv r.2 := by
  unfold load_page_stack at h
  split at h
  · rw [← Option.some.inj h]; exact ⟨hinv, hpool⟩
  · rename_i hl
    obtain ⟨af, haf, h1⟩ := Option.bind_eq_some.mp h
    have hp1 := allocate_frame_pending a _ s af.2 af.1 hinv hpool ha (by simpa using hl) haf
    have hp2 := pending_congr _ _ _ _ hp1 (hash_insert_tables af.2.current a af.2)
    dsimp only at h1
    split at h1
    · have hp3 := pending_congr _ _ _ _ hp2
        (map_page_tables a af.1 true (hash_insert af.2.current a af.2).2)
      split at h1
      · rw [← Option.some.inj h1]
        exact pending_loaded a af.1 _ _ hp3 rfl
      · exact pending_failed a af.1 _ r hp3 h1
    · exact pending_failed a af.1 _ r hp2 h1

theorem load_page_swap_inv (a : Nat) (s : vm) (r : Bool × vm) (hinv : frame_inv s)
    (hpool : pool_inv s) (ha : a < s.nsptes) (h : load_page_swap a s = some r) :
    frame_inv r.2 ∧ pool_inv r.2 := by
  unfold load_page_swap at h
  split at h
  · rename_i hl
    obtain ⟨af, haf, h1⟩ := Option.bind_eq_some.mp h
    obtain ⟨s1, hs1, h2⟩ := Option.bind_eq_some.mp h1
    have hp1 := allocate_frame_pending a _ s af.2 af.1 hinv hpool ha hl.2 haf
    have hp2 := pending_congr _ _ _ _ hp1 (swap_in_tables _ _ _ _ hs1)
    have hp3 := pending_congr _ _ _ _ hp2 (map_page_tables a af.1 true s1)
    dsimp only at h2
    split at h2
    · rw [← Option.some.inj h2]
      exact pending_loaded a af.1 _ _ hp3 rfl
    · exact pending_failed a af.1 _ r hp3 h2
  · exact absurd h (by simp)

theorem hash_find_none (s : vm) (t v : Nat) :
    hash_find s t v = none ↔ ∀ a ∈ s.spt t, (s.sptes a).user_vaddr ≠ v := by
  unfold hash_find
  rw [List.find?_eq_none]
  simp

theorem pages_of_zero : pages_of 0 = 0 := by decide

theorem pages_of_pos (n : Nat) (h : 0 < n) :
    pages_of n = pages_of (n - (if n < PGSIZE then n else PGSIZE)) + 1 := by
  unfold pages_of PGSIZE
  split <;> omega

/-- The loop of `mmap` lays out one entry per page when no page of the range is in the
table of the running thread. -/
theorem mmap_loop_spec (f : Nat) (id : Int) : ∀ (fuel vaddr ofs rb : Nat) (s : vm),
    rb ≤ fuel → pg_ofs vaddr = 0 → vaddr + pages_of rb * PGSIZE ≤ ADDR_RANGE →
    (∀ a ∈ s.spt s.current, a < s.nsptes) →
    (∀ i, i < pages_of rb → hash_find s s.current (vaddr + i * PGSIZE) = none) →
    ∃ s1, mmap_loop f id fuel vaddr ofs rb s = some (true, s1) ∧
      s1.current = s.current ∧ s1.nsptes = s.nsptes + pages_of rb ∧
      s1.spt s.current
        = s.spt s.current ++ (List.range (pages_of rb)).map (fun i => s.nsptes + i) ∧
      (∀ t, t ≠ s.current → s1.spt t = s.spt t) ∧
      (∀ a, a < s.nsptes → s1.sptes a = s.sptes a) ∧
      (∀ i, i < pages_of rb → s1.sptes (s.nsptes + i) =
        { s.sptes (s.nsptes + i) with
          user_vaddr := vaddr + i * PGSIZE, type := .MMAP, map_id := id, read_only := false
          loaded := false, file := some f, offset := ofs + i * PGSIZE
          read_bytes := min PGSIZE (rb - i * PGSIZE)
          zero_bytes := PGSIZE - min PGSIZE (rb - i * PGSIZE) }) := by
  intro fuel
  induction fuel with
  | zero =>
    intro vaddr ofs rb s hrb _ _ _ _
    have : rb = 0 := by omega
    subst this
    refine ⟨s, rfl, rfl, by rw [pages_of_zero]; rfl, by rw [pages_of_zero]; simp, fun _ _ => rfl,
      fun _ _ => rfl, ?_⟩
    intro i hi
    rw [pages_of_zero] at hi
    omega
  | succ fuel ih =>
    intro vaddr ofs rb s hrb hal hrange hheap hfree
    unfold mmap_loop
    by_cases hpos : rb > 0
    swap
    · have : rb = 0 := by omega
      subst this
      rw [if_neg hpos]
      refine ⟨s, rfl, rfl, by rw [pages_of_zero]; rfl, by rw [pages_of_zero]; simp,
        fun _ _ => rfl, fun _ _ => rfl, ?_⟩
      intro i hi
      rw [pages_of_zero] at hi
      omega
    rw [if_pos hpos]
    dsimp only
    have hpg := pages_of_pos rb hpos
    generalize hprb : (if rb < PGSIZE then rb else PGSIZE) = prb at hpg ⊢
    have hprb1 : 0 < prb ∧ prb ≤ rb ∧ prb ≤ PGSIZE ∧ prb = min PGSIZE rb := by
      rw [← hprb]; unfold PGSIZE; split <;> omega
    obtain ⟨hp0, hp1, hp2, hp3⟩ := hprb1
    have hP : PGSIZE = 4096 := rfl
    have hR : ADDR_RANGE = 4294967296 := by decide
    -- the entry allocated in this round
    obtain ⟨sA, hsA⟩ : ∃ sA : vm, { s with
            sptes := upd s.sptes s.nsptes
              { s.sptes s.nsptes with
                user_vaddr := vaddr, type := .MMAP, map_id := id, read_only := false
                loaded := false, file := some f, offset := ofs, read_bytes := prb
                zero_bytes := PGSIZE - prb }
            nsptes := s.nsptes + 1 } = sA := ⟨_, rfl⟩
    have hA : allocate_page_mmap vaddr f id ofs prb (PGSIZE - prb) s = some (s.nsptes, sA) := by
      unfold allocate_page_mmap
      rw [if_pos hal, hsA]
    rw [hA]
    simp only [Option.some_bind]
    have a1 : sA.current = s.current := by rw [← hsA]
    have a2 : sA.spt = s.spt := by rw [← hsA]
    have a3 : sA.nsptes = s.nsptes + 1 := by rw [← hsA]
    have a4 : ∀ a, a ≠ s.nsptes → sA.sptes a = s.sptes a := by
      intro a ha; rw [← hsA]; show upd _ _ _ a = _; unfold upd; rw [if_neg ha]
    have a5 : sA.sptes s.nsptes = { s.sptes s.nsptes with
                user_vaddr := vaddr, type := .MMAP, map_id := id, read_only := false
                loaded := false, file := some f, offset := ofs, read_bytes := prb
                zero_bytes := PGSIZE - prb } := by
      rw [← hsA]; show upd _ _ _ _ = _; unfold upd; rw [if_pos rfl]
    have hfind : hash_find sA sA.current (sA.sptes s.nsptes).user_vaddr = none := by
      rw [hash_find_none, a1, a2, a5]
      intro a ha
      rw [a4 a (by have := hheap a ha; omega)]
      have := (hash_find_none s s.current (vaddr + 0 * PGSIZE)).mp (hfree 0 (by omega)) a ha
      simpa using this
    obtain ⟨sB, hsB⟩ : ∃ sB : vm,
        { sA with spt := upd sA.spt sA.current (sA.spt sA.current ++ [s.nsptes]) } = sB :=
      ⟨_, rfl⟩
    have hB : hash_insert sA.current s.nsptes sA = (true, sB) := by
      unfold hash_insert
      rw [hfind, hsB]
    rw [hB]
    simp only [if_true]
    have b1 : sB.current = s.current := by rw [← hsB]; exact a1
    have b2 : sB.spt s.current = s.spt s.current ++ [s.nsptes] := by
      rw [← hsB]; show upd _ _ _ _ = _; unfold upd; rw [a1, if_pos rfl, a2]
    have b2' : ∀ t, t ≠ s.current → sB.spt t = s.spt t := by
      intro t ht; rw [← hsB]; show upd _ _ _ _ = _; unfold upd; rw [a1, if_neg ht, a2]
    have b3 : sB.nsptes = s.nsptes + 1 := by rw [← hsB]; exact a3
    have b4 : sB.sptes = sA.sptes := by rw [← hsB]
    have hal1 : vaddr % 4096 = 0 := hal
    have hrange1 : vaddr + pages_of rb * 4096 ≤ 4294967296 := by
      rw [hP, hR] at hrange; exact hrange
    have hp21 : prb ≤ 4096 := hp2
    have hq : pages_of (rb - prb) = (rb - prb + 4095) / 4096 := rfl
    have hv : 0 < pages_of (rb - prb) → (vaddr + PGSIZE) % ADDR_RANGE = vaddr + PGSIZE := by
      intro h0
      rw [hP, hR]
      omega
    obtain ⟨s1, h1, c1, c2, c3, c4, c5, c6⟩ := ih ((vaddr + PGSIZE) % ADDR_RANGE) (ofs + prb)
      (rb - prb) sB (by omega)
      (by unfold pg_ofs; rw [hP, hR]; omega)
      (by
        by_cases h0 : 0 < pages_of (rb - prb)
        · rw [hv h0, hP, hR]; omega
        · have : pages_of (rb - prb) = 0 := by omega
          rw [this, hR, hP]
          omega)
      (by
        intro a ha
        rw [b1, b2] at ha
        rw [b3]
        rcases List.mem_append.mp ha with ha | ha
        · have := hheap a ha; omega
        · simp only [List.mem_singleton] at ha; omega)
      (by
        intro i hi
        rw [hash_find_none, b1, b2, hv (by omega), b4]
        intro a ha
        rcases List.mem_append.mp ha with ha | ha
        · rw [a4 a (by have := hheap a ha; omega)]
          have := (hash_find_none s s.current (vaddr + (i + 1) * PGSIZE)).mp
            (hfree (i + 1) (by omega)) a ha
          intro hc
          apply this
          rw [hc, hP]; ring
        · simp only [List.mem_singleton] at ha
          subst ha
          rw [a5]
          show vaddr ≠ _
          rw [hP]; omega)
    refine ⟨s1, h1, by rw [c1, b1], by rw [c2, b3, hpg]; omega, ?_, ?_, ?_, ?_⟩
    · rw [b1] at c3
      rw [c3, b2, hpg, b3, List.range_succ_eq_map, List.map_cons, List.map_map,
        List.append_assoc]
      congr 1
      simp only [List.singleton_append, Nat.add_zero, List.cons.injEq, true_and]
      apply List.map_congr_left
      intro i _
      simp only [Function.comp]
      omega
    · intro t ht
      rw [b1] at c4
      rw [c4 t ht, b2' t ht]
    · intro a ha
      rw [c5 a (by omega), b4, a4 a (by omega)]
    · intro i hi
      cases i with
      | zero =>
        rw [Nat.add_zero, c5 _ (by omega), b4, a5, hp3]
        simp
      | succ j =>
        have hj : j < pages_of (rb - prb) := by omega
        have := c6 j hj
        rw [b3, b4, a4 _ (by omega), hv (by omega)] at this
        have e1 : s.nsptes + (j + 1) = s.nsptes + 1 + j := by omega
        rw [e1, this]
        have hfull : prb = PGSIZE := by
          rw [hP]
          omega
        have q1 : vaddr + PGSIZE + j * PGSIZE = vaddr + (j + 1) * PGSIZE := by ring
        have q2 : ofs + prb + j * PGSIZE = ofs + (j + 1) * PGSIZE := by rw [hfull]; ring
        have q3 : rb - prb - j * PGSIZE = rb - (j + 1) * PGSIZE := by
          rw [hfull, Nat.sub_sub]; congr 1; ring
        rw [q1, q2, q3]

theorem file_reopen_length (s : vm) (oldf : Nat) :
    file_length (file_reopen oldf s).2 (file_reopen oldf s).1 = file_length s oldf := by
  unfold file_length file_reopen upd
  simp

theorem mmap_loop_map_id (f : Nat) (id : Int) : ∀ (fuel vaddr ofs rb : Nat) (s s1 : vm),
    mmap_loop f id fuel vaddr ofs rb s = some (true, s1) → s1.map_id = s.map_id := by
  intro fuel
  induction fuel with
  | zero =>
    intro vaddr ofs rb s s1 h
    unfold mmap_loop at h
    simp only [Option.some.injEq, Prod.mk.injEq, true_and] at h
    rw [← h]
  | succ fuel ih =>
    intro vaddr ofs rb s s1 h
    unfold mmap_loop at h
    split at h
    · dsimp only at h
      obtain ⟨r, hr, h2⟩ := Option.bind_eq_some.mp h
      have ha : r.2.map_id = s.map_id := by
        unfold allocate_page_mmap at hr
        split at hr
        · rw [← Option.some.inj hr]
        · exact absurd hr (by simp)
      have hh : (hash_insert r.2.current r.1 r.2).2.map_id = r.2.map_id := by
        unfold hash_insert
        split <;> rfl
      split at h2
      · rw [ih _ _ _ _ _ h2, hh, ha]
      · obtain ⟨s2, _, h3⟩ := Option.map_eq_some'.mp h2
        simp at h3
    · simp only [Option.some.injEq, Prod.mk.injEq, true_and] at h
      rw [← h]


theorem find_range_first (p : Nat → Bool) (idx : Nat) :
    ∀ n, (List.range n).find? p = some idx → ∀ i, i < idx → p i = false := by
  intro n
  induction n with
  | zero => intro h; simp at h
  | succ n ih =>
    intro h i hi
    rw [List.range_succ, List.find?_append] at h
    cases hf : (List.range n).find? p with
    | some j =>
      rw [hf] at h
      simp only [Option.or_some, Option.some.injEq] at h
      subst h
      exact ih hf i hi
    | none =>
      rw [hf] at h
      simp only [Option.none_or] at h
      have hm := List.mem_of_find?_eq_some h
      simp only [List.mem_singleton] at hm
      subst hm
      rw [List.find?_eq_none] at hf
      have := hf i (List.mem_range.mpr hi)
      simpa using this

/-- The run `bitmap_scan` returns is the first: no earlier index at or after `start` begins
a run of `cnt` bits with the value. -/
theorem bitmap_scan_first (b : bitmap) (start cnt : Nat) (value : Bool) (idx : Nat)
    (h : bitmap_scan b start cnt value = some idx) (i : Nat) (h1 : start ≤ i) (h2 : i < idx) :
    ∃ j, j < cnt ∧ b.bits (i + j) ≠ value := by
  unfold bitmap_scan at h
  split at h
  · have hf := find_range_first _ idx _ h i h2
    simp only [Bool.and_eq_false_imp, decide_eq_true_eq, Bool.not_eq_false'] at hf
    have hc := hf h1
    by_contra hall
    have hall2 : ∀ j, j < cnt → b.bits (i + j) = value := by
      intro j hj
      by_contra hne
      exact hall ⟨j, hj, hne⟩
    have : bitmap_contains b i cnt (!value) = false := by
      rw [bitmap_contains_false]
      intro j hj
      simpa using hall2 j hj
    rw [this] at hc
    cases hc
  · exact absurd h (by simp)

theorem swap_out_spec (frame idx : Nat) (s s1 : vm) (h : swap_out frame s = some (idx, s1)) :
    idx + SECTORS_PER_PAGE ≤ s.swap_table.bit_cnt ∧
    (∀ j, j < SECTORS_PER_PAGE → s.swap_table.bits (idx + j) = false) ∧
    (∀ i, i < idx → ∃ j, j < SECTORS_PER_PAGE ∧ s.swap_table.bits (i + j) = true) ∧
    s1.swap_table = bitmap_set_multiple s.swap_table idx SECTORS_PER_PAGE true := by
  unfold swap_out bitmap_scan_and_flip at h
  cases hs : bitmap_scan s.swap_table 0 SECTORS_PER_PAGE false with
  | none => rw [hs] at h; simp at h
  | some k =>
    rw [hs] at h
    simp only [Option.map_some', Option.some.injEq, Prod.mk.injEq] at h
    obtain ⟨hk, h1⟩ := h
    subst hk
    obtain ⟨_, a2, a3⟩ := bitmap_scan_some _ _ _ _ _ hs
    refine ⟨a2, a3, ?_, by rw [← h1]; rfl⟩
    intro i hi
    obtain ⟨j, hj, hb⟩ := bitmap_scan_first _ _ _ _ _ hs i (Nat.zero_le _) hi
    exact ⟨j, hj, by simpa using hb⟩

theorem swap_in_spec (index frame : Nat) (s : vm)
    (hb : index + SECTORS_PER_PAGE ≤ s.swap_table.bit_cnt) :
    ∃ s1, swap_in index frame s = some s1 ∧
      s1.swap_table.bit_cnt = s.swap_table.bit_cnt ∧
      ∀ i, s1.swap_table.bits i
        = if index ≤ i ∧ i < index + SECTORS_PER_PAGE then !s.swap_table.bits i
          else s.swap_table.bits i := by
  obtain ⟨tb, m, hf, h1, h2, _⟩ := swap_in_fold index frame SECTORS_PER_PAGE s hb
  exact ⟨_, hf, h1, h2⟩

/-- `swap_out` keeps the invariant and returns a multiple of `SECTORS_PER_PAGE` that was not
live. -/
theorem swap_out_inv (frame idx : Nat) (s s1 : vm) (live : List Nat) (hinv : swap_inv s live)
    (h : swap_out frame s = some (idx, s1)) :
    idx % SECTORS_PER_PAGE = 0 ∧ idx ∉ live ∧ swap_inv s1 (idx :: live) := by
  obtain ⟨h1, h2, h3, h4⟩ := swap_out_spec frame idx s s1 h
  obtain ⟨i1, i2, i3⟩ := hinv
  have hS : SECTORS_PER_PAGE = 8 := rfl
  rw [hS] at h1 h2 h3 i2 i3 ⊢
  have hfree : ∀ x, idx ≤ x → x < idx + 8 → s.swap_table.bits x = false := by
    intro x hx1 hx2
    have := h2 (x - idx) (by omega)
    rwa [Nat.add_sub_cancel' hx1] at this
  have hal : idx % 8 = 0 := by
    by_contra hne
    obtain ⟨j, hj, hb⟩ := h3 (idx - idx % 8) (by omega)
    by_cases hlt : idx - idx % 8 + j < idx
    · obtain ⟨i, hi, hi1, hi2⟩ := (i3 _).mp hb
      have hia := (i2 i hi).1
      have hcov : s.swap_table.bits idx = true := (i3 idx).mpr ⟨i, hi, by omega, by omega⟩
      rw [hfree idx (le_refl _) (by omega)] at hcov
      cases hcov
    · rw [hfree _ (by omega) (by omega)] at hb
      cases hb
  have hnl : idx ∉ live := by
    intro hm
    have hcov : s.swap_table.bits idx = true := (i3 idx).mpr ⟨idx, hm, le_refl _, by omega⟩
    rw [hfree idx (le_refl _) (by omega)] at hcov
    cases hcov
  have hbits : ∀ x, s1.swap_table.bits x
      = if idx ≤ x ∧ x < idx + 8 then true else s.swap_table.bits x := by
    intro x
    rw [h4]
    rfl
  have hcnt : s1.swap_table.bit_cnt = s.swap_table.bit_cnt := by rw [h4]; rfl
  refine ⟨hal, hnl, List.nodup_cons.mpr ⟨hnl, i1⟩, ?_, ?_⟩
  · intro i hi
    rw [hcnt]
    rcases List.mem_cons.mp hi with rfl | hi
    · exact ⟨hal, h1⟩
    · exact i2 i hi
  · intro x
    show s1.swap_table.bits x = true ↔ ∃ i ∈ idx :: live, i ≤ x ∧ x < i + 8
    rw [hbits]
    by_cases hx : idx ≤ x ∧ x < idx + 8
    · rw [if_pos hx]
      exact ⟨fun _ => ⟨idx, List.mem_cons_self _ _, hx.1, hx.2⟩, fun _ => rfl⟩
    · rw [if_neg hx, i3]
      constructor
      · rintro ⟨i, hi, hi1, hi2⟩
        exact ⟨i, List.mem_cons_of_mem _ hi, hi1, hi2⟩
      · rintro ⟨i, hi, hi1, hi2⟩
        rcases List.mem_cons.mp hi with rfl | hi
        · exact absurd ⟨hi1, hi2⟩ hx
        · exact ⟨i, hi, hi1, hi2⟩

/-- `swap_in` of a live slot returns and keeps the invariant for the remaining slots. -/
theorem swap_in_inv (index frame : Nat) (s : vm) (live : List Nat) (hinv : swap_inv s live)
    (hm : index ∈ live) :
    ∃ s1, swap_in index frame s = some s1 ∧ swap_inv s1 (live.erase index) := by
  obtain ⟨i1, i2, i3⟩ := hinv
  obtain ⟨s1, h1, h2, h3⟩ := swap_in_spec index frame s (i2 index hm).2
  have hS : SECTORS_PER_PAGE = 8 := rfl
  rw [hS] at i2 i3 h3
  refine ⟨s1, h1, i1.erase index, ?_, ?_⟩
  · intro i hi
    rw [h2]
    exact i2 i (List.mem_of_mem_erase hi)
  · intro x
    show s1.swap_table.bits x = true ↔ ∃ i ∈ live.erase index, i ≤ x ∧ x < i + 8
    rw [h3]
    have hmem : ∀ i, i ∈ live.erase index ↔ i ≠ index ∧ i ∈ live := fun i => i1.mem_erase_iff
    by_cases hx : index ≤ x ∧ x < index + 8
    · rw [if_pos hx, (i3 x).mpr ⟨index, hm, hx.1, hx.2⟩]
      constructor
      · intro hc
        cases hc
      · rintro ⟨i, hi, hi1, hi2⟩
        obtain ⟨hne, hil⟩ := (hmem i).mp hi
        have ha := (i2 i hil).1
        have hb := (i2 index hm).1
        omega
    · rw [if_neg hx, i3]
      constructor
      · rintro ⟨i, hi, hi1, hi2⟩
        refine ⟨i, (hmem i).mpr ⟨?_, hi⟩, hi1, hi2⟩
        intro e
        subst e
        exact hx ⟨hi1, hi2⟩
      · rintro ⟨i, hi, hi1, hi2⟩
        exact ⟨i, ((hmem i).mp hi).2, hi1, hi2⟩

/-- Along a sequence of swap calls the invariant is kept and every slot returned is a
multiple of `SECTORS_PER_PAGE`. -/
theorem swap_calls_inv (cs : List swap_call) : ∀ (s : vm) (live returned : List Nat),
    swap_inv s live → (∀ i ∈ returned, i % SECTORS_PER_PAGE = 0) →
    ∀ s1 live1 returned1, swap_calls cs s live returned = some (s1, live1, returned1) →
      swap_inv s1 live1 ∧ (∀ i ∈ returned1, i % SECTORS_PER_PAGE = 0) := by
  induction cs with
  | nil =>
    intro s live returned hinv hret s1 live1 returned1 h
    unfold swap_calls at h
    simp only [Option.some.injEq, Prod.mk.injEq] at h
    obtain ⟨rfl, rfl, rfl⟩ := h
    exact ⟨hinv, hret⟩
  | cons c rest ih =>
    intro s live returned hinv hret s1 live1 returned1 h
    cases c with
    | swap_out frame =>
      unfold swap_calls at h
      cases ho : swap_out frame s with
      | none => rw [ho] at h; cases h
      | some r =>
        rw [ho] at h
        obtain ⟨a1, _, a3⟩ := swap_out_inv frame r.1 s r.2 live hinv ho
        refine ih r.2 (r.1 :: live) (returned ++ [r.1]) a3 ?_ s1 live1 returned1 h
        intro i hi
        rcases List.mem_append.mp hi with hi | hi
        · exact hret i hi
        · rw [List.mem_singleton.mp hi]
          exact a1
    | swap_in index frame =>
      unfold swap_calls at h
      by_cases hm : index ∈ live
      · rw [if_pos hm] at h
        obtain ⟨s2, h1, h2⟩ := swap_in_inv index frame s live hinv hm
        rw [h1] at h
        exact ih s2 (live.erase index) returned h2 hret s1 live1 returned1 h
      · rw [if_neg hm] at h
        cases h

/-- C14: for every page of memory and every swap bitmap with a free run of
`SECTORS_PER_PAGE` sectors, `swap_out` returns an index `index` of such a run inside the
bitmap, marks exactly the sectors `index .. index + SECTORS_PER_PAGE - 1` as in use, and a
following `swap_in index frame` leaves `frame` with the `PGSIZE` bytes the page had and the
bitmap as it was before `swap_out`. -/
theorem swap_round_trip (s : vm) (page frame : Nat)
    (hfree : ∃ i, i + SECTORS_PER_PAGE ≤ s.swap_table.bit_cnt ∧
      ∀ j, j < SECTORS_PER_PAGE → s.swap_table.bits (i + j) = false) :
    ∃ index s1 s2, swap_out page s = some (index, s1) ∧
      index + SECTORS_PER_PAGE ≤ s.swap_table.bit_cnt ∧
      (∀ i, index ≤ i → i < index + SECTORS_PER_PAGE → s.swap_table.bits i = false) ∧
      (∀ i, s1.swap_table.bits i
        = if index ≤ i ∧ i < index + SECTORS_PER_PAGE then true else s.swap_table.bits i) ∧
      swap_in index frame s1 = some s2 ∧
      (∀ k, k < PGSIZE → s2.memory frame k = s.memory page k) ∧
      s2.swap_table = s.swap_table := by
  obtain ⟨i, hi1, hi2⟩ := hfree
  obtain ⟨idx, hidx⟩ := bitmap_scan_exists s.swap_table 0 SECTORS_PER_PAGE false i
    (Nat.zero_le _) hi1 hi2
  obtain ⟨_, hb1, hb2⟩ := bitmap_scan_some _ _ _ _ _ hidx
  have hout : swap_out page s = some (idx,
      { s with
        swap_table := bitmap_set_multiple s.swap_table idx SECTORS_PER_PAGE true
        swap_device := (List.range SECTORS_PER_PAGE).foldl (fun d i =>
          disk_write d (idx + i) fun j => s.memory page (i * DISK_SECTOR_SIZE + j))
          s.swap_device }) := by
    unfold swap_out bitmap_scan_and_flip
    rw [hidx]
    rfl
  obtain ⟨tb, m, hin, ht1, ht2, ht3⟩ := swap_in_fold idx frame SECTORS_PER_PAGE
    { s with
      swap_table := bitmap_set_multiple s.swap_table idx SECTORS_PER_PAGE true
      swap_device := (List.range SECTORS_PER_PAGE).foldl (fun d i =>
        disk_write d (idx + i) fun j => s.memory page (i * DISK_SECTOR_SIZE + j))
        s.swap_device } hb1
  have hfree2 : ∀ x, idx ≤ x → x < idx + SECTORS_PER_PAGE → s.swap_table.bits x = false := by
    intro x h1 h2
    have := hb2 (x - idx) (by omega)
    rwa [Nat.add_sub_cancel' h1] at this
  refine ⟨idx, _, _, hout, hb1, hfree2, fun x => rfl, hin, ?_, ?_⟩
  · intro k hk
    show m frame k = s.memory page k
    have hS : SECTORS_PER_PAGE * DISK_SECTOR_SIZE = PGSIZE := rfl
    have hD : DISK_SECTOR_SIZE = 512 := rfl
    rw [ht3, if_pos ⟨rfl, by rw [hS]; exact hk⟩]
    show ((List.range SECTORS_PER_PAGE).foldl (fun d i =>
        disk_write d (idx + i) fun j => s.memory page (i * DISK_SECTOR_SIZE + j))
        s.swap_device) (idx + k / DISK_SECTOR_SIZE) (k % DISK_SECTOR_SIZE) = s.memory page k
    have hP : PGSIZE = 4096 := rfl
    have hSP : SECTORS_PER_PAGE = 8 := rfl
    have hk1 : k < 4096 := hk
    rw [swap_out_device, if_pos ⟨Nat.le_add_right _ _, by rw [hSP, hD]; omega,
      by rw [hD]; omega⟩, Nat.add_sub_cancel_left, Nat.div_add_mod']
  · show tb = s.swap_table
    have hbits : tb.bits = s.swap_table.bits := by
      funext x
      rw [ht2]
      by_cases hx : idx ≤ x ∧ x < idx + SECTORS_PER_PAGE
      · rw [if_pos hx, hfree2 x hx.1 hx.2]
        show (!(if idx ≤ x ∧ x < idx + SECTORS_PER_PAGE then true else s.swap_table.bits x))
          = false
        rw [if_pos hx]
        rfl
      · rw [if_neg hx]
        show (if idx ≤ x ∧ x < idx + SECTORS_PER_PAGE then true else s.swap_table.bits x)
          = s.swap_table.bits x
        rw [if_neg hx]
    cases tb
    cases hs : s.swap_table
    rw [hs] at ht1 hbits
    simp only at ht1 hbits
    subst ht1 hbits
    rfl

/-- C14 (witness). The swap disk of `vm_example` has 24 free sectors. -/
theorem swap_round_trip_witness :
    ∃ index s1 s2, swap_out 0 vm_example = some (index, s1) ∧
      index + SECTORS_PER_PAGE ≤ vm_example.swap_table.bit_cnt ∧
      (∀ i, index ≤ i → i < index + SECTORS_PER_PAGE →
        vm_example.swap_table.bits i = false) ∧
      (∀ i, s1.swap_table.bits i
        = if index ≤ i ∧ i < index + SECTORS_PER_PAGE then true
          else vm_example.swap_table.bits i) ∧
      swap_in index 0 s1 = some s2 ∧
      (∀ k, k < PGSIZE → s2.memory 0 k = vm_example.memory 0 k) ∧
      s2.swap_table = vm_example.swap_table :=
  swap_round_trip vm_example 0 0 ⟨0, by decide, fun _ _ => rfl⟩

/-- C15: `load_page` keeps the frame table consistent.  From a state in which a frame table
entry exists for a supplemental page table entry exactly when that entry is loaded, no
supplemental page table entry has two frame table entries and no frame appears in two
entries (and every frame of the table is marked in use in the user pool), every call of
`load_page` that returns, with `true` or with `false` and with or without an eviction in
`allocate_frame`, leaves a state with the same properties. -/
theorem load_page_keeps_frame_table (a : Nat) (s : vm) (r : Bool × vm) (hinv : frame_inv s)
    (hpool : pool_inv s) (ha : a < s.nsptes) (h : load_page a s = some r) :
    frame_inv r.2 ∧ pool_inv r.2 := by
  unfold load_page at h
  split at h
  · rw [← Option.some.inj h]; exact ⟨hinv, hpool⟩
  · split at h
    · exact load_page_file_inv a s r hinv hpool ha h
    · exact load_page_stack_inv a s r hinv hpool ha h
    · exact load_page_swap_inv a s r hinv hpool ha h
    · exact load_page_mmap_inv a s r hinv hpool ha h

/-- C15 (witness). In `vm_example_loaded` the only page of the user pool holds entry 0;
loading the stack page, entry 1, evicts entry 0 to swap and reuses its frame. -/
theorem load_page_keeps_frame_table_witness :
    frame_inv vm_example_loaded ∧ vm_example_loaded.user_pool.bits 0 = true ∧
    ∃ r, load_page 1 vm_example_loaded = some r ∧ r.1 = true ∧
      r.2.frame_table = [{ frame := 0, owner := 0, spte := 1 }] ∧
      (r.2.sptes 0).type = .SWAPPED ∧ frame_inv r.2 ∧ pool_inv r.2 := by
  have hobs : (load_page 1 vm_example_loaded).map
      (fun r => (r.1, r.2.frame_table, (r.2.sptes 0).type))
      = some (true, [{ frame := 0, owner := 0, spte := 1 }], .SWAPPED) := by decide!
  obtain ⟨r, hr, h1⟩ := Option.map_eq_some'.mp hobs
  simp only [Prod.mk.injEq] at h1
  have hi := load_page_keeps_frame_table 1 vm_example_loaded r (by decide!) (by decide!)
    (by decide!) hr
  exact ⟨by decide!, by decide!, r, hr, h1.1, h1.2.1, h1.2.2, hi.1, hi.2⟩

/-- C32 (evaluation at the failing input). With three frames whose pages have the bits
(A, D), (A, D), (A, not D), in this order, `victim_frame` returns the second entry, a page
with A and D both set, although the third entry is in a lower class: the first entry fills
`fte3`, and the second, which satisfies none of the three conditions that end in
`fteN == NULL`, falls through to the last branch and fills `fte0`.  With two (A, D) pages
the function returns the second where the claim names the first.  A table that has at most
one page with A and D set is treated as claimed. -/
theorem victim_frame_takes_second_dirty_page :
    victim_frame (victim_example 0 [(true, true), (true, true), (true, false)]) = some 1 ∧
    claimed_victim (own_bits (victim_example 0 [(true, true), (true, true), (true, false)]))
      (victim_example 0 [(true, true), (true, true), (true, false)]).frame_table = some 2 ∧
    victim_frame (victim_example 0 [(true, true), (true, true)]) = some 1 ∧
    claimed_victim (own_bits (victim_example 0 [(true, true), (true, true)]))
      (victim_example 0 [(true, true), (true, true)]).frame_table = some 0 ∧
    victim_frame (victim_example 0 [(true, true), (true, false), (false, true)]) = some 2 ∧
    claimed_victim (own_bits (victim_example 0 [(true, true), (true, false), (false, true)]))
      (victim_example 0 [(true, true), (true, false), (false, true)]).frame_table = some 2 := by
  decide!

/-- C33 (evaluation at the failing input). Thread 1 owns the two frames of the table; its
first page has the bits (A, D), its second (not A, not D).  When thread 1 itself runs
`victim_frame` the second entry is chosen, as the bits of the entries' own page table
entries say.  When thread 0 runs it, with the same frame table and the same page tables,
the first entry is chosen: the bits are read at the pages' addresses in the page directory
of thread 0, which maps neither, so both entries count as (not A, not D). -/
theorem victim_frame_reads_callers_page_directory :
    (victim_example 1 [(true, true), (false, false)]).current = 0 ∧
    (victim_example 1 [(true, true), (false, false)]).frame_table.map (fun e => e.owner)
      = [1, 1] ∧
    (victim_example 1 [(true, true), (false, false)]).frame_table.map
      (own_bits (victim_example 1 [(true, true), (false, false)]))
      = [(true, true), (false, false)] ∧
    claimed_victim (own_bits (victim_example 1 [(true, true), (false, false)]))
      (victim_example 1 [(true, true), (false, false)]).frame_table = some 1 ∧
    victim_frame { victim_example 1 [(true, true), (false, false)] with current := 1 }
      = some 1 ∧
    victim_frame (victim_example 1 [(true, true), (false, false)]) = some 0 := by
  decide!

/-- C34 (evaluation at the failing input). `allocate_page_stack` sets `user_vaddr`, `type`,
`read_only` and `loaded` and leaves `file` and `map_id` as `malloc` returned them.  In
`vm_garbage` that memory holds the fill pattern 0xCC: the new stack entry, entry 2, is
loaded (STACK, writable), evicted when entry 0 is loaded (SWAPPED, slot 0), and loaded
again: `load_page_swap` finds `file` not null and `map_id` other than -1 and makes the entry
an MMAP page, where the claim says STACK. -/
theorem reloaded_stack_page_becomes_mmap :
    (allocate_page_stack 0xBFFFE123 vm_garbage).1 = 2 ∧
    observe_page 2 (allocate_page_stack 0xBFFFE123 vm_garbage).2
      = { type := .STACK, loaded := false, read_only := false, index := 0xCCCCCCCC
          writable := none } ∧
    ((allocate_page_stack 0xBFFFE123 vm_garbage).2.sptes 2).file = some 0xCCCCCCCC ∧
    ((allocate_page_stack 0xBFFFE123 vm_garbage).2.sptes 2).map_id = -858993460 ∧
    load_all 2 [2] (allocate_page_stack 0xBFFFE123 vm_garbage).2 = some
      { type := .STACK, loaded := true, read_only := false, index := 0xCCCCCCCC
        writable := some true } ∧
    load_all 2 [2, 0] (allocate_page_stack 0xBFFFE123 vm_garbage).2 = some
      { type := .SWAPPED, loaded := false, read_only := false, index := 0
        writable := none } ∧
    load_all 2 [2, 0, 2] (allocate_page_stack 0xBFFFE123 vm_garbage).2 = some
      { type := .MMAP, loaded := true, read_only := false, index := 0
        writable := some true } := by
  decide!

/-- C38: swap slots are page aligned and disjoint.  For every sequence of `swap_out` and
`swap_in` calls that starts from a swap bitmap with every sector free, in which `swap_in` is
only called for a slot that `swap_out` returned and that has not been swapped in since, and
in which `swap_out` does not panic for want of space: every index `swap_out` returned is a
multiple of `SECTORS_PER_PAGE`, the live slots are distinct, the sector ranges
`[i, i + SECTORS_PER_PAGE)` of two live slots are disjoint, and the sectors marked in use
are exactly those of the live slots. -/
theorem swap_slots_are_page_aligned (cs : List swap_call) (s : vm) (live returned : List Nat)
    (h0 : ∀ i, s.swap_table.bits i = false)
    (h : (swap_calls cs s [] []).map Prod.snd = some (live, returned)) :
    (∀ i ∈ returned, i % SECTORS_PER_PAGE = 0) ∧
    live.Nodup ∧
    (∀ i ∈ live, ∀ j ∈ live, i ≠ j →
      i + SECTORS_PER_PAGE ≤ j ∨ j + SECTORS_PER_PAGE ≤ i) ∧
    ∃ s1, swap_calls cs s [] [] = some (s1, live, returned) ∧
      ∀ x, s1.swap_table.bits x = true ↔
        ∃ i ∈ live, i ≤ x ∧ x < i + SECTORS_PER_PAGE := by
  obtain ⟨r, hr, hsnd⟩ := Option.map_eq_some'.mp h
  obtain ⟨s1, l1, r1⟩ := r
  simp only [Prod.mk.injEq] at hsnd
  obtain ⟨rfl, rfl⟩ := hsnd
  have hinit : swap_inv s [] := by
    refine ⟨List.nodup_nil, fun i hi => absurd hi (List.not_mem_nil i), ?_⟩
    intro x
    rw [h0 x]
    constructor
    · intro hc
      cases hc
    · rintro ⟨i, hi, _⟩
      exact absurd hi (List.not_mem_nil i)
  obtain ⟨⟨i1, i2, i3⟩, hret⟩ := swap_calls_inv cs s [] [] hinit
    (fun i hi => absurd hi (List.not_mem_nil i)) s1 l1 r1 hr
  refine ⟨hret, i1, ?_, s1, hr, i3⟩
  intro i hi j hj hne
  have ha := (i2 i hi).1
  have hb := (i2 j hj).1
  have hS : SECTORS_PER_PAGE = 8 := rfl
  rw [hS] at ha hb ⊢
  omega

/-- C38 (witness). On the swap disk of `vm_example` (24 sectors, all free) two pages are
swapped out (slots 0 and 8), the first is swapped in, and two more are swapped out (slots 0
and 16). -/
theorem swap_slots_are_page_aligned_witness :
    (swap_calls [.swap_out 0, .swap_out 0, .swap_in 0 0, .swap_out 0, .swap_out 0]
      vm_example [] []).map Prod.snd = some ([16, 0, 8], [0, 8, 0, 16]) ∧
    (∀ i ∈ [0, 8, 0, 16], i % SECTORS_PER_PAGE = 0) ∧
    ∀ i ∈ [16, 0, 8], ∀ j ∈ [16, 0, 8], i ≠ j →
      i + SECTORS_PER_PAGE ≤ j ∨ j + SECTORS_PER_PAGE ≤ i := by
  have h : (swap_calls [.swap_out 0, .swap_out 0, .swap_in 0 0, .swap_out 0, .swap_out 0]
      vm_example [] []).map Prod.snd = some ([16, 0, 8], [0, 8, 0, 16]) := by decide!
  have hw := swap_slots_are_page_aligned _ vm_example [16, 0, 8] [0, 8, 0, 16]
    (fun _ => rfl) h
  exact ⟨h, hw.1, hw.2.2.1⟩

/-- C39 (evaluation at the failing input). Entry 0 of `vm_example` is a read-only FILE page.
Loaded by `load_page_file` it is mapped read-only.  Loading the stack page, entry 1, evicts
it to swap slot 0.  Loaded again through `load_page_swap`, it is a FILE page again, still
marked `read_only`, and its page table entry is writable: `load_page_swap` passes `true` to
`pagedir_set_page` where `load_page_file` passes `!spte->read_only`. -/
theorem read_only_page_writable_after_swap :
    load_all 0 [0] vm_example = some
      { type := .FILE, loaded := true, read_only := true, index := 0
        writable := some false } ∧
    load_all 0 [0, 1] vm_example = some
      { type := .SWAPPED, loaded := false, read_only := true, index := 0
        writable := none } ∧
    load_all 0 [0, 1, 0] vm_example = some
      { type := .FILE, loaded := true, read_only := true, index := 0
        writable := some true } := by
  decide!

end VM

namespace FS

open Threads (upd UINT_RANGE)
open VM (bitmap bitmap_scan bitmap_scan_and_flip bitmap_set_multiple)

/-! ## Lemmas: the open-inode list -/

theorem upd_same {α : Type} (f : Nat → α) (i : Nat) (v : α) : upd f i v i = v := by
  unfold upd; simp

theorem upd_other {α : Type} (f : Nat → α) (i j : Nat) (v : α) (h : j ≠ i) :
    upd f i v j = f j := by
  unfold upd; simp [h]

theorem find?_sector (s : fs) (i : Nat) (h : (s.open_inodes.map fun i => (s.inodes i).sector).Nodup)
    (hi : i ∈ s.open_inodes) :
    s.open_inodes.find? (fun j => decide ((s.inodes j).sector = (s.inodes i).sector)) = some i := by
  generalize s.open_inodes = l at h hi
  induction l with
  | nil => simp at hi
  | cons a l ih =>
    rw [List.find?_cons]
    by_cases ha : (s.inodes a).sector = (s.inodes i).sector
    · simp only [ha, decide_True]
      rcases List.mem_cons.mp hi with h1 | h1
      · rw [h1]
      · exfalso
        rw [List.map_cons, List.nodup_cons] at h
        apply h.1
        rw [ha]
        exact List.mem_map.mpr ⟨i, h1, rfl⟩
    · simp only [ha, decide_False]
      rcases List.mem_cons.mp hi with h1 | h1
      · rw [h1] at ha; exact absurd rfl ha
      · rw [List.map_cons, List.nodup_cons] at h
        exact ih h.2 h1

theorem map_sector_upd (inodes : Nat → inode) (l : List Nat) (i : Nat) (v : inode)
    (h : v.sector = (inodes i).sector) :
    (l.map fun j => (upd inodes i v j).sector) = l.map fun j => (inodes j).sector := by
  apply List.map_congr_left
  intro j _
  by_cases hj : j = i
  · rw [hj, upd_same, h]
  · rw [upd_other _ _ _ _ hj]

theorem map_sector_upd_fresh (inodes : Nat → inode) (l : List Nat) (i : Nat) (v : inode)
    (h : ∀ j ∈ l, j ≠ i) :
    (l.map fun j => (upd inodes i v j).sector) = l.map fun j => (inodes j).sector := by
  apply List.map_congr_left
  intro j hj
  rw [upd_other _ _ _ _ (h j hj)]

theorem inode_open_found (s : fs) (h : open_ok s) (i : Nat) (hi : i ∈ s.open_inodes) :
    inode_open (s.inodes i).sector s = some (i, inode_reopen i s) := by
  unfold inode_open
  rw [find?_sector s i h.2 hi]

theorem inode_open_ok (s : fs) (h : open_ok s) (sector : Nat) (r : Nat × fs)
    (hr : inode_open sector s = some r) :
    open_ok r.2 ∧ (r.2.inodes r.1).sector = sector ∧ r.1 ∈ r.2.open_inodes := by
  unfold inode_open at hr
  cases hf : s.open_inodes.find? (fun i => decide ((s.inodes i).sector = sector)) with
  | some i =>
    rw [hf] at hr
    simp only [Option.some.injEq] at hr
    subst hr
    have hm := List.mem_of_find?_eq_some hf
    have hs := List.find?_some hf
    simp only [decide_eq_true_eq] at hs
    refine ⟨⟨h.1, ?_⟩, ?_, hm⟩
    · unfold inode_reopen
      dsimp only
      rw [map_sector_upd]
      · exact h.2
      · rfl
    · unfold inode_reopen
      dsimp only
      rw [upd_same]
      exact hs
  | none =>
    rw [hf] at hr
    dsimp only at hr
    obtain ⟨data, _, hd⟩ := Option.map_eq_some'.mp hr
    subst hd
    dsimp only
    have hfresh : ∀ j ∈ s.open_inodes, j ≠ s.ninodes := fun j hj => Nat.ne_of_lt (h.1 j hj)
    refine ⟨⟨?_, ?_⟩, ?_, List.mem_cons_self _ _⟩
    · intro j hj
      dsimp only at hj ⊢
      rcases List.mem_cons.mp hj with h1 | h1
      · omega
      · have := h.1 j h1; omega
    · dsimp only
      rw [List.map_cons, upd_same, map_sector_upd_fresh _ _ _ _ hfresh, List.nodup_cons]
      refine ⟨?_, h.2⟩
      intro hmem
      obtain ⟨j, hj, hjs⟩ := List.mem_map.mp hmem
      have := List.find?_eq_none.mp hf j hj
      simp only [decide_eq_true_eq] at this
      exact this hjs
    · dsimp only
      rw [upd_same]


/-- What a function leaves alone when it only changes the free map. -/
theorem release_entries_frame (block : Nat → Nat) (n : Nat) (s : fs) :
    ∃ fm, release_entries block n s = { s with free_map := fm } := by
  unfold release_entries
  generalize List.range n = l
  induction l generalizing s with
  | nil => exact ⟨s.free_map, rfl⟩
  | cons a l ih =>
    rw [List.foldl_cons]
    obtain ⟨fm, hfm⟩ := ih (free_map_release (block a) 1 s)
    exact ⟨fm, by rw [hfm]; rfl⟩

theorem release_double_frame (block_ptrs : Nat → Nat) :
    ∀ (fuel block_index sectors : Nat) (s s1 : fs),
      release_double block_ptrs fuel block_index sectors s = some s1 →
      ∃ fm, s1 = { s with free_map := fm } := by
  intro fuel
  induction fuel with
  | zero =>
    intro block_index sectors s s1 h
    unfold release_double at h
    simp only [Option.some.injEq] at h
    exact ⟨s.free_map, by rw [← h]⟩
  | succ fuel ih =>
    intro block_index sectors s s1 h
    unfold release_double at h
    split at h
    · obtain ⟨data, _, h2⟩ := Option.bind_eq_some.mp h
      obtain ⟨fm, hfm⟩ := ih _ _ _ _ h2
      obtain ⟨fm1, hfm1⟩ := release_entries_frame (words_of data) (min 128 sectors) s
      rw [hfm1] at hfm
      exact ⟨fm, hfm⟩
    · simp only [Option.some.injEq] at h
      exact ⟨s.free_map, by rw [← h]⟩

theorem inode_free_resources_frame (ino : inode) (s s1 : fs)
    (h : inode_free_resources ino s = some s1) : ∃ fm, s1 = { s with free_map := fm } := by
  unfold inode_free_resources at h
  dsimp only at h
  obtain ⟨fm1, h1⟩ := release_entries_frame ino.blocks (min DIRECT_BLOCKS (bytes_to_sectors ino.length)) s
  rw [h1] at h
  split at h
  · obtain ⟨data, _, h2⟩ := Option.bind_eq_some.mp h
    obtain ⟨fm2, h3⟩ := release_entries_frame (words_of data)
      (min 128 (bytes_to_sectors ino.length - min DIRECT_BLOCKS (bytes_to_sectors ino.length)))
      { s with free_map := fm1 }
    rw [h3] at h2
    split at h2
    · obtain ⟨ptrs, _, h4⟩ := Option.bind_eq_some.mp h2
      obtain ⟨fm, hfm⟩ := release_double_frame _ _ _ _ _ _ h4
      exact ⟨fm, hfm⟩
    · simp only [Option.some.injEq] at h2
      exact ⟨fm2, by rw [← h2]⟩
  · simp only [Option.some.injEq] at h
    exact ⟨fm1, by rw [← h]⟩

/-- The fields of the state after `inode_close` that concern the open inodes. -/
theorem inode_close_spec (s s1 : fs) (i : Nat) (h : inode_close i s = some s1) :
    s1.inodes = upd s.inodes i { s.inodes i with open_cnt := (s.inodes i).open_cnt - 1 } ∧
    s1.ninodes = s.ninodes ∧
    s1.open_inodes = if (s.inodes i).open_cnt - 1 = 0 then s.open_inodes.erase i
      else s.open_inodes := by
  unfold inode_close at h
  dsimp only at h
  by_cases h0 : (s.inodes i).open_cnt - 1 = 0
  · rw [if_pos h0] at h
    rw [if_pos h0]
    split at h
    · obtain ⟨s3, h3, h4⟩ := Option.map_eq_some'.mp h
      obtain ⟨fm, hfm⟩ := inode_free_resources_frame _ _ _ h3
      subst hfm
      subst h4
      exact ⟨rfl, rfl, rfl⟩
    · unfold disk_write at h
      split at h
      · simp only [Option.some.injEq] at h
        subst h
        exact ⟨rfl, rfl, rfl⟩
      · exact absurd h (by simp)
  · rw [if_neg h0] at h
    rw [if_neg h0]
    simp only [Option.some.injEq] at h
    subst h
    exact ⟨rfl, rfl, rfl⟩

theorem inode_close_ok (s s1 : fs) (h : open_ok s) (i : Nat)
    (hc : inode_close i s = some s1) :
    open_ok s1 ∧ (s1.inodes i).open_cnt = (s.inodes i).open_cnt - 1 ∧
    (i ∈ s.open_inodes → (i ∈ s1.open_inodes ↔ (s.inodes i).open_cnt - 1 ≠ 0)) := by
  obtain ⟨h1, h2, h3⟩ := inode_close_spec s s1 i hc
  have hnd : s.open_inodes.Nodup := List.Nodup.of_map _ h.2
  refine ⟨⟨?_, ?_⟩, ?_, ?_⟩
  · intro j hj
    rw [h2]
    apply h.1
    rw [h3] at hj
    split at hj
    · exact List.mem_of_mem_erase hj
    · exact hj
  · rw [h1, map_sector_upd]
    · rw [h3]
      split
      · exact List.Nodup.sublist (List.Sublist.map _ (List.erase_sublist _ _)) h.2
      · exact h.2
    · rfl
  · rw [h1, upd_same]
  · intro hi
    rw [h3]
    split
    · rename_i h0
      simp [hnd.mem_erase_iff, h0]
    · rename_i h0
      simp [hi, h0]

theorem inode_close_some (s : fs) (i : Nat)
    (h : (s.inodes i).open_cnt - 1 ≠ 0 ∨
      ((s.inodes i).removed = false ∧ (s.inodes i).sector < s.free_map.bit_cnt)) :
    ∃ s1, inode_close i s = some s1 := by
  unfold inode_close
  dsimp only
  by_cases h0 : (s.inodes i).open_cnt - 1 = 0
  · rw [if_pos h0]
    rcases h with h | ⟨h1, h2⟩
    · exact absurd h0 h
    · rw [h1]
      simp only [Bool.false_eq_true, if_false]
      unfold disk_write
      rw [if_pos h2]
      exact ⟨_, rfl⟩
  · rw [if_neg h0]
    exact ⟨_, rfl⟩

theorem inode_open_some (s : fs) (sector : Nat) (h : sector < s.free_map.bit_cnt) :
    ∃ r, inode_open sector s = some r := by
  unfold inode_open
  split
  · exact ⟨_, rfl⟩
  · unfold disk_read
    rw [if_pos h]
    exact ⟨_, rfl⟩

/-! ## Lemmas: the block cache -/

theorem modify_split {α : Type} (f : α → α) : ∀ (l : List α) (i : Nat) (v : α),
    l.get? i = some v →
    ∃ pre post, l = pre ++ v :: post ∧ pre.length = i ∧ l.modify f i = pre ++ f v :: post := by
  intro l
  induction l with
  | nil => intro i v h; simp at h
  | cons y ys ih =>
    intro i v h
    cases i with
    | zero =>
      simp only [List.get?_cons_zero, Option.some.injEq] at h
      subst h
      exact ⟨[], ys, rfl, rfl, rfl⟩
    | succ i =>
      simp only [List.get?_cons_succ] at h
      obtain ⟨pre, post, h1, h2, h3⟩ := ih i v h
      refine ⟨y :: pre, post, by rw [h1]; rfl, by simp [h2], ?_⟩
      rw [List.modify_succ_cons, h3]
      rfl

theorem cache_find_some (sector_num : Nat) : ∀ (l : List cache_entry) (i : Nat),
    cache_find sector_num l = some i →
    ∃ e, l.get? i = some e ∧ e.sector_num = sector_num := by
  intro l
  induction l with
  | nil => intro i h; simp [cache_find] at h
  | cons y ys ih =>
    intro i h
    unfold cache_find at h
    split at h
    · rename_i hy
      simp only [Option.some.injEq] at h
      subst h
      exact ⟨y, rfl, hy⟩
    · obtain ⟨k, hk, hki⟩ := Option.map_eq_some'.mp h
      subst hki
      exact ih k hk

theorem cache_find_none (sector_num : Nat) : ∀ (l : List cache_entry),
    cache_find sector_num l = none → ∀ e ∈ l, e.sector_num ≠ sector_num := by
  intro l
  induction l with
  | nil => intro _ e he; simp at he
  | cons y ys ih =>
    intro h e he
    unfold cache_find at h
    split at h
    · exact absurd h (by simp)
    · rename_i hy
      rcases List.mem_cons.mp he with h1 | h1
      · rw [h1]; exact hy
      · apply ih _ e h1
        cases hc : cache_find sector_num ys with
        | none => rfl
        | some k => rw [hc] at h; simp at h

/-- The loop of `victim_sector` when every entry has been accessed: it keeps `ans` when no
entry is older than `min_time`, and otherwise returns an entry of least time. -/
theorem victim_scan_spec : ∀ (l : List cache_entry) (i : Nat) (ans : Option Nat) (m : Int),
    (∀ e ∈ l, e.accessed = true) →
    ((∀ e ∈ l, m ≤ e.access_time) ∧ victim_scan l i ans m = ans) ∨
    ∃ k e, l.get? k = some e ∧ victim_scan l i ans m = some (i + k) ∧ e.access_time < m ∧
      ∀ e1 ∈ l, e.access_time ≤ e1.access_time := by
  intro l
  induction l with
  | nil =>
    intro i ans m _
    exact Or.inl ⟨by simp, rfl⟩
  | cons y ys ih =>
    intro i ans m hacc
    have hy : y.accessed = true := hacc y (List.mem_cons_self _ _)
    have hys : ∀ e ∈ ys, e.accessed = true := fun e he => hacc e (List.mem_cons_of_mem _ he)
    unfold victim_scan
    simp only [hy, Bool.not_true, Bool.false_eq_true, if_false]
    by_cases hlt : y.access_time < m
    · rw [if_pos hlt]
      rcases ih (i + 1) (some i) y.access_time hys with ⟨h1, h2⟩ | ⟨k, e, h1, h2, h3, h4⟩
      · refine Or.inr ⟨0, y, rfl, by rw [h2]; rfl, hlt, ?_⟩
        intro e1 he1
        rcases List.mem_cons.mp he1 with h | h
        · rw [h]
        · exact h1 e1 h
      · refine Or.inr ⟨k + 1, e, h1, by rw [h2]; congr 1; omega, by omega, ?_⟩
        intro e1 he1
        rcases List.mem_cons.mp he1 with h | h
        · rw [h]; omega
        · exact h4 e1 h
    · rw [if_neg hlt]
      rcases ih (i + 1) ans m hys with ⟨h1, h2⟩ | ⟨k, e, h1, h2, h3, h4⟩
      · refine Or.inl ⟨?_, h2⟩
        intro e1 he1
        rcases List.mem_cons.mp he1 with h | h
        · rw [h]; omega
        · exact h1 e1 h
      · refine Or.inr ⟨k + 1, e, h1, by rw [h2]; congr 1; omega, h3, ?_⟩
        intro e1 he1
        rcases List.mem_cons.mp he1 with h | h
        · rw [h]; omega
        · exact h4 e1 h

theorem victim_sector_spec (s : fs) (h : cache_inv s) (hne : s.buffer_cache ≠ []) :
    ∃ k e, s.buffer_cache.get? k = some e ∧ victim_sector s = some k ∧
      ∀ e1 ∈ s.buffer_cache, e.access_time ≤ e1.access_time := by
  unfold victim_sector
  rcases victim_scan_spec s.buffer_cache 0 none 9223372036854775807
    (fun e he => (h.2.2.2 e he).1) with ⟨h1, _⟩ | ⟨k, e, h1, h2, _, h4⟩
  · exfalso
    cases hl : s.buffer_cache with
    | nil => exact hne hl
    | cons y ys =>
      have := h1 y (by rw [hl]; exact List.mem_cons_self _ _)
      have h2 := (h.2.2.2 y (by rw [hl]; exact List.mem_cons_self _ _)).2.1
      unfold INT64_MAX at h2
      omega
  · exact ⟨k, e, h1, by rw [h2, Nat.zero_add], h4⟩

/-- The entry that `cache_fetch_sector` sets up. -/
theorem cache_load_some (i sector_num : Nat) (set_dirty : Bool) (s : fs)
    (hs : sector_num < s.free_map.bit_cnt) :
    cache_load i sector_num set_dirty s = some (i, { s with
      buffer_cache := s.buffer_cache.modify
        (fun entry => { entry with
          accessed := true, dirty := set_dirty, access_time := s.ticks
          sector_num := sector_num, payload := s.disk sector_num }) i }) := by
  unfold cache_load disk_read
  rw [if_pos hs]
  rfl

theorem cache_fetch_full (s : fs) (sector_num : Nat) (set_dirty : Bool)
    (h : cache_inv s) (hs : sector_num < s.free_map.bit_cnt) (hfull : s.buffer_cache.length = 64) :
    ∃ i victim pre post, s.buffer_cache = pre ++ victim :: post ∧ pre.length = i ∧
      (∀ e ∈ s.buffer_cache, victim.access_time ≤ e.access_time) ∧
      cache_fetch_sector sector_num set_dirty s = some (i,
        { s with
          disk := if victim.dirty then
              upd s.disk victim.sector_num fun j =>
                if j < DISK_SECTOR_SIZE then victim.payload j else s.disk victim.sector_num j
            else s.disk
          buffer_cache := pre ++
            { accessed := true, dirty := set_dirty, access_time := s.ticks
              sector_num := sector_num
              payload := (if victim.dirty then
                  upd s.disk victim.sector_num fun j =>
                    if j < DISK_SECTOR_SIZE then victim.payload j else s.disk victim.sector_num j
                else s.disk) sector_num } :: post }) := by
  have hne : s.buffer_cache ≠ [] := by
    intro h0; rw [h0] at hfull; simp at hfull
  obtain ⟨k, e, hk, hv, hmin⟩ := victim_sector_spec s h hne
  obtain ⟨pre, post, hsplit, hlen, hmod⟩ := modify_split
    (fun entry : cache_entry => { entry with
          accessed := true, dirty := set_dirty, access_time := s.ticks
          sector_num := sector_num, payload := s.disk sector_num }) s.buffer_cache k e hk
  refine ⟨k, e, pre, post, hsplit, hlen, hmin, ?_⟩
  unfold cache_fetch_sector
  rw [if_neg (by rw [h.1, hfull]; decide), hv]
  dsimp only
  rw [hk]
  dsimp only
  have hev : e.sector_num < s.free_map.bit_cnt :=
    (h.2.2.2 e (by rw [hsplit]; simp)).2.2
  by_cases hd : e.dirty = true
  · rw [if_pos hd, if_pos hd]
    unfold disk_write
    rw [if_pos hev]
    simp only [Option.some_bind]
    rw [cache_load_some _ _ _ _ (by exact hs)]
    dsimp only
    obtain ⟨pre1, post1, hsplit1, hlen1, hmod1⟩ := modify_split
      (fun entry : cache_entry => { entry with
          accessed := true, dirty := set_dirty, access_time := s.ticks
          sector_num := sector_num
          payload := upd s.disk e.sector_num (fun j =>
            if j < DISK_SECTOR_SIZE then e.payload j else s.disk e.sector_num j) sector_num })
      s.buffer_cache k e hk
    rw [hmod1]
    have : pre1 = pre ∧ post1 = post := by
      have h1 : pre1 ++ e :: post1 = pre ++ e :: post := by rw [← hsplit1, ← hsplit]
      have h2 := List.append_inj h1 (by rw [hlen1, hlen])
      exact ⟨h2.1, (List.cons.inj h2.2).2⟩
    rw [this.1, this.2]
  · rw [if_neg hd, if_neg hd]
    rw [cache_load_some _ _ _ _ hs, hmod]

theorem cache_find_split (sector_num : Nat) : ∀ (l : List cache_entry) (i : Nat),
    cache_find sector_num l = some i →
    ∃ pre e post, l = pre ++ e :: post ∧ pre.length = i ∧ e.sector_num = sector_num ∧
      ∀ f : cache_entry → cache_entry, l.modify f i = pre ++ f e :: post := by
  intro l i h
  obtain ⟨e, he, hes⟩ := cache_find_some sector_num l i h
  obtain ⟨pre, post, h1, h2, _⟩ := modify_split id l i e he
  refine ⟨pre, e, post, h1, h2, hes, ?_⟩
  intro f
  obtain ⟨pre1, post1, h3, h4, h5⟩ := modify_split f l i e he
  have h6 : pre1 ++ e :: post1 = pre ++ e :: post := by rw [← h3, ← h1]
  have h7 := List.append_inj h6 (by rw [h4, h2])
  rw [h5, h7.1, (List.cons.inj h7.2).2]

theorem cache_fetch_append (s : fs) (sector_num : Nat) (set_dirty : Bool)
    (h : cache_inv s) (hs : sector_num < s.free_map.bit_cnt) (hlt : s.buffer_cache.length < 64) :
    cache_fetch_sector sector_num set_dirty s = some (s.buffer_cache.length,
      { s with
        buffer_cache := s.buffer_cache ++
          [{ accessed := true, dirty := set_dirty, access_time := s.ticks
             sector_num := sector_num, payload := s.disk sector_num }]
        buffer_cache_size := s.buffer_cache_size + 1 }) := by
  unfold cache_fetch_sector
  rw [if_pos (by rw [h.1]; exact hlt)]
  rw [cache_load_some _ _ _ _ (by exact hs)]
  dsimp only
  obtain ⟨pre, post, h1, h2, h3⟩ := modify_split
    (fun entry : cache_entry => { entry with
          accessed := true, dirty := set_dirty, access_time := s.ticks
          sector_num := sector_num, payload := s.disk sector_num })
    (s.buffer_cache ++ [(⟨false, false, 0, 0, s.junk⟩ : cache_entry)]) s.buffer_cache.length
    (⟨false, false, 0, 0, s.junk⟩ : cache_entry) (by simp)
  rw [h3]
  have h4 := List.append_inj h1.symm (by rw [h2])
  rw [h4.1, ← (List.cons.inj h4.2).2]

/-- The three ways in which `cache_entry_for` ends: the sector is in the cache (hit), the
cache has room (a new entry at the end), or the least recently used entry is replaced. -/
theorem cache_entry_for_cases (s : fs) (sector_num : Nat) (set_dirty : Bool)
    (h : cache_inv s) (hs : sector_num < s.free_map.bit_cnt) :
    (∃ pre e post, s.buffer_cache = pre ++ e :: post ∧ e.sector_num = sector_num ∧
      cache_entry_for sector_num set_dirty s = some (pre.length,
        { s with buffer_cache := pre ++
            { e with accessed := true, access_time := s.ticks, dirty := e.dirty || set_dirty }
              :: post })) ∨
    ((∀ e ∈ s.buffer_cache, e.sector_num ≠ sector_num) ∧ s.buffer_cache.length < 64 ∧
      cache_entry_for sector_num set_dirty s = some (s.buffer_cache.length,
        { s with
          buffer_cache := s.buffer_cache ++
            [{ accessed := true, dirty := set_dirty, access_time := s.ticks
               sector_num := sector_num, payload := s.disk sector_num }]
          buffer_cache_size := s.buffer_cache_size + 1 })) ∨
    ((∀ e ∈ s.buffer_cache, e.sector_num ≠ sector_num) ∧
      ∃ pre victim post, s.buffer_cache = pre ++ victim :: post ∧
        (∀ e ∈ s.buffer_cache, victim.access_time ≤ e.access_time) ∧
        cache_entry_for sector_num set_dirty s = some (pre.length,
          { s with
            disk := if victim.dirty then
                upd s.disk victim.sector_num fun j =>
                  if j < DISK_SECTOR_SIZE then victim.payload j else s.disk victim.sector_num j
              else s.disk
            buffer_cache := pre ++
              { accessed := true, dirty := set_dirty, access_time := s.ticks
                sector_num := sector_num, payload := s.disk sector_num } :: post })) := by
  unfold cache_entry_for cache_get_sector
  cases hf : cache_find sector_num s.buffer_cache with
  | some i =>
    left
    obtain ⟨pre, e, post, h1, h2, h3, h4⟩ := cache_find_split sector_num _ i hf
    refine ⟨pre, e, post, h1, h3, ?_⟩
    dsimp only
    rw [h4, h2]
  | none =>
    right
    have hnone := cache_find_none sector_num _ hf
    dsimp only
    by_cases hlt : s.buffer_cache.length < 64
    · left
      exact ⟨hnone, hlt, cache_fetch_append s sector_num set_dirty h hs hlt⟩
    · right
      have hfull : s.buffer_cache.length = 64 := by have := h.2.1; omega
      obtain ⟨i, victim, pre, post, h1, h2, h3, h4⟩ :=
        cache_fetch_full s sector_num set_dirty h hs hfull
      refine ⟨hnone, pre, victim, post, h1, h3, ?_⟩
      rw [h4, h2]
      have hne : victim.sector_num ≠ sector_num := hnone victim (by rw [h1]; simp)
      have : (if victim.dirty = true then
                upd s.disk victim.sector_num fun j =>
                  if j < DISK_SECTOR_SIZE then victim.payload j else s.disk victim.sector_num j
              else s.disk) sector_num = s.disk sector_num := by
        split
        · unfold upd; rw [if_neg (Ne.symm hne)]
        · rfl
      rw [this]

theorem cache_inv_replace (s s1 : fs) (pre post : List cache_entry) (v e : cache_entry)
    (h : cache_inv s) (hsplit : s.buffer_cache = pre ++ v :: post)
    (h1 : s1.buffer_cache = pre ++ e :: post) (h2 : s1.buffer_cache_size = s.buffer_cache_size)
    (h3 : s1.ticks = s.ticks) (h4 : s1.free_map = s.free_map)
    (he : e.accessed = true ∧ e.access_time < INT64_MAX ∧ e.sector_num < s.free_map.bit_cnt) :
    cache_inv s1 := by
  obtain ⟨a, b, c, d⟩ := h
  refine ⟨?_, ?_, ?_, ?_⟩
  · rw [h2, a, hsplit, h1]; simp
  · rw [h1]; rw [hsplit] at b; simpa using b
  · rw [h3]; exact c
  · intro x hx
    rw [h4]
    rw [h1] at hx
    rcases List.mem_append.mp hx with hx | hx
    · exact d x (by rw [hsplit]; exact List.mem_append_left _ hx)
    · rcases List.mem_cons.mp hx with hx | hx
      · rw [hx]; exact he
      · exact d x (by rw [hsplit]; exact List.mem_append_right _ (List.mem_cons_of_mem _ hx))

theorem cache_inv_append (s s1 : fs) (e : cache_entry)
    (h : cache_inv s) (hlt : s.buffer_cache.length < 64)
    (h1 : s1.buffer_cache = s.buffer_cache ++ [e])
    (h2 : s1.buffer_cache_size = s.buffer_cache_size + 1)
    (h3 : s1.ticks = s.ticks) (h4 : s1.free_map = s.free_map)
    (he : e.accessed = true ∧ e.access_time < INT64_MAX ∧ e.sector_num < s.free_map.bit_cnt) :
    cache_inv s1 := by
  obtain ⟨a, b, c, d⟩ := h
  refine ⟨?_, ?_, ?_, ?_⟩
  · rw [h2, a, h1]; simp
  · rw [h1]; simp; omega
  · rw [h3]; exact c
  · intro x hx
    rw [h4]
    rw [h1] at hx
    rcases List.mem_append.mp hx with hx | hx
    · exact d x hx
    · rw [List.mem_singleton.mp hx]; exact he

theorem cache_fetch_inv (s : fs) (sector_num : Nat) (set_dirty : Bool)
    (h : cache_inv s) (hs : sector_num < s.free_map.bit_cnt) :
    ∃ r, cache_fetch_sector sector_num set_dirty s = some r ∧ cache_inv r.2 := by
  by_cases hlt : s.buffer_cache.length < 64
  · refine ⟨_, cache_fetch_append s sector_num set_dirty h hs hlt, ?_⟩
    exact cache_inv_append s _ _ h hlt rfl rfl rfl rfl ⟨rfl, h.2.2.1, hs⟩
  · have hfull : s.buffer_cache.length = 64 := by have := h.2.1; omega
    obtain ⟨i, victim, pre, post, h1, h2, h3, h4⟩ :=
      cache_fetch_full s sector_num set_dirty h hs hfull
    refine ⟨_, h4, ?_⟩
    exact cache_inv_replace s _ pre post victim _ h h1 rfl rfl rfl rfl ⟨rfl, h.2.2.1, hs⟩

theorem cache_get_inv (s : fs) (sector_num : Nat) (set_dirty : Bool) (h : cache_inv s) :
    cache_inv (cache_get_sector sector_num set_dirty s).2 := by
  unfold cache_get_sector
  cases hf : cache_find sector_num s.buffer_cache with
  | none => exact h
  | some i =>
    obtain ⟨pre, e, post, h1, h2, h3, h4⟩ := cache_find_split sector_num _ i hf
    dsimp only
    refine cache_inv_replace s _ pre post e _ h h1 (h4 _) rfl rfl rfl ⟨rfl, h.2.2.1, ?_⟩
    exact (h.2.2.2 e (by rw [h1]; simp)).2.2

theorem cache_entry_for_inv (s : fs) (sector_num : Nat) (set_dirty : Bool)
    (h : cache_inv s) (hs : sector_num < s.free_map.bit_cnt) :
    ∃ r, cache_entry_for sector_num set_dirty s = some r ∧ cache_inv r.2 ∧
      (cache_distinct s → cache_distinct r.2) := by
  rcases cache_entry_for_cases s sector_num set_dirty h hs with
    ⟨pre, e, post, h1, h2, h3⟩ | ⟨hn, hlt, h3⟩ | ⟨hn, pre, victim, post, h1, _, h3⟩
  · refine ⟨_, h3, ?_, ?_⟩
    · exact cache_inv_replace s _ pre post e _ h h1 rfl rfl rfl rfl
        ⟨rfl, h.2.2.1, (h.2.2.2 e (by rw [h1]; simp)).2.2⟩
    · intro hd
      unfold cache_distinct at hd ⊢
      rw [h1] at hd
      simpa using hd
  · refine ⟨_, h3, ?_, ?_⟩
    · exact cache_inv_append s _ _ h hlt rfl rfl rfl rfl ⟨rfl, h.2.2.1, hs⟩
    · intro hd
      unfold cache_distinct at hd ⊢
      dsimp only
      rw [List.map_append, List.nodup_append]
      refine ⟨hd, by simp, ?_⟩
      intro a ha hb
      simp only [List.map_cons, List.map_nil, List.mem_singleton] at hb
      obtain ⟨x, hx, hxa⟩ := List.mem_map.mp ha
      exact hn x hx (by rw [hxa, hb])
  · refine ⟨_, h3, ?_, ?_⟩
    · exact cache_inv_replace s _ pre post victim _ h h1 rfl rfl rfl rfl ⟨rfl, h.2.2.1, hs⟩
    · intro hd
      unfold cache_distinct at hd ⊢
      dsimp only
      have := (VM.replace_spec (fun e : cache_entry => e.sector_num) pre post victim
        { accessed := true, dirty := set_dirty, access_time := s.ticks
          sector_num := sector_num, payload := s.disk sector_num } (by rw [← h1]; exact hd)
        (by rw [← h1]; exact hn)).1
      exact this

/-- The loop of `free_cache` over a list of entries for different sectors. -/
theorem free_fold_spec : ∀ (l : List cache_entry) (t : fs),
    (l.map fun e => e.sector_num).Nodup →
    (∀ e ∈ l, e.sector_num < t.free_map.bit_cnt) →
    ∃ t1, l.foldl free_entry (some t) = some t1 ∧ t1.buffer_cache = t.buffer_cache ∧
      t1.free_map = t.free_map ∧
      (∀ e ∈ l, e.dirty = true →
        ∀ j, j < DISK_SECTOR_SIZE → t1.disk e.sector_num j = e.payload j) ∧
      (∀ x, (∀ e ∈ l, e.sector_num = x → e.dirty = false) → t1.disk x = t.disk x) := by
  intro l
  induction l with
  | nil =>
    intro t _ _
    exact ⟨t, rfl, rfl, rfl, by simp, fun _ _ => rfl⟩
  | cons y ys ih =>
    intro t hn hr
    rw [List.map_cons, List.nodup_cons] at hn
    have hy : y.sector_num < t.free_map.bit_cnt := hr y (List.mem_cons_self _ _)
    rw [List.foldl_cons]
    by_cases hd : y.dirty = true
    · have h1 : free_entry (some t) y = some { t with
          disk := upd t.disk y.sector_num fun j =>
            if j < DISK_SECTOR_SIZE then y.payload j else t.disk y.sector_num j } := by
        unfold free_entry disk_write
        simp only [Option.some_bind, hd, if_true, hy]
      rw [h1]
      obtain ⟨t1, a, b, c, d, e⟩ := ih { t with
          disk := upd t.disk y.sector_num fun j =>
            if j < DISK_SECTOR_SIZE then y.payload j else t.disk y.sector_num j } hn.2
        (fun e he => hr e (List.mem_cons_of_mem _ he))
      refine ⟨t1, a, b, c, ?_, ?_⟩
      · intro e1 he1 hd1 j hj
        rcases List.mem_cons.mp he1 with h | h
        · rw [h]
          rw [e y.sector_num]
          · show upd t.disk y.sector_num _ y.sector_num j = _
            unfold upd
            rw [if_pos rfl, if_pos hj]
          · intro e2 he2 hs2
            exfalso
            exact hn.1 (List.mem_map.mpr ⟨e2, he2, hs2⟩)
        · exact d e1 h hd1 j hj
      · intro x hx
        rw [e x (fun e2 he2 hs2 => hx e2 (List.mem_cons_of_mem _ he2) hs2)]
        show upd t.disk y.sector_num _ x = _
        unfold upd
        rw [if_neg]
        intro hxy
        have := hx y (List.mem_cons_self _ _) hxy.symm
        rw [hd] at this
        exact absurd this (by simp)
    · have h1 : free_entry (some t) y = some t := by
        unfold free_entry
        simp only [Option.some_bind, hd, if_false]
        rfl
      rw [h1]
      obtain ⟨t1, a, b, c, d, e⟩ := ih t hn.2 (fun e he => hr e (List.mem_cons_of_mem _ he))
      refine ⟨t1, a, b, c, ?_, ?_⟩
      · intro e1 he1 hd1 j hj
        rcases List.mem_cons.mp he1 with h | h
        · rw [h] at hd1; exact absurd hd1 hd
        · exact d e1 h hd1 j hj
      · intro x hx
        exact e x (fun e2 he2 hs2 => hx e2 (List.mem_cons_of_mem _ he2) hs2)

/-! ## Lemmas: the bytes held for a sector -/

theorem content_of_mem_list (x : Nat) (disk : Nat → Nat) : ∀ (l : List cache_entry) (e : cache_entry),
    (l.map fun e => e.sector_num).Nodup → e ∈ l → e.sector_num = x →
    (match cache_find x l with
      | some i =>
        match l.get? i with
        | some e => e.payload
        | none => disk
      | none => disk) = e.payload := by
  intro l
  induction l with
  | nil => intro e _ he; simp at he
  | cons y ys ih =>
    intro e hn he hx
    rw [List.map_cons, List.nodup_cons] at hn
    unfold cache_find
    by_cases hy : y.sector_num = x
    · rw [if_pos hy]
      simp only [List.get?_cons_zero]
      rcases List.mem_cons.mp he with h | h
      · rw [h]
      · exfalso
        exact hn.1 (List.mem_map.mpr ⟨e, h, by rw [hx, hy]⟩)
    · rw [if_neg hy]
      rcases List.mem_cons.mp he with h | h
      · rw [h] at hx; exact absurd hx hy
      · have := ih e hn.2 h hx
        cases hf : cache_find x ys with
        | none =>
          exfalso
          exact cache_find_none x ys hf e h hx
        | some i =>
          rw [hf] at this
          simp only [Option.map_some', List.get?_cons_succ]
          exact this

theorem content_mem (s : fs) (e : cache_entry) (hd : cache_distinct s)
    (he : e ∈ s.buffer_cache) : content s e.sector_num = e.payload := by
  unfold content
  exact content_of_mem_list e.sector_num (s.disk e.sector_num) s.buffer_cache e hd he rfl

theorem content_uncached (s : fs) (x : Nat) (h : ∀ e ∈ s.buffer_cache, e.sector_num ≠ x) :
    content s x = s.disk x := by
  unfold content
  cases hf : cache_find x s.buffer_cache with
  | none => rfl
  | some i =>
    obtain ⟨e, he, hx⟩ := cache_find_some x _ i hf
    exact absurd hx (h e (List.get?_mem he))

/-- Either a sector has a cache entry, or it has none. -/
theorem cached_or_not (s : fs) (x : Nat) :
    (∃ e ∈ s.buffer_cache, e.sector_num = x) ∨ ∀ e ∈ s.buffer_cache, e.sector_num ≠ x := by
  by_cases h : ∃ e ∈ s.buffer_cache, e.sector_num = x
  · exact Or.inl h
  · right
    intro e he hx
    exact h ⟨e, he, hx⟩

theorem mem_replace {α : Type} (f : α → Nat) (pre post : List α) (v x : α)
    (hn : ((pre ++ v :: post).map f).Nodup) :
    ∀ e, e ∈ pre ++ x :: post ↔ (e = x ∨ (e ∈ pre ++ v :: post ∧ f e ≠ f v)) := by
  simp only [List.map_append, List.map_cons, List.nodup_append, List.nodup_cons, List.mem_map,
    List.mem_append, List.mem_cons, List.disjoint_cons_right, List.disjoint_left] at hn ⊢
  obtain ⟨_, ⟨h2, _⟩, h4⟩ := hn
  intro e
  constructor
  · rintro (h | h | h)
    · refine Or.inr ⟨Or.inl h, ?_⟩
      intro hf
      exact h4 ⟨e, h, rfl⟩ (Or.inl hf)
    · exact Or.inl h
    · refine Or.inr ⟨Or.inr (Or.inr h), ?_⟩
      intro hf
      exact h2 ⟨e, h, hf⟩
  · rintro (h | ⟨h | h | h, hne⟩)
    · exact Or.inr (Or.inl h)
    · exact Or.inl h
    · rw [h] at hne; exact absurd rfl hne
    · exact Or.inr (Or.inr h)

theorem distinct_replace_same (pre post : List cache_entry) (v e : cache_entry)
    (hn : ((pre ++ v :: post).map fun e => e.sector_num).Nodup)
    (hs : e.sector_num = v.sector_num) :
    ((pre ++ e :: post).map fun e => e.sector_num).Nodup := by
  simpa [hs] using hn

/-- A cache hit, seen from the sectors: `cache_get_sector` updates the entry in place. -/
theorem reads_hit (s s1 : fs) (pre post : List cache_entry) (v e : cache_entry)
    (hi : cache_inv s) (hd : cache_distinct s)
    (hsplit : s.buffer_cache = pre ++ v :: post)
    (h1 : s1 = { s with buffer_cache := pre ++ e :: post })
    (hacc : e.accessed = true) (htime : e.access_time = s.ticks)
    (hsec : e.sector_num = v.sector_num) (hpay : e.payload = v.payload)
    (hdirty : e.dirty = false → v.dirty = false) :
    reads (fun x => x = e.sector_num) s s1 := by
  have hmem := mem_replace (fun e : cache_entry => e.sector_num) pre post v e
    (by rw [← hsplit]; exact hd)
  have hd1 : cache_distinct s1 := by
    rw [h1]
    exact distinct_replace_same pre post v e (by rw [← hsplit]; exact hd) hsec
  have hv : v ∈ s.buffer_cache := by rw [hsplit]; simp
  have hc1 : s1.buffer_cache = pre ++ e :: post := by rw [h1]
  have hdisk : s1.disk = s.disk := by rw [h1]
  have hi1 : cache_inv s1 := by
    refine cache_inv_replace s s1 pre post v e hi hsplit hc1 (by rw [h1]) (by rw [h1])
      (by rw [h1]) ⟨hacc, by rw [htime]; exact hi.2.2.1, ?_⟩
    rw [hsec]
    exact (hi.2.2.2 v hv).2.2
  -- every entry of the new cache has an old entry with the same sector and payload
  have hold : ∀ e1 ∈ s1.buffer_cache, ∃ e0 ∈ s.buffer_cache,
      e0.sector_num = e1.sector_num ∧ e0.payload = e1.payload ∧
      (e1.dirty = false → e0.dirty = false) := by
    intro e1 he1
    rw [hc1] at he1
    rcases (hmem e1).mp he1 with h | ⟨h, _⟩
    · exact ⟨v, hv, by rw [h, hsec], by rw [h, hpay], by rw [h]; exact hdirty⟩
    · exact ⟨e1, by rw [hsplit]; exact h, rfl, rfl, fun h => h⟩
  refine ⟨by rw [h1], by rw [h1], by rw [h1], by rw [h1], by rw [h1], by rw [h1], hi1, hd1,
    ?_, ?_, ?_⟩
  · intro x hx
    refine ⟨?_, fun j _ => by rw [hdisk]⟩
    intro e1 he1 hx1 j hj
    obtain ⟨e0, he0, a, b, _⟩ := hold e1 he1
    rw [hdisk, ← b]
    exact hx e0 he0 (by rw [a, hx1]) j hj
  · intro x hx
    refine ⟨?_, ?_⟩
    · intro e1 he1 hx1 hcl j hj
      obtain ⟨e0, he0, a, b, c⟩ := hold e1 he1
      rw [hdisk, ← b]
      exact hx e0 he0 (by rw [a, hx1]) (c hcl) j hj
    · intro j _
      rcases cached_or_not s1 x with ⟨e1, he1, hx1⟩ | hno
      · obtain ⟨e0, he0, a, b, _⟩ := hold e1 he1
        rw [← hx1, content_mem s1 e1 hd1 he1, ← a, content_mem s e0 hd he0, b]
      · rw [content_uncached s1 x hno, hdisk, content_uncached s x]
        intro e0 he0 hx0
        by_cases hv0 : e0.sector_num = v.sector_num
        · exact hno e (by rw [hc1]; simp) (by rw [hsec, ← hv0, hx0])
        · exact hno e0 (by rw [hc1]; exact (hmem e0).mpr (Or.inr ⟨by rw [← hsplit]; exact he0, hv0⟩)) hx0
  · intro e1 he1
    obtain ⟨e0, he0, a, _, _⟩ := hold e1 he1
    exact Or.inl ⟨e0, he0, a⟩

/-- A cache miss with room in the cache, seen from the sectors. -/
theorem reads_append (s s1 : fs) (e : cache_entry)
    (hi : cache_inv s) (hd : cache_distinct s) (hlt : s.buffer_cache.length < 64)
    (h1 : s1 = { s with buffer_cache := s.buffer_cache ++ [e]
                        buffer_cache_size := s.buffer_cache_size + 1 })
    (hacc : e.accessed = true) (htime : e.access_time = s.ticks)
    (hsec : e.sector_num < s.free_map.bit_cnt)
    (hnew : ∀ e0 ∈ s.buffer_cache, e0.sector_num ≠ e.sector_num)
    (hpay : e.payload = s.disk e.sector_num) :
    reads (fun x => x = e.sector_num) s s1 := by
  have hc1 : s1.buffer_cache = s.buffer_cache ++ [e] := by rw [h1]
  have hdisk : s1.disk = s.disk := by rw [h1]
  have hi1 : cache_inv s1 :=
    cache_inv_append s s1 e hi hlt hc1 (by rw [h1]) (by rw [h1]) (by rw [h1])
      ⟨hacc, by rw [htime]; exact hi.2.2.1, hsec⟩
  have hd1 : cache_distinct s1 := by
    unfold cache_distinct at hd ⊢
    rw [hc1, List.map_append, List.nodup_append]
    refine ⟨hd, by simp, ?_⟩
    intro a ha hb
    simp only [List.map_cons, List.map_nil, List.mem_singleton] at hb
    obtain ⟨x, hx, hxa⟩ := List.mem_map.mp ha
    exact hnew x hx (by rw [hxa, hb])
  have hmem : ∀ e1, e1 ∈ s1.buffer_cache ↔ e1 ∈ s.buffer_cache ∨ e1 = e := by
    intro e1; rw [hc1]; simp
  refine ⟨by rw [h1], by rw [h1], by rw [h1], by rw [h1], by rw [h1], by rw [h1], hi1, hd1,
    ?_, ?_, ?_⟩
  · intro x hx
    refine ⟨?_, fun j _ => by rw [hdisk]⟩
    intro e1 he1 hx1 j hj
    rw [hdisk]
    rcases (hmem e1).mp he1 with h | h
    · exact hx e1 h hx1 j hj
    · rw [h, hpay, ← hx1, h]
  · intro x hx
    refine ⟨?_, ?_⟩
    · intro e1 he1 hx1 hcl j hj
      rw [hdisk]
      rcases (hmem e1).mp he1 with h | h
      · exact hx e1 h hx1 hcl j hj
      · rw [h, hpay, ← hx1, h]
    · intro j _
      rcases cached_or_not s x with ⟨e0, he0, hx0⟩ | hno
      · rw [← hx0, content_mem s e0 hd he0, content_mem s1 e0 hd1 ((hmem e0).mpr (Or.inl he0))]
      · rw [content_uncached s x hno]
        by_cases hxe : e.sector_num = x
        · rw [← hxe, content_mem s1 e hd1 ((hmem e).mpr (Or.inr rfl)), hpay]
        · rw [content_uncached s1 x, hdisk]
          intro e1 he1
          rcases (hmem e1).mp he1 with h | h
          · exact hno e1 h
          · rw [h]; exact hxe
  · intro e1 he1
    rcases (hmem e1).mp he1 with h | h
    · exact Or.inl ⟨e1, h, rfl⟩
    · exact Or.inr (by rw [h])

/-- A cache miss that replaces the entry `v`, seen from the sectors. -/
theorem reads_evict (s s1 : fs) (pre post : List cache_entry) (v e : cache_entry)
    (hi : cache_inv s) (hd : cache_distinct s)
    (hsplit : s.buffer_cache = pre ++ v :: post)
    (h1 : s1 = { s with
      disk := if v.dirty then
          upd s.disk v.sector_num fun j =>
            if j < DISK_SECTOR_SIZE then v.payload j else s.disk v.sector_num j
        else s.disk
      buffer_cache := pre ++ e :: post })
    (hacc : e.accessed = true) (htime : e.access_time = s.ticks)
    (hsec : e.sector_num < s.free_map.bit_cnt)
    (hnew : ∀ e0 ∈ s.buffer_cache, e0.sector_num ≠ e.sector_num)
    (hpay : e.payload = s.disk e.sector_num) :
    reads (fun x => x = e.sector_num) s s1 := by
  have hmem := mem_replace (fun e : cache_entry => e.sector_num) pre post v e
    (by rw [← hsplit]; exact hd)
  have hv : v ∈ s.buffer_cache := by rw [hsplit]; simp
  have hve : v.sector_num ≠ e.sector_num := hnew v hv
  have hc1 : s1.buffer_cache = pre ++ e :: post := by rw [h1]
  have hd1 : cache_distinct s1 := by
    unfold cache_distinct
    rw [hc1]
    exact (VM.replace_spec (fun e : cache_entry => e.sector_num) pre post v e
      (by rw [← hsplit]; exact hd) (by rw [← hsplit]; exact hnew)).1
  have hi1 : cache_inv s1 :=
    cache_inv_replace s s1 pre post v e hi hsplit hc1 (by rw [h1]) (by rw [h1])
      (by rw [h1]) ⟨hacc, by rw [htime]; exact hi.2.2.1, hsec⟩
  have hdisk_ne : ∀ x, x ≠ v.sector_num → s1.disk x = s.disk x := by
    intro x hx
    rw [h1]
    dsimp only
    split
    · unfold upd; rw [if_neg hx]
    · rfl
  have hdisk_v : ∀ j, j < DISK_SECTOR_SIZE →
      s1.disk v.sector_num j = if v.dirty then v.payload j else s.disk v.sector_num j := by
    intro j hj
    rw [h1]
    dsimp only
    split
    · unfold upd; rw [if_pos rfl, if_pos hj]
    · rfl
  have hmem1 : ∀ e1, e1 ∈ s1.buffer_cache ↔
      (e1 = e ∨ (e1 ∈ s.buffer_cache ∧ e1.sector_num ≠ v.sector_num)) := by
    intro e1; rw [hc1, hsplit]; exact hmem e1
  have hno_v : ∀ e1 ∈ s1.buffer_cache, e1.sector_num ≠ v.sector_num := by
    intro e1 he1
    rcases (hmem1 e1).mp he1 with h | ⟨_, h⟩
    · rw [h]; exact Ne.symm hve
    · exact h
  refine ⟨by rw [h1], by rw [h1], by rw [h1], by rw [h1], by rw [h1], by rw [h1], hi1, hd1,
    ?_, ?_, ?_⟩
  · intro x hx
    have hsame : ∀ j, j < DISK_SECTOR_SIZE → s1.disk x j = s.disk x j := by
      intro j hj
      by_cases hxv : x = v.sector_num
      · rw [hxv, hdisk_v j hj]
        split
        · exact hx v hv hxv.symm j hj |>.trans (by rw [hxv])
        · rfl
      · rw [hdisk_ne x hxv]
    refine ⟨?_, hsame⟩
    intro e1 he1 hx1 j hj
    rw [hsame j hj]
    rcases (hmem1 e1).mp he1 with h | ⟨h, _⟩
    · rw [h, hpay, ← hx1, h]
    · exact hx e1 h hx1 j hj
  · intro x hx
    refine ⟨?_, ?_⟩
    · intro e1 he1 hx1 hcl j hj
      have hxv : x ≠ v.sector_num := by rw [← hx1]; exact hno_v e1 he1
      rw [hdisk_ne x hxv]
      rcases (hmem1 e1).mp he1 with h | ⟨h, _⟩
      · rw [h, hpay, ← hx1, h]
      · exact hx e1 h hx1 hcl j hj
    · intro j hj
      by_cases hxv : x = v.sector_num
      · rw [hxv, content_uncached s1 _ hno_v, content_mem s v hd hv, hdisk_v j hj]
        by_cases hdv : v.dirty = true
        · rw [if_pos hdv]
        · rw [if_neg hdv]
          exact (hx v hv hxv.symm (by simpa using hdv) j hj |>.trans (by rw [hxv])).symm
      · by_cases hxe : e.sector_num = x
        · rw [← hxe, content_mem s1 e hd1 ((hmem1 e).mpr (Or.inl rfl)), hpay,
            content_uncached s _ hnew]
        · rcases cached_or_not s x with ⟨e0, he0, hx0⟩ | hno
          · rw [← hx0, content_mem s e0 hd he0,
              content_mem s1 e0 hd1 ((hmem1 e0).mpr (Or.inr ⟨he0, by rw [hx0]; exact hxv⟩))]
          · rw [content_uncached s x hno, content_uncached s1 x, hdisk_ne x hxv]
            intro e1 he1
            rcases (hmem1 e1).mp he1 with h | ⟨h, _⟩
            · rw [h]; exact hxe
            · exact hno e1 h
  · intro e1 he1
    rcases (hmem1 e1).mp he1 with h | ⟨h, _⟩
    · exact Or.inr (by rw [h])
    · exact Or.inl ⟨e1, h, rfl⟩

theorem get?_middle {α : Type} (pre post : List α) (e : α) :
    (pre ++ e :: post).get? pre.length = some e := by
  induction pre with
  | nil => rfl
  | cons y ys ih => simpa using ih

/-- The cache look-up of `inode_read_at` and `inode_write_at`: it returns the entry of the
sector, which holds the bytes the file system held for the sector, and it is a `reads`
step. -/
theorem cache_entry_for_reads (s : fs) (sec : Nat) (d : Bool)
    (hi : cache_inv s) (hd : cache_distinct s) (hs : sec < s.free_map.bit_cnt) :
    ∃ i s1 e, cache_entry_for sec d s = some (i, s1) ∧ s1.buffer_cache.get? i = some e ∧
      e.sector_num = sec ∧ e.payload = content s sec ∧ (d = true → e.dirty = true) ∧
      reads (fun x => x = sec) s s1 := by
  rcases cache_entry_for_cases s sec d hi hs with
    ⟨pre, v, post, h1, h2, h3⟩ | ⟨hn, hlt, h3⟩ | ⟨hn, pre, v, post, h1, _, h3⟩
  · subst h2
    refine ⟨_, _, _, h3, get?_middle _ _ _, rfl, ?_, ?_, ?_⟩
    · dsimp only
      rw [content_mem s v hd (by rw [h1]; simp)]
    · intro hdt
      dsimp only
      rw [hdt, Bool.or_true]
    · have := reads_hit s _ pre post v
        { v with accessed := true, access_time := s.ticks, dirty := v.dirty || d } hi hd h1 rfl
        rfl rfl rfl rfl (by
          intro h
          dsimp only at h
          cases hv : v.dirty
          · rfl
          · rw [hv] at h; simp at h)
      exact this
  · refine ⟨_, _, _, h3, by dsimp only; exact get?_middle _ _ _, rfl, ?_, ?_, ?_⟩
    · dsimp only
      rw [content_uncached s sec hn]
    · intro hdt
      exact hdt
    · exact reads_append s _
        { accessed := true, dirty := d, access_time := s.ticks, sector_num := sec,
          payload := s.disk sec } hi hd hlt rfl rfl rfl hs hn rfl
  · refine ⟨_, _, _, h3, get?_middle _ _ _, rfl, ?_, ?_, ?_⟩
    · dsimp only
      rw [content_uncached s sec hn]
    · intro hdt
      exact hdt
    · exact reads_evict s _ pre post v
        { accessed := true, dirty := d, access_time := s.ticks, sector_num := sec,
          payload := s.disk sec } hi hd h1 rfl rfl rfl hs hn rfl

/-! ## Lemmas: steps that only read -/

theorem reads_refl (loaded : Nat → Prop) (s : fs) (hi : cache_inv s) (hd : cache_distinct s) :
    reads loaded s s :=
  ⟨rfl, rfl, rfl, rfl, rfl, rfl, hi, hd, fun _ h => ⟨h, fun _ _ => rfl⟩,
    fun _ h => ⟨h, fun _ _ => rfl⟩, fun e he => Or.inl ⟨e, he, rfl⟩⟩

theorem reads_trans (loaded : Nat → Prop) (s s1 s2 : fs)
    (h1 : reads loaded s s1) (h2 : reads loaded s1 s2) : reads loaded s s2 := by
  obtain ⟨a1, a2, a3, a4, a5, a6, _, _, a9, a10, a11⟩ := h1
  obtain ⟨b1, b2, b3, b4, b5, b6, b7, b8, b9, b10, b11⟩ := h2
  refine ⟨by rw [b1, a1], by rw [b2, a2], by rw [b3, a3], by rw [b4, a4], by rw [b5, a5],
    by rw [b6, a6], b7, b8, ?_, ?_, ?_⟩
  · intro x hx
    obtain ⟨c1, c2⟩ := a9 x hx
    obtain ⟨c3, c4⟩ := b9 x c1
    exact ⟨c3, fun j hj => by rw [c4 j hj, c2 j hj]⟩
  · intro x hx
    obtain ⟨c1, c2⟩ := a10 x hx
    obtain ⟨c3, c4⟩ := b10 x c1
    exact ⟨c3, fun j hj => by rw [c4 j hj, c2 j hj]⟩
  · intro e he
    rcases b11 e he with ⟨e0, he0, hs0⟩ | h
    · rcases a11 e0 he0 with ⟨e00, he00, hs00⟩ | h
      · exact Or.inl ⟨e00, he00, by rw [hs00, hs0]⟩
      · exact Or.inr (by rw [← hs0]; exact h)
    · exact Or.inr h

theorem reads_mono (l1 l2 : Nat → Prop) (s s1 : fs) (h : reads l1 s s1)
    (hl : ∀ x, l1 x → l2 x) : reads l2 s s1 := by
  obtain ⟨a1, a2, a3, a4, a5, a6, a7, a8, a9, a10, a11⟩ := h
  refine ⟨a1, a2, a3, a4, a5, a6, a7, a8, a9, a10, ?_⟩
  intro e he
  rcases a11 e he with h | h
  · exact Or.inl h
  · exact Or.inr (hl _ h)

/-! ## Lemmas: index blocks and the sectors of an inode -/

theorem words_of_bytes_of (w : Nat → Nat) (i : Nat) (h : w i < 2 ^ 32) :
    words_of (bytes_of w) i = w i := by
  unfold words_of bytes_of
  have e0 : 4 * i / 4 = i := by omega
  have e1 : (4 * i + 1) / 4 = i := by omega
  have e2 : (4 * i + 2) / 4 = i := by omega
  have e3 : (4 * i + 3) / 4 = i := by omega
  have m0 : 4 * i % 4 = 0 := by omega
  have m1 : (4 * i + 1) % 4 = 1 := by omega
  have m2 : (4 * i + 2) % 4 = 2 := by omega
  have m3 : (4 * i + 3) % 4 = 3 := by omega
  rw [e0, e1, e2, e3, m0, m1, m2, m3]
  norm_num
  omega

theorem words_of_lt (sec : Nat → Nat) (i : Nat) : words_of sec i < 2 ^ 32 := by
  unfold words_of
  omega

theorem words_of_congr (a b : Nat → Nat) (i : Nat) (hi : i < 128)
    (h : ∀ j, j < DISK_SECTOR_SIZE → a j = b j) : words_of a i = words_of b i := by
  unfold words_of
  have hD : DISK_SECTOR_SIZE = 512 := rfl
  rw [h (4 * i) (by omega), h (4 * i + 1) (by omega), h (4 * i + 2) (by omega),
    h (4 * i + 3) (by omega)]

theorem disk_write_some (sec : Nat) (buf : Nat → Nat) (s : fs) (h : sec < s.free_map.bit_cnt) :
    disk_write sec buf s = some { s with
      disk := upd s.disk sec fun j => if j < DISK_SECTOR_SIZE then buf j else s.disk sec j } := by
  unfold disk_write
  rw [if_pos h]

theorem free_map_allocate_spec (s s1 : fs) (sec : Nat)
    (h : free_map_allocate 1 s = some (sec, s1)) :
    sec < s.free_map.bit_cnt ∧ s.free_map.bits sec = false ∧
    s1 = { s with free_map := bitmap_set_multiple s.free_map sec 1 true } := by
  unfold free_map_allocate bitmap_scan_and_flip at h
  cases hs : bitmap_scan s.free_map 0 1 false with
  | none => rw [hs] at h; simp at h
  | some idx =>
    rw [hs] at h
    simp only [Option.map_some', Option.some.injEq, Prod.mk.injEq] at h
    obtain ⟨h1, h2⟩ := h
    subst h1
    obtain ⟨_, hb1, hb2⟩ := VM.bitmap_scan_some _ _ _ _ _ hs
    exact ⟨by omega, by simpa using hb2 0 (by omega), by rw [← h2]; rfl⟩

theorem set_bit_apply (b : bitmap) (sec x : Nat) :
    (bitmap_set_multiple b sec 1 true).bits x = (b.bits x || decide (x = sec)) := by
  show (if sec ≤ x ∧ x < sec + 1 then true else b.bits x) = _
  by_cases h : x = sec
  · subst h; simp
  · rw [if_neg (by omega)]; simp [h]

theorem data_position_lt (n idx : Nat) (h : idx < n) :
    data_position idx < owned_count n ∧ index_position (data_position idx) = false := by
  unfold data_position owned_count index_position
  constructor
  · split_ifs <;> omega
  · split_ifs <;> simp <;> omega

theorem data_position_inj (a b : Nat) (h : data_position a = data_position b) : a = b := by
  unfold data_position at h
  split_ifs at h <;> omega

theorem owned_count_le (n : Nat) (h : n ≤ 16524) : owned_count n ≤ 16654 := by
  unfold owned_count
  split_ifs <;> omega

theorem owned_count_mono (n m : Nat) (h : n ≤ m) : owned_count n ≤ owned_count m := by
  unfold owned_count
  split_ifs <;> omega

/-- The sectors of an inode are found alike in two states whose disks agree on the index
sectors of the inode. -/
theorem owned_sector_congr (s s1 : fs) (ino : inode) (n : Nat) (hn : n ≤ 16524)
    (h : ∀ q, q < owned_count n → index_position q = true →
      ∀ j, j < DISK_SECTOR_SIZE →
        s1.disk (owned_sector s ino q) j = s.disk (owned_sector s ino q) j) :
    ∀ p, p < owned_count n → owned_sector s1 ino p = owned_sector s ino p := by
  intro p hp
  have hc := owned_count_le n hn
  have h12 : 12 < p → ∀ j, j < DISK_SECTOR_SIZE →
      s1.disk (ino.blocks 12) j = s.disk (ino.blocks 12) j := by
    intro h12
    have := h 12 (by omega) (by decide)
    simpa [owned_sector] using this
  have h141 : 141 < p → ∀ j, j < DISK_SECTOR_SIZE →
      s1.disk (ino.blocks 13) j = s.disk (ino.blocks 13) j := by
    intro h141
    have := h 141 (by omega) (by decide)
    simpa [owned_sector] using this
  unfold owned_sector
  by_cases c1 : p < 12
  · rw [if_pos c1, if_pos c1]
  rw [if_neg c1, if_neg c1]
  by_cases c2 : p = 12
  · rw [if_pos c2, if_pos c2]
  rw [if_neg c2, if_neg c2]
  by_cases c3 : p < 141
  · rw [if_pos c3, if_pos c3]
    exact words_of_congr _ _ _ (by omega) (h12 (by omega))
  rw [if_neg c3, if_neg c3]
  by_cases c4 : p = 141
  · rw [if_pos c4, if_pos c4]
  rw [if_neg c4, if_neg c4]
  have hk : (p - 142) / 129 < 128 := by omega
  have hptr : words_of (s1.disk (ino.blocks 13)) ((p - 142) / 129)
      = words_of (s.disk (ino.blocks 13)) ((p - 142) / 129) :=
    words_of_congr _ _ _ hk (h141 (by omega))
  by_cases c5 : (p - 142) % 129 = 0
  · rw [if_pos c5, if_pos c5]
    exact hptr
  rw [if_neg c5, if_neg c5, hptr]
  have hq := h (142 + 129 * ((p - 142) / 129)) (by omega) (by
    unfold index_position
    have : (142 + 129 * ((p - 142) / 129) - 142) % 129 = 0 := by omega
    simp [this])
  have hqs : owned_sector s ino (142 + 129 * ((p - 142) / 129))
      = words_of (s.disk (ino.blocks 13)) ((p - 142) / 129) := by
    unfold owned_sector
    have e1 : (142 + 129 * ((p - 142) / 129) - 142) % 129 = 0 := by omega
    have e2 : (142 + 129 * ((p - 142) / 129) - 142) / 129 = (p - 142) / 129 := by omega
    rw [if_neg (by omega), if_neg (by omega), if_neg (by omega), if_neg (by omega), if_pos e1, e2]
  rw [hqs] at hq
  exact words_of_congr _ _ _ (by omega) hq

/-- The sector that `byte_to_sector` finds for a byte of the file. -/
theorem byte_to_sector_spec (s : fs) (ino : inode) (pos : Nat) (h : file_ok s ino)
    (hpos : pos < ino.length) :
    byte_to_sector ino pos s
      = some (owned_sector s ino (data_position (pos / DISK_SECTOR_SIZE))) ∧
    owned_sector s ino (data_position (pos / DISK_SECTOR_SIZE)) ≠ NO_SECTOR ∧
    owned_sector s ino (data_position (pos / DISK_SECTOR_SIZE)) < s.free_map.bit_cnt := by
  obtain ⟨hn, hcap, hr, _, _⟩ := h
  have hD : DISK_SECTOR_SIZE = 512 := rfl
  have hidx : pos / DISK_SECTOR_SIZE < bytes_to_sectors ino.length := by
    unfold bytes_to_sectors
    rw [hD]
    omega
  obtain ⟨hdp, _⟩ := data_position_lt _ _ hidx
  have hlt := hr _ hdp
  refine ⟨?_, ?_, hlt⟩
  swap
  · unfold NO_SECTOR
    omega
  generalize bytes_to_sectors ino.length = n at *
  generalize hidx0 : pos / DISK_SECTOR_SIZE = idx at *
  have hc := owned_count_le n hn
  unfold byte_to_sector
  rw [if_pos hpos]
  dsimp only
  rw [hidx0]
  unfold data_position owned_sector DIRECT_BLOCKS NUM_DIRECT_PTRS
  by_cases c1 : idx < 12
  · rw [if_pos c1, if_pos c1, if_pos c1]
  rw [if_neg c1, if_neg c1]
  by_cases c2 : idx < 140
  · rw [if_pos (by omega), if_pos c2, if_neg (by omega), if_neg (by omega), if_pos (by omega)]
    have h12 := hr 12 (by unfold owned_count; split_ifs <;> omega)
    unfold owned_sector at h12
    simp only [Nat.lt_irrefl, if_false, if_true] at h12
    unfold disk_read
    rw [if_pos h12]
    simp only [Option.map_some']
    congr 2
  rw [if_neg (by omega), if_neg c2, if_pos (by omega)]
  have e1 : (idx + 3 + (idx - 140) / 128 - 142) / 129 = (idx - 140) / 128 := by omega
  have e2 : (idx + 3 + (idx - 140) / 128 - 142) % 129 - 1 = (idx - 140) % 128 := by omega
  have e3 : ¬ (idx + 3 + (idx - 140) / 128 - 142) % 129 = 0 := by omega
  rw [if_neg (by omega), if_neg (by omega), if_neg (by omega), if_neg (by omega), if_neg e3,
    e1, e2]
  have h13 := hr 141 (by unfold owned_count; split_ifs <;> omega)
  unfold owned_sector at h13
  simp only [show ¬ (141 < 12) by omega, show ¬ (141 = 12) by omega, Nat.lt_irrefl, if_false,
    if_true] at h13
  have hq := hr (142 + 129 * ((idx - 140) / 128)) (by
    unfold owned_count; split_ifs <;> omega)
  unfold owned_sector at hq
  have e4 : (142 + 129 * ((idx - 140) / 128) - 142) % 129 = 0 := by omega
  have e5 : (142 + 129 * ((idx - 140) / 128) - 142) / 129 = (idx - 140) / 128 := by omega
  rw [if_neg (by omega), if_neg (by omega), if_neg (by omega), if_neg (by omega), if_pos e4,
    e5] at hq
  unfold disk_read
  rw [if_pos h13]
  simp only [Option.some_bind]
  have e6 : idx - 12 - 128 = idx - 140 := by omega
  rw [e6, if_pos hq]
  rfl

/-! ## Lemmas: reading a file -/

/-- A `reads` step keeps the file of an inode: its sectors are found as before, it is
still well laid out, and it holds the same bytes. -/
theorem file_ok_reads (loaded : Nat → Prop) (s s1 : fs) (ino : inode)
    (h : file_ok s ino) (hr : reads loaded s s1) :
    file_ok s1 ino ∧
    (∀ p, p < owned_count (bytes_to_sectors ino.length) →
      owned_sector s1 ino p = owned_sector s ino p) ∧
    (∀ pos, pos < ino.length → file_byte s1 ino pos = file_byte s ino pos) := by
  obtain ⟨hn, hcap, hrange, hinj, hcache⟩ := h
  obtain ⟨a1, _, _, _, _, _, _, _, a9, a10, _⟩ := hr
  have hD : DISK_SECTOR_SIZE = 512 := rfl
  have hsame : ∀ p, p < owned_count (bytes_to_sectors ino.length) →
      owned_sector s1 ino p = owned_sector s ino p := by
    apply owned_sector_congr s s1 ino _ hn
    intro q hq hidx j hj
    have := hcache q hq
    rw [if_pos hidx] at this
    exact (a9 _ this).2 j hj
  refine ⟨⟨hn, by rw [a1]; exact hcap, ?_, ?_, ?_⟩, hsame, ?_⟩
  · intro p hp
    rw [hsame p hp, a1]
    exact hrange p hp
  · intro p hp q hq hpq
    rw [hsame p hp, hsame q hq] at hpq
    exact hinj p hp q hq hpq
  · intro p hp
    rw [hsame p hp]
    have := hcache p hp
    split
    · rename_i hidx
      rw [if_pos hidx] at this
      exact (a9 _ this).1
    · rename_i hidx
      rw [if_neg hidx] at this
      exact (a10 _ this).1
  · intro pos hpos
    have hidx : pos / DISK_SECTOR_SIZE < bytes_to_sectors ino.length := by
      unfold bytes_to_sectors
      rw [hD]
      omega
    obtain ⟨hdp, hni⟩ := data_position_lt _ _ hidx
    unfold file_byte
    rw [hsame _ hdp]
    have := hcache _ hdp
    rw [if_neg (by rw [hni]; simp)] at this
    exact (a10 _ this).2 _ (Nat.mod_lt _ (by rw [hD]; omega))

theorem file_ok_congr (s : fs) (ino ino1 : inode) (h : file_ok s ino)
    (hl : ino1.length = ino.length) (hb : ino1.blocks = ino.blocks) : file_ok s ino1 := by
  have hs : ∀ p, owned_sector s ino1 p = owned_sector s ino p := by
    intro p; unfold owned_sector; rw [hb]
  unfold file_ok at h ⊢
  simp only [hl, hs]
  exact h

theorem file_byte_congr (s : fs) (ino ino1 : inode) (hb : ino1.blocks = ino.blocks) (pos : Nat) :
    file_byte s ino1 pos = file_byte s ino pos := by
  unfold file_byte owned_sector
  rw [hb]

/-- The number of bytes one round of the loops handles. -/
theorem chunk_size_spec (ino : inode) (size offset : Nat) (hs : 0 < size)
    (ho : offset < ino.length) :
    ∃ chunk : Nat, chunk_size ino size offset = (chunk : Int) ∧ 0 < chunk ∧ chunk ≤ size ∧
      chunk = min size (min (ino.length - offset)
        (DISK_SECTOR_SIZE - offset % DISK_SECTOR_SIZE)) := by
  have hD : DISK_SECTOR_SIZE = 512 := rfl
  refine ⟨min size (min (ino.length - offset) (DISK_SECTOR_SIZE - offset % DISK_SECTOR_SIZE)),
    ?_, ?_, ?_, rfl⟩
  · unfold chunk_size
    simp only [hD]
    have hm : offset % 512 < 512 := Nat.mod_lt _ (by omega)
    split_ifs <;> omega
  · rw [hD]
    have hm : offset % 512 < 512 := Nat.mod_lt _ (by omega)
    omega
  · omega

theorem chunk_size_eof (ino : inode) (size offset : Nat) (ho : ino.length ≤ offset) :
    chunk_size ino size offset ≤ 0 := by
  have hD : DISK_SECTOR_SIZE = 512 := rfl
  unfold chunk_size
  simp only [hD]
  have hm : offset % 512 < 512 := Nat.mod_lt _ (by omega)
  split_ifs <;> omega

/-- The loop of `inode_read_at` on a well laid out file: it returns the bytes of the file
from `offset` on, as many as are asked for and lie below the length, and it is a `reads`
step that loads data sectors of the inode only. -/
theorem read_loop_spec (ino : inode) :
    ∀ (fuel : Nat) (buffer : Nat → Nat) (size offset bytes_read : Nat) (s : fs),
      size ≤ fuel → file_ok s ino → cache_inv s → cache_distinct s →
      ∃ s1 buffer1,
        read_loop ino fuel buffer size offset bytes_read s
          = some (bytes_read + min size (ino.length - offset), buffer1, s1) ∧
        (∀ k, buffer1 k =
          if bytes_read ≤ k ∧ k < bytes_read + min size (ino.length - offset) then
            file_byte s ino (offset + (k - bytes_read))
          else buffer k) ∧
        reads (fun x => ∃ idx, idx < bytes_to_sectors ino.length ∧
          x = owned_sector s ino (data_position idx)) s s1 := by
  intro fuel
  have hD : DISK_SECTOR_SIZE = 512 := rfl
  induction fuel with
  | zero =>
    intro buffer size offset bytes_read s hf _ hi hd
    have h0 : size = 0 := by omega
    subst h0
    refine ⟨s, buffer, ?_, ?_, reads_refl _ s hi hd⟩
    · unfold read_loop
      simp
    · intro k
      rw [if_neg (by simp)]
  | succ fuel ih =>
    intro buffer size offset bytes_read s hf hok hi hd
    unfold read_loop
    by_cases hs : size > 0
    swap
    · rw [if_neg hs]
      have h0 : size = 0 := by omega
      subst h0
      refine ⟨s, buffer, by simp, ?_, reads_refl _ s hi hd⟩
      intro k
      rw [if_neg (by simp)]
    rw [if_pos hs]
    by_cases ho : offset < ino.length
    swap
    · have hb : byte_to_sector ino offset s = some NO_SECTOR := by
        unfold byte_to_sector
        rw [if_neg ho]
      rw [hb]
      simp only [Option.some_bind, if_true]
      have hm : min size (ino.length - offset) = 0 := by omega
      rw [hm]
      refine ⟨s, buffer, rfl, ?_, reads_refl _ s hi hd⟩
      intro k
      rw [if_neg (by omega)]
    obtain ⟨hb, hne, hlt⟩ := byte_to_sector_spec s ino offset hok ho
    obtain ⟨chunk, hc, hcpos, hcle, hcdef⟩ := chunk_size_spec ino size offset hs ho
    obtain ⟨i, s1, e, hce, hget, hesec, hepay, _, hreads⟩ :=
      cache_entry_for_reads s _ false hi hd hlt
    rw [hb]
    simp only [Option.some_bind]
    rw [if_neg hne, hc, if_neg (by omega), hce]
    simp only [Option.some_bind, Int.toNat_ofNat]
    rw [hget]
    simp only [Option.some_bind]
    have hidx : offset / DISK_SECTOR_SIZE < bytes_to_sectors ino.length := by
      unfold bytes_to_sectors
      rw [hD]
      omega
    have hreads1 : reads (fun x => ∃ idx, idx < bytes_to_sectors ino.length ∧
          x = owned_sector s ino (data_position idx)) s s1 :=
      reads_mono _ _ s s1 hreads (fun x hx => ⟨_, hidx, hx⟩)
    obtain ⟨hok1, hsame, hview⟩ := file_ok_reads _ s s1 ino hok hreads1
    obtain ⟨s2, buffer2, hrun, hbuf, hreads2⟩ := ih
      (fun k => if bytes_read ≤ k ∧ k < bytes_read + chunk then
        e.payload (offset % DISK_SECTOR_SIZE + (k - bytes_read)) else buffer k)
      (size - chunk) (offset + chunk) (bytes_read + chunk) s1 (by omega) hok1
      hreads1.2.2.2.2.2.2.1 hreads1.2.2.2.2.2.2.2.1
    have hcnt : bytes_read + chunk + min (size - chunk) (ino.length - (offset + chunk))
        = bytes_read + min size (ino.length - offset) := by
      rw [hD] at hcdef
      omega
    rw [hcnt] at hrun hbuf
    refine ⟨s2, buffer2, hrun, ?_, ?_⟩
    · intro k
      rw [hbuf k]
      by_cases hk1 : bytes_read + chunk ≤ k ∧ k < bytes_read + min size (ino.length - offset)
      · rw [if_pos hk1, if_pos (by omega)]
        rw [hview _ (by omega)]
        congr 1
        omega
      · rw [if_neg hk1]
        by_cases hk2 : bytes_read ≤ k ∧ k < bytes_read + chunk
        · rw [if_pos hk2, if_pos (by rw [hD] at hcdef; omega), hepay]
          unfold file_byte
          have hm : offset % 512 < 512 := Nat.mod_lt _ (by omega)
          have e1 : (offset + (k - bytes_read)) / DISK_SECTOR_SIZE = offset / DISK_SECTOR_SIZE := by
            rw [hD] at hcdef ⊢
            omega
          have e2 : (offset + (k - bytes_read)) % DISK_SECTOR_SIZE
              = offset % DISK_SECTOR_SIZE + (k - bytes_read) := by
            rw [hD] at hcdef ⊢
            omega
          rw [e1, e2]
        · rw [if_neg hk2, if_neg (by rw [hD] at hcdef; omega)]
    · refine reads_trans _ s s1 s2 hreads1 (reads_mono _ _ s1 s2 hreads2 ?_)
      rintro x ⟨idx, hi1, hx⟩
      refine ⟨idx, hi1, ?_⟩
      rw [hx, hsame _ (data_position_lt _ _ hi1).1]

/-- The function `inode_read_at` on a well laid out file. -/
theorem inode_read_at_spec (s : fs) (i : Nat) (buffer : Nat → Nat) (size offset : Nat)
    (hok : file_ok s (s.inodes i)) (hi : cache_inv s) (hd : cache_distinct s) :
    ∃ s1 buffer1,
      inode_read_at i buffer size offset s
        = some (min size ((s.inodes i).length - offset), buffer1, s1) ∧
      (∀ k, buffer1 k =
        if k < min size ((s.inodes i).length - offset) then
          file_byte s (s.inodes i) (offset + k)
        else buffer k) ∧
      reads (fun x => ∃ idx, idx < bytes_to_sectors (s.inodes i).length ∧
        x = owned_sector s (s.inodes i) (data_position idx)) s s1 := by
  obtain ⟨s1, buffer1, h1, h2, h3⟩ :=
    read_loop_spec (s.inodes i) size buffer size offset 0 s (Nat.le_refl _) hok hi hd
  refine ⟨s1, buffer1, ?_, ?_, h3⟩
  · unfold inode_read_at
    rw [h1, Nat.zero_add]
  · intro k
    rw [h2 k]
    simp only [Nat.zero_le, true_and, Nat.zero_add, Nat.sub_zero]

/-! ## Lemmas: reading directory entries -/

/-- The data sectors of an inode. -/
theorem entry_fields_congr (e1 e2 : Nat → Nat) (h : ∀ j, j < sizeof_dir_entry → e1 j = e2 j) :
    entry_in_use e1 = entry_in_use e2 ∧ entry_inode_sector e1 = entry_inode_sector e2 ∧
    entry_name e1 = entry_name e2 ∧
    ∀ junk, entry_name_memory e1 junk = entry_name_memory e2 junk := by
  have hS : sizeof_dir_entry = 20 := rfl
  rw [hS] at h
  refine ⟨?_, ?_, ?_, ?_⟩
  · unfold entry_in_use
    rw [h 19 (by omega)]
  · unfold entry_inode_sector words_of
    rw [h (4 * 0) (by omega), h (4 * 0 + 1) (by omega), h (4 * 0 + 2) (by omega),
      h (4 * 0 + 3) (by omega)]
  · unfold entry_name
    congr 1
    apply List.map_congr_left
    intro k hk
    have : k < 14 := by simpa [NAME_MAX] using hk
    rw [h (4 + k) (by omega)]
  · intro junk
    funext k
    unfold entry_name_memory
    split
    · rw [h (4 + k) (by omega)]
    · rfl

/-- One round of the loops over the entries of a directory: the read of entry `k`. -/
theorem read_entry (s : fs) (i : Nat) (e : Nat → Nat) (k : Nat)
    (hok : file_ok s (s.inodes i)) (hi : cache_inv s) (hd : cache_distinct s) :
    ∃ s1 e1 c,
      inode_read_at i e sizeof_dir_entry (sizeof_dir_entry * k) s = some (c, e1, s1) ∧
      (c = sizeof_dir_entry ↔ k < slot_count (s.inodes i)) ∧
      (k < slot_count (s.inodes i) →
        ∀ j, j < sizeof_dir_entry → e1 j = entry_at s (s.inodes i) k j) ∧
      reads (fun x => ∃ idx, idx < bytes_to_sectors (s.inodes i).length ∧
        x = owned_sector s (s.inodes i) (data_position idx)) s s1 := by
  have hS : sizeof_dir_entry = 20 := rfl
  obtain ⟨s1, e1, h1, h2, h3⟩ :=
    inode_read_at_spec s i e sizeof_dir_entry (sizeof_dir_entry * k) hok hi hd
  refine ⟨s1, e1, _, h1, ?_, ?_, h3⟩
  · unfold slot_count
    rw [hS]
    omega
  · intro hk j hj
    unfold slot_count at hk
    rw [hS] at hk hj
    rw [h2 j, if_pos (by rw [hS]; omega)]
    rfl

/-- What the invariants of a directory give after a `reads` step. -/
theorem entry_at_reads (loaded : Nat → Prop) (s s1 : fs) (ino : inode) (h : file_ok s ino)
    (hr : reads loaded s s1) (q : Nat) (hq : q < slot_count ino) :
    ∀ j, j < sizeof_dir_entry → entry_at s1 ino q j = entry_at s ino q j := by
  have hS : sizeof_dir_entry = 20 := rfl
  intro j hj
  unfold entry_at
  unfold slot_count at hq
  rw [hS] at hq hj ⊢
  exact (file_ok_reads loaded s s1 ino h hr).2.2 _ (by omega)

theorem find_slot_congr (p1 p2 : Nat → Bool) (k n : Nat)
    (h : ∀ q, k ≤ q → q < n → p1 q = p2 q) : find_slot p1 k n = find_slot p2 k n := by
  unfold find_slot
  generalize hm : n - k = m
  induction m generalizing k with
  | zero => rfl
  | succ m ih =>
    rw [List.range'_succ, List.find?_cons, List.find?_cons, h k (Nat.le_refl _) (by omega)]
    cases p2 k
    · exact ih (k + 1) (fun q h1 h2 => h q (by omega) h2) (by omega)
    · rfl

theorem find_slot_step (p : Nat → Bool) (k n : Nat) (hk : k < n) :
    find_slot p k n = if p k then some k else find_slot p (k + 1) n := by
  unfold find_slot
  have : n - k = (n - (k + 1)) + 1 := by omega
  rw [this, List.range'_succ, List.find?_cons]
  cases p k <;> rfl

theorem find_slot_end (p : Nat → Bool) (k n : Nat) (hk : n ≤ k) : find_slot p k n = none := by
  unfold find_slot
  have : n - k = 0 := by omega
  rw [this]
  rfl

theorem find_slot_some (p : Nat → Bool) (k n q : Nat) (h : find_slot p k n = some q) :
    k ≤ q ∧ q < n ∧ p q = true ∧ ∀ r, k ≤ r → r < q → p r = false := by
  generalize hm : n - k = m
  induction m generalizing k with
  | zero => rw [find_slot_end p k n (by omega)] at h; simp at h
  | succ m ih =>
    rw [find_slot_step p k n (by omega)] at h
    by_cases hp : p k = true
    · rw [if_pos hp] at h
      simp only [Option.some.injEq] at h
      subst h
      exact ⟨Nat.le_refl _, by omega, hp, fun r h1 h2 => by omega⟩
    · rw [if_neg hp] at h
      obtain ⟨a, b, c, d⟩ := ih (k + 1) h (by omega)
      refine ⟨by omega, b, c, ?_⟩
      intro r h1 h2
      by_cases hr : r = k
      · rw [hr]; simpa using hp
      · exact d r (by omega) h2

theorem find_slot_none (p : Nat → Bool) (k n : Nat) (h : find_slot p k n = none) :
    ∀ r, k ≤ r → r < n → p r = false := by
  generalize hm : n - k = m
  induction m generalizing k with
  | zero => intro r h1 h2; omega
  | succ m ih =>
    rw [find_slot_step p k n (by omega)] at h
    by_cases hp : p k = true
    · rw [if_pos hp] at h; simp at h
    · rw [if_neg hp] at h
      intro r h1 h2
      by_cases hr : r = k
      · rw [hr]; simpa using hp
      · exact ih (k + 1) h (by omega) r (by omega) h2

theorem mul_succ_entry (k : Nat) :
    sizeof_dir_entry * k + sizeof_dir_entry = sizeof_dir_entry * (k + 1) := by
  rw [Nat.mul_succ]

/-- The loop of `dir_readdir` from entry `k` on: it stops at the first entry in use. -/
theorem readdir_loop_spec (ino : inode) :
    ∀ (fuel k : Nat) (d : dir) (e : Nat → Nat) (s : fs),
      s.inodes d.inode = ino → d.pos = sizeof_dir_entry * k → slot_count ino - k < fuel →
      file_ok s ino → cache_inv s → cache_distinct s →
      ∃ res d1 s1, readdir_loop fuel d e s = some (res, d1, s1) ∧
        reads (fun x => ∃ idx, idx < bytes_to_sectors ino.length ∧
          x = owned_sector s ino (data_position idx)) s s1 ∧
        d1.inode = d.inode ∧
        match find_slot (fun q => entry_in_use (entry_at s ino q)) k (slot_count ino) with
        | some q =>
          res = some (entry_name (entry_at s ino q)) ∧ d1.pos = sizeof_dir_entry * (q + 1)
        | none => res = none ∧ d1.pos = sizeof_dir_entry * max k (slot_count ino) := by
  intro fuel
  induction fuel with
  | zero => intro k d e s _ _ hf; omega
  | succ fuel ih =>
    intro k d e s hino hpos hf hok hi hd
    obtain ⟨s1, e1, c, hread, hc, hent, hreads⟩ := read_entry s d.inode e k (by rw [hino]; exact hok)
      hi hd
    rw [hino] at hc hent hreads
    unfold readdir_loop
    rw [hpos, hread]
    simp only [Option.some_bind]
    by_cases hk : k < slot_count ino
    · rw [if_pos (hc.mpr hk)]
      obtain ⟨f1, _, f3, _⟩ := entry_fields_congr e1 (entry_at s ino k) (hent hk)
      rw [find_slot_step _ k _ hk]
      by_cases hu : entry_in_use (entry_at s ino k) = true
      · rw [f1, if_pos hu, if_pos hu]
        exact ⟨_, _, _, rfl, hreads, rfl, by rw [f3], by rw [mul_succ_entry]⟩
      · rw [f1, if_neg hu, if_neg hu]
        obtain ⟨hok1, hsame, _⟩ := file_ok_reads _ s s1 ino hok hreads
        obtain ⟨res, d1, s2, h1, h2, h3, h4⟩ := ih (k + 1)
          { d with pos := sizeof_dir_entry * k + sizeof_dir_entry } e1 s1
          (by rw [hreads.2.1]; exact hino) (by rw [mul_succ_entry]) (by omega) hok1
          hreads.2.2.2.2.2.2.1 hreads.2.2.2.2.2.2.2.1
        refine ⟨res, d1, s2, h1, ?_, h3, ?_⟩
        · refine reads_trans _ s s1 s2 hreads (reads_mono _ _ s1 s2 h2 ?_)
          rintro x ⟨idx, hi1, hx⟩
          exact ⟨idx, hi1, by rw [hx, hsame _ (data_position_lt _ _ hi1).1]⟩
        · have hcongr : find_slot (fun q => entry_in_use (entry_at s1 ino q)) (k + 1)
              (slot_count ino)
              = find_slot (fun q => entry_in_use (entry_at s ino q)) (k + 1) (slot_count ino) := by
            apply find_slot_congr
            intro q _ hq
            exact (entry_fields_congr _ _ (entry_at_reads _ s s1 ino hok hreads q hq)).1
          rw [hcongr] at h4
          cases hfs : find_slot (fun q => entry_in_use (entry_at s ino q)) (k + 1)
              (slot_count ino) with
          | none =>
            rw [hfs] at h4
            dsimp only at h4 ⊢
            refine ⟨h4.1, ?_⟩
            rw [h4.2]
            congr 1
            omega
          | some q =>
            rw [hfs] at h4
            dsimp only at h4 ⊢
            obtain ⟨_, hq, _, _⟩ := find_slot_some _ _ _ _ hfs
            refine ⟨?_, h4.2⟩
            rw [h4.1, (entry_fields_congr _ _ (entry_at_reads _ s s1 ino hok hreads q hq)).2.2.1]
    · rw [if_neg (fun h => hk (hc.mp h))]
      rw [find_slot_end _ k _ (by omega)]
      dsimp only
      refine ⟨_, _, _, rfl, hreads, rfl, rfl, ?_⟩
      rw [hpos]
      congr 1
      omega

theorem take_replicate_ge {α : Type} (x : α) : ∀ (l : List α) (m c : Nat), m ≤ c →
    (l ++ List.replicate c x).take m = (l ++ List.replicate m x).take m := by
  intro l
  induction l with
  | nil =>
    intro m c h
    simp only [List.nil_append, List.take_replicate]
    congr 1
    omega
  | cons a l ih =>
    intro m c h
    cases m with
    | zero => rfl
    | succ m =>
      simp only [List.cons_append, List.take_succ_cons]
      rw [ih m c (by omega), ih m (m + 1) (by omega)]

theorem dir_names_step (s : fs) (ino : inode) (k q : Nat)
    (h : find_slot (fun q => entry_in_use (entry_at s ino q)) k (slot_count ino) = some q) :
    dir_names s ino k = entry_name (entry_at s ino q) :: dir_names s ino (q + 1) := by
  generalize hm : slot_count ino - k = m
  induction m generalizing k with
  | zero => rw [find_slot_end _ k _ (by omega)] at h; simp at h
  | succ m ih =>
    rw [find_slot_step _ k _ (by omega)] at h
    have hr : dir_names s ino k
        = ((k :: List.range' (k + 1) (slot_count ino - (k + 1))).filter
            fun q => entry_in_use (entry_at s ino q)).map
            fun q => entry_name (entry_at s ino q) := by
      unfold dir_names
      have : slot_count ino - k = (slot_count ino - (k + 1)) + 1 := by omega
      rw [this, List.range'_succ]
    by_cases hp : entry_in_use (entry_at s ino k) = true
    · rw [if_pos hp] at h
      simp only [Option.some.injEq] at h
      subst h
      rw [hr, List.filter_cons]
      simp only [hp, if_true, List.map_cons]
      rfl
    · rw [if_neg hp] at h
      rw [hr, List.filter_cons]
      simp only [hp, if_false]
      exact ih (k + 1) h (by omega)

theorem dir_names_none (s : fs) (ino : inode) (k : Nat)
    (h : find_slot (fun q => entry_in_use (entry_at s ino q)) k (slot_count ino) = none) :
    dir_names s ino k = [] := by
  have := find_slot_none _ _ _ h
  unfold dir_names
  rw [List.filter_eq_nil_iff.mpr]
  · rfl
  · intro q hq
    rw [List.mem_range'_1] at hq
    rw [this q hq.1 (by omega)]
    simp

theorem dir_names_congr (loaded : Nat → Prop) (s s1 : fs) (ino : inode) (h : file_ok s ino)
    (hr : reads loaded s s1) (k : Nat) : dir_names s1 ino k = dir_names s ino k := by
  unfold dir_names
  have hf : (List.range' k (slot_count ino - k)).filter (fun q => entry_in_use (entry_at s1 ino q))
      = (List.range' k (slot_count ino - k)).filter (fun q => entry_in_use (entry_at s ino q)) := by
    apply List.filter_congr
    intro q hq
    rw [List.mem_range'_1] at hq
    exact (entry_fields_congr _ _ (entry_at_reads loaded s s1 ino h hr q (by omega))).1
  rw [hf]
  apply List.map_congr_left
  intro q hq
  have hq1 := (List.mem_filter.mp hq).1
  rw [List.mem_range'_1] at hq1
  exact (entry_fields_congr _ _ (entry_at_reads loaded s s1 ino h hr q (by omega))).2.2.1

/-- Repeated calls of `dir_readdir` from entry `k` on. -/
theorem enumerate_spec (ino : inode) :
    ∀ (m k : Nat) (d : dir) (s : fs),
      s.inodes d.inode = ino → d.pos = sizeof_dir_entry * k →
      file_ok s ino → cache_inv s → cache_distinct s →
      ∃ d1 s1, enumerate m d s
        = some (((dir_names s ino k).map some ++ List.replicate m none).take m, d1, s1) := by
  intro m
  induction m with
  | zero =>
    intro k d s _ _ _ _ _
    exact ⟨d, s, rfl⟩
  | succ m ih =>
    intro k d s hino hpos hok hi hd
    obtain ⟨res, d1, s1, h1, h2, h3, h4⟩ := readdir_loop_spec ino
      (inode_length s d.inode / sizeof_dir_entry + 1) k d s.junk s hino hpos
      (by unfold inode_length; rw [hino]; exact Nat.lt_succ_of_le (Nat.sub_le _ _)) hok hi hd
    obtain ⟨hok1, _, _⟩ := file_ok_reads _ s s1 ino hok h2
    unfold enumerate dir_readdir
    rw [h1]
    simp only [Option.some_bind]
    cases hfs : find_slot (fun q => entry_in_use (entry_at s ino q)) k (slot_count ino) with
    | some q =>
      rw [hfs] at h4
      dsimp only at h4
      obtain ⟨d2, s2, h5⟩ := ih (q + 1) d1 s1 (by rw [h2.2.1, h3]; exact hino) h4.2 hok1
        h2.2.2.2.2.2.2.1 h2.2.2.2.2.2.2.2.1
      rw [h5, dir_names_congr _ s s1 ino hok h2, h4.1, dir_names_step s ino k q hfs]
      refine ⟨d2, s2, ?_⟩
      simp only [Option.map_some', List.map_cons, List.cons_append, List.take_succ_cons]
      rw [take_replicate_ge none _ m (m + 1) (by omega)]
    | none =>
      rw [hfs] at h4
      dsimp only at h4
      obtain ⟨d2, s2, h5⟩ := ih (max k (slot_count ino)) d1 s1 (by rw [h2.2.1, h3]; exact hino)
        h4.2 hok1 h2.2.2.2.2.2.2.1 h2.2.2.2.2.2.2.2.1
      have hn : dir_names s ino (max k (slot_count ino)) = [] := by
        unfold dir_names
        have : slot_count ino - max k (slot_count ino) = 0 := by omega
        rw [this]
        rfl
      rw [h5, dir_names_congr _ s s1 ino hok h2, h4.1, dir_names_none s ino k hfs, hn]
      refine ⟨d2, s2, ?_⟩
      simp [List.replicate_succ]

/-! ## Lemmas: writing a file in place -/

theorem keeps_refl (kept : Nat → Prop) (s : fs) : keeps kept s s :=
  ⟨rfl, fun _ _ h => ⟨h, fun _ _ => rfl⟩, fun _ _ h => ⟨h, fun _ _ => rfl⟩⟩

theorem keeps_trans (k1 k2 : Nat → Prop) (s s1 s2 : fs)
    (h1 : keeps k1 s s1) (h2 : keeps k2 s1 s2) (hk : ∀ x, k1 x → k2 x) : keeps k1 s s2 := by
  obtain ⟨a1, a2, a3⟩ := h1
  obtain ⟨b1, b2, b3⟩ := h2
  refine ⟨by rw [b1, a1], ?_, ?_⟩
  · intro x hx h
    obtain ⟨c1, c2⟩ := a2 x hx h
    obtain ⟨d1, d2⟩ := b2 x (hk x hx) c1
    exact ⟨d1, fun j hj => by rw [d2 j hj, c2 j hj]⟩
  · intro x hx h
    obtain ⟨c1, c2⟩ := a3 x hx h
    obtain ⟨d1, d2⟩ := b3 x (hk x hx) c1
    exact ⟨d1, fun j hj => by rw [d2 j hj, c2 j hj]⟩

theorem keeps_mono (k1 k2 : Nat → Prop) (s s1 : fs) (h : keeps k1 s s1)
    (hk : ∀ x, k2 x → k1 x) : keeps k2 s s1 :=
  ⟨h.1, fun x hx => h.2.1 x (hk x hx), fun x hx => h.2.2 x (hk x hx)⟩

theorem keeps_of_reads (loaded kept : Nat → Prop) (s s1 : fs) (h : reads loaded s s1) :
    keeps kept s s1 := by
  obtain ⟨a1, _, _, _, _, _, _, _, a9, a10, _⟩ := h
  exact ⟨by rw [a1], fun x _ => a9 x, fun x _ => a10 x⟩

/-- The `memcpy` of `inode_write_at` into the payload of a dirty cache entry, seen from the
sectors. -/
theorem set_payload_spec (s1 : fs) (i : Nat) (e : cache_entry) (g : (Nat → Nat) → Nat → Nat)
    (hi : cache_inv s1) (hd : cache_distinct s1) (hget : s1.buffer_cache.get? i = some e)
    (hdirty : e.dirty = true) :
    let s2 : fs := { s1 with
      buffer_cache := s1.buffer_cache.modify
        (fun entry => { entry with payload := g entry.payload }) i }
    cache_inv s2 ∧ cache_distinct s2 ∧
    (∀ x, x ≠ e.sector_num →
      (synced s1 x → synced s2 x) ∧ (coherent s1 x → coherent s2 x) ∧
      content s2 x = content s1 x) ∧
    coherent s2 e.sector_num ∧ content s2 e.sector_num = g e.payload := by
  intro s2
  obtain ⟨pre, post, hsplit, _, hmod⟩ := modify_split
    (fun entry : cache_entry => { entry with payload := g entry.payload }) _ i e hget
  have hc2 : s2.buffer_cache = pre ++ { e with payload := g e.payload } :: post := hmod
  have hmem := mem_replace (fun e : cache_entry => e.sector_num) pre post e
    { e with payload := g e.payload } (by rw [← hsplit]; exact hd)
  have he : e ∈ s1.buffer_cache := List.get?_mem hget
  have hd2 : cache_distinct s2 := by
    unfold cache_distinct
    rw [hc2]
    exact distinct_replace_same pre post e _ (by rw [← hsplit]; exact hd) rfl
  have hi2 : cache_inv s2 :=
    cache_inv_replace s1 s2 pre post e _ hi hsplit hc2 rfl rfl rfl (hi.2.2.2 e he)
  have hmem2 : ∀ e1, e1 ∈ s2.buffer_cache ↔
      (e1 = { e with payload := g e.payload } ∨
        (e1 ∈ s1.buffer_cache ∧ e1.sector_num ≠ e.sector_num)) := by
    intro e1; rw [hc2, hsplit]; exact hmem e1
  refine ⟨hi2, hd2, ?_, ?_, ?_⟩
  · intro x hx
    refine ⟨?_, ?_, ?_⟩
    · intro h e1 he1 hx1 j hj
      rcases (hmem2 e1).mp he1 with h1 | ⟨h1, _⟩
      · rw [h1] at hx1; exact absurd hx1.symm hx
      · exact h e1 h1 hx1 j hj
    · intro h e1 he1 hx1 hcl j hj
      rcases (hmem2 e1).mp he1 with h1 | ⟨h1, _⟩
      · rw [h1] at hx1; exact absurd hx1.symm hx
      · exact h e1 h1 hx1 hcl j hj
    · rcases cached_or_not s1 x with ⟨e0, he0, hx0⟩ | hno
      · rw [← hx0, content_mem s1 e0 hd he0,
          content_mem s2 e0 hd2 ((hmem2 e0).mpr (Or.inr ⟨he0, by rw [hx0]; exact hx⟩))]
      · rw [content_uncached s1 x hno, content_uncached s2 x]
        intro e1 he1
        rcases (hmem2 e1).mp he1 with h1 | ⟨h1, _⟩
        · rw [h1]; exact Ne.symm hx
        · exact hno e1 h1
  · intro e1 he1 hx1 hcl
    rcases (hmem2 e1).mp he1 with h1 | ⟨_, h1⟩
    · rw [h1] at hcl
      dsimp only at hcl
      rw [hdirty] at hcl
      exact absurd hcl (by simp)
    · exact absurd hx1 h1
  · have := content_mem s2 { e with payload := g e.payload } hd2 ((hmem2 _).mpr (Or.inl rfl))
    exact this

/-- One round of the loop of `inode_write_at` on a data sector of a well laid out file. -/
theorem write_chunk_spec (s : fs) (ino : inode) (idx : Nat) (g : (Nat → Nat) → Nat → Nat)
    (hok : file_ok s ino) (hi : cache_inv s) (hd : cache_distinct s)
    (hidx : idx < bytes_to_sectors ino.length) :
    ∃ i s1, cache_entry_for (owned_sector s ino (data_position idx)) true s = some (i, s1) ∧
      let s2 : fs := { s1 with
        buffer_cache := s1.buffer_cache.modify
          (fun entry => { entry with payload := g entry.payload }) i }
      file_ok s2 ino ∧ cache_inv s2 ∧ cache_distinct s2 ∧
      s2.free_map = s.free_map ∧ s2.inodes = s.inodes ∧ s2.ninodes = s.ninodes ∧
      s2.open_inodes = s.open_inodes ∧ s2.junk = s.junk ∧ s2.ticks = s.ticks ∧
      (∀ p, p < owned_count (bytes_to_sectors ino.length) →
        owned_sector s2 ino p = owned_sector s ino p) ∧
      (∀ pos, pos < ino.length →
        file_byte s2 ino pos =
          if pos / DISK_SECTOR_SIZE = idx then
            g (content s (owned_sector s ino (data_position idx))) (pos % DISK_SECTOR_SIZE)
          else file_byte s ino pos) ∧
      keeps (fun x => x ≠ owned_sector s ino (data_position idx)) s s2 := by
  have hD : DISK_SECTOR_SIZE = 512 := rfl
  obtain ⟨hdp, hni⟩ := data_position_lt _ _ hidx
  obtain ⟨i, s1, e, hce, hget, hesec, hepay, hdirty, hreads⟩ :=
    cache_entry_for_reads s _ true hi hd (hok.2.2.1 _ hdp)
  obtain ⟨hok1, hsame, hview⟩ := file_ok_reads _ s s1 ino hok hreads
  obtain ⟨hi2, hd2, hother, hcoh, hcont⟩ := set_payload_spec s1 i e g
    hreads.2.2.2.2.2.2.1 hreads.2.2.2.2.2.2.2.1 hget (hdirty rfl)
  refine ⟨i, s1, hce, ?_⟩
  intro s2
  have hdisk : s2.disk = s1.disk := rfl
  have hsame2 : ∀ p, owned_sector s2 ino p = owned_sector s1 ino p := by
    intro p; unfold owned_sector; rw [hdisk]
  obtain ⟨hn, hcap, hrange, hinj, hcache⟩ := hok1
  have hsec1 : e.sector_num = owned_sector s1 ino (data_position idx) := by
    rw [hesec, hsame _ hdp]
  refine ⟨⟨hn, hcap, ?_, ?_, ?_⟩, hi2, hd2, hreads.1, hreads.2.1, hreads.2.2.1,
    hreads.2.2.2.1, hreads.2.2.2.2.1, hreads.2.2.2.2.2.1, ?_, ?_, ?_⟩
  · intro p hp
    rw [hsame2]
    exact hrange p hp
  · intro p hp q hq hpq
    rw [hsame2, hsame2] at hpq
    exact hinj p hp q hq hpq
  · intro p hp
    rw [hsame2]
    have := hcache p hp
    by_cases hpe : owned_sector s1 ino p = e.sector_num
    · have hpi : p = data_position idx := hinj p hp _ hdp (by rw [hpe, hsec1])
      rw [if_neg (by rw [hpi, hni]; simp), hpe]
      exact hcoh
    · split
      · rename_i hx
        rw [if_pos hx] at this
        exact (hother _ hpe).1 this
      · rename_i hx
        rw [if_neg hx] at this
        exact (hother _ hpe).2.1 this
  · intro p hp
    rw [hsame2, hsame p hp]
  · intro pos hpos
    have hidx1 : pos / DISK_SECTOR_SIZE < bytes_to_sectors ino.length := by
      unfold bytes_to_sectors
      rw [hD]
      omega
    obtain ⟨hdp1, _⟩ := data_position_lt _ _ hidx1
    unfold file_byte
    rw [hsame2]
    by_cases hpi : pos / DISK_SECTOR_SIZE = idx
    · rw [if_pos hpi, hpi, ← hsec1, hcont, hepay]
    · rw [if_neg hpi]
      have hne : owned_sector s1 ino (data_position (pos / DISK_SECTOR_SIZE)) ≠ e.sector_num := by
        intro h
        rw [hsec1] at h
        exact hpi (data_position_inj _ _ (hinj _ hdp1 _ hdp h))
      rw [(hother _ hne).2.2]
      exact hview pos hpos
  · obtain ⟨a1, _, _, _, _, _, _, _, a9, a10, _⟩ := hreads
    refine ⟨by show s1.free_map.bit_cnt = _; rw [a1], ?_, ?_⟩
    · intro x hx h
      obtain ⟨c1, c2⟩ := a9 x h
      exact ⟨(hother x (by rw [hesec]; exact hx)).1 c1, c2⟩
    · intro x hx h
      obtain ⟨c1, c2⟩ := a10 x h
      refine ⟨(hother x (by rw [hesec]; exact hx)).2.1 c1, ?_⟩
      intro j hj
      rw [(hother x (by rw [hesec]; exact hx)).2.2]
      exact c2 j hj

/-- The loop of `inode_write_at` on a range that lies within a well laid out file: it
writes all the bytes, and the file holds them afterwards and is otherwise unchanged. -/
theorem write_loop_inplace (ino : inode) (buffer : Nat → Nat) :
    ∀ (fuel size offset bytes_written : Nat) (s : fs),
      size ≤ fuel → offset + size ≤ ino.length →
      file_ok s ino → cache_inv s → cache_distinct s →
      ∃ s1, write_loop ino buffer fuel size offset bytes_written s
          = some (bytes_written + size, s1) ∧
        file_ok s1 ino ∧ cache_inv s1 ∧ cache_distinct s1 ∧
        s1.free_map = s.free_map ∧ s1.inodes = s.inodes ∧ s1.ninodes = s.ninodes ∧
        s1.open_inodes = s.open_inodes ∧ s1.junk = s.junk ∧ s1.ticks = s.ticks ∧
        (∀ p, p < owned_count (bytes_to_sectors ino.length) →
          owned_sector s1 ino p = owned_sector s ino p) ∧
        (∀ pos, pos < ino.length →
          file_byte s1 ino pos =
            if offset ≤ pos ∧ pos < offset + size then
              buffer (bytes_written + (pos - offset))
            else file_byte s ino pos) ∧
        keeps (fun x => ∀ idx, idx < bytes_to_sectors ino.length →
          x ≠ owned_sector s ino (data_position idx)) s s1 := by
  intro fuel
  have hD : DISK_SECTOR_SIZE = 512 := rfl
  induction fuel with
  | zero =>
    intro size offset bytes_written s hf _ hok hi hd
    have h0 : size = 0 := by omega
    subst h0
    refine ⟨s, rfl, hok, hi, hd, rfl, rfl, rfl, rfl, rfl, rfl, fun _ _ => rfl, ?_,
      keeps_refl _ s⟩
    intro pos _
    rw [if_neg (by omega)]
  | succ fuel ih =>
    intro size offset bytes_written s hf hin hok hi hd
    unfold write_loop
    by_cases hs : size > 0
    swap
    · rw [if_neg hs]
      have h0 : size = 0 := by omega
      subst h0
      refine ⟨s, rfl, hok, hi, hd, rfl, rfl, rfl, rfl, rfl, rfl, fun _ _ => rfl, ?_,
        keeps_refl _ s⟩
      intro pos _
      rw [if_neg (by omega)]
    rw [if_pos hs]
    have ho : offset < ino.length := by omega
    obtain ⟨hb, _, _⟩ := byte_to_sector_spec s ino offset hok ho
    obtain ⟨chunk, hc, hcpos, hcle, hcdef⟩ := chunk_size_spec ino size offset hs ho
    have hidx : offset / DISK_SECTOR_SIZE < bytes_to_sectors ino.length := by
      unfold bytes_to_sectors
      rw [hD]
      omega
    obtain ⟨i, s1, hce, h2⟩ := write_chunk_spec s ino (offset / DISK_SECTOR_SIZE)
      (fun payload j =>
        if offset % DISK_SECTOR_SIZE ≤ j ∧ j < offset % DISK_SECTOR_SIZE + chunk then
          buffer (bytes_written + (j - offset % DISK_SECTOR_SIZE))
        else payload j) hok hi hd hidx
    dsimp only at h2
    obtain ⟨hok2, hi2, hd2, f1, f2, f3, f4, f5, f6, hsame, hview, hkeep⟩ := h2
    rw [hb]
    simp only [Option.some_bind]
    rw [hc, if_neg (by omega), hce]
    simp only [Option.some_bind, Int.toNat_ofNat]
    obtain ⟨s3, hrun, hok3, hi3, hd3, g1, g2, g3, g4, g5, g6, hsame3, hview3, hkeep3⟩ :=
      ih (size - chunk) (offset + chunk) (bytes_written + chunk) _ (by omega) (by omega)
        hok2 hi2 hd2
    have hcnt : bytes_written + chunk + (size - chunk) = bytes_written + size := by omega
    rw [hcnt] at hrun
    refine ⟨s3, hrun, hok3, hi3, hd3, by rw [g1, f1], by rw [g2, f2], by rw [g3, f3],
      by rw [g4, f4], by rw [g5, f5], by rw [g6, f6], ?_, ?_, ?_⟩
    · intro p hp
      rw [hsame3 p hp, hsame p hp]
    · intro pos hpos
      rw [hview3 pos hpos]
      rw [hD] at hcdef
      have hm : offset % 512 < 512 := Nat.mod_lt _ (by omega)
      by_cases hk1 : offset + chunk ≤ pos ∧ pos < offset + chunk + (size - chunk)
      · rw [if_pos hk1, if_pos (by omega)]
        congr 1
        omega
      · rw [if_neg hk1, hview pos hpos]
        by_cases hk2 : offset ≤ pos ∧ pos < offset + chunk
        · have e1 : pos / DISK_SECTOR_SIZE = offset / DISK_SECTOR_SIZE := by
            rw [hD]; omega
          rw [if_pos e1, if_pos (show offset ≤ pos ∧ pos < offset + size by omega)]
          simp only [hD] at e1 ⊢
          rw [if_pos (show offset % 512 ≤ pos % 512 ∧ pos % 512 < offset % 512 + chunk by omega)]
          congr 1
          omega
        · rw [if_neg (show ¬ (offset ≤ pos ∧ pos < offset + size) by omega)]
          by_cases e1 : pos / DISK_SECTOR_SIZE = offset / DISK_SECTOR_SIZE
          · rw [if_pos e1]
            unfold file_byte
            rw [e1]
            simp only [hD] at e1 ⊢
            rw [if_neg (show ¬ (offset % 512 ≤ pos % 512 ∧ pos % 512 < offset % 512 + chunk)
              by omega)]
          · rw [if_neg e1]

    · refine keeps_trans _ _ s _ s3 (keeps_mono _ _ _ _ hkeep ?_) hkeep3 ?_
      · intro x hx
        exact hx _ hidx
      · intro x hx idx hlt
        rw [hsame _ (data_position_lt _ _ hlt).1]
        exact hx idx hlt

/-! ## Lemmas: growing a file by one sector -/

theorem uncached_of_free (s : fs) (ino : inode) (hg : growable s ino) (x : Nat)
    (hx : s.free_map.bits x = false) : ∀ e ∈ s.buffer_cache, e.sector_num ≠ x := by
  intro e he hex
  have := (hg.2.2.2.2 e he).1
  rw [hex, hx] at this
  exact absurd this (by simp)

/-- How the invariants of a file carry over to the file after `inode_expand`: the cache is
the same, the old sectors are found as before, the new ones were free and differ from each
other, and the disk is unchanged on the sectors that were in use, the old index sectors of
the inode apart. -/
theorem file_ok_grow (s s1 : fs) (ino ino2 : inode) (n n2 : Nat)
    (hn : bytes_to_sectors ino.length = n) (hn2 : bytes_to_sectors ino2.length = n2)
    (hle : n ≤ n2) (hmax : n2 ≤ 16524)
    (hok : file_ok s ino) (hg : growable s ino)
    (hcache : s1.buffer_cache = s.buffer_cache)
    (hcnt : s1.free_map.bit_cnt = s.free_map.bit_cnt)
    (hold : ∀ p, p < owned_count n → owned_sector s1 ino2 p = owned_sector s ino p)
    (hnew : ∀ p, owned_count n ≤ p → p < owned_count n2 →
      owned_sector s1 ino2 p < s.free_map.bit_cnt ∧
      s.free_map.bits (owned_sector s1 ino2 p) = false)
    (hnewinj : ∀ p, owned_count n ≤ p → p < owned_count n2 →
      ∀ q, owned_count n ≤ q → q < owned_count n2 →
        owned_sector s1 ino2 p = owned_sector s1 ino2 q → p = q)
    (hdisk : ∀ x, s.free_map.bits x = true →
      (∀ p, p < owned_count n → index_position p = true → owned_sector s ino p ≠ x) →
      s1.disk x = s.disk x) :
    file_ok s1 ino2 ∧
    ∀ pos, pos < ino.length → file_byte s1 ino2 pos = file_byte s ino pos := by
  have hD : DISK_SECTOR_SIZE = 512 := rfl
  obtain ⟨_, hcap, hrange, hinj, hcc⟩ := hok
  rw [hn] at hrange hinj hcc
  have hbits := hg.2.2.2.1
  rw [hn] at hbits
  have hidxfree := hg.2.2.2.2
  rw [hn] at hidxfree
  have hmono := owned_count_mono n n2 hle
  -- the content of an old data sector is unchanged
  have hdata : ∀ p, p < owned_count n → index_position p = false →
      s1.disk (owned_sector s ino p) = s.disk (owned_sector s ino p) := by
    intro p hp hni
    apply hdisk _ (hbits p hp)
    intro q hq hqi hqp
    have := hinj q hq p hp hqp
    rw [this, hni] at hqi
    exact absurd hqi (by simp)
  refine ⟨⟨by rw [hn2]; exact hmax, by rw [hcnt]; exact hcap, ?_, ?_, ?_⟩, ?_⟩
  · intro p hp
    rw [hn2] at hp
    rw [hcnt]
    by_cases hpo : p < owned_count n
    · rw [hold p hpo]; exact hrange p hpo
    · exact (hnew p (by omega) hp).1
  · intro p hp q hq hpq
    rw [hn2] at hp hq
    by_cases hpo : p < owned_count n
    · by_cases hqo : q < owned_count n
      · rw [hold p hpo, hold q hqo] at hpq
        exact hinj p hpo q hqo hpq
      · exfalso
        have h1 := (hnew q (by omega) hq).2
        rw [← hpq, hold p hpo, hbits p hpo] at h1
        exact absurd h1 (by simp)
    · by_cases hqo : q < owned_count n
      · exfalso
        have h1 := (hnew p (by omega) hp).2
        rw [hpq, hold q hqo, hbits q hqo] at h1
        exact absurd h1 (by simp)
      · exact hnewinj p (by omega) hp q (by omega) hq hpq
  · intro p hp
    rw [hn2] at hp
    have hno : (∀ e ∈ s1.buffer_cache, e.sector_num ≠ owned_sector s1 ino2 p) →
        (if index_position p = true then synced s1 (owned_sector s1 ino2 p)
          else coherent s1 (owned_sector s1 ino2 p)) := by
      intro h
      split
      · intro e he hex; exact absurd hex (h e he)
      · intro e he hex; exact absurd hex (h e he)
    by_cases hpo : p < owned_count n
    · by_cases hpi : index_position p = true
      · apply hno
        rw [hcache, hold p hpo]
        intro e he hex
        exact (hidxfree e he).2 p hpo hpi hex.symm
      · rw [if_neg hpi, hold p hpo]
        have := hcc p hpo
        rw [if_neg hpi] at this
        intro e he hex hcl j hj
        rw [hcache] at he
        rw [hdata p hpo (by simpa using hpi)]
        exact this e he hex hcl j hj
    · apply hno
      rw [hcache]
      exact uncached_of_free s ino hg _ (hnew p (by omega) hp).2
  · intro pos hpos
    have hidx : pos / DISK_SECTOR_SIZE < n := by
      rw [← hn]
      unfold bytes_to_sectors
      rw [hD]
      omega
    obtain ⟨hdp, hni⟩ := data_position_lt _ _ hidx
    unfold file_byte
    rw [hold _ hdp]
    unfold content
    rw [hcache, hdata _ hdp hni]

/-- The state after a sector has been allocated and a buffer written to it. -/
theorem allocate_cases (s : fs) :
    free_map_allocate 1 s = none ∨
    ∃ sec, sec < s.free_map.bit_cnt ∧ s.free_map.bits sec = false ∧
      free_map_allocate 1 s
        = some (sec, { s with free_map := bitmap_set_multiple s.free_map sec 1 true }) := by
  cases h : free_map_allocate 1 s with
  | none => exact Or.inl rfl
  | some r =>
    obtain ⟨sec, s1⟩ := r
    obtain ⟨h1, h2, h3⟩ := free_map_allocate_spec s s1 sec h
    exact Or.inr ⟨sec, h1, h2, by rw [h3]⟩

theorem set_bit_cnt (b : bitmap) (sec : Nat) :
    (bitmap_set_multiple b sec 1 true).bit_cnt = b.bit_cnt := rfl

theorem expand_direct_skip (s : fs) (ino : inode) (x : Nat) (h : ¬ ino.direct < 12) :
    expand_direct 12 { s := s, ino := ino, extra_sectors := x }
      = some (none, { s := s, ino := ino, extra_sectors := x }) := by
  unfold expand_direct
  rw [if_neg h]

theorem expand_direct_one (s : fs) (ino : inode) (h : ino.direct < 12) :
    expand_direct 12 { s := s, ino := ino, extra_sectors := 1 }
      = match free_map_allocate 1 s with
        | none => some (some false, { s := s, ino := ino, extra_sectors := 1 })
        | some (sec, s1) =>
          (disk_write sec zeros s1).bind fun s2 =>
            some (some true,
              { s := s2
                ino := { ino with
                  blocks := upd ino.blocks ino.direct sec, direct := ino.direct + 1 }
                extra_sectors := 0 }) := by
  unfold expand_direct
  rw [if_pos h]
  rfl

theorem expand_block_one (bump : inode → inode) (s : fs) (ino : inode) (index : Nat)
    (block : Nat → Nat) (h : index < 128) :
    expand_block bump 128 index block { s := s, ino := ino, extra_sectors := 1 }
      = match free_map_allocate 1 s with
        | none => some (false, block, { s := s, ino := ino, extra_sectors := 1 })
        | some (sec, s1) =>
          (disk_write sec zeros s1).bind fun s2 =>
            some (true, upd block index sec,
              { s := s2, ino := bump ino, extra_sectors := 0 }) := by
  unfold expand_block
  rw [if_pos h]
  rfl

/-- The words of an index block that has just been written to the disk. -/
theorem words_of_written (disk : Nat → Nat → Nat) (sec : Nat) (w : Nat → Nat) (k : Nat)
    (hk : k < 128) (hw : w k < 2 ^ 32) :
    words_of (upd disk sec (fun j => if j < DISK_SECTOR_SIZE then bytes_of w j else disk sec j)
      sec) k = w k := by
  rw [upd_same, ← words_of_bytes_of w k hw]
  apply words_of_congr _ _ _ hk
  intro j hj
  rw [if_pos hj]

theorem upd_apply {α : Type} (f : Nat → α) (i j : Nat) (v : α) :
    upd f i v j = if j = i then v else f j := rfl

theorem extra_one (n : Nat) : (n + 1 + UINT_RANGE - n) % UINT_RANGE = 1 := by
  have : n + 1 + UINT_RANGE - n = UINT_RANGE + 1 := by omega
  rw [this]
  decide

theorem extra_zero (n : Nat) : (n + UINT_RANGE - n) % UINT_RANGE = 0 := by
  have : n + UINT_RANGE - n = UINT_RANGE := by omega
  rw [this]
  decide

/-- The frame part of `expand_post` for a state that differs from `s` in the disk and the
free map only. -/
theorem expand_post_of (s s1 : fs) (ino ino1 : inode) (new_length n : Nat)
    (hn : bytes_to_sectors ino.length = n) (hn1 : bytes_to_sectors new_length = n + 1)
    (hmax : n + 1 ≤ 16524) (hok : file_ok s ino) (hg : growable s ino)
    (hs1 : ∃ disk fm, s1 = { s with disk := disk, free_map := fm } ∧
      fm.bit_cnt = s.free_map.bit_cnt)
    (hino : ∃ blocks d i di, ino1 = { ino with
      blocks := blocks, direct := d, indirect := i, double_indirect := di })
    (hold : ∀ p, p < owned_count n →
      owned_sector s1 { ino1 with length := new_length } p = owned_sector s ino p)
    (hnew : ∀ p, owned_count n ≤ p → p < owned_count (n + 1) →
      owned_sector s1 { ino1 with length := new_length } p < s.free_map.bit_cnt ∧
      s.free_map.bits (owned_sector s1 { ino1 with length := new_length } p) = false)
    (hnewinj : ∀ p, owned_count n ≤ p → p < owned_count (n + 1) →
      ∀ q, owned_count n ≤ q → q < owned_count (n + 1) →
        owned_sector s1 { ino1 with length := new_length } p
          = owned_sector s1 { ino1 with length := new_length } q → p = q)
    (hdisk : ∀ x, s.free_map.bits x = true →
      (∀ p, p < owned_count n → index_position p = true → owned_sector s ino p ≠ x) →
      s1.disk x = s.disk x) :
    expand_post s ino new_length s1 ino1 := by
  obtain ⟨disk, fm, hs, hfm⟩ := hs1
  obtain ⟨blocks, d, i, di, hi⟩ := hino
  have hcache : s1.buffer_cache = s.buffer_cache := by rw [hs]
  have hcnt : s1.free_map.bit_cnt = s.free_map.bit_cnt := by rw [hs]; exact hfm
  obtain ⟨h1, h2⟩ := file_ok_grow s s1 ino { ino1 with length := new_length } n (n + 1) hn hn1
    (by omega) hmax hok hg hcache hcnt hold hnew hnewinj hdisk
  refine ⟨h1, h2, hcache, ?_, ?_, ?_, ?_, ?_, ?_, hcnt, ?_, ?_, ?_, ?_, ?_, ?_, ?_⟩ <;>
    first
    | (rw [hs])
    | (rw [hi])

/-- Growth of a file with fewer than 12 sectors by one sector. -/
theorem expand_direct_case (s s1 : fs) (ino ino1 : inode) (new_length : Nat)
    (hok : file_ok s ino) (hg : growable s ino)
    (hn1 : bytes_to_sectors new_length = bytes_to_sectors ino.length + 1)
    (hlt : bytes_to_sectors ino.length < 12)
    (h : inode_expand ino new_length s = some (true, ino1, s1)) :
    expand_post s ino new_length s1 ino1 := by
  generalize hn : bytes_to_sectors ino.length = n at *
  have hdir : ino.direct = n := by rw [hg.1, hn]; omega
  unfold inode_expand at h
  rw [hn1, hn, extra_one n] at h
  rw [if_neg (by omega)] at h
  rw [expand_direct_one s ino (by omega)] at h
  rcases allocate_cases s with ha | ⟨sec, hsec, hfree, ha⟩
  · rw [ha] at h
    simp at h
  · rw [ha] at h
    dsimp only at h
    rw [disk_write_some _ _ _ (by exact hsec)] at h
    simp only [Option.some_bind, Option.some.injEq, Prod.mk.injEq, true_and] at h
    obtain ⟨h1, h2⟩ := h
    subst h1
    subst h2
    have hoc : owned_count n = n := by unfold owned_count; rw [if_pos (by omega)]
    have hoc1 : owned_count (n + 1) = n + 1 := by unfold owned_count; rw [if_pos (by omega)]
    refine expand_post_of s _ ino _ new_length n hn hn1 (by omega) hok hg
      ⟨upd s.disk sec (fun j => if j < DISK_SECTOR_SIZE then zeros j else s.disk sec j),
        bitmap_set_multiple s.free_map sec 1 true, rfl, rfl⟩
      ⟨upd ino.blocks ino.direct sec, ino.direct + 1, ino.indirect, ino.double_indirect, rfl⟩
      ?_ ?_ ?_ ?_
    · intro p hp
      rw [hoc] at hp
      unfold owned_sector
      rw [if_pos (by omega), if_pos (by omega)]
      dsimp only
      rw [hdir, upd_other _ _ _ _ (by omega)]
    · intro p hp1 hp2
      rw [hoc] at hp1
      rw [hoc1] at hp2
      have hp : p = n := by omega
      subst hp
      unfold owned_sector
      rw [if_pos (by omega)]
      dsimp only
      rw [hdir, upd_same]
      exact ⟨hsec, hfree⟩
    · intro p hp1 hp2 q hq1 hq2 _
      rw [hoc] at hp1 hq1
      rw [hoc1] at hp2 hq2
      omega
    · intro x hx _
      dsimp only
      rw [upd_other]
      intro hxs
      rw [hxs, hfree] at hx
      exact absurd hx (by simp)

theorem free_after_set (b : bitmap) (sec x : Nat)
    (h : (bitmap_set_multiple b sec 1 true).bits x = false) : b.bits x = false ∧ x ≠ sec := by
  rw [set_bit_apply] at h
  simp only [Bool.or_eq_false_iff, decide_eq_false_iff_not] at h
  exact h

theorem upd_word_lt (block : Nat → Nat) (idx sec k : Nat) (hs : sec < 2 ^ 32)
    (hb : k ≠ idx → block k < 2 ^ 32) : upd block idx sec k < 2 ^ 32 := by
  rw [upd_apply]
  split
  · exact hs
  · rename_i h
    exact hb h

/-- Growth of a file with more than 12 and fewer than 140 sectors by one sector. -/
theorem expand_indirect_case (s s1 : fs) (ino ino1 : inode) (new_length : Nat)
    (hok : file_ok s ino) (hg : growable s ino)
    (hn1 : bytes_to_sectors new_length = bytes_to_sectors ino.length + 1)
    (hlo : 12 < bytes_to_sectors ino.length) (hhi : bytes_to_sectors ino.length < 140)
    (h : inode_expand ino new_length s = some (true, ino1, s1)) :
    expand_post s ino new_length s1 ino1 := by
  generalize hn : bytes_to_sectors ino.length = n at *
  have hD : DISK_SECTOR_SIZE = 512 := rfl
  have hdir : ino.direct = 12 := by rw [hg.1, hn]; omega
  have hind : ino.indirect = n - 12 := by rw [hg.2.1, hn]; omega
  have hoc : owned_count n = n + 1 := by
    unfold owned_count; rw [if_neg (by omega), if_pos (by omega)]
  have hoc1 : owned_count (n + 1) = n + 2 := by
    unfold owned_count; rw [if_neg (by omega), if_pos (by omega)]
  have hcap : s.free_map.bit_cnt < 2 ^ 32 := by
    have := hok.2.1; unfold UINT_RANGE at this; omega
  have h12 : ino.blocks 12 < s.free_map.bit_cnt := by
    have := hok.2.2.1 12 (by rw [hn, hoc]; omega)
    simpa [owned_sector] using this
  unfold inode_expand at h
  rw [hn1, hn, extra_one n] at h
  rw [if_neg (by omega)] at h
  rw [expand_direct_skip s ino 1 (by omega)] at h
  simp only [Option.some_bind] at h
  unfold expand_indirect at h
  simp only [hind] at h
  rw [if_pos (by omega), if_pos (by omega)] at h
  unfold disk_read at h
  rw [if_pos h12] at h
  simp only [Option.map_some', Option.some_bind, hind] at h
  rw [expand_block_one _ s ino _ _ (by omega)] at h
  rcases allocate_cases s with ha | ⟨sec, hsec, hfree, ha⟩
  · rw [ha] at h
    simp at h
  · rw [ha] at h
    dsimp only at h
    rw [disk_write_some _ _ _ (by exact hsec)] at h
    simp only [Option.some_bind, if_true] at h
    rw [disk_write_some _ _ _ (by exact h12)] at h
    simp only [Option.map_some', Option.some_bind, if_true, Option.some.injEq, Prod.mk.injEq,
      true_and] at h
    obtain ⟨h1, h2⟩ := h
    subst h1
    subst h2
    have hne : ino.blocks 12 ≠ sec := by
      intro hx
      have := hg.2.2.2.1 12 (by rw [hn, hoc]; omega)
      simp only [owned_sector, show ¬ (12 < 12) by omega, if_false, if_true] at this
      rw [hx, hfree] at this
      exact absurd this (by simp)
    refine expand_post_of s _ ino _ new_length n hn hn1 (by omega) hok hg
      ⟨_, bitmap_set_multiple s.free_map sec 1 true, rfl, rfl⟩
      ⟨ino.blocks, ino.direct, ino.indirect + 1, ino.double_indirect, rfl⟩
      ?_ ?_ ?_ ?_
    · intro p hp
      rw [hoc] at hp
      unfold owned_sector bump_indirect
      dsimp only
      by_cases c1 : p < 12
      · rw [if_pos c1, if_pos c1]
      rw [if_neg c1, if_neg c1]
      by_cases c2 : p = 12
      · rw [if_pos c2, if_pos c2]
      rw [if_neg c2, if_neg c2, if_pos (by omega), if_pos (by omega)]
      rw [words_of_written _ _ _ _ (by omega)
        (upd_word_lt _ _ _ _ (by omega) (fun _ => words_of_lt _ _))]
      rw [upd_other _ _ _ _ (by omega)]
    · intro p hp1 hp2
      rw [hoc] at hp1
      rw [hoc1] at hp2
      have hp : p = n + 1 := by omega
      subst hp
      unfold owned_sector bump_indirect
      dsimp only
      rw [if_neg (by omega), if_neg (by omega), if_pos (by omega)]
      rw [words_of_written _ _ _ _ (by omega)
        (upd_word_lt _ _ _ _ (by omega) (fun _ => words_of_lt _ _))]
      have : n + 1 - 13 = n - 12 := by omega
      rw [this, upd_same]
      exact ⟨hsec, hfree⟩
    · intro p hp1 hp2 q hq1 hq2 _
      rw [hoc] at hp1 hq1
      rw [hoc1] at hp2 hq2
      omega
    · intro x hx hidx
      have hx12 : x ≠ ino.blocks 12 := by
        have := hidx 12 (by rw [hoc]; omega) (by decide)
        simp only [owned_sector, show ¬ (12 < 12) by omega, if_false, if_true] at this
        exact Ne.symm this
      have hxs : x ≠ sec := by
        intro hxs
        rw [hxs, hfree] at hx
        exact absurd hx (by simp)
      unfold bump_indirect
      dsimp only
      rw [upd_other _ _ _ _ hx12, upd_other _ _ _ _ hxs]

theorem first_indirect_positions (s : fs) (D : Nat → Nat → Nat) (fm : bitmap) (ino : inode)
    (blocks : Nat → Nat) (isec sec : Nat) (w : Nat → Nat) (hw : w 0 = sec) (hsec : sec < 2 ^ 32)
    (i len : Nat) :
    owned_sector
      { s with
        disk := upd D isec fun j => if j < DISK_SECTOR_SIZE then bytes_of w j else D isec j
        free_map := fm }
      { ino with blocks := upd blocks 12 isec, indirect := i, length := len } 12 = isec ∧
    owned_sector
      { s with
        disk := upd D isec fun j => if j < DISK_SECTOR_SIZE then bytes_of w j else D isec j
        free_map := fm }
      { ino with blocks := upd blocks 12 isec, indirect := i, length := len } 13 = sec := by
  constructor
  · unfold owned_sector
    dsimp only
    rw [if_neg (by omega), if_pos rfl, upd_same]
  · unfold owned_sector
    dsimp only
    rw [if_neg (by omega), if_neg (by omega), if_pos (by omega), upd_same]
    rw [words_of_written _ _ _ _ (by omega) (by rw [show 13 - 13 = 0 from rfl, hw]; exact hsec)]
    exact hw

/-- Growth of a file with exactly 12 sectors by one sector. -/
theorem expand_first_indirect_case (s s1 : fs) (ino ino1 : inode) (new_length : Nat)
    (hok : file_ok s ino) (hg : growable s ino)
    (hn1 : bytes_to_sectors new_length = bytes_to_sectors ino.length + 1)
    (hlo : bytes_to_sectors ino.length = 12)
    (h : inode_expand ino new_length s = some (true, ino1, s1)) :
    expand_post s ino new_length s1 ino1 := by
  generalize hn : bytes_to_sectors ino.length = n at *
  subst hlo
  have hD : DISK_SECTOR_SIZE = 512 := rfl
  have hdir : ino.direct = 12 := by rw [hg.1, hn]; rfl
  have hind : ino.indirect = 0 := by rw [hg.2.1, hn]; rfl
  have hoc : owned_count 12 = 12 := rfl
  have hoc1 : owned_count (12 + 1) = 14 := rfl
  have hcap : s.free_map.bit_cnt < 2 ^ 32 := by
    have := hok.2.1; unfold UINT_RANGE at this; omega
  unfold inode_expand at h
  rw [hn1, hn, extra_one 12] at h
  rw [if_neg (by omega)] at h
  rw [expand_direct_skip s ino 1 (by omega)] at h
  simp only [Option.some_bind] at h
  unfold expand_indirect at h
  simp only [hind] at h
  rw [if_pos (by omega), if_neg (by omega)] at h
  rcases allocate_cases s with ha | ⟨isec, hisec, hifree, ha⟩
  · rw [ha] at h
    simp at h
  rw [ha] at h
  simp only [Option.some_bind, hind] at h
  rw [expand_block_one _ _ _ _ _ (by omega)] at h
  rcases allocate_cases { s with free_map := bitmap_set_multiple s.free_map isec 1 true }
    with hb | ⟨sec, hsec, hfree, hb⟩
  · rw [hb] at h
    simp at h
  rw [hb] at h
  dsimp only at h
  obtain ⟨hfree, hne⟩ := free_after_set _ _ _ hfree
  rw [disk_write_some _ _ _ (by exact hsec)] at h
  simp only [Option.some_bind, if_true] at h
  unfold bump_indirect at h
  dsimp only at h
  rw [upd_same] at h
  rw [disk_write_some _ _ _ (by exact hisec)] at h
  simp only [Option.map_some', Option.some_bind, if_true, Option.some.injEq, Prod.mk.injEq,
    true_and] at h
  obtain ⟨h1, h2⟩ := h
  subst h1
  subst h2
  refine expand_post_of s _ ino _ new_length 12 hn hn1 (by omega) hok hg
    ⟨_, bitmap_set_multiple (bitmap_set_multiple s.free_map isec 1 true) sec 1 true, rfl, rfl⟩
    ⟨upd ino.blocks 12 isec, ino.direct, 0 + 1, ino.double_indirect, rfl⟩
    ?_ ?_ ?_ ?_
  · intro p hp
    rw [hoc] at hp
    unfold owned_sector
    dsimp only
    rw [if_pos hp, if_pos hp, upd_other _ _ _ _ (by omega)]
  · intro p hp1 hp2
    rw [hoc] at hp1
    rw [hoc1] at hp2
    unfold owned_sector
    dsimp only
    rw [if_neg (by omega)]
    by_cases c : p = 12
    · rw [if_pos c, upd_same]
      exact ⟨hisec, hifree⟩
    · have hp : p = 13 := by omega
      subst hp
      rw [if_neg (by omega), if_pos (by omega), upd_same]
      rw [words_of_written _ _ _ _ (by omega)
        (upd_word_lt _ _ _ _ (by change sec < s.free_map.bit_cnt at hsec; omega)
          (fun hc => absurd rfl hc))]
      rw [upd_same]
      exact ⟨hsec, hfree⟩
  · intro p hp1 hp2 q hq1 hq2
    rw [hoc] at hp1 hq1
    rw [hoc1] at hp2 hq2
    have hs32 : sec < 2 ^ 32 := by change sec < s.free_map.bit_cnt at hsec; omega
    have key := first_indirect_positions s
      (upd s.disk sec fun j => if j < DISK_SECTOR_SIZE then zeros j else s.disk sec j)
      (bitmap_set_multiple (bitmap_set_multiple s.free_map isec 1 true) sec 1 true) ino
      ino.blocks isec sec (upd s.junk 0 sec) rfl hs32 (0 + 1) new_length
    obtain ⟨h12, h13⟩ := key
    have hp : p = 12 ∨ p = 13 := by omega
    have hq : q = 12 ∨ q = 13 := by omega
    rcases hp with hp | hp <;> rcases hq with hq | hq <;> subst hp <;> subst hq <;> intro he
    · rfl
    · rw [h12, h13] at he; exact absurd he.symm hne
    · rw [h12, h13] at he; exact absurd he hne
    · rfl
  · intro x hx hidx
    have hxi : x ≠ isec := by
      intro hxs
      rw [hxs, hifree] at hx
      exact absurd hx (by simp)
    have hxs : x ≠ sec := by
      intro hxs
      rw [hxs, hfree] at hx
      exact absurd hx (by simp)
    dsimp only
    rw [upd_other _ _ _ _ hxi, upd_other _ _ _ _ hxs]

theorem expand_indirect_skip (s : fs) (ino : inode) (x : Nat) (h : ¬ ino.indirect < 128) :
    expand_indirect { s := s, ino := ino, extra_sectors := x }
      = some (none, { s := s, ino := ino, extra_sectors := x }) := by
  unfold expand_indirect
  rw [if_neg h]

/-- One round of the loop over the second-level index blocks that adds one data sector to a
second-level block that exists. -/
theorem double_round_existing (s : fs) (ino : inode) (ptrs : Nat → Nat) (sec : Nat)
    (hdi : ino.double_indirect < 128 * 128) (hr : ino.double_indirect % 128 ≠ 0)
    (hp : ptrs (ino.double_indirect / 128) < s.free_map.bit_cnt)
    (hsec : sec < s.free_map.bit_cnt)
    (ha : free_map_allocate 1 s
      = some (sec, { s with free_map := bitmap_set_multiple s.free_map sec 1 true })) :
    expand_double_loop 128 ptrs { s := s, ino := ino, extra_sectors := 1 }
      = some (true, ptrs,
          { s := { s with
              disk := upd (upd s.disk sec fun j =>
                  if j < DISK_SECTOR_SIZE then zeros j else s.disk sec j)
                (ptrs (ino.double_indirect / 128)) fun j =>
                  if j < DISK_SECTOR_SIZE then
                    bytes_of (upd (words_of (s.disk (ptrs (ino.double_indirect / 128))))
                      (ino.double_indirect % 128) sec) j
                  else (upd s.disk sec fun j =>
                    if j < DISK_SECTOR_SIZE then zeros j else s.disk sec j)
                      (ptrs (ino.double_indirect / 128)) j
              free_map := bitmap_set_multiple s.free_map sec 1 true }
            ino := bump_double_indirect ino
            extra_sectors := 0 }) := by
  rw [expand_double_loop]
  dsimp only
  rw [if_pos hdi, if_neg hr]
  unfold disk_read
  rw [if_pos hp]
  simp only [Option.map_some', Option.some_bind]
  rw [expand_block_one _ _ _ _ _ (Nat.mod_lt _ (by omega)), ha]
  dsimp only
  rw [disk_write_some _ _ _ (by exact hsec)]
  simp only [Option.some_bind, if_true]
  rw [disk_write_some _ _ _ (by exact hp)]
  simp only [Option.some_bind, if_true]

/-- One round of the loop over the second-level index blocks that allocates a second-level
block and its first data sector. -/
theorem double_round_fresh (s : fs) (ino : inode) (ptrs : Nat → Nat) (sec2 sec : Nat)
    (hdi : ino.double_indirect < 128 * 128) (hr : ino.double_indirect % 128 = 0)
    (hsec2 : sec2 < s.free_map.bit_cnt) (hsec : sec < s.free_map.bit_cnt)
    (ha : free_map_allocate 1 s
      = some (sec2, { s with free_map := bitmap_set_multiple s.free_map sec2 1 true }))
    (hb : free_map_allocate 1 { s with free_map := bitmap_set_multiple s.free_map sec2 1 true }
      = some (sec, { s with
          free_map := bitmap_set_multiple (bitmap_set_multiple s.free_map sec2 1 true) sec 1 true })) :
    expand_double_loop 128 ptrs { s := s, ino := ino, extra_sectors := 1 }
      = some (true, upd ptrs (ino.double_indirect / 128) sec2,
          { s := { s with
              disk := upd (upd s.disk sec fun j =>
                  if j < DISK_SECTOR_SIZE then zeros j else s.disk sec j)
                sec2 fun j =>
                  if j < DISK_SECTOR_SIZE then bytes_of (upd s.junk 0 sec) j
                  else (upd s.disk sec fun j =>
                    if j < DISK_SECTOR_SIZE then zeros j else s.disk sec j) sec2 j
              free_map :=
                bitmap_set_multiple (bitmap_set_multiple s.free_map sec2 1 true) sec 1 true }
            ino := bump_double_indirect ino
            extra_sectors := 0 }) := by
  rw [expand_double_loop]
  dsimp only
  rw [if_pos hdi, if_pos hr, ha]
  simp only [Option.some_bind]
  rw [hr, expand_block_one _ _ _ _ _ (by omega), hb]
  dsimp only
  rw [disk_write_some _ _ _ (by exact hsec)]
  simp only [Option.some_bind, if_true]
  rw [upd_same, disk_write_some _ _ _ (by exact hsec2)]
  simp only [Option.some_bind, if_true]

theorem owned_at_12 (s : fs) (ino : inode) : owned_sector s ino 12 = ino.blocks 12 := rfl

theorem owned_at_141 (s : fs) (ino : inode) : owned_sector s ino 141 = ino.blocks 13 := rfl

theorem owned_at_second (s : fs) (ino : inode) (k : Nat) :
    owned_sector s ino (142 + 129 * k) = words_of (s.disk (ino.blocks 13)) k := by
  unfold owned_sector
  rw [if_neg (by omega), if_neg (by omega), if_neg (by omega), if_neg (by omega),
    if_pos (by omega)]
  congr 1
  omega

theorem owned_at_data (s : fs) (ino : inode) (k m : Nat) (hm : m < 128) :
    owned_sector s ino (143 + 129 * k + m)
      = words_of (s.disk (words_of (s.disk (ino.blocks 13)) k)) m := by
  unfold owned_sector
  rw [if_neg (by omega), if_neg (by omega), if_neg (by omega), if_neg (by omega),
    if_neg (by omega)]
  have h1 : (143 + 129 * k + m - 142) / 129 = k := by omega
  have h2 : (143 + 129 * k + m - 142) % 129 - 1 = m := by omega
  rw [h1, h2]

/-- The sector at a position is the same in two states that agree on the index blocks that
lead to it. -/
theorem owned_sector_of_disk (s s1 : fs) (ino ino1 : inode) (p : Nat)
    (hb : ino1.blocks = ino.blocks)
    (h12 : 13 ≤ p → p < 141 →
      words_of (s1.disk (ino.blocks 12)) (p - 13) = words_of (s.disk (ino.blocks 12)) (p - 13))
    (h13 : 142 ≤ p →
      words_of (s1.disk (ino.blocks 13)) ((p - 142) / 129)
        = words_of (s.disk (ino.blocks 13)) ((p - 142) / 129))
    (h2 : 142 ≤ p → (p - 142) % 129 ≠ 0 →
      words_of (s1.disk (words_of (s.disk (ino.blocks 13)) ((p - 142) / 129)))
          ((p - 142) % 129 - 1)
        = words_of (s.disk (words_of (s.disk (ino.blocks 13)) ((p - 142) / 129)))
          ((p - 142) % 129 - 1)) :
    owned_sector s1 ino1 p = owned_sector s ino p := by
  unfold owned_sector
  rw [hb]
  by_cases c1 : p < 12
  · rw [if_pos c1, if_pos c1]
  rw [if_neg c1, if_neg c1]
  by_cases c2 : p = 12
  · rw [if_pos c2, if_pos c2]
  rw [if_neg c2, if_neg c2]
  by_cases c3 : p < 141
  · rw [if_pos c3, if_pos c3]
    exact h12 (by omega) c3
  rw [if_neg c3, if_neg c3]
  by_cases c4 : p = 141
  · rw [if_pos c4, if_pos c4]
  rw [if_neg c4, if_neg c4]
  by_cases c5 : (p - 142) % 129 = 0
  · rw [if_pos c5, if_pos c5]
    exact h13 (by omega)
  rw [if_neg c5, if_neg c5, h13 (by omega)]
  exact h2 (by omega) c5

/-- The sectors of a file are allocated, so a free sector is none of them. -/
theorem owned_ne_free (s : fs) (ino : inode) (n p sec : Nat)
    (hn : bytes_to_sectors ino.length = n) (hg : growable s ino)
    (hp : p < owned_count n) (hfree : s.free_map.bits sec = false) :
    owned_sector s ino p ≠ sec := by
  intro hc
  have := hg.2.2.2.1 p (by rw [hn]; exact hp)
  rw [hc, hfree] at this
  exact absurd this (by simp)

theorem owned_ne (s : fs) (ino : inode) (n p q : Nat)
    (hn : bytes_to_sectors ino.length = n) (hok : file_ok s ino)
    (hp : p < owned_count n) (hq : q < owned_count n) (hpq : p ≠ q) :
    owned_sector s ino p ≠ owned_sector s ino q := by
  intro hc
  exact hpq (hok.2.2.2.1 p (by rw [hn]; exact hp) q (by rw [hn]; exact hq) hc)

theorem double_round_no_space (s : fs) (ino : inode) (ptrs : Nat → Nat)
    (hdi : ino.double_indirect < 128 * 128) (hr : ino.double_indirect % 128 ≠ 0)
    (hp : ptrs (ino.double_indirect / 128) < s.free_map.bit_cnt)
    (ha : free_map_allocate 1 s = none) :
    ∃ e, expand_double_loop 128 ptrs { s := s, ino := ino, extra_sectors := 1 }
      = some (false, ptrs, e) := by
  rw [expand_double_loop]
  dsimp only
  rw [if_pos hdi, if_neg hr]
  unfold disk_read
  rw [if_pos hp]
  simp only [Option.map_some', Option.some_bind]
  rw [expand_block_one _ _ _ _ _ (Nat.mod_lt _ (by omega)), ha]
  exact ⟨_, rfl⟩

/-- Growth by one sector of a file whose last second-level index block is not full. -/
theorem expand_double_data_case (s s1 : fs) (ino ino1 : inode) (new_length : Nat)
    (hok : file_ok s ino) (hg : growable s ino)
    (hn1 : bytes_to_sectors new_length = bytes_to_sectors ino.length + 1)
    (hlo : 140 < bytes_to_sectors ino.length)
    (hrem : (bytes_to_sectors ino.length - 140) % 128 ≠ 0)
    (h : inode_expand ino new_length s = some (true, ino1, s1)) :
    expand_post s ino new_length s1 ino1 := by
  generalize hn : bytes_to_sectors ino.length = n at *
  have hD : DISK_SECTOR_SIZE = 512 := rfl
  have hdir : ino.direct = 12 := by rw [hg.1, hn]; omega
  have hind : ino.indirect = 128 := by rw [hg.2.1, hn]; omega
  have hdi : ino.double_indirect = n - 140 := by rw [hg.2.2.1, hn]
  have hcap : s.free_map.bit_cnt < 2 ^ 32 := by
    have := hok.2.1; unfold UINT_RANGE at this; omega
  have hpos : ∀ p, p < owned_count n → owned_sector s ino p < s.free_map.bit_cnt := by
    intro p hp; exact hok.2.2.1 p (by rw [hn]; exact hp)
  obtain ⟨q, r, hq, hr, hr0, hr1⟩ : ∃ q r, ino.double_indirect / 128 = q ∧
      ino.double_indirect % 128 = r ∧ r ≠ 0 ∧ n = 140 + 128 * q + r :=
    ⟨_, _, rfl, rfl, by rw [hdi]; exact hrem, by rw [hdi]; omega⟩
  have hr128 : r < 128 := by rw [← hr]; exact Nat.mod_lt _ (by omega)
  have hoc : owned_count n = 143 + 129 * q + r := by
    unfold owned_count; rw [if_neg (by omega), if_neg (by omega)]; omega
  have hoc1 : owned_count (n + 1) = 144 + 129 * q + r := by
    unfold owned_count; rw [if_neg (by omega), if_neg (by omega)]; omega
  have h13 : ino.blocks 13 < s.free_map.bit_cnt := hpos 141 (by rw [hoc]; omega)
  have hpq : words_of (s.disk (ino.blocks 13)) q < s.free_map.bit_cnt := by
    have := hpos (142 + 129 * q) (by rw [hoc]; omega)
    rwa [owned_at_second] at this
  unfold inode_expand at h
  rw [hn1, hn, extra_one n] at h
  rw [if_neg (by omega)] at h
  rw [expand_direct_skip s ino 1 (by omega)] at h
  simp only [Option.some_bind] at h
  rw [expand_indirect_skip s ino 1 (by omega)] at h
  simp only [Option.some_bind] at h
  unfold expand_double at h
  dsimp only at h
  by_cases hlt : ino.double_indirect < 128 * 128
  swap
  · rw [if_neg hlt] at h
    simp at h
  rw [if_pos hlt, if_pos (by omega)] at h
  unfold disk_read at h
  rw [if_pos h13] at h
  simp only [Option.map_some', Option.some_bind] at h
  rcases allocate_cases s with ha | ⟨sec, hsec, hfree, ha⟩
  · obtain ⟨e, he⟩ := double_round_no_space s ino (words_of (s.disk (ino.blocks 13))) hlt
      (by rw [hr]; exact hr0) (by rw [hq]; exact hpq) ha
    rw [he] at h
    simp at h
  rw [double_round_existing s ino _ sec hlt (by rw [hr]; exact hr0) (by rw [hq]; exact hpq)
    hsec ha] at h
  simp only [Option.some_bind, if_true] at h
  rw [disk_write_some _ _ _ (by exact h13)] at h
  simp only [Option.map_some', Option.some.injEq, Prod.mk.injEq, true_and, hq, hr] at h
  obtain ⟨h1, h2⟩ := h
  subst h1
  subst h2
  have hn16 : n + 1 ≤ 16524 := by omega
  -- the old sectors that matter
  have e12 : ino.blocks 12 ≠ sec :=
    owned_ne_free s ino n 12 sec hn hg (by rw [hoc]; omega) hfree
  have e13 : ino.blocks 13 ≠ sec :=
    owned_ne_free s ino n 141 sec hn hg (by rw [hoc]; omega) hfree
  have eq : words_of (s.disk (ino.blocks 13)) q ≠ sec := by
    have := owned_ne_free s ino n (142 + 129 * q) sec hn hg (by rw [hoc]; omega) hfree
    rwa [owned_at_second] at this
  have eq13 : words_of (s.disk (ino.blocks 13)) q ≠ ino.blocks 13 := by
    have := owned_ne s ino n (142 + 129 * q) 141 hn hok (by rw [hoc]; omega)
      (by rw [hoc]; omega) (by omega)
    rwa [owned_at_second] at this
  have eq12 : ino.blocks 12 ≠ words_of (s.disk (ino.blocks 13)) q := by
    have := owned_ne s ino n 12 (142 + 129 * q) hn hok (by rw [hoc]; omega)
      (by rw [hoc]; omega) (by omega)
    rwa [owned_at_second] at this
  have e1213 : ino.blocks 12 ≠ ino.blocks 13 :=
    owned_ne s ino n 12 141 hn hok (by rw [hoc]; omega) (by rw [hoc]; omega) (by omega)
  refine expand_post_of s _ ino _ new_length n hn hn1 hn16 hok hg
    ⟨_, bitmap_set_multiple s.free_map sec 1 true, rfl, rfl⟩
    ⟨ino.blocks, ino.direct, ino.indirect, ino.double_indirect + 1, rfl⟩
    ?_ ?_ ?_ ?_
  · intro p hp
    rw [hoc] at hp
    apply owned_sector_of_disk _ _ _ _ _ rfl
    · intro _ _
      dsimp only
      unfold bump_double_indirect
      dsimp only
      rw [upd_other _ _ _ _ e1213, upd_other _ _ _ _ eq12, upd_other _ _ _ _ e12]
    · intro _
      dsimp only
      unfold bump_double_indirect
      dsimp only
      rw [words_of_written _ _ _ _ (by omega) (words_of_lt _ _)]
    · intro hp1 hp2
      dsimp only
      unfold bump_double_indirect
      dsimp only
      by_cases hk : (p - 142) / 129 = q
      · rw [hk, upd_other _ _ _ _ eq13]
        rw [words_of_written _ _ _ _ (by omega)
          (upd_word_lt _ _ _ _ (by omega) (fun _ => words_of_lt _ _))]
        rw [upd_other _ _ _ _ (by omega)]
      · have hkq : (p - 142) / 129 < q := by omega
        have a1 : words_of (s.disk (ino.blocks 13)) ((p - 142) / 129) ≠ ino.blocks 13 := by
          have := owned_ne s ino n (142 + 129 * ((p - 142) / 129)) 141 hn hok
            (by rw [hoc]; omega) (by rw [hoc]; omega) (by omega)
          rwa [owned_at_second] at this
        have a2 : words_of (s.disk (ino.blocks 13)) ((p - 142) / 129)
            ≠ words_of (s.disk (ino.blocks 13)) q := by
          have := owned_ne s ino n (142 + 129 * ((p - 142) / 129)) (142 + 129 * q) hn hok
            (by rw [hoc]; omega) (by rw [hoc]; omega) (by omega)
          rwa [owned_at_second, owned_at_second] at this
        have a3 : words_of (s.disk (ino.blocks 13)) ((p - 142) / 129) ≠ sec := by
          have := owned_ne_free s ino n (142 + 129 * ((p - 142) / 129)) sec hn hg
            (by rw [hoc]; omega) hfree
          rwa [owned_at_second] at this
        rw [upd_other _ _ _ _ a1, upd_other _ _ _ _ a2, upd_other _ _ _ _ a3]
  · intro p hp1 hp2
    rw [hoc] at hp1
    rw [hoc1] at hp2
    have hp : p = 143 + 129 * q + r := by omega
    subst hp
    rw [owned_at_data _ _ _ _ hr128]
    dsimp only
    unfold bump_double_indirect
    dsimp only
    rw [words_of_written _ _ _ _ (by omega) (words_of_lt _ _)]
    rw [upd_other _ _ _ _ eq13]
    rw [words_of_written _ _ _ _ (by omega)
      (upd_word_lt _ _ _ _ (by omega) (fun _ => words_of_lt _ _))]
    rw [upd_same]
    exact ⟨hsec, hfree⟩
  · intro p hp1 hp2 q hq1 hq2 _
    rw [hoc] at hp1 hq1
    rw [hoc1] at hp2 hq2
    omega
  · intro x hx hidx
    have hx13 : x ≠ ino.blocks 13 := by
      have := hidx 141 (by rw [hoc]; omega) (by decide)
      exact Ne.symm this
    have hxq : x ≠ words_of (s.disk (ino.blocks 13)) q := by
      have := hidx (142 + 129 * q) (by rw [hoc]; omega)
        (by unfold index_position; simp)
      rw [owned_at_second] at this
      exact Ne.symm this
    have hxs : x ≠ sec := by
      intro hxs
      rw [hxs, hfree] at hx
      exact absurd hx (by simp)
    dsimp only
    unfold bump_double_indirect
    dsimp only
    rw [upd_other _ _ _ _ hx13, upd_other _ _ _ _ hxq, upd_other _ _ _ _ hxs]

theorem double_round_fresh_no_index (s : fs) (ino : inode) (ptrs : Nat → Nat)
    (hdi : ino.double_indirect < 128 * 128) (hr : ino.double_indirect % 128 = 0)
    (ha : free_map_allocate 1 s = none) :
    ∃ p e, expand_double_loop 128 ptrs { s := s, ino := ino, extra_sectors := 1 }
      = some (false, p, e) := by
  rw [expand_double_loop]
  dsimp only
  rw [if_pos hdi, if_pos hr, ha]
  exact ⟨_, _, rfl⟩

theorem double_round_fresh_no_data (s : fs) (ino : inode) (ptrs : Nat → Nat) (sec2 : Nat)
    (hdi : ino.double_indirect < 128 * 128) (hr : ino.double_indirect % 128 = 0)
    (ha : free_map_allocate 1 s
      = some (sec2, { s with free_map := bitmap_set_multiple s.free_map sec2 1 true }))
    (hb : free_map_allocate 1 { s with free_map := bitmap_set_multiple s.free_map sec2 1 true }
      = none) :
    ∃ p e, expand_double_loop 128 ptrs { s := s, ino := ino, extra_sectors := 1 }
      = some (false, p, e) := by
  rw [expand_double_loop]
  dsimp only
  rw [if_pos hdi, if_pos hr, ha]
  simp only [Option.some_bind]
  rw [hr, expand_block_one _ _ _ _ _ (by omega), hb]
  exact ⟨_, _, rfl⟩

/-- The form of `expand_post_of` in which the new sectors are named. -/
theorem expand_post_vals (s s1 : fs) (ino ino1 : inode) (new_length n : Nat) (v : Nat → Nat)
    (hn : bytes_to_sectors ino.length = n) (hn1 : bytes_to_sectors new_length = n + 1)
    (hmax : n + 1 ≤ 16524) (hok : file_ok s ino) (hg : growable s ino)
    (hs1 : ∃ disk fm, s1 = { s with disk := disk, free_map := fm } ∧
      fm.bit_cnt = s.free_map.bit_cnt)
    (hino : ∃ blocks d i di, ino1 = { ino with
      blocks := blocks, direct := d, indirect := i, double_indirect := di })
    (hold : ∀ p, p < owned_count n →
      owned_sector s1 { ino1 with length := new_length } p = owned_sector s ino p)
    (hnew : ∀ p, owned_count n ≤ p → p < owned_count (n + 1) →
      owned_sector s1 { ino1 with length := new_length } p = v p ∧
      v p < s.free_map.bit_cnt ∧ s.free_map.bits (v p) = false)
    (hinj : ∀ p, owned_count n ≤ p → p < owned_count (n + 1) →
      ∀ q, owned_count n ≤ q → q < owned_count (n + 1) → v p = v q → p = q)
    (hdisk : ∀ x, s.free_map.bits x = true →
      (∀ p, p < owned_count n → index_position p = true → owned_sector s ino p ≠ x) →
      s1.disk x = s.disk x) :
    expand_post s ino new_length s1 ino1 := by
  refine expand_post_of s s1 ino ino1 new_length n hn hn1 hmax hok hg hs1 hino hold ?_ ?_ hdisk
  · intro p hp1 hp2
    obtain ⟨a, b, c⟩ := hnew p hp1 hp2
    rw [a]
    exact ⟨b, c⟩
  · intro p hp1 hp2 q hq1 hq2 he
    rw [(hnew p hp1 hp2).1, (hnew q hq1 hq2).1] at he
    exact hinj p hp1 hp2 q hq1 hq2 he

/-- Growth by one sector of a file whose second-level index blocks are all full. -/
theorem expand_double_block_case (s s1 : fs) (ino ino1 : inode) (new_length : Nat)
    (hok : file_ok s ino) (hg : growable s ino)
    (hn1 : bytes_to_sectors new_length = bytes_to_sectors ino.length + 1)
    (hlo : 140 < bytes_to_sectors ino.length)
    (hrem : (bytes_to_sectors ino.length - 140) % 128 = 0)
    (h : inode_expand ino new_length s = some (true, ino1, s1)) :
    expand_post s ino new_length s1 ino1 := by
  generalize hn : bytes_to_sectors ino.length = n at *
  have hD : DISK_SECTOR_SIZE = 512 := rfl
  have hdir : ino.direct = 12 := by rw [hg.1, hn]; omega
  have hind : ino.indirect = 128 := by rw [hg.2.1, hn]; omega
  have hdi : ino.double_indirect = n - 140 := by rw [hg.2.2.1, hn]
  have hcap : s.free_map.bit_cnt < 2 ^ 32 := by
    have := hok.2.1; unfold UINT_RANGE at this; omega
  have hpos : ∀ p, p < owned_count n → owned_sector s ino p < s.free_map.bit_cnt := by
    intro p hp; exact hok.2.2.1 p (by rw [hn]; exact hp)
  obtain ⟨q, hq, hr, hr1⟩ : ∃ q, ino.double_indirect / 128 = q ∧
      ino.double_indirect % 128 = 0 ∧ n = 140 + 128 * q :=
    ⟨_, rfl, by rw [hdi]; exact hrem, by rw [hdi]; omega⟩
  have hoc : owned_count n = 142 + 129 * q := by
    unfold owned_count; rw [if_neg (by omega), if_neg (by omega)]; omega
  have hoc1 : owned_count (n + 1) = 144 + 129 * q := by
    unfold owned_count; rw [if_neg (by omega), if_neg (by omega)]; omega
  have h13 : ino.blocks 13 < s.free_map.bit_cnt := hpos 141 (by rw [hoc]; omega)
  unfold inode_expand at h
  rw [hn1, hn, extra_one n] at h
  rw [if_neg (by omega)] at h
  rw [expand_direct_skip s ino 1 (by omega)] at h
  simp only [Option.some_bind] at h
  rw [expand_indirect_skip s ino 1 (by omega)] at h
  simp only [Option.some_bind] at h
  unfold expand_double at h
  dsimp only at h
  by_cases hlt : ino.double_indirect < 128 * 128
  swap
  · rw [if_neg hlt] at h
    simp at h
  rw [if_pos hlt, if_pos (by omega)] at h
  unfold disk_read at h
  rw [if_pos h13] at h
  simp only [Option.map_some', Option.some_bind] at h
  rcases allocate_cases s with ha | ⟨sec2, hsec2, hfree2, ha⟩
  · obtain ⟨p, e, he⟩ := double_round_fresh_no_index s ino (words_of (s.disk (ino.blocks 13)))
      hlt hr ha
    rw [he] at h
    simp at h
  rcases allocate_cases { s with free_map := bitmap_set_multiple s.free_map sec2 1 true }
    with hb | ⟨sec, hsec, hfree, hb⟩
  · obtain ⟨p, e, he⟩ := double_round_fresh_no_data s ino (words_of (s.disk (ino.blocks 13)))
      sec2 hlt hr ha hb
    rw [he] at h
    simp at h
  obtain ⟨hfree, hne⟩ := free_after_set _ _ _ hfree
  change sec < s.free_map.bit_cnt at hsec
  rw [double_round_fresh s ino _ sec2 sec hlt hr hsec2 hsec ha hb] at h
  simp only [Option.some_bind, if_true] at h
  rw [disk_write_some _ _ _ (by exact h13)] at h
  simp only [Option.map_some', Option.some.injEq, Prod.mk.injEq, true_and, hq] at h
  obtain ⟨h1, h2⟩ := h
  subst h1
  subst h2
  have hn16 : n + 1 ≤ 16524 := by omega
  have e12 : ino.blocks 12 ≠ sec :=
    owned_ne_free s ino n 12 sec hn hg (by rw [hoc]; omega) hfree
  have e122 : ino.blocks 12 ≠ sec2 :=
    owned_ne_free s ino n 12 sec2 hn hg (by rw [hoc]; omega) hfree2
  have e13 : ino.blocks 13 ≠ sec :=
    owned_ne_free s ino n 141 sec hn hg (by rw [hoc]; omega) hfree
  have e132 : ino.blocks 13 ≠ sec2 :=
    owned_ne_free s ino n 141 sec2 hn hg (by rw [hoc]; omega) hfree2
  have e1213 : ino.blocks 12 ≠ ino.blocks 13 :=
    owned_ne s ino n 12 141 hn hok (by rw [hoc]; omega) (by rw [hoc]; omega) (by omega)
  refine expand_post_vals s _ ino _ new_length n
    (fun p => if p = 142 + 129 * q then sec2 else sec) hn hn1 hn16 hok hg
    ⟨_, bitmap_set_multiple (bitmap_set_multiple s.free_map sec2 1 true) sec 1 true, rfl, rfl⟩
    ⟨ino.blocks, ino.direct, ino.indirect, ino.double_indirect + 1, rfl⟩
    ?_ ?_ ?_ ?_
  · intro p hp
    rw [hoc] at hp
    apply owned_sector_of_disk _ _ _ _ _ rfl
    · intro _ _
      dsimp only
      unfold bump_double_indirect
      dsimp only
      rw [upd_other _ _ _ _ e1213, upd_other _ _ _ _ e122, upd_other _ _ _ _ e12]
    · intro _
      dsimp only
      unfold bump_double_indirect
      dsimp only
      rw [words_of_written _ _ _ _ (by omega)
        (upd_word_lt _ _ _ _ (by omega) (fun _ => words_of_lt _ _))]
      rw [upd_other _ _ _ _ (by omega)]
    · intro hp1 hp2
      dsimp only
      unfold bump_double_indirect
      dsimp only
      have hkq : (p - 142) / 129 < q := by omega
      have a1 : words_of (s.disk (ino.blocks 13)) ((p - 142) / 129) ≠ ino.blocks 13 := by
        have := owned_ne s ino n (142 + 129 * ((p - 142) / 129)) 141 hn hok
          (by rw [hoc]; omega) (by rw [hoc]; omega) (by omega)
        rwa [owned_at_second] at this
      have a2 : words_of (s.disk (ino.blocks 13)) ((p - 142) / 129) ≠ sec2 := by
        have := owned_ne_free s ino n (142 + 129 * ((p - 142) / 129)) sec2 hn hg
          (by rw [hoc]; omega) hfree2
        rwa [owned_at_second] at this
      have a3 : words_of (s.disk (ino.blocks 13)) ((p - 142) / 129) ≠ sec := by
        have := owned_ne_free s ino n (142 + 129 * ((p - 142) / 129)) sec hn hg
          (by rw [hoc]; omega) hfree
        rwa [owned_at_second] at this
      rw [upd_other _ _ _ _ a1, upd_other _ _ _ _ a2, upd_other _ _ _ _ a3]
  · intro p hp1 hp2
    rw [hoc] at hp1
    rw [hoc1] at hp2
    by_cases hp : p = 142 + 129 * q
    · subst hp
      rw [owned_at_second]
      dsimp only
      unfold bump_double_indirect
      dsimp only
      rw [words_of_written _ _ _ _ (by omega)
        (upd_word_lt _ _ _ _ (by omega) (fun _ => words_of_lt _ _))]
      rw [upd_same]
      rw [if_pos rfl]
      exact ⟨rfl, hsec2, hfree2⟩
    · have hp : p = 143 + 129 * q + 0 := by omega
      subst hp
      rw [owned_at_data _ _ _ _ (by omega)]
      dsimp only
      unfold bump_double_indirect
      dsimp only
      rw [words_of_written _ _ _ _ (by omega)
        (upd_word_lt _ _ _ _ (by omega) (fun _ => words_of_lt _ _))]
      rw [upd_same, upd_other _ _ _ _ (Ne.symm e132)]
      rw [words_of_written _ _ _ _ (by omega)
        (upd_word_lt _ _ _ _ (by omega) (fun hc => absurd rfl hc))]
      rw [upd_same]
      rw [if_neg (by omega)]
      exact ⟨rfl, hsec, hfree⟩
  · intro p hp1 hp2 p2 hq1 hq2
    rw [hoc] at hp1 hq1
    rw [hoc1] at hp2 hq2
    beta_reduce
    intro he
    by_cases c1 : p = 142 + 129 * q <;> by_cases c2 : p2 = 142 + 129 * q
    · omega
    · rw [if_pos c1, if_neg c2] at he
      exact absurd he.symm hne
    · rw [if_neg c1, if_pos c2] at he
      exact absurd he hne
    · omega
  · intro x hx hidx
    have hx13 : x ≠ ino.blocks 13 := by
      have := hidx 141 (by rw [hoc]; omega) (by decide)
      exact Ne.symm this
    have hxs2 : x ≠ sec2 := by
      intro hxs
      rw [hxs, hfree2] at hx
      exact absurd hx (by simp)
    have hxs : x ≠ sec := by
      intro hxs
      rw [hxs, hfree] at hx
      exact absurd hx (by simp)
    dsimp only
    unfold bump_double_indirect
    dsimp only
    rw [upd_other _ _ _ _ hx13, upd_other _ _ _ _ hxs2, upd_other _ _ _ _ hxs]

/-- Growth by one sector of a file with exactly 140 sectors. -/
theorem expand_first_double_case (s s1 : fs) (ino ino1 : inode) (new_length : Nat)
    (hok : file_ok s ino) (hg : growable s ino)
    (hn1 : bytes_to_sectors new_length = bytes_to_sectors ino.length + 1)
    (hlo : bytes_to_sectors ino.length = 140)
    (h : inode_expand ino new_length s = some (true, ino1, s1)) :
    expand_post s ino new_length s1 ino1 := by
  generalize hn : bytes_to_sectors ino.length = n at *
  subst hlo
  have hD : DISK_SECTOR_SIZE = 512 := rfl
  have hdir : ino.direct = 12 := by rw [hg.1, hn]; rfl
  have hind : ino.indirect = 128 := by rw [hg.2.1, hn]; rfl
  have hdi : ino.double_indirect = 0 := by rw [hg.2.2.1, hn]
  have hcap : s.free_map.bit_cnt < 2 ^ 32 := by
    have := hok.2.1; unfold UINT_RANGE at this; omega
  have hoc : owned_count 140 = 141 := rfl
  have hoc1 : owned_count (140 + 1) = 144 := rfl
  unfold inode_expand at h
  rw [hn1, hn, extra_one 140] at h
  rw [if_neg (by omega)] at h
  rw [expand_direct_skip s ino 1 (by omega)] at h
  simp only [Option.some_bind] at h
  rw [expand_indirect_skip s ino 1 (by omega)] at h
  simp only [Option.some_bind] at h
  unfold expand_double at h
  dsimp only at h
  rw [if_pos (by omega), if_neg (by omega)] at h
  rcases allocate_cases s with hi | ⟨isec, hisec, hifree, hi⟩
  · rw [hi] at h
    simp at h
  rw [hi] at h
  simp only [Option.some_bind] at h
  rcases allocate_cases { s with free_map := bitmap_set_multiple s.free_map isec 1 true }
    with ha | ⟨sec2, hsec2, hfree2, ha⟩
  · obtain ⟨p, e, he⟩ := double_round_fresh_no_index
      { s with free_map := bitmap_set_multiple s.free_map isec 1 true }
      { ino with blocks := upd ino.blocks 13 isec } s.junk (by dsimp only; omega)
      (by dsimp only; omega) ha
    rw [he] at h
    simp at h
  rcases allocate_cases { s with
      free_map := bitmap_set_multiple (bitmap_set_multiple s.free_map isec 1 true) sec2 1 true }
    with hb | ⟨sec, hsec, hfree, hb⟩
  · obtain ⟨p, e, he⟩ := double_round_fresh_no_data
      { s with free_map := bitmap_set_multiple s.free_map isec 1 true }
      { ino with blocks := upd ino.blocks 13 isec } s.junk sec2 (by dsimp only; omega)
      (by dsimp only; omega) ha hb
    rw [he] at h
    simp at h
  obtain ⟨hfree, hne⟩ := free_after_set _ _ _ hfree
  obtain ⟨hfree, hnei⟩ := free_after_set _ _ _ hfree
  obtain ⟨hfree2, hne2⟩ := free_after_set _ _ _ hfree2
  change sec < s.free_map.bit_cnt at hsec
  change sec2 < s.free_map.bit_cnt at hsec2
  rw [double_round_fresh { s with free_map := bitmap_set_multiple s.free_map isec 1 true }
    { ino with blocks := upd ino.blocks 13 isec } s.junk sec2 sec (by dsimp only; omega)
    (by dsimp only; omega) hsec2 hsec ha hb] at h
  simp only [Option.some_bind, if_true] at h
  unfold bump_double_indirect at h
  dsimp only at h
  rw [upd_same, disk_write_some _ _ _ (by exact hisec)] at h
  simp only [Option.map_some', Option.some.injEq, Prod.mk.injEq, true_and, hdi] at h
  obtain ⟨h1, h2⟩ := h
  subst h1
  subst h2
  have e12i : ino.blocks 12 ≠ isec :=
    owned_ne_free s ino 140 12 isec hn hg (by rw [hoc]; omega) hifree
  have e12 : ino.blocks 12 ≠ sec :=
    owned_ne_free s ino 140 12 sec hn hg (by rw [hoc]; omega) hfree
  have e122 : ino.blocks 12 ≠ sec2 :=
    owned_ne_free s ino 140 12 sec2 hn hg (by rw [hoc]; omega) hfree2
  refine expand_post_vals s _ ino _ new_length 140
    (fun p => if p = 141 then isec else if p = 142 then sec2 else sec) hn hn1 (by omega) hok hg
    ⟨_, bitmap_set_multiple (bitmap_set_multiple (bitmap_set_multiple s.free_map isec 1 true)
      sec2 1 true) sec 1 true, rfl, rfl⟩
    ⟨upd ino.blocks 13 isec, ino.direct, ino.indirect, 0 + 1, rfl⟩
    ?_ ?_ ?_ ?_
  · intro p hp
    rw [hoc] at hp
    unfold owned_sector
    dsimp only
    by_cases c1 : p < 12
    · rw [if_pos c1, if_pos c1, upd_other _ _ _ _ (by omega)]
    rw [if_neg c1, if_neg c1]
    by_cases c2 : p = 12
    · rw [if_pos c2, if_pos c2, upd_other _ _ _ _ (by omega)]
    rw [if_neg c2, if_neg c2, if_pos hp, if_pos hp]
    rw [upd_other _ _ _ _ (show 12 ≠ 13 by omega)]
    rw [upd_other _ _ _ _ e12i, upd_other _ _ _ _ e122, upd_other _ _ _ _ e12]
  · intro p hp1 hp2
    rw [hoc] at hp1
    rw [hoc1] at hp2
    by_cases c1 : p = 141
    · subst c1
      rw [owned_at_141]
      dsimp only
      rw [upd_same]
      exact ⟨rfl, hisec, hifree⟩
    by_cases c2 : p = 142
    · have hp : p = 142 + 129 * 0 := by omega
      subst hp
      rw [owned_at_second]
      dsimp only
      rw [upd_same]
      rw [words_of_written _ _ _ _ (by omega)
        (upd_word_lt _ _ _ _ (by omega) (fun hc => absurd rfl hc))]
      rw [upd_same]
      exact ⟨rfl, hsec2, hfree2⟩
    · have hp : p = 143 + 129 * 0 + 0 := by omega
      subst hp
      rw [owned_at_data _ _ _ _ (by omega)]
      dsimp only
      rw [upd_same]
      rw [words_of_written _ _ _ _ (by omega)
        (upd_word_lt _ _ _ _ (by omega) (fun hc => absurd rfl hc))]
      rw [upd_same, upd_other _ _ _ _ hne2]
      rw [words_of_written _ _ _ _ (by omega)
        (upd_word_lt _ _ _ _ (by omega) (fun hc => absurd rfl hc))]
      rw [upd_same]
      exact ⟨rfl, hsec, hfree⟩
  · intro p hp1 hp2 p2 hq1 hq2
    rw [hoc] at hp1 hq1
    rw [hoc1] at hp2 hq2
    beta_reduce
    intro he
    have hp : p = 141 ∨ p = 142 ∨ p = 143 := by omega
    have hq : p2 = 141 ∨ p2 = 142 ∨ p2 = 143 := by omega
    rcases hp with hp | hp | hp <;> rcases hq with hq | hq | hq <;> subst hp <;> subst hq <;>
      simp only [if_true, if_false, show ¬ (142 = 141) by omega, show ¬ (143 = 141) by omega,
        show ¬ (143 = 142) by omega] at he <;>
      first
      | rfl
      | exact absurd he hne2
      | exact absurd he.symm hne2
      | exact absurd he hnei
      | exact absurd he.symm hnei
      | exact absurd he hne
      | exact absurd he.symm hne
  · intro x hx hidx
    have hxi : x ≠ isec := by
      intro hxs
      rw [hxs, hifree] at hx
      exact absurd hx (by simp)
    have hxs2 : x ≠ sec2 := by
      intro hxs
      rw [hxs, hfree2] at hx
      exact absurd hx (by simp)
    have hxs : x ≠ sec := by
      intro hxs
      rw [hxs, hfree] at hx
      exact absurd hx (by simp)
    dsimp only
    rw [upd_other _ _ _ _ hxi, upd_other _ _ _ _ hxs2, upd_other _ _ _ _ hxs]

/-! ## Lemmas: growth of a file by at most one sector -/

theorem file_ok_length (s : fs) (ino ino1 : inode) (h : file_ok s ino)
    (hl : bytes_to_sectors ino1.length = bytes_to_sectors ino.length)
    (hb : ino1.blocks = ino.blocks) : file_ok s ino1 := by
  have hs : ∀ p, owned_sector s ino1 p = owned_sector s ino p := by
    intro p; unfold owned_sector; rw [hb]
  unfold file_ok at h ⊢
  rw [hl]
  simp only [hs]
  exact h

theorem inode_expand_same (s : fs) (ino : inode) (new_length : Nat)
    (h : bytes_to_sectors new_length = bytes_to_sectors ino.length) :
    inode_expand ino new_length s = some (true, ino, s) := by
  unfold inode_expand
  rw [h, extra_zero]
  rfl

/-- A successful `inode_expand` that adds at most one sector to a well laid out file leaves
a well laid out file with the bytes it had. -/
theorem inode_expand_spec (s s1 : fs) (ino ino1 : inode) (new_length : Nat)
    (hok : file_ok s ino) (hg : growable s ino)
    (hlo : bytes_to_sectors ino.length ≤ bytes_to_sectors new_length)
    (hhi : bytes_to_sectors new_length ≤ bytes_to_sectors ino.length + 1)
    (h : inode_expand ino new_length s = some (true, ino1, s1)) :
    expand_post s ino new_length s1 ino1 := by
  by_cases hz : bytes_to_sectors new_length = bytes_to_sectors ino.length
  · rw [inode_expand_same s ino new_length hz] at h
    simp only [Option.some.injEq, Prod.mk.injEq, true_and] at h
    obtain ⟨h1, h2⟩ := h
    subst h1
    subst h2
    refine ⟨file_ok_length s ino _ hok hz rfl, ?_, rfl, rfl, rfl, rfl, rfl, rfl, rfl, rfl, rfl,
      rfl, rfl, rfl, rfl, rfl, rfl⟩
    intro pos _
    exact file_byte_congr s ino _ rfl pos
  have hn1 : bytes_to_sectors new_length = bytes_to_sectors ino.length + 1 := by omega
  by_cases c1 : bytes_to_sectors ino.length < 12
  · exact expand_direct_case s s1 ino ino1 new_length hok hg hn1 c1 h
  by_cases c2 : bytes_to_sectors ino.length = 12
  · exact expand_first_indirect_case s s1 ino ino1 new_length hok hg hn1 c2 h
  by_cases c3 : bytes_to_sectors ino.length < 140
  · exact expand_indirect_case s s1 ino ino1 new_length hok hg hn1 (by omega) c3 h
  by_cases c4 : bytes_to_sectors ino.length = 140
  · exact expand_first_double_case s s1 ino ino1 new_length hok hg hn1 c4 h
  by_cases c5 : (bytes_to_sectors ino.length - 140) % 128 = 0
  · exact expand_double_block_case s s1 ino ino1 new_length hok hg hn1 (by omega) c5 h
  · exact expand_double_data_case s s1 ino ino1 new_length hok hg hn1 (by omega) c5 h

/-- The loop of `inode_write_at` writes no byte past the end of the file. -/
theorem write_loop_bound (ino : inode) (buffer : Nat → Nat) :
    ∀ (fuel size offset bytes_written : Nat) (s : fs) (c : Nat) (s1 : fs),
      write_loop ino buffer fuel size offset bytes_written s = some (c, s1) →
      c ≤ bytes_written + (ino.length - offset) := by
  intro fuel
  induction fuel with
  | zero =>
    intro size offset bw s c s1 h
    unfold write_loop at h
    simp only [Option.some.injEq, Prod.mk.injEq] at h
    omega
  | succ fuel ih =>
    intro size offset bw s c s1 h
    unfold write_loop at h
    by_cases hs : size > 0
    swap
    · rw [if_neg hs] at h
      simp only [Option.some.injEq, Prod.mk.injEq] at h
      omega
    rw [if_pos hs] at h
    cases hb : byte_to_sector ino offset s with
    | none => rw [hb] at h; simp at h
    | some idx =>
      rw [hb] at h
      simp only [Option.some_bind] at h
      by_cases hc : chunk_size ino size offset ≤ 0
      · rw [if_pos hc] at h
        simp only [Option.some.injEq, Prod.mk.injEq] at h
        omega
      rw [if_neg hc] at h
      have ho : offset < ino.length := by
        by_contra hge
        exact hc (chunk_size_eof ino size offset (by omega))
      obtain ⟨chunk, hch, hpos, hle, heq⟩ := chunk_size_spec ino size offset hs ho
      cases hce : cache_entry_for idx true s with
      | none => rw [hce] at h; simp at h
      | some r =>
        rw [hce] at h
        simp only [Option.some_bind, hch, Int.toNat_ofNat] at h
        have := ih _ _ _ _ _ _ h
        omega

/-! ## Lemmas: states with the same cache -/

theorem cache_inv_frame (s s1 : fs) (h : cache_inv s)
    (hc : s1.buffer_cache = s.buffer_cache) (hz : s1.buffer_cache_size = s.buffer_cache_size)
    (ht : s1.ticks = s.ticks) (hb : s1.free_map.bit_cnt = s.free_map.bit_cnt) :
    cache_inv s1 := by
  unfold cache_inv at h ⊢
  rw [hc, hz, ht, hb]
  exact h

theorem cache_distinct_frame (s s1 : fs) (h : cache_distinct s)
    (hc : s1.buffer_cache = s.buffer_cache) : cache_distinct s1 := by
  unfold cache_distinct at h ⊢
  rw [hc]
  exact h

theorem content_frame (s s1 : fs) (x : Nat) (hc : s1.buffer_cache = s.buffer_cache)
    (hd : ∀ j, j < DISK_SECTOR_SIZE → s1.disk x j = s.disk x j) :
    ∀ j, j < DISK_SECTOR_SIZE → content s1 x j = content s x j := by
  intro j hj
  unfold content
  rw [hc]
  cases cache_find x s.buffer_cache with
  | none => exact hd j hj
  | some i =>
    dsimp only
    cases s.buffer_cache.get? i with
    | none => exact hd j hj
    | some e => rfl

theorem synced_frame (s s1 : fs) (x : Nat) (h : synced s x)
    (hc : s1.buffer_cache = s.buffer_cache)
    (hd : ∀ j, j < DISK_SECTOR_SIZE → s1.disk x j = s.disk x j) : synced s1 x := by
  unfold synced at h ⊢
  rw [hc]
  intro e he hx j hj
  rw [hd j hj]
  exact h e he hx j hj

theorem coherent_frame (s s1 : fs) (x : Nat) (h : coherent s x)
    (hc : s1.buffer_cache = s.buffer_cache)
    (hd : ∀ j, j < DISK_SECTOR_SIZE → s1.disk x j = s.disk x j) : coherent s1 x := by
  unfold coherent at h ⊢
  rw [hc]
  intro e he hx hdirty j hj
  rw [hd j hj]
  exact h e he hx hdirty j hj

theorem owned_sector_blocks (s : fs) (ino ino1 : inode)
    (hbl : ∀ k, k < 14 → ino1.blocks k = ino.blocks k) (p : Nat) :
    owned_sector s ino1 p = owned_sector s ino p := by
  unfold owned_sector
  rw [hbl 12 (by omega), hbl 13 (by omega)]
  by_cases c : p < 12
  · rw [if_pos c, if_pos c, hbl p (by omega)]
  · rw [if_neg c, if_neg c]

/-- The file of an inode in a state with the same cache and the same bytes in the sectors
of the inode. -/
theorem file_ok_frame (s s1 : fs) (ino ino1 : inode) (h : file_ok s ino)
    (hc : s1.buffer_cache = s.buffer_cache)
    (hb : s1.free_map.bit_cnt = s.free_map.bit_cnt)
    (hl : bytes_to_sectors ino1.length = bytes_to_sectors ino.length)
    (hbl : ∀ k, k < 14 → ino1.blocks k = ino.blocks k)
    (hd : ∀ p, p < owned_count (bytes_to_sectors ino.length) →
      ∀ j, j < DISK_SECTOR_SIZE →
        s1.disk (owned_sector s ino p) j = s.disk (owned_sector s ino p) j) :
    file_ok s1 ino1 ∧
    (∀ p, p < owned_count (bytes_to_sectors ino.length) →
      owned_sector s1 ino1 p = owned_sector s ino p) ∧
    (∀ pos, pos / DISK_SECTOR_SIZE < bytes_to_sectors ino.length →
      file_byte s1 ino1 pos = file_byte s ino pos) := by
  have hD : DISK_SECTOR_SIZE = 512 := rfl
  have hsame0 := owned_sector_congr s s1 ino _ h.1 (fun q hq _ j hj => hd q hq j hj)
  have hblk : ∀ p, owned_sector s1 ino1 p = owned_sector s1 ino p :=
    owned_sector_blocks s1 ino ino1 hbl
  have hsame : ∀ p, p < owned_count (bytes_to_sectors ino.length) →
      owned_sector s1 ino1 p = owned_sector s ino p := by
    intro p hp; rw [hblk, hsame0 p hp]
  obtain ⟨hn, hcap, hrange, hinj, hcache⟩ := h
  refine ⟨⟨by rw [hl]; exact hn, by rw [hb]; exact hcap, ?_, ?_, ?_⟩, hsame, ?_⟩
  · intro p hp
    rw [hl] at hp
    rw [hsame p hp, hb]
    exact hrange p hp
  · intro p hp q hq hpq
    rw [hl] at hp hq
    rw [hsame p hp, hsame q hq] at hpq
    exact hinj p hp q hq hpq
  · intro p hp
    rw [hl] at hp
    rw [hsame p hp]
    have := hcache p hp
    split
    · rename_i hidx
      rw [if_pos hidx] at this
      exact synced_frame s s1 _ this hc (hd p hp)
    · rename_i hidx
      rw [if_neg hidx] at this
      exact coherent_frame s s1 _ this hc (hd p hp)
  · intro pos hidx
    obtain ⟨hdp, _⟩ := data_position_lt _ _ hidx
    unfold file_byte
    rw [hsame _ hdp]
    exact content_frame s s1 _ hc (hd _ hdp) _ (Nat.mod_lt _ (by rw [hD]; omega))

/-! ## Lemmas: `inode_expand` leaves the length alone -/

theorem expand_direct_length : ∀ (fuel : Nat) (e : expansion) (r : Option Bool × expansion),
    expand_direct fuel e = some r → r.2.ino.length = e.ino.length := by
  intro fuel
  induction fuel with
  | zero =>
    intro e r h
    unfold expand_direct at h
    rw [← Option.some.inj h]
  | succ fuel ih =>
    intro e r h
    unfold expand_direct at h
    split at h
    · split at h
      · rw [← Option.some.inj h]
      · rename_i sec s1 _
        cases hw : disk_write sec zeros s1 with
        | none => rw [hw] at h; simp at h
        | some s2 =>
          rw [hw] at h
          simp only [Option.some_bind] at h
          split at h
          · rw [← Option.some.inj h]
          · rw [ih _ _ h]
    · rw [← Option.some.inj h]

theorem expand_block_length (bump : inode → inode)
    (hbump : ∀ ino, (bump ino).length = ino.length) :
    ∀ (fuel index : Nat) (block : Nat → Nat) (e : expansion)
      (r : Bool × (Nat → Nat) × expansion),
      expand_block bump fuel index block e = some r → r.2.2.ino.length = e.ino.length := by
  intro fuel
  induction fuel with
  | zero =>
    intro index block e r h
    unfold expand_block at h
    rw [← Option.some.inj h]
  | succ fuel ih =>
    intro index block e r h
    unfold expand_block at h
    split at h
    · split at h
      · rw [← Option.some.inj h]
      · rename_i sec s1 _
        cases hw : disk_write sec zeros s1 with
        | none => rw [hw] at h; simp at h
        | some s2 =>
          rw [hw] at h
          simp only [Option.some_bind] at h
          split at h
          · rw [← Option.some.inj h]
            exact hbump _
          · rw [ih _ _ _ _ h]
            exact hbump _
    · rw [← Option.some.inj h]

theorem expand_indirect_length (e : expansion) (r : Option Bool × expansion)
    (h : expand_indirect e = some r) : r.2.ino.length = e.ino.length := by
  unfold expand_indirect at h
  split at h
  swap
  · rw [← Option.some.inj h]
  dsimp only at h
  have key : ∀ (idx : Nat) (block : Nat → Nat) (e1 : expansion), e1.ino.length = e.ino.length →
      ((expand_block bump_indirect 128 idx block e1).bind fun r =>
        if r.1 then
          (disk_write (r.2.2.ino.blocks 12) (bytes_of r.2.1) r.2.2.s).map fun s2 =>
            ((if r.2.2.extra_sectors = 0 then some true else none : Option Bool),
              ({ r.2.2 with s := s2 } : expansion))
        else some (some false, r.2.2)) = some r → r.2.ino.length = e.ino.length := by
    intro idx block e1 he1 hk
    cases hb : expand_block bump_indirect 128 idx block e1 with
    | none => rw [hb] at hk; simp at hk
    | some rb =>
      rw [hb] at hk
      have hl := expand_block_length bump_indirect (fun _ => rfl) _ _ _ _ _ hb
      simp only [Option.some_bind] at hk
      split at hk
      · cases hw : disk_write (rb.2.2.ino.blocks 12) (bytes_of rb.2.1) rb.2.2.s with
        | none => rw [hw] at hk; simp at hk
        | some s2 =>
          rw [hw] at hk
          simp only [Option.map_some', Option.some.injEq] at hk
          rw [← hk]
          dsimp only
          rw [hl, he1]
      · rw [← Option.some.inj hk, hl, he1]
  split at h
  · cases hd : disk_read (e.ino.blocks 12) e.s with
    | none => rw [hd] at h; simp at h
    | some sec =>
      rw [hd] at h
      simp only [Option.map_some', Option.some_bind] at h
      exact key _ _ _ (by rfl) h
  · split at h
    · simp only [Option.some_bind] at h
      rw [← Option.some.inj h]
    · simp only [Option.some_bind] at h
      exact key _ _ _ (by rfl) h

theorem expand_double_loop_length : ∀ (fuel : Nat) (ptrs : Nat → Nat) (e : expansion)
    (r : Bool × (Nat → Nat) × expansion),
    expand_double_loop fuel ptrs e = some r → r.2.2.ino.length = e.ino.length := by
  intro fuel
  induction fuel with
  | zero =>
    intro ptrs e r h
    unfold expand_double_loop at h
    rw [← Option.some.inj h]
  | succ fuel ih =>
    intro ptrs e r h
    rw [expand_double_loop] at h
    split at h
    swap
    · rw [← Option.some.inj h]
    dsimp only at h
    have key : ∀ (idx : Nat) (p block : Nat → Nat) (e1 : expansion),
        e1.ino.length = e.ino.length →
        ((expand_block bump_double_indirect 128 idx block e1).bind
          fun r =>
            if r.1 then
              (disk_write (p (e.ino.double_indirect / 128)) (bytes_of r.2.1) r.2.2.s).bind
                fun s2 =>
                  if r.2.2.extra_sectors = 0 then
                    some (true, p, ({ r.2.2 with s := s2 } : expansion))
                  else expand_double_loop fuel p { r.2.2 with s := s2 }
            else some (false, p, r.2.2)) = some r → r.2.2.ino.length = e.ino.length := by
      intro idx p block e1 he1 hk
      cases hb : expand_block bump_double_indirect 128 idx block e1 with
      | none => rw [hb] at hk; simp at hk
      | some rb =>
        rw [hb] at hk
        have hl := expand_block_length bump_double_indirect (fun _ => rfl) _ _ _ _ _ hb
        simp only [Option.some_bind] at hk
        split at hk
        · cases hw : disk_write (p (e.ino.double_indirect / 128)) (bytes_of rb.2.1) rb.2.2.s
            with
          | none => rw [hw] at hk; simp at hk
          | some s2 =>
            rw [hw] at hk
            simp only [Option.some_bind] at hk
            split at hk
            · rw [← Option.some.inj hk]
              dsimp only
              rw [hl, he1]
            · rw [ih _ _ _ hk]
              dsimp only
              rw [hl, he1]
        · rw [← Option.some.inj hk, hl, he1]
    split at h
    · split at h
      · simp only [Option.some_bind] at h
        rw [← Option.some.inj h]
      · simp only [Option.some_bind] at h
        exact key _ _ _ _ (by rfl) h
    · cases hd : disk_read (ptrs (e.ino.double_indirect / 128)) e.s with
      | none => rw [hd] at h; simp at h
      | some sec =>
        rw [hd] at h
        simp only [Option.map_some', Option.some_bind] at h
        exact key _ _ _ _ (by rfl) h

theorem expand_double_length (e : expansion) (r : Option Bool × expansion)
    (h : expand_double e = some r) : r.2.ino.length = e.ino.length := by
  unfold expand_double at h
  split at h
  swap
  · rw [← Option.some.inj h]
  dsimp only at h
  have key : ∀ (block : Nat → Nat) (e1 : expansion), e1.ino.length = e.ino.length →
      ((expand_double_loop 128 block e1).bind fun r =>
        if r.1 then
          (disk_write (r.2.2.ino.blocks 13) (bytes_of r.2.1) r.2.2.s).map fun s2 =>
            ((if r.2.2.extra_sectors = 0 then some true else none : Option Bool),
              ({ r.2.2 with s := s2 } : expansion))
        else some (some false, r.2.2)) = some r → r.2.ino.length = e.ino.length := by
    intro block e1 he1 hk
    cases hb : expand_double_loop 128 block e1 with
    | none => rw [hb] at hk; simp at hk
    | some rb =>
      rw [hb] at hk
      have hl := expand_double_loop_length _ _ _ _ hb
      simp only [Option.some_bind] at hk
      split at hk
      · cases hw : disk_write (rb.2.2.ino.blocks 13) (bytes_of rb.2.1) rb.2.2.s with
        | none => rw [hw] at hk; simp at hk
        | some s2 =>
          rw [hw] at hk
          simp only [Option.map_some', Option.some.injEq] at hk
          rw [← hk]
          dsimp only
          rw [hl, he1]
      · rw [← Option.some.inj hk, hl, he1]
  split at h
  · cases hd : disk_read (e.ino.blocks 13) e.s with
    | none => rw [hd] at h; simp at h
    | some sec =>
      rw [hd] at h
      simp only [Option.map_some', Option.some_bind] at h
      exact key _ _ (by rfl) h
  · split at h
    · simp only [Option.some_bind] at h
      rw [← Option.some.inj h]
    · simp only [Option.some_bind] at h
      exact key _ _ (by rfl) h

/-- The function `inode_expand` does not assign to `inode->length`. -/
theorem inode_expand_length (ino : inode) (new_length : Nat) (s : fs) (r : Bool × inode × fs)
    (h : inode_expand ino new_length s = some r) : r.2.1.length = ino.length := by
  unfold inode_expand at h
  dsimp only at h
  split at h
  · rw [← Option.some.inj h]
  cases h1 : expand_direct 12
      { s := s, ino := ino, extra_sectors :=
        (bytes_to_sectors new_length + UINT_RANGE - bytes_to_sectors ino.length) % UINT_RANGE }
    with
  | none => rw [h1] at h; simp at h
  | some r1 =>
    rw [h1] at h
    have l1 := expand_direct_length _ _ _ h1
    simp only [Option.some_bind] at h
    split at h
    · rw [← Option.some.inj h]
      exact l1
    cases h2 : expand_indirect r1.2 with
    | none => rw [h2] at h; simp at h
    | some r2 =>
      rw [h2] at h
      have l2 := expand_indirect_length _ _ h2
      simp only [Option.some_bind] at h
      split at h
      · rw [← Option.some.inj h]
        dsimp only
        rw [l2]
        exact l1
      cases h3 : expand_double r2.2 with
      | none => rw [h3] at h; simp at h
      | some r3 =>
        rw [h3] at h
        have l3 := expand_double_length _ _ h3
        simp only [Option.map_some', Option.some.injEq] at h
        rw [← h]
        split <;> (dsimp only; rw [l3, l2]; exact l1)

/-! ## Lemmas: `inode_write_at` -/

/-- A write within a well laid out file whose inode allows writes: all the bytes are
written, and the file holds them afterwards and is otherwise unchanged. -/
theorem inode_write_at_inplace (s : fs) (i : Nat) (buffer : Nat → Nat) (size offset : Nat)
    (hdeny : (s.inodes i).deny_write_cnt = 0)
    (hfit : offset + size ≤ (s.inodes i).length)
    (hok : file_ok s (s.inodes i)) (hi : cache_inv s) (hd : cache_distinct s) :
    ∃ s1, inode_write_at i buffer size offset s = some (size, s1) ∧
      file_ok s1 (s.inodes i) ∧ cache_inv s1 ∧ cache_distinct s1 ∧
      s1.free_map = s.free_map ∧ s1.inodes = s.inodes ∧ s1.ninodes = s.ninodes ∧
      s1.open_inodes = s.open_inodes ∧ s1.junk = s.junk ∧ s1.ticks = s.ticks ∧
      (∀ p, p < owned_count (bytes_to_sectors (s.inodes i).length) →
        owned_sector s1 (s.inodes i) p = owned_sector s (s.inodes i) p) ∧
      (∀ pos, pos < (s.inodes i).length →
        file_byte s1 (s.inodes i) pos =
          if offset ≤ pos ∧ pos < offset + size then buffer (pos - offset)
          else file_byte s (s.inodes i) pos) ∧
      keeps (fun x => ∀ idx, idx < bytes_to_sectors (s.inodes i).length →
        x ≠ owned_sector s (s.inodes i) (data_position idx)) s s1 := by
  obtain ⟨s1, hrun, h⟩ := write_loop_inplace (s.inodes i) buffer size size offset 0 s
    (Nat.le_refl _) hfit hok hi hd
  refine ⟨s1, ?_, ?_⟩
  · unfold inode_write_at
    rw [if_neg (by rw [hdeny]; simp)]
    dsimp only
    rw [if_neg (by unfold inode_length; omega)]
    simp only [Option.some_bind]
    rw [hrun, Nat.zero_add]
  · simpa only [Nat.zero_add] using h

/-- A write refused or cut short does not return `size`. -/
theorem inode_write_at_deny (s s1 : fs) (i : Nat) (buffer : Nat → Nat) (size offset c : Nat)
    (hs : 0 < size) (h : inode_write_at i buffer size offset s = some (c, s1)) (hc : c = size) :
    (s.inodes i).deny_write_cnt = 0 := by
  by_contra hne
  unfold inode_write_at at h
  rw [if_pos hne] at h
  simp only [Option.some.injEq, Prod.mk.injEq] at h
  omega

/-- A write that extends a well laid out file by at most one sector and returns `size`:
the file is well laid out with the new length, holds the bytes written and, before them,
the bytes it had. -/
theorem inode_write_at_grow (s s1 : fs) (i : Nat) (buffer : Nat → Nat) (size offset : Nat)
    (hs : 0 < size) (hsz : size ≤ DISK_SECTOR_SIZE)
    (hlo : offset ≤ (s.inodes i).length) (hhi : (s.inodes i).length < offset + size)
    (hok : file_ok s (s.inodes i)) (hg : growable s (s.inodes i))
    (hi : cache_inv s) (hd : cache_distinct s)
    (h : inode_write_at i buffer size offset s = some (size, s1)) :
    (s1.inodes i).length = offset + size ∧
    file_ok s1 (s1.inodes i) ∧ cache_inv s1 ∧ cache_distinct s1 ∧
    (∀ j, j ≠ i → s1.inodes j = s.inodes j) ∧
    (s1.inodes i).sector = (s.inodes i).sector ∧
    (s1.inodes i).open_cnt = (s.inodes i).open_cnt ∧
    (s1.inodes i).removed = (s.inodes i).removed ∧
    (s1.inodes i).deny_write_cnt = (s.inodes i).deny_write_cnt ∧
    (s1.inodes i).isFile = (s.inodes i).isFile ∧
    (s1.inodes i).parent_sector = (s.inodes i).parent_sector ∧
    s1.ninodes = s.ninodes ∧ s1.open_inodes = s.open_inodes ∧ s1.junk = s.junk ∧
    s1.free_map.bit_cnt = s.free_map.bit_cnt ∧
    (∀ pos, pos < offset + size →
      file_byte s1 (s1.inodes i) pos =
        if offset ≤ pos then buffer (pos - offset) else file_byte s (s.inodes i) pos) := by
  have hD : DISK_SECTOR_SIZE = 512 := rfl
  have hdeny := inode_write_at_deny s s1 i buffer size offset size hs h rfl
  unfold inode_write_at at h
  rw [if_neg (by rw [hdeny]; simp)] at h
  dsimp only at h
  rw [if_pos (by unfold inode_length; omega)] at h
  cases he : inode_expand (s.inodes i) (offset + size) s with
  | none => rw [he] at h; simp at h
  | some r =>
    obtain ⟨b, ino1, sx⟩ := r
    rw [he] at h
    simp only [Option.map_some', Option.some_bind] at h
    have hlen := inode_expand_length _ _ _ _ he
    dsimp only at hlen
    cases b with
    | false =>
      simp only [Bool.false_eq_true, if_false, upd_same] at h
      have := write_loop_bound _ _ _ _ _ _ _ _ _ h
      rw [hlen] at this
      omega
    | true =>
      simp only [if_true, upd_same] at h
      have hbts1 : bytes_to_sectors (s.inodes i).length ≤ bytes_to_sectors (offset + size) := by
        unfold bytes_to_sectors; rw [hD]; omega
      have hbts2 : bytes_to_sectors (offset + size)
          ≤ bytes_to_sectors (s.inodes i).length + 1 := by
        unfold bytes_to_sectors; rw [hD] at hsz ⊢; omega
      obtain ⟨p1, p2, p3, p4, p5, p6, p7, p8, p9, p10, q1, q2, q3, q4, q5, q6, q7⟩ :=
        inode_expand_spec s sx (s.inodes i) ino1 (offset + size) hok hg hbts1 hbts2 he
      obtain ⟨f1, f2, f3⟩ := file_ok_frame sx
        { sx with inodes := upd sx.inodes i { ino1 with length := offset + size } }
        { ino1 with length := offset + size } { ino1 with length := offset + size }
        p1 rfl rfl rfl (fun _ _ => rfl) (fun _ _ _ _ => rfl)
      have hi1 : cache_inv
          { sx with inodes := upd sx.inodes i { ino1 with length := offset + size } } :=
        cache_inv_frame s _ hi p3 p4 p5 p10
      have hd1 : cache_distinct
          { sx with inodes := upd sx.inodes i { ino1 with length := offset + size } } :=
        cache_distinct_frame s _ hd p3
      obtain ⟨s2, hrun, g1, g2, g3, g4, g5, g6, g7, g8, g9, g10, g11, _⟩ :=
        write_loop_inplace { ino1 with length := offset + size } buffer size size offset 0
          { sx with inodes := upd sx.inodes i { ino1 with length := offset + size } }
          (Nat.le_refl _) (Nat.le_refl _) f1 hi1 hd1
      rw [hrun] at h
      simp only [Option.some.injEq, Prod.mk.injEq, Nat.zero_add, true_and] at h
      subst h
      have hino : s2.inodes i = { ino1 with length := offset + size } := by
        rw [g5]; exact upd_same _ _ _
      rw [hino]
      refine ⟨rfl, g1, g2, g3, ?_, q1, q2, q3, q4, q6, q7, by rw [g6]; exact p7,
        by rw [g7]; exact p8, by rw [g8]; exact p9, by rw [g4]; exact p10, ?_⟩
      · intro j hj
        rw [g5]
        show upd sx.inodes i _ j = _
        rw [upd_other _ _ _ _ hj, p6]
      · intro pos hpos
        rw [g11 pos hpos]
        by_cases c : offset ≤ pos
        · rw [if_pos ⟨c, hpos⟩, if_pos c, Nat.zero_add]
        · rw [if_neg (fun hc => c hc.1), if_neg c]
          rw [f3 pos (by
            show pos / DISK_SECTOR_SIZE < bytes_to_sectors (offset + size)
            unfold bytes_to_sectors; rw [hD]; omega)]
          exact p2 pos (by omega)

/-! ## Lemmas: the loops over the entries of a directory -/

theorem entry_matches_congr (s s1 : fs) (ino ino1 : inode) (name : List Nat) (q q1 : Nat)
    (h : ∀ j, j < sizeof_dir_entry → entry_at s1 ino1 q1 j = entry_at s ino q j)
    (hj : s1.junk = s.junk) :
    entry_matches s1 ino1 name q1 = entry_matches s ino name q := by
  obtain ⟨f1, _, _, f4⟩ := entry_fields_congr _ _ h
  unfold entry_matches
  rw [f1, f4, hj]

theorem entry_matches_reads (loaded : Nat → Prop) (s s1 : fs) (ino : inode) (name : List Nat)
    (h : file_ok s ino) (hr : reads loaded s s1) (q : Nat) (hq : q < slot_count ino) :
    entry_matches s1 ino name q = entry_matches s ino name q :=
  entry_matches_congr s s1 ino ino name q q (entry_at_reads loaded s s1 ino h hr q hq)
    hr.2.2.2.2.1

/-- The loop of `lookup` from entry `k` on: it stops at the first entry in use that has the
name. -/
theorem lookup_loop_spec (ino : inode) (name : List Nat) :
    ∀ (fuel k i : Nat) (e : Nat → Nat) (s : fs),
      s.inodes i = ino → slot_count ino - k < fuel →
      file_ok s ino → cache_inv s → cache_distinct s →
      ∃ res s1, lookup_loop i name fuel (sizeof_dir_entry * k) e s = some (res, s1) ∧
        reads (fun x => ∃ idx, idx < bytes_to_sectors ino.length ∧
          x = owned_sector s ino (data_position idx)) s s1 ∧
        match find_slot (entry_matches s ino name) k (slot_count ino) with
        | some q => ∃ e1, res = some (e1, sizeof_dir_entry * q) ∧
            ∀ j, j < sizeof_dir_entry → e1 j = entry_at s ino q j
        | none => res = none := by
  intro fuel
  induction fuel with
  | zero => intro k i e s _ hf; omega
  | succ fuel ih =>
    intro k i e s hino hf hok hi hd
    obtain ⟨s1, e1, c, hread, hc, hent, hreads⟩ := read_entry s i e k (by rw [hino]; exact hok)
      hi hd
    rw [hino] at hc hent hreads
    unfold lookup_loop
    rw [hread]
    simp only [Option.some_bind]
    by_cases hk : k < slot_count ino
    · rw [if_pos (hc.mpr hk)]
      obtain ⟨f1, _, _, f4⟩ := entry_fields_congr e1 (entry_at s ino k) (hent hk)
      rw [find_slot_step _ k _ hk]
      have hm : (entry_in_use e1 && strcmp_eq name (entry_name_memory e1 s1.junk))
          = entry_matches s ino name k := by
        unfold entry_matches
        rw [f1, f4, hreads.2.2.2.2.1]
      rw [hm]
      by_cases hu : entry_matches s ino name k = true
      · rw [if_pos hu, if_pos hu]
        exact ⟨_, _, rfl, hreads, e1, rfl, hent hk⟩
      · rw [if_neg hu, if_neg hu]
        obtain ⟨hok1, hsame, _⟩ := file_ok_reads _ s s1 ino hok hreads
        obtain ⟨res, s2, h1, h2, h4⟩ := ih (k + 1) i e1 s1
          (by rw [hreads.2.1]; exact hino) (by omega) hok1
          hreads.2.2.2.2.2.2.1 hreads.2.2.2.2.2.2.2.1
        rw [mul_succ_entry]
        refine ⟨res, s2, h1, ?_, ?_⟩
        · refine reads_trans _ s s1 s2 hreads (reads_mono _ _ s1 s2 h2 ?_)
          rintro x ⟨idx, hi1, hx⟩
          exact ⟨idx, hi1, by rw [hx, hsame _ (data_position_lt _ _ hi1).1]⟩
        · have hcongr : find_slot (entry_matches s1 ino name) (k + 1) (slot_count ino)
              = find_slot (entry_matches s ino name) (k + 1) (slot_count ino) := by
            apply find_slot_congr
            intro q _ hq
            exact entry_matches_reads _ s s1 ino name hok hreads q hq
          rw [hcongr] at h4
          cases hfs : find_slot (entry_matches s ino name) (k + 1) (slot_count ino) with
          | none =>
            rw [hfs] at h4
            exact h4
          | some q =>
            rw [hfs] at h4
            dsimp only at h4 ⊢
            obtain ⟨_, hq, _, _⟩ := find_slot_some _ _ _ _ hfs
            obtain ⟨e2, h5, h6⟩ := h4
            refine ⟨e2, h5, ?_⟩
            intro j hj
            rw [h6 j hj, entry_at_reads _ s s1 ino hok hreads q hq j hj]
    · rw [if_neg (fun h => hk (hc.mp h))]
      rw [find_slot_end _ k _ (by omega)]
      exact ⟨_, _, rfl, hreads, rfl⟩

/-- The function `lookup` on a well laid out directory. -/
theorem lookup_spec (s : fs) (d : dir) (name : List Nat)
    (hok : file_ok s (s.inodes d.inode)) (hi : cache_inv s) (hd : cache_distinct s) :
    ∃ res s1, lookup d name s = some (res, s1) ∧
      reads (fun x => ∃ idx, idx < bytes_to_sectors (s.inodes d.inode).length ∧
        x = owned_sector s (s.inodes d.inode) (data_position idx)) s s1 ∧
      match find_slot (entry_matches s (s.inodes d.inode) name) 0
          (slot_count (s.inodes d.inode)) with
      | some q => ∃ e1, res = some (e1, sizeof_dir_entry * q) ∧
          ∀ j, j < sizeof_dir_entry → e1 j = entry_at s (s.inodes d.inode) q j
      | none => res = none := by
  have := lookup_loop_spec (s.inodes d.inode) name
    (inode_length s d.inode / sizeof_dir_entry + 1) 0 d.inode s.junk s rfl
    (by unfold slot_count inode_length; exact Nat.lt_succ_of_le (Nat.sub_le _ _)) hok hi hd
  exact this

/-- The loop of `dir_add` that looks for a free slot, from entry `k` on. -/
theorem free_slot_loop_spec (ino : inode) :
    ∀ (fuel k i : Nat) (e : Nat → Nat) (s : fs),
      s.inodes i = ino → slot_count ino - k < fuel →
      file_ok s ino → cache_inv s → cache_distinct s →
      ∃ e1 s1, free_slot_loop i fuel (sizeof_dir_entry * k) e s
          = some (e1, sizeof_dir_entry *
              ((find_slot (fun q => !entry_in_use (entry_at s ino q)) k (slot_count ino)).getD
                (max k (slot_count ino))), s1) ∧
        reads (fun x => ∃ idx, idx < bytes_to_sectors ino.length ∧
          x = owned_sector s ino (data_position idx)) s s1 := by
  intro fuel
  induction fuel with
  | zero => intro k i e s _ hf; omega
  | succ fuel ih =>
    intro k i e s hino hf hok hi hd
    obtain ⟨s1, e1, c, hread, hc, hent, hreads⟩ := read_entry s i e k (by rw [hino]; exact hok)
      hi hd
    rw [hino] at hc hent hreads
    unfold free_slot_loop
    rw [hread]
    simp only [Option.some_bind]
    by_cases hk : k < slot_count ino
    · rw [if_pos (hc.mpr hk)]
      obtain ⟨f1, _, _, _⟩ := entry_fields_congr e1 (entry_at s ino k) (hent hk)
      rw [find_slot_step _ k _ hk, f1]
      by_cases hu : (!entry_in_use (entry_at s ino k)) = true
      · rw [if_pos hu, if_pos hu]
        exact ⟨_, _, rfl, hreads⟩
      · rw [if_neg hu, if_neg hu]
        obtain ⟨hok1, hsame, _⟩ := file_ok_reads _ s s1 ino hok hreads
        obtain ⟨e2, s2, h1, h2⟩ := ih (k + 1) i e1 s1
          (by rw [hreads.2.1]; exact hino) (by omega) hok1
          hreads.2.2.2.2.2.2.1 hreads.2.2.2.2.2.2.2.1
        have hcongr : find_slot (fun q => !entry_in_use (entry_at s1 ino q)) (k + 1)
            (slot_count ino)
            = find_slot (fun q => !entry_in_use (entry_at s ino q)) (k + 1)
              (slot_count ino) := by
          apply find_slot_congr
          intro q _ hq
          rw [(entry_fields_congr _ _ (entry_at_reads _ s s1 ino hok hreads q hq)).1]
        rw [hcongr] at h1
        have hmax : max (k + 1) (slot_count ino) = max k (slot_count ino) := by omega
        rw [hmax] at h1
        rw [mul_succ_entry]
        refine ⟨e2, s2, h1, ?_⟩
        refine reads_trans _ s s1 s2 hreads (reads_mono _ _ s1 s2 h2 ?_)
        rintro x ⟨idx, hi1, hx⟩
        exact ⟨idx, hi1, by rw [hx, hsame _ (data_position_lt _ _ hi1).1]⟩
    · rw [if_neg (fun h => hk (hc.mp h))]
      rw [find_slot_end _ k _ (by omega)]
      have hmax : max k (slot_count ino) = k := by omega
      rw [Option.getD_none, hmax]
      exact ⟨_, _, rfl, hreads⟩

/-- The loop of `dir_is_empty` from entry `k` on. -/
theorem is_empty_loop_spec (ino : inode) :
    ∀ (fuel k i : Nat) (e : Nat → Nat) (s : fs),
      s.inodes i = ino → slot_count ino - k < fuel →
      file_ok s ino → cache_inv s → cache_distinct s →
      ∃ s1, is_empty_loop i fuel (sizeof_dir_entry * k) e s
          = some ((find_slot (fun q => entry_in_use (entry_at s ino q)) k
              (slot_count ino)).isNone, s1) ∧
        reads (fun x => ∃ idx, idx < bytes_to_sectors ino.length ∧
          x = owned_sector s ino (data_position idx)) s s1 := by
  intro fuel
  induction fuel with
  | zero => intro k i e s _ hf; omega
  | succ fuel ih =>
    intro k i e s hino hf hok hi hd
    obtain ⟨s1, e1, c, hread, hc, hent, hreads⟩ := read_entry s i e k (by rw [hino]; exact hok)
      hi hd
    rw [hino] at hc hent hreads
    unfold is_empty_loop
    rw [hread]
    simp only [Option.some_bind]
    by_cases hk : k < slot_count ino
    · rw [if_pos (hc.mpr hk)]
      obtain ⟨f1, _, _, _⟩ := entry_fields_congr e1 (entry_at s ino k) (hent hk)
      rw [find_slot_step _ k _ hk, f1]
      by_cases hu : entry_in_use (entry_at s ino k) = true
      · rw [if_pos hu, if_pos hu]
        exact ⟨_, rfl, hreads⟩
      · rw [if_neg hu, if_neg hu]
        obtain ⟨hok1, hsame, _⟩ := file_ok_reads _ s s1 ino hok hreads
        obtain ⟨s2, h1, h2⟩ := ih (k + 1) i e1 s1
          (by rw [hreads.2.1]; exact hino) (by omega) hok1
          hreads.2.2.2.2.2.2.1 hreads.2.2.2.2.2.2.2.1
        have hcongr : find_slot (fun q => entry_in_use (entry_at s1 ino q)) (k + 1)
            (slot_count ino)
            = find_slot (fun q => entry_in_use (entry_at s ino q)) (k + 1)
              (slot_count ino) := by
          apply find_slot_congr
          intro q _ hq
          rw [(entry_fields_congr _ _ (entry_at_reads _ s s1 ino hok hreads q hq)).1]
        rw [hcongr] at h1
        rw [mul_succ_entry]
        refine ⟨s2, h1, ?_⟩
        refine reads_trans _ s s1 s2 hreads (reads_mono _ _ s1 s2 h2 ?_)
        rintro x ⟨idx, hi1, hx⟩
        exact ⟨idx, hi1, by rw [hx, hsame _ (data_position_lt _ _ hi1).1]⟩
    · rw [if_neg (fun h => hk (hc.mp h))]
      rw [find_slot_end _ k _ (by omega)]
      exact ⟨_, rfl, hreads⟩

/-! ## Lemmas: opening and closing an inode -/

/-- The two ways in which `inode_open` succeeds. -/
theorem inode_open_cases (s : fs) (sec : Nat) (r : Nat × fs) (h : inode_open sec s = some r) :
    (∃ j, j ∈ s.open_inodes ∧ (s.inodes j).sector = sec ∧ r = (j, inode_reopen j s)) ∨
    ((∀ j ∈ s.open_inodes, (s.inodes j).sector ≠ sec) ∧ sec < s.free_map.bit_cnt ∧
      r = (s.ninodes, { s with
        inodes := upd s.inodes s.ninodes
          { sector := sec, open_cnt := 1, deny_write_cnt := 0, removed := false
            length := words_of (s.disk sec) 0, direct := words_of (s.disk sec) 16
            indirect := words_of (s.disk sec) 17, double_indirect := words_of (s.disk sec) 18
            isFile := decide (words_of (s.disk sec) 19 % 256 ≠ 0)
            parent_sector := words_of (s.disk sec) 20
            blocks := fun k => words_of (s.disk sec) (k + 2) }
        ninodes := s.ninodes + 1
        open_inodes := s.ninodes :: s.open_inodes })) := by
  unfold inode_open at h
  cases hf : s.open_inodes.find? (fun i => decide ((s.inodes i).sector = sec)) with
  | some j =>
    rw [hf] at h
    simp only [Option.some.injEq] at h
    left
    refine ⟨j, List.mem_of_find?_eq_some hf, ?_, h.symm⟩
    simpa using List.find?_some hf
  | none =>
    rw [hf] at h
    right
    have hnone : ∀ j ∈ s.open_inodes, (s.inodes j).sector ≠ sec := by
      intro j hj
      simpa using List.find?_eq_none.mp hf j hj
    unfold disk_read at h
    dsimp only at h
    by_cases hs : sec < s.free_map.bit_cnt
    · rw [if_pos hs] at h
      simp only [Option.map_some', Option.some.injEq] at h
      exact ⟨hnone, hs, h.symm⟩
    · rw [if_neg hs] at h
      simp at h

theorem inode_open_sector (s : fs) (sec : Nat) (r : Nat × fs) (h : inode_open sec s = some r) :
    (r.2.inodes r.1).sector = sec := by
  rcases inode_open_cases s sec r h with ⟨j, _, hj, hr⟩ | ⟨_, _, hr⟩
  · rw [hr]
    show (upd s.inodes j _ j).sector = sec
    rw [upd_same]
    exact hj
  · rw [hr]
    show (upd s.inodes s.ninodes _ s.ninodes).sector = sec
    rw [upd_same]

/-- Whether `inode_open` succeeds depends on the open list and the size of the disk. -/
theorem inode_open_isSome (s : fs) (sec : Nat) :
    (inode_open sec s).isSome = true ↔
      ((∃ j ∈ s.open_inodes, (s.inodes j).sector = sec) ∨ sec < s.free_map.bit_cnt) := by
  constructor
  · intro h
    obtain ⟨r, hr⟩ := Option.isSome_iff_exists.mp h
    rcases inode_open_cases s sec r hr with ⟨j, hj, hs, _⟩ | ⟨_, hs, _⟩
    · exact Or.inl ⟨j, hj, hs⟩
    · exact Or.inr hs
  · intro h
    unfold inode_open
    cases hf : s.open_inodes.find? (fun i => decide ((s.inodes i).sector = sec)) with
    | some j => rfl
    | none =>
      have hnone : ∀ j ∈ s.open_inodes, (s.inodes j).sector ≠ sec := by
        intro j hj
        simpa using List.find?_eq_none.mp hf j hj
      rcases h with ⟨j, hj, hs⟩ | hs
      · exact absurd hs (hnone j hj)
      · unfold disk_read
        dsimp only
        rw [if_pos hs]
        rfl

/-- The function `inode_make_parent` on a state whose open list is in order: it returns
true, writes at most the sector of the child, and changes of the inodes in memory only the
parent sector of the child. -/
theorem inode_make_parent_spec (s s1 : fs) (parent sec : Nat) (b : Bool)
    (hc : open_counted s)
    (h : inode_make_parent parent sec s = some (b, s1)) :
    b = true ∧ s1.buffer_cache = s.buffer_cache ∧
    s1.buffer_cache_size = s.buffer_cache_size ∧ s1.ticks = s.ticks ∧ s1.junk = s.junk ∧
    s1.free_map = s.free_map ∧ s1.open_inodes = s.open_inodes ∧ s.ninodes ≤ s1.ninodes ∧
    (∀ x, x ≠ sec → s1.disk x = s.disk x) ∧
    (∀ j, j < s.ninodes →
      ∃ ps, s1.inodes j = { s.inodes j with parent_sector := ps }) ∧
    ((∃ j ∈ s.open_inodes, (s.inodes j).sector = sec) ∨ sec < s.free_map.bit_cnt) := by
  unfold inode_make_parent at h
  cases hop : inode_open sec s with
  | none => rw [hop] at h; simp at h
  | some r =>
    rw [hop] at h
    simp only [Option.some_bind] at h
    rcases inode_open_cases s sec r hop with ⟨j, hj, hsec, hr⟩ | ⟨hnone, hlt, hr⟩
    · subst hr
      have hpos := hc j hj
      unfold inode_close inode_reopen at h
      dsimp only at h
      simp only [upd_same] at h
      rw [if_neg (by omega)] at h
      simp only [Option.map_some', Option.some.injEq, Prod.mk.injEq] at h
      obtain ⟨h1, h2⟩ := h
      subst h1
      subst h2
      refine ⟨rfl, rfl, rfl, rfl, rfl, rfl, rfl, Nat.le_refl _, fun _ _ => rfl, ?_,
        Or.inl ⟨j, hj, hsec⟩⟩
      intro k _
      dsimp only
      by_cases hk : k = j
      · subst hk
        refine ⟨parent, ?_⟩
        rw [upd_same]
        congr 1
        omega
      · refine ⟨(s.inodes k).parent_sector, ?_⟩
        rw [upd_other _ _ _ _ hk, upd_other _ _ _ _ hk, upd_other _ _ _ _ hk]
    · subst hr
      unfold inode_close at h
      dsimp only at h
      simp only [upd_same] at h
      rw [if_pos (by omega)] at h
      simp only [Bool.false_eq_true, if_false] at h
      rw [List.erase_cons_head] at h
      unfold disk_write at h
      dsimp only at h
      rw [if_pos hlt] at h
      simp only [Option.map_some', Option.some.injEq, Prod.mk.injEq] at h
      obtain ⟨h1, h2⟩ := h
      subst h1
      subst h2
      refine ⟨rfl, rfl, rfl, rfl, rfl, rfl, rfl, Nat.le_succ _, ?_, ?_, Or.inr hlt⟩
      · intro x hx
        dsimp only
        rw [upd_other _ _ _ _ hx]
      · intro k hk
        refine ⟨(s.inodes k).parent_sector, ?_⟩
        dsimp only
        rw [upd_other _ _ _ _ (by omega), upd_other _ _ _ _ (by omega),
          upd_other _ _ _ _ (by omega)]

/-! ## Lemmas: a file that can grow, after reads and other steps -/

theorem growable_reads (s s1 : fs) (ino : inode) (hok : file_ok s ino) (hg : growable s ino)
    (hr : reads (fun x => ∃ idx, idx < bytes_to_sectors ino.length ∧
      x = owned_sector s ino (data_position idx)) s s1) : growable s1 ino := by
  obtain ⟨_, hsame, _⟩ := file_ok_reads _ s s1 ino hok hr
  obtain ⟨g1, g2, g3, g4, g5⟩ := hg
  refine ⟨g1, g2, g3, ?_, ?_⟩
  · intro p hp
    rw [hsame p hp, hr.1]
    exact g4 p hp
  · intro e he
    rcases hr.2.2.2.2.2.2.2.2.2.2 e he with ⟨e0, he0, hsec⟩ | ⟨idx, hidx, hx⟩
    · obtain ⟨a, b⟩ := g5 e0 he0
      rw [hr.1, ← hsec]
      refine ⟨a, ?_⟩
      intro p hp hip
      rw [hsame p hp]
      exact b p hp hip
    · obtain ⟨hdp, hni⟩ := data_position_lt _ _ hidx
      rw [hr.1, hx]
      refine ⟨g4 _ hdp, ?_⟩
      intro p hp hip heq
      rw [hsame p hp] at heq
      have := hok.2.2.2.1 p hp _ hdp heq
      rw [this, hni] at hip
      exact absurd hip (by simp)

theorem growable_frame (s s1 : fs) (ino ino1 : inode) (hg : growable s ino)
    (hc : s1.buffer_cache = s.buffer_cache) (hf : s1.free_map = s.free_map)
    (hl : ino1.length = ino.length) (h1 : ino1.direct = ino.direct)
    (h2 : ino1.indirect = ino.indirect) (h3 : ino1.double_indirect = ino.double_indirect)
    (hsame : ∀ p, p < owned_count (bytes_to_sectors ino.length) →
      owned_sector s1 ino1 p = owned_sector s ino p) : growable s1 ino1 := by
  obtain ⟨g1, g2, g3, g4, g5⟩ := hg
  unfold growable
  rw [hl, h1, h2, h3, hc, hf]
  refine ⟨g1, g2, g3, ?_, ?_⟩
  · intro p hp
    rw [hsame p hp]
    exact g4 p hp
  · intro e he
    obtain ⟨a, b⟩ := g5 e he
    refine ⟨a, ?_⟩
    intro p hp hip
    rw [hsame p hp]
    exact b p hp hip

/-! ## Lemmas: the entry that `dir_add` writes -/

theorem new_entry_in_use (e : Nat → Nat) (name : List Nat) (sec : Nat) :
    entry_in_use (set_inode_sector (strlcpy (set_in_use e true) 4 name (NAME_MAX + 1)) sec)
      = true := by
  unfold entry_in_use set_inode_sector strlcpy set_in_use NAME_MAX
  simp only [show ¬ (19 < 4) by omega, if_false, show ¬ (14 + 1 = 0) by omega]
  rw [if_neg (by omega), if_neg (by omega)]
  simp

theorem new_entry_sector (e : Nat → Nat) (name : List Nat) (sec : Nat) (h : sec < UINT_RANGE) :
    entry_inode_sector
      (set_inode_sector (strlcpy (set_in_use e true) 4 name (NAME_MAX + 1)) sec) = sec := by
  unfold entry_inode_sector words_of set_inode_sector
  unfold UINT_RANGE at h
  simp only [show (4 * 0 < 4) by omega, show (4 * 0 + 1 < 4) by omega,
    show (4 * 0 + 2 < 4) by omega, show (4 * 0 + 3 < 4) by omega, if_true]
  norm_num
  omega

theorem new_entry_name (e junk : Nat → Nat) (name : List Nat) (sec : Nat)
    (hlen : name.length ≤ NAME_MAX) (hc : ∀ c ∈ name, c < 256) :
    strcmp_eq name (entry_name_memory
      (set_inode_sector (strlcpy (set_in_use e true) 4 name (NAME_MAX + 1)) sec) junk)
      = true := by
  unfold strcmp_eq
  rw [List.all_eq_true]
  intro k hk
  rw [List.mem_range] at hk
  unfold NAME_MAX at hlen
  unfold entry_name_memory set_inode_sector strlcpy NAME_MAX
  rw [if_pos (by omega), if_neg (by omega), if_neg (by omega)]
  have hmin : min name.length (14 + 1 - 1) = name.length := by omega
  rw [hmin]
  by_cases hkl : k < name.length
  · rw [if_pos (by omega)]
    have e1 : 4 + k - 4 = k := by omega
    rw [e1]
    have hmem : name.getD k 0 ∈ name := by
      rw [List.getD_eq_getElem _ _ hkl]
      exact List.getElem_mem _
    rw [Nat.mod_eq_of_lt (hc _ hmem)]
    simp
  · have hkeq : k = name.length := by omega
    rw [if_neg (by omega), if_pos (by omega)]
    rw [List.getD_eq_default _ _ (by omega)]
    rfl

/-- Two C strings that `strcmp` finds equal to the same memory are the same. -/
theorem strcmp_eq_unique (a b : List Nat) (mem : Nat → Nat) (ha : c_string a) (hb : c_string b)
    (h1 : strcmp_eq a mem = true) (h2 : strcmp_eq b mem = true) : a = b := by
  unfold strcmp_eq at h1 h2
  rw [List.all_eq_true] at h1 h2
  have k1 : ∀ k, k ≤ a.length → a.getD k 0 = mem k % 256 := by
    intro k hk
    simpa using h1 k (by rw [List.mem_range]; omega)
  have k2 : ∀ k, k ≤ b.length → b.getD k 0 = mem k % 256 := by
    intro k hk
    simpa using h2 k (by rw [List.mem_range]; omega)
  have nz : ∀ (l : List Nat), c_string l → ∀ k, k < l.length → l.getD k 0 ≠ 0 := by
    intro l hl k hk
    rw [List.getD_eq_getElem _ _ hk]
    have := (hl _ (List.getElem_mem hk)).1
    omega
  have hlen : a.length = b.length := by
    rcases Nat.lt_trichotomy a.length b.length with hlt | heq | hgt
    · exfalso
      have e1 := k1 a.length (Nat.le_refl _)
      have e2 := k2 a.length (by omega)
      rw [List.getD_eq_default _ _ (Nat.le_refl _)] at e1
      exact nz b hb _ hlt (by rw [e2, ← e1])
    · exact heq
    · exfalso
      have e1 := k2 b.length (Nat.le_refl _)
      have e2 := k1 b.length (by omega)
      rw [List.getD_eq_default _ _ (Nat.le_refl _)] at e1
      exact nz a ha _ hgt (by rw [e2, ← e1])
  apply List.ext_getElem hlen
  intro k hka hkb
  have e1 := k1 k (by omega)
  have e2 := k2 k (by omega)
  rw [List.getD_eq_getElem _ _ hka] at e1
  rw [List.getD_eq_getElem _ _ hkb] at e2
  rw [e1, e2]

/-! ## Lemmas: `dir_add` -/

theorem slot_pos_lt (n k j len : Nat) (hn : n = len / sizeof_dir_entry) (hk : k < n)
    (hj : j < sizeof_dir_entry) : sizeof_dir_entry * k + j < len := by
  have hS : sizeof_dir_entry = 20 := rfl
  rw [hS] at hn hj ⊢
  omega

/-- A successful `dir_add` on a well laid out directory that can grow: the name is valid
and was not in the directory, and the entry is written to the first slot not in use or,
when all are in use, after the last one, all other entries being unchanged. -/
theorem dir_add_spec (s s1 : fs) (d : dir) (name : List Nat) (sec : Nat)
    (hi : cache_inv s) (hd : cache_distinct s) (ho : open_ok s) (hc : open_counted s)
    (hdo : d.inode ∈ s.open_inodes)
    (hok : file_ok s (s.inodes d.inode)) (hg : growable s (s.inodes d.inode))
    (hsec : ∀ p, p < owned_count (bytes_to_sectors (s.inodes d.inode).length) →
      owned_sector s (s.inodes d.inode) p ≠ sec)
    (h : dir_add d name sec s = some (true, s1)) :
    ∃ e0,
      name ≠ [] ∧ name.length ≤ NAME_MAX ∧
      find_slot (entry_matches s (s.inodes d.inode) name) 0 (slot_count (s.inodes d.inode))
        = none ∧
      cache_inv s1 ∧ cache_distinct s1 ∧ file_ok s1 (s1.inodes d.inode) ∧
      s1.open_inodes = s.open_inodes ∧ s.ninodes ≤ s1.ninodes ∧ s1.junk = s.junk ∧
      s1.free_map.bit_cnt = s.free_map.bit_cnt ∧
      (∀ j, j < s.ninodes → (s1.inodes j).sector = (s.inodes j).sector) ∧
      ((∃ j ∈ s.open_inodes, (s.inodes j).sector = sec) ∨ sec < s.free_map.bit_cnt) ∧
      slot_count (s1.inodes d.inode) = max (slot_count (s.inodes d.inode))
        ((find_slot (fun q => !entry_in_use (entry_at s (s.inodes d.inode) q)) 0
          (slot_count (s.inodes d.inode))).getD (slot_count (s.inodes d.inode)) + 1) ∧
      (∀ k, k < slot_count (s1.inodes d.inode) → ∀ j, j < sizeof_dir_entry →
        entry_at s1 (s1.inodes d.inode) k j =
          if k = (find_slot (fun q => !entry_in_use (entry_at s (s.inodes d.inode) q)) 0
            (slot_count (s.inodes d.inode))).getD (slot_count (s.inodes d.inode)) then
            set_inode_sector (strlcpy (set_in_use e0 true) 4 name (NAME_MAX + 1)) sec j
          else entry_at s (s.inodes d.inode) k j) := by
  have hD : DISK_SECTOR_SIZE = 512 := rfl
  have hS : sizeof_dir_entry = 20 := rfl
  unfold dir_add at h
  by_cases hnm : name = [] ∨ name.length > NAME_MAX
  · rw [if_pos hnm] at h
    simp at h
  rw [if_neg hnm] at h
  obtain ⟨res, sA, hl, hrA, hmatch⟩ := lookup_spec s d name hok hi hd
  rw [hl] at h
  simp only [Option.some_bind] at h
  cases hfs : find_slot (entry_matches s (s.inodes d.inode) name) 0
      (slot_count (s.inodes d.inode)) with
  | some q0 =>
    rw [hfs] at hmatch
    obtain ⟨e1, hres, _⟩ := hmatch
    rw [hres] at h
    simp at h
  | none =>
    rw [hfs] at hmatch
    dsimp only at hmatch
    rw [hmatch] at h
    dsimp only at h
    obtain ⟨hokA, hsameA, hviewA⟩ := file_ok_reads _ s sA _ hok hrA
    have hgA := growable_reads s sA _ hok hg hrA
    have hiA := hrA.2.2.2.2.2.2.1
    have hdA := hrA.2.2.2.2.2.2.2.1
    have hinoA : sA.inodes = s.inodes := hrA.2.1
    have hcA : open_counted sA := by
      unfold open_counted; rw [hrA.2.2.2.1, hinoA]; exact hc
    cases hmp : inode_make_parent (inode_get_inumber sA d.inode) sec sA with
    | none => rw [hmp] at h; simp at h
    | some r =>
      obtain ⟨b, sB⟩ := r
      rw [hmp] at h
      obtain ⟨hb, b1, b2, b3, b4, b5, b6, b7, b8, b9, b10⟩ :=
        inode_make_parent_spec sA sB _ sec b hcA hmp
      subst hb
      simp only [Option.some_bind, Bool.not_true, Bool.false_eq_true, if_false] at h
      have hdn : d.inode < sA.ninodes := by rw [hrA.2.2.1]; exact ho.1 _ hdo
      obtain ⟨ps, hinoB⟩ := b9 _ hdn
      rw [hinoA] at hinoB
      obtain ⟨hokB, hsameB, hviewB⟩ := file_ok_frame sA sB (s.inodes d.inode)
        (sB.inodes d.inode) hokA b1 (by rw [b5]) (by rw [hinoB]) (fun _ _ => by rw [hinoB])
        (by intro p hp j _; rw [b8 _ (by rw [hsameA p hp]; exact hsec p hp)])
      have hiB := cache_inv_frame sA sB hiA b1 b2 b3 (by rw [b5])
      have hdB := cache_distinct_frame sA sB hdA b1
      have hgB : growable sB (sB.inodes d.inode) :=
        growable_frame sA sB _ _ hgA b1 b5 (by rw [hinoB]) (by rw [hinoB]) (by rw [hinoB])
          (by rw [hinoB]) hsameB
      have hlenB : (sB.inodes d.inode).length = (s.inodes d.inode).length := by rw [hinoB]
      have hnB : slot_count (sB.inodes d.inode) = slot_count (s.inodes d.inode) := by
        unfold slot_count; rw [hlenB]
      have hbytesB : ∀ pos, pos < (s.inodes d.inode).length →
          file_byte sB (sB.inodes d.inode) pos = file_byte s (s.inodes d.inode) pos := by
        intro pos hpos
        rw [hviewB pos (by unfold bytes_to_sectors; rw [hD]; omega), hviewA pos hpos]
      obtain ⟨e2, sC, hfl, hrC⟩ := free_slot_loop_spec (sB.inodes d.inode)
        (inode_length sB d.inode / sizeof_dir_entry + 1) 0 d.inode sB.junk sB rfl
        (by unfold slot_count inode_length; exact Nat.lt_succ_of_le (Nat.sub_le _ _))
        hokB hiB hdB
      have hfind : find_slot (fun q => !entry_in_use (entry_at sB (sB.inodes d.inode) q)) 0
          (slot_count (sB.inodes d.inode))
          = find_slot (fun q => !entry_in_use (entry_at s (s.inodes d.inode) q)) 0
            (slot_count (s.inodes d.inode)) := by
        rw [hnB]
        apply find_slot_congr
        intro q _ hq
        show (!entry_in_use (entry_at sB (sB.inodes d.inode) q))
          = !entry_in_use (entry_at s (s.inodes d.inode) q)
        rw [(entry_fields_congr (entry_at sB (sB.inodes d.inode) q)
          (entry_at s (s.inodes d.inode) q) (fun j hj => hbytesB _
            (slot_pos_lt _ q j _ rfl hq hj))).1]
      rw [hfind, hnB, Nat.zero_max, Nat.mul_zero] at hfl
      rw [hfl] at h
      simp only [Option.some_bind] at h
      obtain ⟨hokC, hsameC, hviewC⟩ := file_ok_reads _ sB sC _ hokB hrC
      have hgC := growable_reads sB sC _ hokB hgB hrC
      have hiC := hrC.2.2.2.2.2.2.1
      have hdC := hrC.2.2.2.2.2.2.2.1
      have hinoC : sC.inodes = sB.inodes := hrC.2.1
      have hbytesC : ∀ pos, pos < (s.inodes d.inode).length →
          file_byte sC (sB.inodes d.inode) pos = file_byte s (s.inodes d.inode) pos := by
        intro pos hpos
        rw [hviewC pos (by rw [hlenB]; exact hpos), hbytesB pos hpos]
      generalize hq : (find_slot (fun q => !entry_in_use (entry_at s (s.inodes d.inode) q)) 0
        (slot_count (s.inodes d.inode))).getD (slot_count (s.inodes d.inode)) = q at h ⊢
      have hqn : q ≤ slot_count (s.inodes d.inode) := by
        cases hf : find_slot (fun q => !entry_in_use (entry_at s (s.inodes d.inode) q)) 0
            (slot_count (s.inodes d.inode)) with
        | none => rw [hf] at hq; rw [← hq]; exact Nat.le_refl _
        | some q1 =>
          rw [hf] at hq
          rw [← hq]
          exact Nat.le_of_lt (find_slot_some _ _ _ _ hf).2.1
      cases hw : inode_write_at d.inode
          (set_inode_sector (strlcpy (set_in_use e2 true) 4 name (NAME_MAX + 1)) sec)
          sizeof_dir_entry (sizeof_dir_entry * q) sC with
      | none => rw [hw] at h; simp at h
      | some w =>
        obtain ⟨c, sD⟩ := w
        rw [hw] at h
        simp only [Option.map_some', Option.some.injEq, Prod.mk.injEq, decide_eq_true_eq] at h
        obtain ⟨h1, h2⟩ := h
        subst h1
        subst h2
        have hsecB : ∀ j, j < s.ninodes → (sB.inodes j).sector = (s.inodes j).sector := by
          intro j hj
          obtain ⟨ps1, hps⟩ := b9 j (by rw [hrA.2.2.1]; exact hj)
          rw [hps, hinoA]
        have hopen : (∃ j ∈ s.open_inodes, (s.inodes j).sector = sec)
            ∨ sec < s.free_map.bit_cnt := by
          rw [hrA.2.2.2.1, hinoA, hrA.1] at b10
          exact b10
        refine ⟨e2, fun hn => hnm (Or.inl hn), by omega, rfl, ?_⟩
        by_cases hlt : q < slot_count (s.inodes d.inode)
        · -- a free slot
          have hdeny := inode_write_at_deny sC sD d.inode _ _ _ _ (by decide) hw rfl
          have hfit : sizeof_dir_entry * q + sizeof_dir_entry ≤ (sC.inodes d.inode).length := by
            rw [hinoC, hlenB]
            unfold slot_count at hlt
            rw [hS] at hlt ⊢
            omega
          obtain ⟨s2, hw2, w1, w2, w3, w4, w5, w6, w7, w8, w9, w10, w11, _⟩ :=
            inode_write_at_inplace sC d.inode
              (set_inode_sector (strlcpy (set_in_use e2 true) 4 name (NAME_MAX + 1)) sec)
              sizeof_dir_entry (sizeof_dir_entry * q) hdeny hfit
              (by rw [hinoC]; exact hokC) hiC hdC
          rw [hw2] at hw
          simp only [Option.some.injEq, Prod.mk.injEq, true_and] at hw
          subst hw
          have hino2 : s2.inodes d.inode = sB.inodes d.inode := by rw [w5, hinoC]
          rw [hinoC] at w1 w11
          rw [hino2, hnB]
          refine ⟨w2, w3, w1, by rw [w7, hrC.2.2.2.1, b6, hrA.2.2.2.1],
            by rw [w6, hrC.2.2.1]; exact Nat.le_trans (Nat.le_of_eq hrA.2.2.1.symm) b7,
            by rw [w8, hrC.2.2.2.2.1, b4, hrA.2.2.2.2.1],
            by rw [w4, hrC.1, b5, hrA.1], ?_, hopen, by omega, ?_⟩
          · intro j hj
            rw [w5, hinoC]
            exact hsecB j hj
          · intro k hk j hj
            have hpos := slot_pos_lt _ k j _ rfl hk hj
            unfold entry_at
            rw [w11 _ (by rw [hlenB]; exact hpos)]
            rw [hS] at hj ⊢
            by_cases hkq : k = q
            · subst hkq
              rw [if_pos (by omega), if_pos rfl]
              congr 1
              omega
            · rw [if_neg (by omega), if_neg hkq]
              exact hbytesC _ (by rw [hS] at hpos; exact hpos)
        · -- no free slot: the entry goes to the end
          have hqe : q = slot_count (s.inodes d.inode) := by omega
          have hlo : sizeof_dir_entry * q ≤ (sC.inodes d.inode).length := by
            rw [hinoC, hlenB, hqe]
            unfold slot_count
            exact Nat.mul_div_le _ _
          have hhi : (sC.inodes d.inode).length < sizeof_dir_entry * q + sizeof_dir_entry := by
            rw [hinoC, hlenB, hqe]
            unfold slot_count
            rw [hS]
            omega
          obtain ⟨g1, g2, g3, g4, g5, g6, _, _, _, _, _, g12, g13, g14, g15, g16⟩ :=
            inode_write_at_grow sC sD d.inode _ sizeof_dir_entry (sizeof_dir_entry * q)
              (by decide) (by decide) hlo hhi (by rw [hinoC]; exact hokC)
              (by rw [hinoC]; exact hgC) hiC hdC hw
          have hsl : slot_count (sD.inodes d.inode) = q + 1 := by
            unfold slot_count
            rw [g1, hS]
            omega
          rw [hsl]
          refine ⟨g3, g4, g2, by rw [g13, hrC.2.2.2.1, b6, hrA.2.2.2.1],
            by rw [g12, hrC.2.2.1]; exact Nat.le_trans (Nat.le_of_eq hrA.2.2.1.symm) b7,
            by rw [g14, hrC.2.2.2.2.1, b4, hrA.2.2.2.2.1],
            by rw [g15, hrC.1, b5, hrA.1], ?_, hopen, by omega, ?_⟩
          · intro j hj
            by_cases hji : j = d.inode
            · rw [hji, g6, hinoC]
              exact hsecB _ (by rw [← hrA.2.2.1]; exact hdn)
            · rw [g5 j hji, hinoC]
              exact hsecB j hj
          · intro k hk j hj
            unfold entry_at
            rw [hS] at hj
            rw [g16 _ (by rw [hS]; omega), hinoC]
            by_cases hkq : k = q
            · subst hkq
              rw [if_pos (by omega), if_pos rfl]
              congr 1
              rw [hS]
              omega
            · rw [if_neg (by rw [hS]; omega), if_neg hkq]
              have hkn : k < slot_count (s.inodes d.inode) := by omega
              exact hbytesC _ (slot_pos_lt _ k j _ rfl hkn (by rw [hS]; exact hj))

/-! ## Lemmas: reads of any file -/

theorem cache_load_none (i sec : Nat) (d : Bool) (s : fs) (h : ¬ sec < s.free_map.bit_cnt) :
    cache_load i sec d s = none := by
  unfold cache_load disk_read
  rw [if_neg h]
  rfl

/-- The cache does not take up a sector that is not on the disk. -/
theorem cache_entry_for_none (s : fs) (sec : Nat) (d : Bool) (hi : cache_inv s)
    (h : ¬ sec < s.free_map.bit_cnt) : cache_entry_for sec d s = none := by
  unfold cache_entry_for cache_get_sector
  cases hf : cache_find sec s.buffer_cache with
  | some i =>
    obtain ⟨e, he, hs⟩ := cache_find_some sec _ i hf
    have := (hi.2.2.2 e (List.get?_mem he)).2.2
    rw [hs] at this
    exact absurd this h
  | none =>
    dsimp only
    unfold cache_fetch_sector
    split
    · exact cache_load_none _ _ _ _ h
    · split
      · rfl
      · split
        · rfl
        · rename_i entry _
          split
          · unfold disk_write
            split
            · exact cache_load_none _ _ _ _ h
            · rfl
          · exact cache_load_none _ _ _ _ h

/-- A read of any file, when it returns, has only looked sectors up in the cache. -/
theorem read_loop_reads (ino : inode) :
    ∀ (fuel : Nat) (buffer : Nat → Nat) (size offset bytes_read : Nat) (s : fs)
      (r : Nat × (Nat → Nat) × fs),
      cache_inv s → cache_distinct s →
      read_loop ino fuel buffer size offset bytes_read s = some r →
      reads (fun _ => True) s r.2.2 := by
  intro fuel
  induction fuel with
  | zero =>
    intro buffer size offset br s r hi hd h
    unfold read_loop at h
    rw [← Option.some.inj h]
    exact reads_refl _ s hi hd
  | succ fuel ih =>
    intro buffer size offset br s r hi hd h
    unfold read_loop at h
    split at h
    swap
    · rw [← Option.some.inj h]
      exact reads_refl _ s hi hd
    cases hb : byte_to_sector ino offset s with
    | none => rw [hb] at h; simp at h
    | some idx =>
      rw [hb] at h
      simp only [Option.some_bind] at h
      split at h
      · rw [← Option.some.inj h]
        exact reads_refl _ s hi hd
      split at h
      · rw [← Option.some.inj h]
        exact reads_refl _ s hi hd
      by_cases hlt : idx < s.free_map.bit_cnt
      swap
      · rw [cache_entry_for_none s idx false hi hlt] at h
        simp at h
      obtain ⟨i, s1, e, hce, hget, _, _, _, hreads⟩ := cache_entry_for_reads s idx false hi hd hlt
      rw [hce] at h
      simp only [Option.some_bind, hget] at h
      have := ih _ _ _ _ _ _ hreads.2.2.2.2.2.2.1 hreads.2.2.2.2.2.2.2.1 h
      exact reads_trans _ s s1 _ (reads_mono _ _ _ _ hreads (fun _ _ => trivial)) this

theorem is_empty_loop_reads : ∀ (fuel i pos : Nat) (e : Nat → Nat) (s : fs) (r : Bool × fs),
    cache_inv s → cache_distinct s →
    is_empty_loop i fuel pos e s = some r → reads (fun _ => True) s r.2 := by
  intro fuel
  induction fuel with
  | zero =>
    intro i pos e s r _ _ h
    unfold is_empty_loop at h
    simp at h
  | succ fuel ih =>
    intro i pos e s r hi hd h
    unfold is_empty_loop at h
    cases hr : inode_read_at i e sizeof_dir_entry pos s with
    | none => rw [hr] at h; simp at h
    | some x =>
      rw [hr] at h
      simp only [Option.some_bind] at h
      have hreads := read_loop_reads _ _ _ _ _ _ _ _ hi hd hr
      split at h
      · split at h
        · rw [← Option.some.inj h]
          exact hreads
        · have := ih _ _ _ _ _ hreads.2.2.2.2.2.2.1 hreads.2.2.2.2.2.2.2.1 h
          exact reads_trans _ s _ _ hreads this
      · rw [← Option.some.inj h]
        exact hreads

/-! ## Lemmas: the release of the sectors of an inode -/

theorem release_entries_cnt (block : Nat → Nat) (n : Nat) (s : fs) :
    (release_entries block n s).free_map.bit_cnt = s.free_map.bit_cnt ∧
    (release_entries block n s).disk = s.disk := by
  unfold release_entries
  generalize List.range n = l
  induction l generalizing s with
  | nil => exact ⟨rfl, rfl⟩
  | cons a l ih =>
    rw [List.foldl_cons]
    obtain ⟨h1, h2⟩ := ih (free_map_release (block a) 1 s)
    exact ⟨by rw [h1]; rfl, by rw [h2]; rfl⟩

theorem release_double_cnt (block_ptrs : Nat → Nat) :
    ∀ (fuel block_index sectors : Nat) (s s1 : fs),
      release_double block_ptrs fuel block_index sectors s = some s1 →
      s1.free_map.bit_cnt = s.free_map.bit_cnt := by
  intro fuel
  induction fuel with
  | zero =>
    intro block_index sectors s s1 h
    unfold release_double at h
    simp only [Option.some.injEq] at h
    rw [← h]
  | succ fuel ih =>
    intro block_index sectors s s1 h
    unfold release_double at h
    split at h
    · obtain ⟨data, _, h2⟩ := Option.bind_eq_some.mp h
      rw [ih _ _ _ _ h2]
      exact (release_entries_cnt _ _ _).1
    · simp only [Option.some.injEq] at h
      rw [← h]

theorem inode_free_resources_cnt (ino : inode) (s s1 : fs)
    (h : inode_free_resources ino s = some s1) :
    s1.free_map.bit_cnt = s.free_map.bit_cnt := by
  unfold inode_free_resources at h
  dsimp only at h
  split at h
  · obtain ⟨data, _, h2⟩ := Option.bind_eq_some.mp h
    split at h2
    · obtain ⟨ptrs, _, h3⟩ := Option.bind_eq_some.mp h2
      rw [release_double_cnt _ _ _ _ _ _ h3, (release_entries_cnt _ _ _).1,
        (release_entries_cnt _ _ _).1]
    · rw [← Option.some.inj h2, (release_entries_cnt _ _ _).1, (release_entries_cnt _ _ _).1]
  · rw [← Option.some.inj h, (release_entries_cnt _ _ _).1]

theorem release_double_some (block_ptrs : Nat → Nat) :
    ∀ (fuel block_index sectors : Nat) (s : fs),
      (∀ k, block_index ≤ k → (k - block_index) * 128 < sectors →
        block_ptrs k < s.free_map.bit_cnt) →
      ∃ s1, release_double block_ptrs fuel block_index sectors s = some s1 := by
  intro fuel
  induction fuel with
  | zero =>
    intro block_index sectors s _
    exact ⟨s, rfl⟩
  | succ fuel ih =>
    intro block_index sectors s h
    unfold release_double
    split
    · rename_i hc
      unfold disk_read
      rw [if_pos (h block_index (Nat.le_refl _) (by omega))]
      simp only [Option.some_bind]
      apply ih
      intro k hk1 hk2
      rw [(release_entries_cnt _ _ _).1]
      exact h k (by omega) (by omega)
    · exact ⟨s, rfl⟩

/-- The function `inode_free_resources` returns on a well laid out file. -/
theorem inode_free_resources_some (s : fs) (ino : inode) (hok : file_ok s ino) :
    ∃ s1, inode_free_resources ino s = some s1 := by
  have hpos := hok.2.2.1
  generalize hn : bytes_to_sectors ino.length = n at hpos
  have hn16 : n ≤ 16524 := by rw [← hn]; exact hok.1
  have hD : DIRECT_BLOCKS = 12 := rfl
  unfold inode_free_resources
  dsimp only
  rw [hn, hD]
  split
  swap
  · exact ⟨_, rfl⟩
  rename_i h12
  have hoc : 12 < owned_count n := by
    unfold owned_count; split_ifs <;> omega
  have hb12 := hpos 12 hoc
  rw [owned_at_12] at hb12
  unfold disk_read
  rw [(release_entries_cnt _ _ _).1, if_pos hb12]
  simp only [Option.some_bind]
  split
  swap
  · exact ⟨_, rfl⟩
  rename_i h140
  have hoc2 : 141 < owned_count n := by
    unfold owned_count; split_ifs <;> omega
  have hb13 := hpos 141 hoc2
  rw [owned_at_141] at hb13
  rw [(release_entries_cnt _ _ _).1, (release_entries_cnt _ _ _).1, if_pos hb13]
  simp only [Option.some_bind]
  apply release_double_some
  intro k _ hk
  rw [(release_entries_cnt _ _ _).1, (release_entries_cnt _ _ _).1,
    (release_entries_cnt _ _ _).2, (release_entries_cnt _ _ _).2]
  have := hpos (142 + 129 * k) (by
    unfold owned_count
    rw [if_neg (by omega), if_neg (by omega)]
    omega)
  rw [owned_at_second] at this
  exact this

/-! ## Lemmas: the outcome of a lookup -/

theorem find_slot_first (p : Nat → Bool) (n q : Nat) (hq : q < n) (hp : p q = true)
    (hlt : ∀ k, k < q → p k = false) : find_slot p 0 n = some q := by
  cases h : find_slot p 0 n with
  | none =>
    have := find_slot_none p 0 n h q (Nat.zero_le _) hq
    rw [hp] at this
    exact absurd this (by simp)
  | some r =>
    obtain ⟨_, hr, hpr, hmin⟩ := find_slot_some p 0 n r h
    rcases Nat.lt_trichotomy r q with c | c | c
    · rw [hlt r c] at hpr
      exact absurd hpr (by simp)
    · rw [c]
    · have := hmin q (Nat.zero_le _) c
      rw [hp] at this
      exact absurd this (by simp)

theorem find_slot_all_false (p : Nat → Bool) (n : Nat) (h : ∀ k, k < n → p k = false) :
    find_slot p 0 n = none := by
  cases hf : find_slot p 0 n with
  | none => rfl
  | some q =>
    obtain ⟨_, hq, hp, _⟩ := find_slot_some p 0 n q hf
    rw [h q hq] at hp
    exact absurd hp (by simp)

/-- The outcome of `dir_lookup` on a well laid out directory, from its entries. -/
theorem lookup_result_spec (s : fs) (d : dir) (name : List Nat)
    (hok : file_ok s (s.inodes d.inode)) (hi : cache_inv s) (hd : cache_distinct s) :
    lookup_result d name s =
      match find_slot (entry_matches s (s.inodes d.inode) name) 0
          (slot_count (s.inodes d.inode)) with
      | none => some none
      | some q =>
        if can_open s (entry_inode_sector (entry_at s (s.inodes d.inode) q)) then
          some (some (entry_inode_sector (entry_at s (s.inodes d.inode) q)))
        else none := by
  obtain ⟨res, sa, hl, hra, hmatch⟩ := lookup_spec s d name hok hi hd
  unfold lookup_result dir_lookup
  rw [hl]
  simp only [Option.some_bind]
  cases hf : find_slot (entry_matches s (s.inodes d.inode) name) 0
      (slot_count (s.inodes d.inode)) with
  | none =>
    rw [hf] at hmatch
    dsimp only at hmatch
    rw [hmatch]
    rfl
  | some q =>
    rw [hf] at hmatch
    obtain ⟨e1, hres, hbytes⟩ := hmatch
    rw [hres]
    dsimp only
    rw [(entry_fields_congr _ _ hbytes).2.1]
    have hiff := inode_open_isSome sa (entry_inode_sector (entry_at s (s.inodes d.inode) q))
    rw [hra.2.2.2.1, hra.2.1, hra.1] at hiff
    unfold can_open
    cases hop : inode_open (entry_inode_sector (entry_at s (s.inodes d.inode) q)) sa with
    | none =>
      rw [hop] at hiff
      rw [if_neg (fun hc => by simpa using hiff.mpr hc)]
      rfl
    | some r =>
      rw [hop] at hiff
      rw [if_pos (hiff.mp rfl)]
      simp only [Option.map_some', Option.some.injEq]
      unfold inode_get_inumber
      rw [inode_open_sector _ _ _ hop]

/-! ## Lemmas: `inode_close` -/

theorem inode_close_frame (s s1 : fs) (i : Nat) (h : inode_close i s = some s1) :
    s1.buffer_cache = s.buffer_cache ∧ s1.buffer_cache_size = s.buffer_cache_size ∧
    s1.ticks = s.ticks ∧ s1.junk = s.junk ∧ s1.free_map.bit_cnt = s.free_map.bit_cnt ∧
    (∀ x, x ≠ (s.inodes i).sector → s1.disk x = s.disk x) ∧
    ((s.inodes i).removed = true → s1.disk = s.disk) ∧
    ((s.inodes i).removed = false → s1.free_map = s.free_map) := by
  unfold inode_close at h
  dsimp only at h
  split at h
  · split at h
    · rename_i hrem
      cases hf : inode_free_resources (s.inodes i)
          { s with
            inodes := upd s.inodes i
              { s.inodes i with open_cnt := (s.inodes i).open_cnt - 1 }
            open_inodes := s.open_inodes.erase i } with
      | none => rw [hf] at h; simp at h
      | some s3 =>
        rw [hf] at h
        simp only [Option.map_some', Option.some.injEq] at h
        obtain ⟨fm, hfm⟩ := inode_free_resources_frame _ _ _ hf
        have hcnt := inode_free_resources_cnt _ _ _ hf
        rw [← h]
        unfold free_map_release
        dsimp only
        rw [hfm] at hcnt ⊢
        refine ⟨rfl, rfl, rfl, rfl, hcnt, fun _ _ => rfl, fun _ => rfl, ?_⟩
        intro hc
        rw [hc] at hrem
        exact absurd hrem (by simp)
    · rename_i hrem
      unfold disk_write at h
      dsimp only at h
      split at h
      · rw [← Option.some.inj h]
        refine ⟨rfl, rfl, rfl, rfl, rfl, ?_, ?_, fun _ => rfl⟩
        · intro x hx
          dsimp only
          rw [upd_other _ _ _ _ hx]
        · intro hc
          exact absurd hc hrem
      · simp at h
  · rw [← Option.some.inj h]
    exact ⟨rfl, rfl, rfl, rfl, rfl, fun _ _ => rfl, fun _ => rfl, fun _ => rfl⟩

/-! ## Lemmas: the steps of `dir_remove` -/

/-- What `inode_open` changes: the inodes in memory keep all but their open count, and the
open list holds the same sectors, apart from the sector opened. -/
theorem inode_open_frame (s sb : fs) (sec c : Nat)
    (hopen : ∀ i ∈ s.open_inodes, i < s.ninodes)
    (h : inode_open sec s = some (c, sb)) :
    sb.buffer_cache = s.buffer_cache ∧ sb.buffer_cache_size = s.buffer_cache_size ∧
    sb.ticks = s.ticks ∧ sb.junk = s.junk ∧ sb.free_map = s.free_map ∧ sb.disk = s.disk ∧
    (∀ j, j < s.ninodes → ∃ cnt, sb.inodes j = { s.inodes j with open_cnt := cnt }) ∧
    (sb.inodes c).sector = sec ∧ s.ninodes ≤ sb.ninodes ∧
    (∀ i ∈ sb.open_inodes, i < sb.ninodes) ∧
    (∀ σ, σ ≠ sec →
      ((∃ j ∈ sb.open_inodes, (sb.inodes j).sector = σ) ↔
        (∃ j ∈ s.open_inodes, (s.inodes j).sector = σ))) := by
  have hsec := inode_open_sector s sec _ h
  rcases inode_open_cases s sec _ h with ⟨j, hj, hjs, hr⟩ | ⟨hnone, hlt, hr⟩
  · simp only [Prod.mk.injEq] at hr
    obtain ⟨h1, h2⟩ := hr
    subst h1
    subst h2
    have hsame : ∀ k, ((inode_reopen c s).inodes k).sector = (s.inodes k).sector := by
      intro k
      unfold inode_reopen
      dsimp only
      by_cases hk : k = c
      · rw [hk, upd_same]
      · rw [upd_other _ _ _ _ hk]
    refine ⟨rfl, rfl, rfl, rfl, rfl, rfl, ?_, hsec, Nat.le_refl _, hopen, ?_⟩
    · intro k _
      unfold inode_reopen
      dsimp only
      by_cases hk : k = c
      · rw [hk, upd_same]
        exact ⟨_, rfl⟩
      · rw [upd_other _ _ _ _ hk]
        exact ⟨(s.inodes k).open_cnt, rfl⟩
    · intro σ _
      simp only [hsame]
      rfl
  · simp only [Prod.mk.injEq] at hr
    obtain ⟨h1, h2⟩ := hr
    subst h1
    subst h2
    refine ⟨rfl, rfl, rfl, rfl, rfl, rfl, ?_, hsec, Nat.le_succ _, ?_, ?_⟩
    · intro k hk
      dsimp only
      rw [upd_other _ _ _ _ (by omega)]
      exact ⟨(s.inodes k).open_cnt, rfl⟩
    · intro i hi
      dsimp only at hi ⊢
      rcases List.mem_cons.mp hi with hi | hi
      · omega
      · exact Nat.lt_succ_of_lt (hopen i hi)
    · intro σ hσ
      dsimp only
      constructor
      · rintro ⟨j, hj, hjs⟩
        rcases List.mem_cons.mp hj with hj | hj
        · rw [hj, upd_same] at hjs
          exact absurd hjs.symm hσ
        · rw [upd_other _ _ _ _ (Nat.ne_of_lt (hopen j hj))] at hjs
          exact ⟨j, hj, hjs⟩
      · rintro ⟨j, hj, hjs⟩
        refine ⟨j, List.mem_cons_of_mem _ hj, ?_⟩
        rw [upd_other _ _ _ _ (Nat.ne_of_lt (hopen j hj))]
        exact hjs

/-- The call `inode_close (inode)` that follows `inode_remove (inode)`. -/
theorem close_after_remove (s s1 : fs) (c : Nat)
    (h : inode_close c (inode_remove c s) = some s1) :
    s1.buffer_cache = s.buffer_cache ∧ s1.buffer_cache_size = s.buffer_cache_size ∧
    s1.ticks = s.ticks ∧ s1.junk = s.junk ∧ s1.free_map.bit_cnt = s.free_map.bit_cnt ∧
    s1.disk = s.disk ∧
    (∀ j, ∃ cnt rem, s1.inodes j = { s.inodes j with open_cnt := cnt, removed := rem }) ∧
    (∀ j ∈ s1.open_inodes, j ∈ s.open_inodes) ∧
    (∀ j ∈ s.open_inodes, j ≠ c → j ∈ s1.open_inodes) := by
  obtain ⟨f1, f2, f3, f4, f5, _, f7, _⟩ := inode_close_frame _ _ _ h
  obtain ⟨g1, _, g3⟩ := inode_close_spec _ _ _ h
  have hrem : ((inode_remove c s).inodes c).removed = true := by
    unfold inode_remove
    dsimp only
    rw [upd_same]
  refine ⟨f1, f2, f3, f4, f5, f7 hrem, ?_, ?_, ?_⟩
  · intro j
    rw [g1]
    unfold inode_remove
    dsimp only
    by_cases hj : j = c
    · rw [hj, upd_same, upd_same]
      exact ⟨_, _, rfl⟩
    · rw [upd_other _ _ _ _ hj, upd_other _ _ _ _ hj]
      exact ⟨(s.inodes j).open_cnt, (s.inodes j).removed, rfl⟩
  · intro j hj
    rw [g3] at hj
    split at hj
    · exact List.mem_of_mem_erase hj
    · exact hj
  · intro j hj hne
    rw [g3]
    split
    · exact (List.mem_erase_of_ne hne).mpr hj
    · exact hj

/-- A `dir_remove` that returns true on a well laid out directory: the name had an entry,
which is no longer in use; the other entries are as before, and so is the open list,
apart from the inode removed. -/
theorem dir_remove_true (s s3 : fs) (d : dir) (name : List Nat)
    (hi : cache_inv s) (hd : cache_distinct s)
    (hok : file_ok s (s.inodes d.inode))
    (hopen : ∀ i ∈ s.open_inodes, i < s.ninodes) (hdn : d.inode < s.ninodes)
    (h : dir_remove d name s = some (true, s3)) :
    ∃ q, find_slot (entry_matches s (s.inodes d.inode) name) 0
        (slot_count (s.inodes d.inode)) = some q ∧
      cache_inv s3 ∧ cache_distinct s3 ∧ file_ok s3 (s3.inodes d.inode) ∧
      s3.junk = s.junk ∧ s3.free_map.bit_cnt = s.free_map.bit_cnt ∧
      slot_count (s3.inodes d.inode) = slot_count (s.inodes d.inode) ∧
      entry_in_use (entry_at s3 (s3.inodes d.inode) q) = false ∧
      (∀ k, k < slot_count (s.inodes d.inode) → k ≠ q → ∀ j, j < sizeof_dir_entry →
        entry_at s3 (s3.inodes d.inode) k j = entry_at s (s.inodes d.inode) k j) ∧
      (∀ σ, σ ≠ entry_inode_sector (entry_at s (s.inodes d.inode) q) →
        ((∃ j ∈ s3.open_inodes, (s3.inodes j).sector = σ) ↔
          (∃ j ∈ s.open_inodes, (s.inodes j).sector = σ))) := by
  have hS : sizeof_dir_entry = 20 := rfl
  have hD : DISK_SECTOR_SIZE = 512 := rfl
  unfold dir_remove at h
  obtain ⟨res, sa, hl, hra, hmatch⟩ := lookup_spec s d name hok hi hd
  rw [hl] at h
  simp only [Option.some_bind] at h
  cases hf : find_slot (entry_matches s (s.inodes d.inode) name) 0
      (slot_count (s.inodes d.inode)) with
  | none =>
    rw [hf] at hmatch
    dsimp only at hmatch
    rw [hmatch] at h
    simp at h
  | some q =>
    rw [hf] at hmatch
    obtain ⟨e1, hres, hbytes⟩ := hmatch
    rw [hres] at h
    dsimp only at h
    obtain ⟨_, hqn, _, _⟩ := find_slot_some _ _ _ _ hf
    have hcsec := (entry_fields_congr _ _ hbytes).2.1
    cases hop : inode_open (entry_inode_sector e1) sa with
    | none => rw [hop] at h; simp at h
    | some o =>
      obtain ⟨c, sb⟩ := o
      rw [hop] at h
      simp only [Option.some_bind] at h
      cases hre : dir_remove_entry d e1 (sizeof_dir_entry * q) c sb with
      | none => rw [hre] at h; simp at h
      | some re =>
        obtain ⟨r, sc⟩ := re
        rw [hre] at h
        simp only [Option.some_bind] at h
        cases hcl : inode_close c sc with
        | none => rw [hcl] at h; simp at h
        | some sx =>
          rw [hcl] at h
          simp only [Option.map_some', Option.some.injEq, Prod.mk.injEq] at h
          obtain ⟨h1, h2⟩ := h
          subst h1
          subst h2
          -- after the lookup and the open
          obtain ⟨hoka, hsamea, hviewa⟩ := file_ok_reads _ s sa _ hok hra
          have hia := hra.2.2.2.2.2.2.1
          have hda := hra.2.2.2.2.2.2.2.1
          obtain ⟨o1, o2, o3, o4, o5, o6, o7, o8, o9, o10, o11⟩ := inode_open_frame sa sb _ c
            (by rw [hra.2.2.2.1, hra.2.2.1]; exact hopen) hop
          obtain ⟨cntb, hinob⟩ := o7 d.inode (by rw [hra.2.2.1]; exact hdn)
          rw [hra.2.1] at hinob
          obtain ⟨hokb, hsameb, hviewb⟩ := file_ok_frame sa sb (s.inodes d.inode)
            (sb.inodes d.inode) hoka o1 (by rw [o5]) (by rw [hinob]) (fun _ _ => by rw [hinob])
            (fun _ _ _ _ => by rw [o6])
          have hib := cache_inv_frame sa sb hia o1 o2 o3 (by rw [o5])
          have hdb := cache_distinct_frame sa sb hda o1
          have hlenb : (sb.inodes d.inode).length = (s.inodes d.inode).length := by rw [hinob]
          -- the checks of `dir_remove`
          unfold dir_remove_entry at hre
          obtain ⟨r1, hX, hrest⟩ := Option.bind_eq_some.mp hre
          have hrb : reads (fun _ => True) sb r1.2 := by
            split at hX
            · obtain ⟨x, hx, hxe⟩ := Option.map_eq_some'.mp hX
              rw [← hxe]
              exact is_empty_loop_reads _ _ _ _ _ x hib hdb hx
            · rw [← Option.some.inj hX]
              exact reads_refl _ sb hib hdb
          split at hrest
          · simp at hrest
          split at hrest
          · simp at hrest
          obtain ⟨w, hw, hwe⟩ := Option.map_eq_some'.mp hrest
          split at hwe
          · simp at hwe
          rename_i hw20
          simp only [Prod.mk.injEq, true_and] at hwe
          have hw20 : w.1 = sizeof_dir_entry := by
            by_contra hc
            exact hw20 hc
          obtain ⟨hokc, hsamec, hviewc⟩ := file_ok_reads _ sb r1.2 _ hokb hrb
          have hic := hrb.2.2.2.2.2.2.1
          have hdc := hrb.2.2.2.2.2.2.2.1
          have hinoc : r1.2.inodes = sb.inodes := hrb.2.1
          have hdeny := inode_write_at_deny r1.2 w.2 d.inode _ sizeof_dir_entry
            (sizeof_dir_entry * q) w.1 (by decide) hw hw20
          have hfit : sizeof_dir_entry * q + sizeof_dir_entry ≤ (r1.2.inodes d.inode).length := by
            rw [hinoc, hlenb]
            unfold slot_count at hqn
            rw [hS] at hqn ⊢
            omega
          obtain ⟨s2, hw2, w1, w2, w3, w4, w5, w6, w7, w8, w9, w10, w11, _⟩ :=
            inode_write_at_inplace r1.2 d.inode (set_in_use e1 false)
              sizeof_dir_entry (sizeof_dir_entry * q) hdeny hfit
              (by rw [hinoc]; exact hokc) hic hdc
          rw [hw2] at hw
          have hws : w.2 = s2 := by rw [← Option.some.inj hw]
          rw [hws] at hwe
          subst hwe
          rw [hinoc] at w1 w11
          obtain ⟨c1, c2, c3, c4, c5, c6, c7, c8, c9⟩ := close_after_remove s2 sx c hcl
          obtain ⟨cnt3, rem3, hino3⟩ := c7 d.inode
          rw [w5, hinoc] at hino3
          obtain ⟨hok3, hsame3, hview3⟩ := file_ok_frame s2 sx (sb.inodes d.inode)
            (sx.inodes d.inode) w1 c1 c5 (by rw [hino3]) (fun _ _ => by rw [hino3])
            (fun _ _ _ _ => by rw [c6])
          have hlen3 : (sx.inodes d.inode).length = (s.inodes d.inode).length := by
            rw [hino3]; exact hlenb
          have hbyte : ∀ pos, pos < (s.inodes d.inode).length →
              file_byte sx (sx.inodes d.inode) pos =
                if sizeof_dir_entry * q ≤ pos ∧ pos < sizeof_dir_entry * q + sizeof_dir_entry
                then set_in_use e1 false (pos - sizeof_dir_entry * q)
                else file_byte s (s.inodes d.inode) pos := by
            intro pos hpos
            have hidx : pos / DISK_SECTOR_SIZE < bytes_to_sectors (s.inodes d.inode).length := by
              unfold bytes_to_sectors; rw [hD]; omega
            rw [hview3 pos (by rw [hlenb]; exact hidx), w11 pos (by rw [hlenb]; exact hpos)]
            split
            · rfl
            · rw [hviewc pos (by rw [hlenb]; exact hpos), hviewb pos hidx, hviewa pos hpos]
          refine ⟨q, rfl, cache_inv_frame s2 sx w2 c1 c2 c3 c5, cache_distinct_frame s2 sx w3 c1,
            hok3, by rw [c4, w8, hrb.2.2.2.2.1, o4, hra.2.2.2.2.1],
            by rw [c5, w4, hrb.1, o5, hra.1], by unfold slot_count; rw [hlen3], ?_, ?_, ?_⟩
          · unfold entry_in_use entry_at
            rw [hbyte _ (slot_pos_lt _ q 19 _ rfl hqn (by decide))]
            rw [if_pos (by rw [hS]; omega)]
            unfold set_in_use
            have e19 : sizeof_dir_entry * q + 19 - sizeof_dir_entry * q = 19 := by omega
            rw [e19]
            simp
          · intro k hk hkq j hj
            unfold entry_at
            rw [hbyte _ (slot_pos_lt _ k j _ rfl hk hj)]
            rw [hS] at hj ⊢
            rw [if_neg (by omega)]
          · intro σ hσ
            rw [← hcsec] at hσ
            have hsec3 : ∀ j, (sx.inodes j).sector = (sb.inodes j).sector := by
              intro j
              obtain ⟨a, b, hab⟩ := c7 j
              rw [hab, w5, hinoc]
            have hopen2 : s2.open_inodes = sb.open_inodes := by rw [w7, hrb.2.2.2.1]
            rw [← hra.2.2.2.1, ← hra.2.1, ← o11 σ hσ]
            simp only [hsec3]
            constructor
            · rintro ⟨j, hj, hjs⟩
              exact ⟨j, by rw [← hopen2]; exact c8 j hj, hjs⟩
            · rintro ⟨j, hj, hjs⟩
              refine ⟨j, c9 j (by rw [hopen2]; exact hj) ?_, hjs⟩
              intro hjc
              rw [hjc, o8] at hjs
              exact hσ hjs.symm

/-! ## Lemmas: a file next to a write -/

/-- A step that keeps the sectors of a well laid out file keeps the file. -/
theorem file_ok_keeps (kept : Nat → Prop) (s s1 : fs) (ino : inode)
    (h : file_ok s ino) (hk : keeps kept s s1)
    (hP : ∀ p, p < owned_count (bytes_to_sectors ino.length) → kept (owned_sector s ino p)) :
    file_ok s1 ino ∧
    (∀ p, p < owned_count (bytes_to_sectors ino.length) →
      owned_sector s1 ino p = owned_sector s ino p) ∧
    (∀ pos, pos < ino.length → file_byte s1 ino pos = file_byte s ino pos) := by
  obtain ⟨hn, hcap, hrange, hinj, hcache⟩ := h
  obtain ⟨a1, a9, a10⟩ := hk
  have hD : DISK_SECTOR_SIZE = 512 := rfl
  have hsame : ∀ p, p < owned_count (bytes_to_sectors ino.length) →
      owned_sector s1 ino p = owned_sector s ino p := by
    apply owned_sector_congr s s1 ino _ hn
    intro q hq hidx j hj
    have := hcache q hq
    rw [if_pos hidx] at this
    exact (a9 _ (hP q hq) this).2 j hj
  refine ⟨⟨hn, by rw [a1]; exact hcap, ?_, ?_, ?_⟩, hsame, ?_⟩
  · intro p hp
    rw [hsame p hp, a1]
    exact hrange p hp
  · intro p hp q hq hpq
    rw [hsame p hp, hsame q hq] at hpq
    exact hinj p hp q hq hpq
  · intro p hp
    rw [hsame p hp]
    have := hcache p hp
    split
    · rename_i hidx
      rw [if_pos hidx] at this
      exact (a9 _ (hP p hp) this).1
    · rename_i hidx
      rw [if_neg hidx] at this
      exact (a10 _ (hP p hp) this).1
  · intro pos hpos
    have hidx : pos / DISK_SECTOR_SIZE < bytes_to_sectors ino.length := by
      unfold bytes_to_sectors
      rw [hD]
      omega
    obtain ⟨hdp, hni⟩ := data_position_lt _ _ hidx
    unfold file_byte
    rw [hsame _ hdp]
    have := hcache _ hdp
    rw [if_neg (by rw [hni]; simp)] at this
    exact (a10 _ (hP _ hdp) this).2 _ (Nat.mod_lt _ (by rw [hD]; omega))

/-- The inode that `inode_open` yields after a `reads` step is the one it would have
yielded before, when the cache held nothing else than the disk for its sector. -/
theorem inode_open_reads (loaded : Nat → Prop) (s sa so : fs) (sec c : Nat)
    (hr : reads loaded s sa) (hsync : synced s sec)
    (hop : inode_open sec s = some (c, so)) :
    ∃ sb, inode_open sec sa = some (c, sb) ∧ same_inode (sb.inodes c) (so.inodes c) ∧
      sb.open_inodes = so.open_inodes := by
  obtain ⟨r1, r2, r3, r4, _, _, _, _, r9, _, _⟩ := hr
  rcases inode_open_cases s sec _ hop with ⟨j, hj, hjs, hr1⟩ | ⟨hnone, hlt, hr1⟩
  · simp only [Prod.mk.injEq] at hr1
    obtain ⟨h1, h2⟩ := hr1
    subst h1
    subst h2
    have hfind : sa.open_inodes.find? (fun i => decide ((sa.inodes i).sector = sec))
        = s.open_inodes.find? (fun i => decide ((s.inodes i).sector = sec)) := by
      rw [r4, r2]
    have hfs : s.open_inodes.find? (fun i => decide ((s.inodes i).sector = sec)) = some c := by
      unfold inode_open at hop
      cases hf : s.open_inodes.find? (fun i => decide ((s.inodes i).sector = sec)) with
      | some k =>
        rw [hf] at hop
        simp only [Option.some.injEq, Prod.mk.injEq] at hop
        rw [hop.1]
      | none =>
        exact absurd hjs (by simpa using List.find?_eq_none.mp hf c hj)
    refine ⟨inode_reopen c sa, ?_, ?_, r4⟩
    · unfold inode_open
      rw [hfind, hfs]
    · unfold inode_reopen
      dsimp only
      rw [upd_same, upd_same, r2]
      exact ⟨rfl, rfl, rfl, rfl, rfl, rfl, rfl, fun _ _ => rfl⟩
  · simp only [Prod.mk.injEq] at hr1
    obtain ⟨h1, h2⟩ := hr1
    subst h1
    subst h2
    have hfind : sa.open_inodes.find? (fun i => decide ((sa.inodes i).sector = sec)) = none := by
      rw [r4, r2]
      rw [List.find?_eq_none]
      intro j hj
      simpa using hnone j hj
    have hw : ∀ k, k < 128 → words_of (sa.disk sec) k = words_of (s.disk sec) k :=
      fun k hk => words_of_congr _ _ k hk (r9 sec hsync).2
    rw [← r3]
    refine ⟨{ sa with
        inodes := upd sa.inodes sa.ninodes
          { sector := sec, open_cnt := 1, deny_write_cnt := 0, removed := false
            length := words_of (sa.disk sec) 0, direct := words_of (sa.disk sec) 16
            indirect := words_of (sa.disk sec) 17
            double_indirect := words_of (sa.disk sec) 18
            isFile := decide (words_of (sa.disk sec) 19 % 256 ≠ 0)
            parent_sector := words_of (sa.disk sec) 20
            blocks := fun k => words_of (sa.disk sec) (k + 2) }
        ninodes := sa.ninodes + 1
        open_inodes := sa.ninodes :: sa.open_inodes }, ?_, ?_, by dsimp only; rw [r4]⟩
    · unfold inode_open
      rw [hfind]
      unfold disk_read
      dsimp only
      rw [r1, if_pos hlt]
      rfl
    · dsimp only
      rw [upd_same, upd_same]
      refine ⟨hw 0 (by omega), ?_, rfl, rfl, rfl, rfl, hw 20 (by omega), ?_⟩
      · dsimp only
        rw [hw 19 (by omega)]
      · intro k hk
        exact hw (k + 2) (by omega)

/-- The inode of a sector for which the cache holds nothing else than the disk, opened
after a `reads` step, is the one opened before. -/
theorem opened_inode_reads (loaded : Nat → Prop) (s sa : fs) (sec : Nat)
    (hr : reads loaded s sa) (hsync : synced s sec) :
    same_inode (opened_inode sa sec) (opened_inode s sec) := by
  cases hop : inode_open sec s with
  | some r =>
    obtain ⟨c, so⟩ := r
    obtain ⟨sb, hopa, hsame, _⟩ := inode_open_reads loaded s sa so sec c hr hsync hop
    unfold opened_inode
    rw [hop, hopa]
    exact hsame
  | none =>
    have hnone : inode_open sec sa = none := by
      cases hopa : inode_open sec sa with
      | none => rfl
      | some r =>
        exfalso
        have h1 := (inode_open_isSome sa sec).mp (by rw [hopa]; rfl)
        rw [hr.2.2.2.1, hr.2.1, hr.1] at h1
        have h2 := (inode_open_isSome s sec).mpr h1
        rw [hop] at h2
        exact absurd h2 (by simp)
    unfold opened_inode
    rw [hop, hnone]
    exact ⟨rfl, rfl, rfl, rfl, rfl, rfl, rfl, fun _ _ => rfl⟩

/-- The steps of `dir_remove` up to its checks, for a name whose entry `q` leads to a well
laid out directory: the call is what the checks, the write and the final `inode_close`
make of the state `t` reached, in which both directories are as before. -/
theorem dir_remove_steps (s so : fs) (d : dir) (name : List Nat) (q c : Nat)
    (hi : cache_inv s) (hd : cache_distinct s) (ho : open_ok s)
    (hdo : d.inode ∈ s.open_inodes)
    (hok : file_ok s (s.inodes d.inode))
    (hfind : find_slot (entry_matches s (s.inodes d.inode) name) 0
      (slot_count (s.inodes d.inode)) = some q)
    (hop : inode_open (entry_inode_sector (entry_at s (s.inodes d.inode) q)) s = some (c, so))
    (hsync : synced s (entry_inode_sector (entry_at s (s.inodes d.inode) q)))
    (hdir : (so.inodes c).isFile = false)
    (hchild : file_ok s (so.inodes c)) :
    ∃ e1 t,
      (∀ j, j < sizeof_dir_entry → e1 j = entry_at s (s.inodes d.inode) q j) ∧
      dir_remove d name s =
        ((if (find_slot (fun k => entry_in_use (entry_at s (so.inodes c) k)) 0
              (slot_count (so.inodes c))).isSome = true then some (false, t)
          else if (!inode_is_file t c && decide (inode_open_cnt t c > 1)) = true then
            some (false, t)
          else
            (inode_write_at d.inode (set_in_use e1 false) sizeof_dir_entry
              (sizeof_dir_entry * q) t).map fun w =>
                if w.1 ≠ sizeof_dir_entry then (false, w.2)
                else (true, inode_remove c w.2)).bind
          fun r => (inode_close c r.2).map fun s1 => (r.1, s1)) ∧
      cache_inv t ∧ cache_distinct t ∧
      same_inode (t.inodes c) (so.inodes c) ∧
      (∀ j, j < s.ninodes → ∃ cnt, t.inodes j = { s.inodes j with open_cnt := cnt }) ∧
      file_ok t (t.inodes d.inode) ∧ file_ok t (t.inodes c) ∧
      (∀ p, p < owned_count (bytes_to_sectors (s.inodes d.inode).length) →
        owned_sector t (t.inodes d.inode) p = owned_sector s (s.inodes d.inode) p) ∧
      (∀ p, p < owned_count (bytes_to_sectors (so.inodes c).length) →
        owned_sector t (t.inodes c) p = owned_sector s (so.inodes c) p) ∧
      (∀ pos, pos < (s.inodes d.inode).length →
        file_byte t (t.inodes d.inode) pos = file_byte s (s.inodes d.inode) pos) ∧
      t.free_map = s.free_map ∧ t.junk = s.junk ∧ s.ninodes ≤ t.ninodes ∧
      ((c ∈ s.open_inodes ∧ (so.inodes c).open_cnt = (s.inodes c).open_cnt + 1 ∧
          t.open_inodes = s.open_inodes) ∨
        (c = s.ninodes ∧ (so.inodes c).open_cnt = 1 ∧ (so.inodes c).removed = false ∧
          entry_inode_sector (entry_at s (s.inodes d.inode) q) < s.free_map.bit_cnt ∧
          t.open_inodes = c :: s.open_inodes)) := by
  have hS : sizeof_dir_entry = 20 := rfl
  have hD : DISK_SECTOR_SIZE = 512 := rfl
  obtain ⟨res, sa, hl, hra, hmatch⟩ := lookup_spec s d name hok hi hd
  rw [hfind] at hmatch
  obtain ⟨e1, hres, hbytes⟩ := hmatch
  have hcsec := (entry_fields_congr _ _ hbytes).2.1
  obtain ⟨sb, hopA, hsameb, hopenb⟩ := inode_open_reads _ s sa so _ c hra hsync hop
  obtain ⟨hoka, hsamea, hviewa⟩ := file_ok_reads _ s sa _ hok hra
  obtain ⟨hokca, hsameca, hviewca⟩ := file_ok_reads _ s sa _ hchild hra
  have hia := hra.2.2.2.2.2.2.1
  have hda := hra.2.2.2.2.2.2.2.1
  obtain ⟨o1, o2, o3, o4, o5, o6, o7, o8, o9, o10, o11⟩ := inode_open_frame sa sb _ c
    (by rw [hra.2.2.2.1, hra.2.2.1]; exact ho.1) hopA
  have hdn : d.inode < s.ninodes := ho.1 _ hdo
  obtain ⟨cntb, hinob⟩ := o7 d.inode (by rw [hra.2.2.1]; exact hdn)
  rw [hra.2.1] at hinob
  obtain ⟨hokb, hsameb1, hviewb⟩ := file_ok_frame sa sb (s.inodes d.inode)
    (sb.inodes d.inode) hoka o1 (by rw [o5]) (by rw [hinob]) (fun _ _ => by rw [hinob])
    (fun _ _ _ _ => by rw [o6])
  obtain ⟨hokcb, hsamecb, hviewcb⟩ := file_ok_frame sa sb (so.inodes c)
    (sb.inodes c) hokca o1 (by rw [o5]) (by rw [hsameb.1]) hsameb.2.2.2.2.2.2.2
    (fun _ _ _ _ => by rw [o6])
  have hib := cache_inv_frame sa sb hia o1 o2 o3 (by rw [o5])
  have hdb := cache_distinct_frame sa sb hda o1
  have hlenb : (sb.inodes d.inode).length = (s.inodes d.inode).length := by rw [hinob]
  obtain ⟨t, hempty, hrt⟩ := is_empty_loop_spec (sb.inodes c)
    (inode_length sb c / sizeof_dir_entry + 1) 0 c sb.junk sb rfl
    (by unfold slot_count inode_length; exact Nat.lt_succ_of_le (Nat.sub_le _ _))
    hokcb hib hdb
  have hnc : slot_count (sb.inodes c) = slot_count (so.inodes c) := by
    unfold slot_count; rw [hsameb.1]
  have hfindc : find_slot (fun k => entry_in_use (entry_at sb (sb.inodes c) k)) 0
      (slot_count (sb.inodes c))
      = find_slot (fun k => entry_in_use (entry_at s (so.inodes c) k)) 0
        (slot_count (so.inodes c)) := by
    rw [hnc]
    apply find_slot_congr
    intro k _ hk
    show entry_in_use (entry_at sb (sb.inodes c) k) = entry_in_use (entry_at s (so.inodes c) k)
    refine (entry_fields_congr (entry_at sb (sb.inodes c) k) (entry_at s (so.inodes c) k) ?_).1
    intro j hj
    have hpos := slot_pos_lt _ k j _ rfl hk hj
    show file_byte sb (sb.inodes c) _ = file_byte s (so.inodes c) _
    rw [hviewcb _ (by unfold bytes_to_sectors; rw [hD]; omega), hviewca _ hpos]
  rw [hfindc, Nat.mul_zero] at hempty
  obtain ⟨hokt, hsamet, hviewt⟩ := file_ok_reads _ sb t _ hokb hrt
  obtain ⟨hokct, hsamect, _⟩ := file_ok_reads _ sb t _ hokcb hrt
  have hinot : t.inodes = sb.inodes := hrt.2.1
  refine ⟨e1, t, hbytes, ?_, hrt.2.2.2.2.2.2.1, hrt.2.2.2.2.2.2.2.1, by rw [hinot]; exact hsameb,
    ?_, by rw [hinot]; exact hokt, by rw [hinot]; exact hokct, ?_, ?_, ?_,
    by rw [hrt.1, o5, hra.1], by rw [hrt.2.2.2.2.1, o4, hra.2.2.2.2.1],
    by rw [hrt.2.2.1, ← hra.2.2.1]; exact o9, ?_⟩
  · unfold dir_remove
    rw [hl, hres]
    simp only [Option.some_bind]
    rw [hcsec, hopA]
    simp only [Option.some_bind]
    unfold dir_remove_entry
    have hfile : inode_is_file sb c = false := by
      unfold inode_is_file
      rw [hsameb.2.1, hdir]
    rw [hfile]
    simp only [Bool.not_false, if_true]
    unfold dir_is_empty
    rw [hempty]
    simp only [Option.map_some', Option.some_bind]
    cases find_slot (fun k => entry_in_use (entry_at s (so.inodes c) k)) 0
        (slot_count (so.inodes c)) with
    | none => rfl
    | some k => rfl
  · intro j hj
    rw [hinot]
    obtain ⟨cnt, hcnt⟩ := o7 j (by rw [hra.2.2.1]; exact hj)
    rw [hra.2.1] at hcnt
    exact ⟨cnt, hcnt⟩
  · intro p hp
    rw [hinot, hsamet p (by rw [hlenb]; exact hp), hsameb1 p hp, hsamea p hp]
  · intro p hp
    rw [hinot, hsamect p (by rw [hsameb.1]; exact hp), hsamecb p hp, hsameca p hp]
  · intro pos hpos
    rw [hinot, hviewt pos (by rw [hlenb]; exact hpos),
      hviewb pos (by unfold bytes_to_sectors; rw [hD]; omega), hviewa pos hpos]
  · rcases inode_open_cases s _ _ hop with ⟨j, hj, _, hr1⟩ | ⟨_, hlt, hr1⟩
    · left
      simp only [Prod.mk.injEq] at hr1
      obtain ⟨h1, h2⟩ := hr1
      rw [hrt.2.2.2.1, hopenb, h2, h1]
      refine ⟨hj, ?_, rfl⟩
      unfold inode_reopen
      dsimp only
      rw [upd_same]
    · right
      simp only [Prod.mk.injEq] at hr1
      obtain ⟨h1, h2⟩ := hr1
      refine ⟨h1, ?_, ?_, hlt, ?_⟩
      · rw [h2, h1]
        dsimp only
        rw [upd_same]
      · rw [h2, h1]
        dsimp only
        rw [upd_same]
      · rw [hrt.2.2.2.1, hopenb, h2, h1]

/-- A call of `inode_close` that does not release the sectors of the inode. -/
theorem inode_close_kept (s : fs) (i : Nat)
    (h : (s.inodes i).open_cnt - 1 ≠ 0 ∨
      ((s.inodes i).removed = false ∧ (s.inodes i).sector < s.free_map.bit_cnt)) :
    ∃ s1, inode_close i s = some s1 ∧ s1.free_map = s.free_map ∧
      s1.buffer_cache = s.buffer_cache ∧ s1.buffer_cache_size = s.buffer_cache_size ∧
      s1.ticks = s.ticks ∧ s1.junk = s.junk ∧
      (∀ x, x ≠ (s.inodes i).sector → s1.disk x = s.disk x) ∧
      s1.inodes = upd s.inodes i
        { s.inodes i with open_cnt := (s.inodes i).open_cnt - 1 } ∧
      s1.open_inodes = if (s.inodes i).open_cnt - 1 = 0 then s.open_inodes.erase i
        else s.open_inodes := by
  unfold inode_close
  dsimp only
  by_cases hz : (s.inodes i).open_cnt - 1 = 0
  · rw [if_pos hz]
    rcases h with h | ⟨h1, h2⟩
    · exact absurd hz h
    rw [h1]
    simp only [Bool.false_eq_true, if_false]
    unfold disk_write
    dsimp only
    rw [if_pos h2]
    refine ⟨_, rfl, rfl, rfl, rfl, rfl, rfl, ?_, rfl, by rw [if_pos hz]⟩
    intro x hx
    dsimp only
    rw [upd_other _ _ _ _ hx]
  · rw [if_neg hz]
    exact ⟨_, rfl, rfl, rfl, rfl, rfl, rfl, fun _ _ => rfl, rfl, by rw [if_neg hz]⟩

/-- C17: a write followed by a read of the same range does not always return the bytes
written.  On a fresh file system the scenario of the claim holds: an empty file takes 6000
bytes at offset 0, its length becomes 6000, and 500 bytes read at offset 5500 are the bytes
5500 to 5999 of the buffer.  But when an earlier file has been written through the cache and
removed (sectors 0, 1 and its index sector 15 stay in use, the cache holds 64 entries, the
first one dirty for the freed sector 16), a new empty file that takes 14 sectors at offset 0
gets sector 16 as its index block `blocks[12]`; the first cache miss of the write evicts the
dirty entry for sector 16 and writes its old payload over the index block, so blocks 2, 12
and 13 of the file all map to sector 5.  The write returns 7168, the length is 7168 and the
read returns 7168, yet block 2 and block 12 read back the bytes of block 13. -/
theorem write_read_misses_evicted_index :
    grow_file = some
      { written := 6000, length := 6000, bytes_read := 500
        data := (List.range 500).map fun k => (5500 + k) % 251 } ∧
    evicted_index = some
      { used_after_remove := [0, 1, 15], cache_size := 64
        first_entry_sector := some 16, first_entry_dirty := some true
        index_sector := 16, written := 7168, length := 7168
        index_entries := [5, 5]
        sectors := [some 3, some 4, some 5, some 6, some 7, some 8, some 9, some 10, some 11,
          some 12, some 13, some 14, some 5, some 5]
        bytes_read := 7168
        data := [0, 1, 13, 3, 4, 5, 6, 7, 8, 9, 10, 11, 13, 13] } ∧
    (List.range 14).map (fun i => block_numbers (512 * i))
      = [0, 1, 2, 3, 4, 5, 6, 7, 8, 9, 10, 11, 12, 13] := by
  refine ⟨by decide!, by decide!, by decide!⟩

/-- C18: `inode_create` and `inode_write_at` do not make a new file read as zeros when the
cache still holds an entry for a sector that an earlier removal freed.  After a file whose
data sector 3 was written with 0xAA through the cache has been removed and closed (sectors
0 and 1 stay in use), a new file of 512 bytes gets sector 3 again; `inode_expand` writes the
zeros to the disk, and reading the 512 bytes through the cache returns 0xAA for every byte.
Likewise, when an empty new file is extended by a write of one byte 0x55 at offset 100, the
bytes 0 to 99 below the write offset read as 0xAA. -/
theorem zero_fill_misses_cached_sector :
    stale_cache 512 0 0 0 = some
      { first_sector := 3, used_after_remove := [0, 1], second_sector := 3
        on_disk := List.replicate 512 0, bytes_read := 512
        data := List.replicate 512 0xAA } ∧
    (stale_cache 0 1 100 0x55).map (fun r => (r.second_sector, r.bytes_read, r.data))
      = some (3, 101, List.replicate 100 0xAA ++ [0x55] ++ List.replicate 411 7) := by
  constructor <;> decide!

/-- C19: the final close of a removed inode does not release the index sectors.  A file of
13 sectors created on a fresh file system (sectors 0 and 1 in use) takes sectors 2 to 16:
the inode, twelve direct data sectors, the index block `blocks[12]` at sector 15 and one
more data sector.  After `inode_remove` and the last `inode_close` sector 15 is still marked
in use.  For a file of 141 sectors the sectors left in use are 15 (`blocks[12]`), 144
(`blocks[13]`) and 145 (the second-level index block).  A file of 12 sectors, which has no
index block, is released completely. -/
theorem close_leaks_index_sectors :
    create_remove 20 (13 * 512) = some
      { used_before := [0, 1], used_created := List.range 17, used_after := [0, 1, 15] } ∧
    create_remove 20 (12 * 512) = some
      { used_before := [0, 1], used_created := List.range 15, used_after := [0, 1] } ∧
    (create_remove 150 (141 * 512)).map (fun r => r.used_after)
      = some [0, 1, 15, 144, 145] := by
  set_option maxHeartbeats 4000000 in
  decide!

/-- C20: a failed expansion leaves the cursors ahead of the length.  On a disk of 8 sectors
with 5 free, a write of 4000 bytes (8 sectors) to an empty file returns 0 and leaves the
length 0, but the cursor `direct` is 5 and the five sectors stay allocated.  On a disk of 17
sectors a write of 15 sectors fails after 12 direct sectors, the index sector and one
indirect data sector: `indirect` is 1 while entry 0 of the index block on the disk was never
written (it reads 0, the sector of the free map inode). -/
theorem failed_expand_keeps_cursors :
    failed_growth 8 4000 = some
      { written := 0, length := 0, direct := 5, indirect := 0
        used_before := [0, 1, 2], used_after := List.range 8, index_entry := 0 } ∧
    failed_growth 17 (15 * 512) = some
      { written := 0, length := 0, direct := 12, indirect := 1
        used_before := [0, 1, 2], used_after := List.range 17, index_entry := 0 } := by
  refine ⟨by decide!, by decide!⟩

/-- C21: the open-inode list holds at most one in-memory inode for a sector.  In a state
where this holds (and the listed inodes are ones `malloc` has handed out), `inode_open` of
the sector of an open inode returns that inode and the state `inode_reopen` gives, which
differs only in `open_cnt`, one higher, so the disk is not read; `inode_open` of any
sector returns an inode of the list with that sector and keeps the property (and it
returns when the sector is on the disk); `inode_close` keeps the property, lowers
`open_cnt` by one, and the inode stays in the list exactly when the new count is not 0
(and it returns when other openers remain or the inode is not removed and its sector is on
the disk). -/
theorem open_inodes_one_per_sector (s : fs) (h : open_ok s) :
    (∀ i ∈ s.open_inodes,
      inode_open (s.inodes i).sector s = some (i, inode_reopen i s) ∧
      ((inode_reopen i s).inodes i).open_cnt = (s.inodes i).open_cnt + 1 ∧
      (inode_reopen i s).disk = s.disk ∧ (inode_reopen i s).open_inodes = s.open_inodes) ∧
    (∀ sector r, inode_open sector s = some r →
      open_ok r.2 ∧ (r.2.inodes r.1).sector = sector ∧ r.1 ∈ r.2.open_inodes) ∧
    (∀ sector, sector < s.free_map.bit_cnt → ∃ r, inode_open sector s = some r) ∧
    (∀ i ∈ s.open_inodes, ∀ s1, inode_close i s = some s1 →
      open_ok s1 ∧ (s1.inodes i).open_cnt = (s.inodes i).open_cnt - 1 ∧
      (i ∈ s1.open_inodes ↔ (s.inodes i).open_cnt - 1 ≠ 0)) ∧
    (∀ i ∈ s.open_inodes,
      (s.inodes i).open_cnt - 1 ≠ 0 ∨
        ((s.inodes i).removed = false ∧ (s.inodes i).sector < s.free_map.bit_cnt) →
      ∃ s1, inode_close i s = some s1) := by
  refine ⟨?_, ?_, ?_, ?_, ?_⟩
  · intro i hi
    refine ⟨inode_open_found s h i hi, ?_, rfl, rfl⟩
    unfold inode_reopen
    dsimp only
    rw [upd_same]
  · intro sector r hr
    exact inode_open_ok s h sector r hr
  · intro sector hs
    exact inode_open_some s sector hs
  · intro i hi s1 hc
    obtain ⟨h1, h2, h3⟩ := inode_close_ok s s1 h i hc
    exact ⟨h1, h2, h3 hi⟩
  · intro i _ hc
    exact inode_close_some s i hc

theorem open_inodes_one_per_sector_witness :
    open_ok open_example ∧ open_example.open_inodes = [0] ∧
    inode_open (open_example.inodes 0).sector open_example
      = some (0, inode_reopen 0 open_example) ∧
    ((inode_reopen 0 open_example).inodes 0).open_cnt = 2 :=
  have h := ((open_inodes_one_per_sector open_example (by decide!)).1 0 (by decide!))
  ⟨by decide!, by decide!, h.1, by decide!⟩

/-- C25: `dir_readdir` enumerates the entries in use.  For a directory at position 0 whose
file is well laid out (`file_ok`, with the cache invariants), `m` calls of `dir_readdir` in
a row all return, and their results are the names of the entries in use, each once and in
the order of the entries, followed by "false" for every further call; an entry that is not
in use is never returned. -/
theorem readdir_enumerates (s : fs) (d : dir) (m : Nat) (hpos : d.pos = 0)
    (hok : file_ok s (s.inodes d.inode)) (hi : cache_inv s) (hd : cache_distinct s) :
    ∃ d1 s1, enumerate m d s
      = some (((dir_names s (s.inodes d.inode) 0).map some ++ List.replicate m none).take m,
          d1, s1) :=
  enumerate_spec (s.inodes d.inode) m 0 d s rfl (by rw [hpos]; rfl) hok hi hd

theorem readdir_enumerates_witness :
    root_dir.pos = 0 ∧ file_ok root_fs (root_fs.inodes root_dir.inode) ∧
    dir_names root_fs (root_fs.inodes root_dir.inode) 0 = [chars "a", chars "b", chars "c"] ∧
    ∃ d1 s1, enumerate 5 root_dir root_fs
      = some (((dir_names root_fs (root_fs.inodes root_dir.inode) 0).map some
          ++ List.replicate 5 none).take 5, d1, s1) :=
  have h : root_dir.pos = 0 ∧ file_ok root_fs (root_fs.inodes root_dir.inode) ∧
      dir_names root_fs (root_fs.inodes root_dir.inode) 0 = [chars "a", chars "b", chars "c"] ∧
      cache_inv root_fs ∧ cache_distinct root_fs := by decide!
  ⟨h.1, h.2.1, h.2.2.1, readdir_enumerates root_fs root_dir 5 h.1 h.2.1 h.2.2.2.1 h.2.2.2.2⟩

/-- C26: `dir_from_path` does not resolve ".." as a non-final component.  With the current
directory `/a` (inode sector 3, parent sector 1, the root), "../x" and "/a/../b" give
`NULL`: after `dir_get_parent` has opened the parent, the code goes on to `dir_lookup` for
the name "..", which no directory holds.  The paths "x" and "/a/./b" resolve to `/a`, and
"/b/x" to `/b` (inode sector 4). -/
theorem dotdot_component_fails :
    current_example = some (some (3, 1)) ∧
    resolve "../x" = some none ∧
    resolve "/a/../b" = some none ∧
    resolve "x" = some (some 3) ∧
    resolve "/a/./b" = some (some 3) ∧
    resolve "/b/x" = some (some 4) := by
  decide!

/-- C27: `dir_from_path` skips a non-final component that names a regular file.  In
`tree_example`, where `/f` is a regular file, "/f/x" resolves to the root directory (inode
sector 1) and "/f/a/x" to `/a` (inode sector 3): the file's inode is closed and the walk
continues in the same directory.  A component that does not exist gives `NULL` ("/g/x"). -/
theorem file_component_is_skipped :
    resolve "/f/x" = some (some 1) ∧
    resolve "/f/a/x" = some (some 3) ∧
    resolve "/g/x" = some none ∧
    resolve "/a/x" = some (some 3) := by
  decide!

/-- C28: `cache_fetch_sector` on a full cache replaces a least recently used entry.  For a
cache as `cache_get_sector` and `cache_fetch_sector` keep it (`cache_inv`) and a sector of
the disk: when the cache holds 64 entries, the entry replaced has the least `access_time`
of all entries, its payload is written to its sector if it is dirty, and it becomes the
entry of the sector fetched, with `dirty = set_dirty`, the time of the call and the bytes
of the sector on the disk after the write; in every case `cache_fetch_sector` returns and
`cache_inv` holds again, so the cache has at most 64 entries and `buffer_cache_size` is
their number; `cache_get_sector` keeps `cache_inv`, and `buffer_cache_init` sets it up. -/
theorem fetch_replaces_least_recent (s : fs) (sector_num : Nat) (set_dirty : Bool)
    (h : cache_inv s) (hs : sector_num < s.free_map.bit_cnt) :
    (s.buffer_cache.length = 64 →
      ∃ i victim pre post, s.buffer_cache = pre ++ victim :: post ∧ pre.length = i ∧
        (∀ e ∈ s.buffer_cache, victim.access_time ≤ e.access_time) ∧
        cache_fetch_sector sector_num set_dirty s = some (i,
          { s with
            disk := if victim.dirty then
                upd s.disk victim.sector_num fun j =>
                  if j < DISK_SECTOR_SIZE then victim.payload j else s.disk victim.sector_num j
              else s.disk
            buffer_cache := pre ++
              { accessed := true, dirty := set_dirty, access_time := s.ticks
                sector_num := sector_num
                payload := (if victim.dirty then
                    upd s.disk victim.sector_num fun j =>
                      if j < DISK_SECTOR_SIZE then victim.payload j
                      else s.disk victim.sector_num j
                  else s.disk) sector_num } :: post })) ∧
    (∃ r, cache_fetch_sector sector_num set_dirty s = some r ∧ cache_inv r.2 ∧
      r.2.buffer_cache.length ≤ 64 ∧ r.2.buffer_cache_size = r.2.buffer_cache.length) ∧
    cache_inv (cache_get_sector sector_num set_dirty s).2 ∧
    cache_inv (buffer_cache_init s) := by
  refine ⟨fun hfull => cache_fetch_full s sector_num set_dirty h hs hfull, ?_,
    cache_get_inv s sector_num set_dirty h, ?_⟩
  · obtain ⟨r, h1, h2⟩ := cache_fetch_inv s sector_num set_dirty h hs
    exact ⟨r, h1, h2, h2.2.1, h2.1⟩
  · exact ⟨rfl, by simp [buffer_cache_init], h.2.2.1, by simp [buffer_cache_init]⟩

theorem fetch_replaces_least_recent_witness :
    cache_inv full_cache_example ∧ full_cache_example.buffer_cache.length = 64 ∧
    ∃ r, cache_fetch_sector 3 false full_cache_example = some r ∧ cache_inv r.2 ∧
      r.2.buffer_cache.length ≤ 64 ∧ r.2.buffer_cache_size = r.2.buffer_cache.length :=
  have h : cache_inv full_cache_example ∧ full_cache_example.buffer_cache.length = 64 ∧
      3 < full_cache_example.free_map.bit_cnt := by decide!
  ⟨h.1, h.2.1, (fetch_replaces_least_recent full_cache_example 3 false h.1 h.2.2).2.1⟩

/-- C29: `free_cache` writes the dirty entries back and empties the cache.  When no two
entries hold the same sector and every entry holds a sector of the disk, `free_cache`
returns; afterwards the cache has no entry, the disk holds the payload of every entry that
was dirty in the entry's sector, and every sector all of whose entries were clean (or that
had no entry) holds what it held before. -/
theorem free_cache_writes_back (s : fs) (hd : cache_distinct s)
    (hr : ∀ e ∈ s.buffer_cache, e.sector_num < s.free_map.bit_cnt) :
    ∃ s1, free_cache s = some s1 ∧ s1.buffer_cache = [] ∧
      (∀ e ∈ s.buffer_cache, e.dirty = true →
        ∀ j, j < DISK_SECTOR_SIZE → s1.disk e.sector_num j = e.payload j) ∧
      (∀ x, (∀ e ∈ s.buffer_cache, e.sector_num = x → e.dirty = false) →
        s1.disk x = s.disk x) := by
  obtain ⟨t, h1, h2, _, h4, h5⟩ := free_fold_spec s.buffer_cache { s with buffer_cache := [] }
    hd hr
  exact ⟨t, h1, h2, h4, h5⟩

theorem free_cache_writes_back_witness :
    cache_distinct dirty_cache_example ∧
    (dirty_cache_example.buffer_cache.map fun e => (e.sector_num, e.dirty))
      = [(3, true), (4, true)] ∧
    ∃ s1, free_cache dirty_cache_example = some s1 ∧ s1.buffer_cache = [] ∧
      (∀ e ∈ dirty_cache_example.buffer_cache, e.dirty = true →
        ∀ j, j < DISK_SECTOR_SIZE → s1.disk e.sector_num j = e.payload j) ∧
      (∀ x, (∀ e ∈ dirty_cache_example.buffer_cache, e.sector_num = x → e.dirty = false) →
        s1.disk x = dirty_cache_example.disk x) :=
  ⟨by decide!, by decide!,
    free_cache_writes_back dirty_cache_example (by decide!) (by decide!)⟩

/-- C30, as stated, fails: `SYS_READ` on descriptor 5, which has no open-file entry, stores
0 in `eax`, not -1 (4294967295); so does `SYS_READ` on the directory at descriptor 3 and
`SYS_WRITE` on descriptor 5. -/
theorem read_bad_fd_stores_zero :
    syscall_handler environment_example open_files_example 0 (stack_example 5) call.SYS_READ
      = some 0 ∧
    syscall_handler environment_example open_files_example 0 (stack_example 3) call.SYS_READ
      = some 0 ∧
    syscall_handler environment_example open_files_example 0 (stack_example 5) call.SYS_WRITE
      = some 0 ∧
    syscall_handler environment_example open_files_example 0 (stack_example 5) call.SYS_READ
      ≠ some (to_eax (-1)) ∧
    fd_missing open_files_example 5 ∧ fd_directory open_files_example 3 := by
  refine ⟨by decide, by decide, by decide, by decide, Or.inr rfl,
    by decide, ⟨_, rfl, rfl⟩⟩

/-- C30, amended: when the addresses are accepted and the descriptor is missing or denotes
a directory, `SYS_TELL` stores -1 and `SYS_FILESIZE` stores 0; `SYS_READ` (descriptor other
than 0) stores 0; `SYS_WRITE` (descriptor other than 1) stores 0 for a missing descriptor
and -1 for a directory. -/
theorem bad_fd_results (env : environment) (open_files : Nat → Option open_file) (esp : Int)
    (sys_stack : Nat → Int)
    (hesp : env.valid esp = true) (h1 : env.valid (esp + 4) = true)
    (h3 : env.valid (esp + 12) = true) (hbuf : env.valid (sys_stack 2) = true)
    (hfd : fd_missing open_files (sys_stack 1) ∨ fd_directory open_files (sys_stack 1)) :
    syscall_handler env open_files esp sys_stack call.SYS_TELL = some 4294967295 ∧
    syscall_handler env open_files esp sys_stack call.SYS_FILESIZE = some 0 ∧
    (sys_stack 1 ≠ 0 → syscall_handler env open_files esp sys_stack call.SYS_READ = some 0) ∧
    (sys_stack 1 ≠ 1 → fd_missing open_files (sys_stack 1) →
      syscall_handler env open_files esp sys_stack call.SYS_WRITE = some 0) ∧
    (fd_directory open_files (sys_stack 1) →
      syscall_handler env open_files esp sys_stack call.SYS_WRITE = some 4294967295) := by
  have hm : to_eax (-1) = 4294967295 := by decide
  have key : in_range (sys_stack 1) = false ∨ open_files (sys_stack 1).toNat = none ∨
      ∃ file, in_range (sys_stack 1) = true ∧ open_files (sys_stack 1).toNat = some file ∧
        file.isFile = false := by
    rcases hfd with h | ⟨h, file, hf, hd⟩
    · rcases h with h | h
      · exact Or.inl h
      · exact Or.inr (Or.inl h)
    · exact Or.inr (Or.inr ⟨file, h, hf, hd⟩)
  unfold syscall_handler
  simp only [hesp, h1, h3, hbuf, Bool.not_true, Bool.false_eq_true, if_false, hm]
  refine ⟨?_, ?_, ?_, ?_, ?_⟩
  · rcases key with h | h | ⟨file, h, hf, hd⟩
    · simp [h]
    · simp [h]
    · simp [h, hf, hd]
  · rcases key with h | h | ⟨file, h, hf, hd⟩
    · simp [h]
    · simp [h]
    · simp [h, hf, hd]
  · intro h0
    rcases key with h | h | ⟨file, h, hf, hd⟩
    · simp [h, h0]
    · simp [h, h0]
    · simp [h, hf, hd, h0]
  · intro h0 hmiss
    rcases hmiss with h | h
    · simp [h, h0]
    · simp [h, h0]
  · rintro ⟨h, file, hf, hd⟩
    have h0 : sys_stack 1 ≠ 1 := by
      intro h1
      rw [h1] at h
      exact absurd h (by decide)
    simp [h, hf, hd, h0]

theorem bad_fd_results_witness :
    syscall_handler environment_example open_files_example 0 (stack_example 3) call.SYS_TELL
      = some 4294967295 ∧
    syscall_handler environment_example open_files_example 0 (stack_example 3)
      call.SYS_FILESIZE = some 0 ∧
    syscall_handler environment_example open_files_example 0 (stack_example 3) call.SYS_WRITE
      = some 4294967295 :=
  have h := bad_fd_results environment_example open_files_example 0 (stack_example 3)
    rfl rfl rfl rfl (Or.inr ⟨by decide, ⟨_, rfl, rfl⟩⟩)
  ⟨h.1, h.2.1, h.2.2.2.2 ⟨by decide, ⟨_, rfl, rfl⟩⟩⟩

/-- C35: the sector look-up of `byte_to_sector`.  For every inode, every offset `pos` and
every state of the disk, `byte_to_sector` returns the sector the claim names: with
`idx = pos / 512`, `blocks[idx]` for `idx < 12`, entry `idx - 12` of the index block stored
at `blocks[12]` for `12 <= idx < 140`, entry `(idx - 140) mod 128` of the index block named
by entry `(idx - 140) / 128` of the block stored at `blocks[13]` for `140 <= idx < 16524`,
and -1 for `idx >= 16524` and for `pos >= length`.  It returns whenever the index blocks it
reads lie on the disk, and panics in `disk_read` otherwise. -/
theorem byte_to_sector_mapping (ino : inode) (pos : Nat) (s : fs) :
    byte_to_sector ino pos s
      = if index_on_disk ino pos s then some (claimed_sector ino pos s) else none := by
  have hD : DISK_SECTOR_SIZE = 512 := rfl
  have hB : DIRECT_BLOCKS = 12 := rfl
  have hN : NUM_DIRECT_PTRS = 128 := rfl
  unfold byte_to_sector claimed_sector index_on_disk
  rw [hD, hB, hN]
  by_cases hlen : pos < ino.length
  · rw [if_pos hlen, if_pos hlen]
    dsimp only
    by_cases h12 : pos / 512 < 12
    · rw [if_pos h12, if_pos h12, if_pos]
      intro _
      exact ⟨fun h => by omega, fun h => by omega⟩
    · rw [if_neg h12, if_neg h12]
      by_cases h140 : pos / 512 < 140
      · rw [if_pos (by omega : pos / 512 - 12 < 128), if_pos h140]
        unfold disk_read
        by_cases hon : ino.blocks 12 < s.free_map.bit_cnt
        · rw [if_pos hon, if_pos]
          · rfl
          · intro _
            exact ⟨fun _ _ => hon, fun h => by omega⟩
        · rw [if_neg hon, if_neg]
          · rfl
          · intro hc
            exact hon ((hc hlen).1 (by omega) h140)
      · rw [if_neg (by omega : ¬ pos / 512 - 12 < 128), if_neg h140]
        by_cases hmax : pos / 512 < 16524
        · rw [if_pos (by omega : pos / 512 - 12 - 128 < 128 * 128), if_pos hmax]
          have e : pos / 512 - 12 - 128 = pos / 512 - 140 := by omega
          rw [e]
          unfold disk_read
          by_cases hon : ino.blocks 13 < s.free_map.bit_cnt
          · rw [if_pos hon]
            dsimp only [Option.bind]
            by_cases hon2 : words_of (s.disk (ino.blocks 13)) ((pos / 512 - 140) / 128)
                < s.free_map.bit_cnt
            · rw [if_pos hon2, if_pos]
              · rfl
              · intro _
                exact ⟨fun _ h => by omega, fun _ _ => ⟨hon, hon2⟩⟩
            · rw [if_neg hon2, if_neg]
              · rfl
              · intro hc
                exact hon2 ((hc hlen).2 (by omega) hmax).2
          · rw [if_neg hon, if_neg]
            · rfl
            · intro hc
              exact hon ((hc hlen).2 (by omega) hmax).1
        · rw [if_neg (by omega : ¬ pos / 512 - 12 - 128 < 128 * 128), if_neg hmax, if_pos]
          intro _
          exact ⟨fun _ h => by omega, fun _ h => by omega⟩
  · rw [if_neg hlen, if_neg hlen, if_pos]
    intro h
    exact absurd h hlen

/-- C40 (evaluation at the failing input). In a file system that holds the file `a`
(sectors 0 to 5 in use), `filesys_create` of the name `a` with 1000 bytes returns false,
and afterwards the sectors 7 and 8 are in use as well: `free_map_allocate` gave the inode
sector 6, `inode_create` allocated the data sectors 7 and 8, `dir_add` refused the name, and
`free_map_release (inode_sector, 1)` released sector 6 only.  With an initial size of 0, and
for the name "..", which is refused before anything is allocated, the free map is as
before. -/
theorem failed_create_keeps_data_sectors :
    create_again "a" 1000 = some (false, [0, 1, 2, 3, 4, 5], [0, 1, 2, 3, 4, 5, 7, 8]) ∧
    create_again "a" 0 = some (false, [0, 1, 2, 3, 4, 5], [0, 1, 2, 3, 4, 5]) ∧
    create_again ".." 1000 = some (false, [0, 1, 2, 3, 4, 5], [0, 1, 2, 3, 4, 5]) := by
  decide!

end FS
